import Mathlib

/-!
# xbot: matching and dispatch engine

A shallow embedding of the Aho-Corasick automaton (`ac_automaton.go`), the
keyword providers (`keyword_provider.go`), the matcher pipeline (`matcher.go`)
and the engine registry and dispatch loop (`engine.go`), followed by the
properties proved about them.

Conventions of the embedding:

* a Go `string` that the code converts with `[]rune(s)` is a `List Rune`;
  `s == ""` is `s = []`;
* a `*ACNode` is an index into a node store (`Heap`); the nil pointer is
  `none`; dereferencing nil, or a loop that runs out of fuel, yields `none`;
* Go leaves the iteration order of `range` over a map unspecified; every
  such loop takes the order from a `RangeOrder`, an arbitrary rearrangement
  of the map's entries chosen per node.
-/

namespace XBot

/-! ## ac_automaton.go -/

/-- A Unicode code point (Go `rune`). -/
abbrev Rune := Nat

/-- The struct `ACNode`: `children map[rune]*ACNode`, `fail *ACNode`,
`output bool`. The map is an association list with distinct keys. -/
structure ACNode where
  children : List (Rune × Nat)
  fail : Option Nat
  output : Bool
deriving DecidableEq, Repr

/-- `NewACNode()`: empty children map, nil failure pointer, `output = false`. -/
def NewACNode : ACNode := ⟨[], none, false⟩

/-- The node store: `cell p` is the node a pointer `p` refers to, `size` the
number of nodes allocated so far (pointers `0 .. size-1` are live). -/
structure Heap where
  cell : Nat → ACNode
  size : Nat

/-- A store holding only a fresh root node, at pointer `0`. -/
def Heap.init : Heap := ⟨fun _ => NewACNode, 1⟩

/-- The statement `node.children[ch] = NewACNode()`: allocates a fresh node and enters it
in the children map of `node`; returns the store and the new pointer. -/
def Heap.addChild (h : Heap) (node : Nat) (ch : Rune) : Heap × Nat :=
  let n := h.size
  let cell1 := Function.update h.cell n NewACNode
  let old := cell1 node
  (⟨Function.update cell1 node { old with children := (ch, n) :: old.children }, n + 1⟩, n)

/-- The statement `node.fail = f`. -/
def Heap.setFail (h : Heap) (node f : Nat) : Heap :=
  ⟨Function.update h.cell node { h.cell node with fail := some f }, h.size⟩

/-- The statement `node.output = true`. -/
def Heap.setOutput (h : Heap) (node : Nat) : Heap :=
  ⟨Function.update h.cell node { h.cell node with output := true }, h.size⟩

/-- The map read `node.children[ch]`. -/
def Heap.child (h : Heap) (node : Nat) (ch : Rune) : Option Nat :=
  (h.cell node).children.lookup ch

/-- The order in which `range` walks the children map of a node: for the
node at pointer `u` with map entries `m`, the loop visits `ord u m`. -/
abbrev RangeOrder := Nat → List (Rune × Nat) → List (Rune × Nat)

/-- A range order is valid when it visits every entry of the map exactly once. -/
def RangeOrder.Valid (ord : RangeOrder) : Prop := ∀ u m, (ord u m).Perm m

/-- The struct `ACMachine`: the automaton (its root is pointer `0` of `heap`) and
`lastVersion`. -/
structure ACMachine where
  heap : Heap
  lastVersion : Int

/-- `NewACMachine()`: a lone root, `lastVersion = -1`. -/
def NewACMachine : ACMachine := ⟨Heap.init, -1⟩

/-- The inner loop of step one of `Build` (lines 51-56): walks the runes of one pattern
down from `node`, creating the missing nodes; returns the store and the node reached. -/
def insertRunes (h : Heap) (node : Nat) : List Rune → Heap × Nat
  | [] => (h, node)
  | ch :: rest =>
    match h.child node ch with
    | some next => insertRunes h next rest
    | none =>
      let r := h.addChild node ch
      insertRunes r.1 r.2 rest

/-- One iteration of the pattern loop of `Build` (lines 46-58): an empty pattern is
skipped, otherwise the pattern is inserted and its last node marked as output. -/
def insertPattern (h : Heap) (pattern : List Rune) : Heap :=
  if pattern = [] then h
  else
    let r := insertRunes h 0 pattern
    r.1.setOutput r.2

/-- Step one of `Build` (lines 43-58): the trie of the patterns under a fresh root. -/
def buildTrie (patterns : List (List Rune)) : Heap :=
  patterns.foldl insertPattern Heap.init

/-- The loop of lines 64-67: every child of the root gets the root as failure pointer
and is appended to the queue. -/
def initQueue (h : Heap) : List (Rune × Nat) → List Nat → Heap × List Nat
  | [], queue => (h, queue)
  | (_, child) :: rest, queue => initQueue (h.setFail child 0) rest (queue ++ [child])

/-- The loop of lines 79-89, started with `failNode`: `some (some f)` when the loop
leaves through a `break` having assigned `child.fail = f`, `some none` when it leaves
because `failNode` became nil (nothing assigned), `none` when the fuel runs out. -/
def findFail : Nat → Heap → Option Nat → Rune → Option (Option Nat)
  | 0, _, _, _ => none
  | _ + 1, _, none, _ => some none
  | fuel + 1, h, some failNode, ch =>
    match h.child failNode ch with
    | some next => some (some next)
    | none =>
      if failNode = 0 then some (some 0)
      else findFail fuel h (h.cell failNode).fail ch

/-- The body of the loop over `current.children` (lines 75-99) for one entry
`(ch, child)`: append to the queue, find and store the failure pointer, inherit
the output flag of the failure node. -/
def processChild (h : Heap) (queue : List Nat) (current : Nat) (ch : Rune) (child : Nat) :
    Option (Heap × List Nat) :=
  let queue1 := queue ++ [child]
  match findFail h.size h (h.cell current).fail ch with
  | none => none
  | some found =>
    let h1 := match found with
      | some f => h.setFail child f
      | none => h
    let h2 := if (h1.cell child).fail = none then h1.setFail child 0 else h1
    match (h2.cell child).fail with
    | none => none
    | some f =>
      let h3 := if (h2.cell f).output then h2.setOutput child else h2
      some (h3, queue1)

/-- The loop `for ch, child := range current.children` (lines 74-100) over the
entries in the order given. -/
def processChildren (current : Nat) : Heap → List Nat → List (Rune × Nat) → Option (Heap × List Nat)
  | h, queue, [] => some (h, queue)
  | h, queue, (ch, child) :: rest =>
    match processChild h queue current ch child with
    | none => none
    | some r => processChildren current r.1 r.2 rest

/-- The breadth-first loop `for len(queue) > 0` (lines 70-101). -/
def bfs (ord : RangeOrder) : Nat → Heap → List Nat → Option Heap
  | _, h, [] => some h
  | 0, _, _ :: _ => none
  | fuel + 1, h, current :: queue =>
    match processChildren current h queue (ord current (h.cell current).children) with
    | none => none
    | some r => bfs ord fuel r.1 r.2

/-- Step two of `Build` (lines 60-101) on the trie `h`. -/
def buildFail (ord : RangeOrder) (h : Heap) : Option Heap :=
  let r := initQueue h (ord 0 (h.cell 0).children) []
  bfs ord r.1.size r.1 r.2

/-- The method `ACMachine.Build`: the previous automaton is dropped, the new one is built
from `patterns`; `lastVersion` is not touched. -/
def ACMachine.Build (ord : RangeOrder) (ac : ACMachine) (patterns : List (List Rune)) :
    Option ACMachine :=
  match buildFail ord (buildTrie patterns) with
  | none => none
  | some h => some { ac with heap := h }

/-- The loop `for node != ac.root && node.children[ch] == nil { node = node.fail }`
(lines 118-120 and 153-155); `none` on a nil dereference or out of fuel. -/
def followFail : Nat → Heap → Nat → Rune → Option Nat
  | 0, _, _, _ => none
  | fuel + 1, h, node, ch =>
    if node ≠ 0 ∧ h.child node ch = none then
      match (h.cell node).fail with
      | none => none
      | some f => followFail fuel h f ch
    else some node

/-- One text rune: follow failure pointers, then take the transition if there is one
(lines 118-125 and 153-160). -/
def acStep (h : Heap) (node : Nat) (ch : Rune) : Option Nat :=
  match followFail h.size h node ch with
  | none => none
  | some n =>
    match h.child n ch with
    | some next => some next
    | none => some n

/-- The scanning loop of `Match` (lines 116-133) from `node` over the remaining text. -/
def matchLoop (h : Heap) : Nat → List Rune → Option Bool
  | _, [] => some false
  | node, ch :: rest =>
    match acStep h node ch with
    | none => none
    | some n => if (h.cell n).output then some true else matchLoop h n rest

/-- The method `ACMachine.Match`. -/
def ACMachine.Match (ac : ACMachine) (text : List Rune) : Option Bool :=
  matchLoop ac.heap 0 text

/-- The loop `for temp != ac.root` (lines 164-170): whether a node with the output flag
is met on the failure chain of `temp` before the root. -/
def chainOutput : Nat → Heap → Nat → Option Bool
  | 0, _, _ => none
  | fuel + 1, h, temp =>
    if temp = 0 then some false
    else if (h.cell temp).output then some true
    else
      match (h.cell temp).fail with
      | none => none
      | some f => chainOutput fuel h f

/-- The scanning loop of `MatchAll` (lines 151-171): `i` is the index of the next rune. -/
def matchAllLoop (h : Heap) : Nat → Nat → List Rune → List Nat → Option (List Nat)
  | _, _, [], hits => some hits
  | node, i, ch :: rest, hits =>
    match acStep h node ch with
    | none => none
    | some n =>
      match chainOutput (h.size + 1) h n with
      | none => none
      | some true => matchAllLoop h n (i + 1) rest (hits ++ [i])
      | some false => matchAllLoop h n (i + 1) rest hits

/-- The method `ACMachine.MatchAll`. -/
def ACMachine.MatchAll (ac : ACMachine) (text : List Rune) : Option (List Nat) :=
  matchAllLoop ac.heap 0 0 text []

/-- The runes of an ASCII string literal, for examples. -/
def runes (s : String) : List Rune := s.toList.map Char.toNat

/-- Some non-empty pattern of `P` is a suffix of `w`. -/
def PatSuffix (P : List (List Rune)) (w : List Rune) : Prop :=
  ∃ p ∈ P, p ≠ [] ∧ p <:+ w

/-- Some non-empty pattern of `P` occurs as a contiguous substring of `T`. -/
def Occurs (P : List (List Rune)) (T : List Rune) : Prop :=
  ∃ p ∈ P, p ≠ [] ∧ p <:+: T

/-! ## keyword_provider.go

The version counter is an `int64` that only ever grows by one per mutation; it is
taken as an unbounded integer (it cannot wrap within `2^63` mutations). -/

/-- The interface `KeywordManager` (with the embedded `VersionedKeywordProvider`), as the
methods of an implementation with state `σ`. -/
structure KeywordManager (σ : Type) where
  GetKeywords : σ → List (List Rune)
  GetVersion : σ → Int
  SetKeywords : σ → List (List Rune) → σ
  AddKeyword : σ → List Rune → σ
  RemoveKeyword : σ → List Rune → σ × Bool
  Clear : σ → σ
  Count : σ → Nat

/-- The struct `DefaultKeywordManager`. -/
structure DefaultKeywordManager where
  keywords : List (List Rune)
  version : Int

/-- `NewKeywordManager(keywords)`. -/
def NewKeywordManager (keywords : List (List Rune)) : DefaultKeywordManager :=
  ⟨keywords, 1⟩

/-- `GetKeywords()`: a copy of the keyword list. -/
def DefaultKeywordManager.GetKeywords (m : DefaultKeywordManager) : List (List Rune) :=
  m.keywords

def DefaultKeywordManager.GetVersion (m : DefaultKeywordManager) : Int := m.version

def DefaultKeywordManager.SetKeywords (m : DefaultKeywordManager)
    (keywords : List (List Rune)) : DefaultKeywordManager :=
  { keywords := keywords, version := m.version + 1 }

def DefaultKeywordManager.AddKeyword (m : DefaultKeywordManager) (keyword : List Rune) :
    DefaultKeywordManager :=
  { keywords := m.keywords ++ [keyword], version := m.version + 1 }

/-- The search loop of `RemoveKeyword`: the first index at or after `i` holding
`keyword`, where `rest` is the list from index `i` on. -/
def findKeyword (keyword : List Rune) : List (List Rune) → Nat → Option Nat
  | [], _ => none
  | kw :: rest, i => if kw = keyword then some i else findKeyword keyword rest (i + 1)

/-- `RemoveKeyword(keyword)`: at the first index `i` holding the keyword the list
becomes `append(keywords[:i], keywords[i+1:]...)`, the version grows and `true` is
returned; `false` and no change when the keyword is not in the list. -/
def DefaultKeywordManager.RemoveKeyword (m : DefaultKeywordManager) (keyword : List Rune) :
    DefaultKeywordManager × Bool :=
  match findKeyword keyword m.keywords 0 with
  | some i => ({ keywords := m.keywords.take i ++ m.keywords.drop (i + 1),
                 version := m.version + 1 }, true)
  | none => (m, false)

def DefaultKeywordManager.Clear (m : DefaultKeywordManager) : DefaultKeywordManager :=
  { keywords := [], version := m.version + 1 }

def DefaultKeywordManager.Count (m : DefaultKeywordManager) : Nat := m.keywords.length

/-- `DefaultKeywordManager` as a `KeywordManager`. -/
def DefaultKeywordManager.methods : KeywordManager DefaultKeywordManager :=
  { GetKeywords := DefaultKeywordManager.GetKeywords
    GetVersion := DefaultKeywordManager.GetVersion
    SetKeywords := DefaultKeywordManager.SetKeywords
    AddKeyword := DefaultKeywordManager.AddKeyword
    RemoveKeyword := DefaultKeywordManager.RemoveKeyword
    Clear := DefaultKeywordManager.Clear
    Count := DefaultKeywordManager.Count }

/-- The struct `AtomicKeywordManager`: `keywords` is the slice held by the
`atomic.Value`. -/
structure AtomicKeywordManager where
  keywords : List (List Rune)
  version : Int

/-- `NewAtomicKeywordManager(keywords)`. -/
def NewAtomicKeywordManager (keywords : List (List Rune)) : AtomicKeywordManager :=
  ⟨keywords, 1⟩

def AtomicKeywordManager.GetKeywords (m : AtomicKeywordManager) : List (List Rune) :=
  m.keywords

def AtomicKeywordManager.GetVersion (m : AtomicKeywordManager) : Int := m.version

/-- `SetKeywords`: stores a copy of the argument. -/
def AtomicKeywordManager.SetKeywords (m : AtomicKeywordManager)
    (keywords : List (List Rune)) : AtomicKeywordManager :=
  { keywords := keywords, version := m.version + 1 }

/-- `AddKeyword` (copy-on-write): a new slice of length `len(current)+1` with the
keyword in the last place. -/
def AtomicKeywordManager.AddKeyword (m : AtomicKeywordManager) (keyword : List Rune) :
    AtomicKeywordManager :=
  let current := m.GetKeywords
  { keywords := current ++ [keyword], version := m.version + 1 }

/-- `RemoveKeyword` (copy-on-write). -/
def AtomicKeywordManager.RemoveKeyword (m : AtomicKeywordManager) (keyword : List Rune) :
    AtomicKeywordManager × Bool :=
  let current := m.GetKeywords
  match findKeyword keyword current 0 with
  | some i => ({ keywords := current.take i ++ current.drop (i + 1),
                 version := m.version + 1 }, true)
  | none => (m, false)

def AtomicKeywordManager.Clear (m : AtomicKeywordManager) : AtomicKeywordManager :=
  { keywords := [], version := m.version + 1 }

def AtomicKeywordManager.Count (m : AtomicKeywordManager) : Nat := m.GetKeywords.length

/-- `AtomicKeywordManager` as a `KeywordManager`. -/
def AtomicKeywordManager.methods : KeywordManager AtomicKeywordManager :=
  { GetKeywords := AtomicKeywordManager.GetKeywords
    GetVersion := AtomicKeywordManager.GetVersion
    SetKeywords := AtomicKeywordManager.SetKeywords
    AddKeyword := AtomicKeywordManager.AddKeyword
    RemoveKeyword := AtomicKeywordManager.RemoveKeyword
    Clear := AtomicKeywordManager.Clear
    Count := AtomicKeywordManager.Count }

/-! ## matcher.go: the automaton-backed predicate -/

/-- The struct `acCache` of `acMatcher`. -/
structure acCache where
  machine : ACMachine
  lastVersion : Int

/-- The cache `acMatcher` starts with: a fresh machine, `lastVersion = -1`. -/
def acCache.new : acCache := ⟨NewACMachine, -1⟩

/-- One call of the predicate returned by `acMatcher(provider)` in sequential use, on
the provider state `p` and the plain text `text` of the event; `ord` is the order in
which a rebuild (if any) walks the children maps. Returns the cache after the call
and the result. -/
def acMatcher {σ : Type} (provider : KeywordManager σ) (ord : RangeOrder) (cache : acCache)
    (p : σ) (text : List Rune) : Option (acCache × Bool) :=
  let version := provider.GetVersion p
  let needUpdate := decide (cache.lastVersion ≠ version)
  if needUpdate then
    let words := provider.GetKeywords p
    if words.length = 0 then some (cache, false)
    else
      -- the second check sees what the first one saw
      match cache.machine.Build ord words with
      | none => none
      | some machine =>
        match machine.Match text with
        | none => none
        | some b => some ({ machine := machine, lastVersion := version }, b)
  else
    match cache.machine.Match text with
    | none => none
    | some b => some (cache, b)

/-- A mutation of a keyword manager. -/
inductive KeywordOp where
  | SetKeywords (keywords : List (List Rune))
  | AddKeyword (keyword : List Rune)
  | RemoveKeyword (keyword : List Rune)
  | Clear

/-- The manager after a mutation. -/
def KeywordManager.apply {σ : Type} (km : KeywordManager σ) (p : σ) : KeywordOp → σ
  | .SetKeywords keywords => km.SetKeywords p keywords
  | .AddKeyword keyword => km.AddKeyword p keyword
  | .RemoveKeyword keyword => (km.RemoveKeyword p keyword).1
  | .Clear => km.Clear p

/-- A step of a sequential run: a mutation of the provider, or a call of the
predicate on an event with the given plain text. -/
inductive ProviderStep where
  | mutate (op : KeywordOp)
  | call (ord : RangeOrder) (text : List Rune)

/-- Every predicate call of the run returns, and returns `true` exactly when a
non-empty keyword of the provider at that moment occurs in the text. -/
def CallsCorrect {σ : Type} (km : KeywordManager σ) : σ → acCache → List ProviderStep → Prop
  | _, _, [] => True
  | p, cache, .mutate op :: rest => CallsCorrect km (km.apply p op) cache rest
  | p, cache, .call ord text :: rest =>
    ∃ cache2 b, acMatcher km ord cache p text = some (cache2, b) ∧
      (b = true ↔ Occurs (km.GetKeywords p) text) ∧ CallsCorrect km p cache2 rest

/-- All iteration orders used by the run are valid. -/
def OrdersValid : List ProviderStep → Prop
  | [] => True
  | .mutate _ :: rest => OrdersValid rest
  | .call ord _ :: rest => ord.Valid ∧ OrdersValid rest

/-! ## event and context -/

/-- The events the context distinguishes, with the fields read here. -/
inductive Event where
  | PrivateMessageEvent (userID messageID : Int) (plainText : List Rune)
  | GroupMessageEvent (userID groupID messageID : Int) (plainText : List Rune)
  | FriendRequestEvent (userID : Int)
  | GroupRequestEvent (userID groupID : Int)
  | other

/-- The struct `Context`; `env` stands for the rest of the mutable state that callbacks
reach through the context (scratch map, regex result, limiter stores, clock). -/
structure Context (ε : Type) where
  Event : Event
  matched : Bool
  aborted : Bool
  shouldContinue : Bool
  env : ε

/-- `NewContext(evt, bot)`. -/
def NewContext {ε : Type} (evt : Event) (env : ε) : Context ε :=
  { Event := evt, matched := false, aborted := false, shouldContinue := true, env := env }

def Context.GetUserID {ε : Type} (ctx : Context ε) : Int :=
  match ctx.Event with
  | .PrivateMessageEvent userID _ _ => userID
  | .GroupMessageEvent userID _ _ _ => userID
  | .FriendRequestEvent userID => userID
  | .GroupRequestEvent userID _ => userID
  | .other => 0

def Context.GetGroupID {ε : Type} (ctx : Context ε) : Int :=
  match ctx.Event with
  | .GroupMessageEvent _ groupID _ _ => groupID
  | .GroupRequestEvent _ groupID => groupID
  | _ => 0

def Context.GetPlainText {ε : Type} (ctx : Context ε) : List Rune :=
  match ctx.Event with
  | .PrivateMessageEvent _ _ plainText => plainText
  | .GroupMessageEvent _ _ _ plainText => plainText
  | _ => []

def Context.Abort {ε : Type} (ctx : Context ε) : Context ε :=
  { ctx with aborted := true, shouldContinue := false }

def Context.IsAborted {ε : Type} (ctx : Context ε) : Bool := ctx.aborted

/-! ## matcher.go: the matcher -/

/-- The key `generateLimiterKey` formats: `limiter:user:<user>` or
`limiter:group:<group>:user:<user>`. -/
inductive LimiterKey where
  | user (userID : Int)
  | group (groupID userID : Int)
deriving DecidableEq, Repr

def generateLimiterKey (userID groupID : Int) : LimiterKey :=
  if groupID = 0 then .user userID else .group groupID userID

/-- A callback `func(*Context) bool`: it may change the context it is given. -/
abbrev Filter (ε : Type) := Context ε → Context ε × Bool

/-- A handler or middleware body `func(*Context)`. -/
abbrev HandlerFunc (ε : Type) := Context ε → Context ε

/-- The interface `Limiter` as `Match` uses it: `Allow`, and the `onExceed` callback
that `Match` finds when the limiter is a `*SlidingWindowLimiter` or a `*MemoryLimiter`
with a non-nil callback. -/
structure Limiter (ε : Type) where
  Allow : LimiterKey → Context ε → Context ε × Bool
  onExceed : Option (HandlerFunc ε)

/-- The struct `Matcher`. -/
structure Matcher (ε : Type) where
  priority : Int
  filters : List (Filter ε)
  limiter : Option (Limiter ε)
  handler : Option (HandlerFunc ε)
  middlewares : List (HandlerFunc ε → HandlerFunc ε)
  matchFunc : Option (Filter ε)
  block : Bool

/-- `newMatcher(matchFunc, filters...)`. -/
def newMatcher {ε : Type} (matchFunc : Option (Filter ε)) (filters : List (Filter ε)) : Matcher ε :=
  { priority := 0, filters := filters, limiter := none, handler := none, middlewares := [],
    matchFunc := matchFunc, block := false }

def Matcher.Priority {ε : Type} (m : Matcher ε) (p : Int) : Matcher ε := { m with priority := p }

/-- `SetBlock(block...)`: no argument means `true`, otherwise the first argument. -/
def Matcher.SetBlock {ε : Type} (m : Matcher ε) (block : List Bool) : Matcher ε :=
  match block with
  | [] => { m with block := true }
  | b :: _ => { m with block := b }

/-- What `Match` invokes, in the order it invokes it. -/
inductive Call where
  | matchFunc
  | filter (i : Nat)
  | Allow (key : LimiterKey)
  | onExceed
deriving DecidableEq, Repr

/-- The filter loop of `Match` (lines 91-95), from filter number `i` on: the context
after the loop, whether every filter returned `true`, and the filters invoked. -/
def runFilters {ε : Type} : List (Filter ε) → Nat → Context ε → Context ε × Bool × List Call
  | [], _, ctx => (ctx, true, [])
  | f :: rest, i, ctx =>
    let r := f ctx
    if r.2 then
      let r2 := runFilters rest (i + 1) r.1
      (r2.1, r2.2.1, Call.filter i :: r2.2.2)
    else (r.1, false, [Call.filter i])

/-- The predicate test of `Match` (lines 86-88): with no predicate set the test passes
and nothing is invoked. -/
def runMatchFunc {ε : Type} (matchFunc : Option (Filter ε)) (ctx : Context ε) :
    Context ε × Bool × List Call :=
  match matchFunc with
  | none => (ctx, true, [])
  | some f => ((f ctx).1, (f ctx).2, [Call.matchFunc])

/-- The rate limit check of `Match` (lines 98-112): with no limiter attached the check
passes; otherwise `Allow` is asked for the key of the event, and on a denial the
`onExceed` callback runs if there is one. -/
def runLimiter {ε : Type} (limiter : Option (Limiter ε)) (ctx : Context ε) :
    Context ε × Bool × List Call :=
  match limiter with
  | none => (ctx, true, [])
  | some limiter =>
    let userID := ctx.GetUserID
    let groupID := ctx.GetGroupID
    let key := generateLimiterKey userID groupID
    let r := limiter.Allow key ctx
    if r.2 then (r.1, true, [Call.Allow key])
    else
      match limiter.onExceed with
      | some onExceed => (onExceed r.1, false, [Call.Allow key, Call.onExceed])
      | none => (r.1, false, [Call.Allow key])

/-- `Match(ctx)` together with the list of the callbacks it invoked: the predicate,
then the filters, then the limiter, returning `false` at the first that fails. -/
def Matcher.matchTrace {ε : Type} (m : Matcher ε) (ctx : Context ε) :
    Context ε × Bool × List Call :=
  let r0 := runMatchFunc m.matchFunc ctx
  if r0.2.1 = false then (r0.1, false, r0.2.2)
  else
    let r1 := runFilters m.filters 0 r0.1
    if r1.2.1 = false then (r1.1, false, r0.2.2 ++ r1.2.2)
    else
      let r2 := runLimiter m.limiter r1.1
      (r2.1, r2.2.1, r0.2.2 ++ r1.2.2 ++ r2.2.2)

/-- The context the filters of `Match` start from: what the predicate left. -/
def Matcher.afterMatchFunc {ε : Type} (m : Matcher ε) (ctx : Context ε) : Context ε :=
  match m.matchFunc with
  | none => ctx
  | some f => (f ctx).1

/-- The calls of the predicate in a trace of `Match`: one if a predicate is set. -/
def Matcher.matchFuncCalls {ε : Type} (m : Matcher ε) : List Call :=
  match m.matchFunc with
  | none => []
  | some _ => [Call.matchFunc]

/-- The method `Matcher.Match`: the context after the call and the result. -/
def Matcher.Match {ε : Type} (m : Matcher ε) (ctx : Context ε) : Context ε × Bool :=
  ((m.matchTrace ctx).1, (m.matchTrace ctx).2.1)

/-- What filter number `j` returns when every filter runs on the context the one before
it left (`none` when there is no such filter). -/
def filterResult {ε : Type} : List (Filter ε) → Context ε → Nat → Option Bool
  | [], _, _ => none
  | f :: _, ctx, 0 => some (f ctx).2
  | f :: rest, ctx, j + 1 => filterResult rest (f ctx).1 j

/-- The context after the filters ran one after the other. -/
def afterFilters {ε : Type} : List (Filter ε) → Context ε → Context ε
  | [], ctx => ctx
  | f :: rest, ctx => afterFilters rest (f ctx).1

/-! ## engine.go -/

/-- The library function `sort.Slice` is not part of this repository. Its
implementation (`pdqsort_func`, since Go 1.19) sorts a slice of at most 12 elements
by insertion sort; for longer slices it stands here as a parameter, of which the
theorems on the order of the registry use only the documented contract: the result is a
rearrangement of the slice ordered by `less`, with no promise about equal elements. The
library's own function for longer slices is `sortSlicePdq` below. -/
abbrev SliceSorter (α : Type) := (α → α → Bool) → List α → List α

/-- The documented contract of `sort.Slice`, for orders that compare an integer key
downwards. -/
def SliceSorter.Valid {α : Type} (big : SliceSorter α) : Prop :=
  ∀ (key : α → Int) (l : List α),
    (big (fun a b => decide (key a > key b)) l).Perm l ∧
    (big (fun a b => decide (key a > key b)) l).Pairwise (fun a b => key a ≥ key b)

/-- The inner loop of `insertionSort_func`: `x` moves left past every neighbour it is
less than. `left` is the part of the slice before `x` with the nearest neighbour
first; so is the result. -/
def sinkLeft {α : Type} (less : α → α → Bool) (x : α) : List α → List α
  | [] => [x]
  | y :: left => if less x y then y :: sinkLeft less x left else x :: y :: left

/-- `insertionSort_func` on a whole slice. -/
def insertionSort {α : Type} (less : α → α → Bool) (l : List α) : List α :=
  (l.foldl (fun left x => sinkLeft less x left) []).reverse

/-- `sort.Slice(x, less)`. -/
def sortSlice {α : Type} (big : SliceSorter α) (less : α → α → Bool) (l : List α) : List α :=
  if l.length ≤ 12 then insertionSort less l else big less l

/-- The struct `Engine`. `matchers` holds pointers; `store` is the memory they point
into and `next` the next free pointer. -/
structure Engine (ε : Type) where
  matchers : List Nat
  store : Nat → Matcher ε
  next : Nat
  middlewares : List (HandlerFunc ε → HandlerFunc ε)

/-- `NewEngine()`. -/
def NewEngine {ε : Type} : Engine ε :=
  { matchers := [], store := fun _ => newMatcher none [], next := 0, middlewares := [] }

/-- `addMatcher(matcher)`: append, then `sort.Slice` by
`matchers[i].priority > matchers[j].priority`. -/
def Engine.addMatcher {ε : Type} (big : SliceSorter Nat) (e : Engine ε) (matcher : Nat) : Engine ε :=
  let appended := e.matchers ++ [matcher]
  { e with matchers :=
      sortSlice big (fun a b => decide ((e.store a).priority > (e.store b).priority)) appended }

/-- The common body of the `On*` methods: `matcher := newMatcher(matchFunc, filters...)`,
`e.addMatcher(matcher)`, `return matcher`. -/
def Engine.On {ε : Type} (big : SliceSorter Nat) (e : Engine ε) (matchFunc : Option (Filter ε))
    (filters : List (Filter ε)) : Engine ε × Nat :=
  let matcher := e.next
  let e1 : Engine ε :=
    { e with store := Function.update e.store matcher (newMatcher matchFunc filters),
             next := e.next + 1 }
  (e1.addMatcher big matcher, matcher)

/-- `OnMessage(filters...)`: the predicate accepts private and group messages. -/
def Engine.OnMessage {ε : Type} (big : SliceSorter Nat) (e : Engine ε)
    (filters : List (Filter ε)) : Engine ε × Nat :=
  e.On big
    (some (fun ctx =>
      (ctx, match ctx.Event with
        | .PrivateMessageEvent _ _ _ => true
        | .GroupMessageEvent _ _ _ _ => true
        | _ => false)))
    filters

/-- A method call through a matcher pointer, such as `matcher.Priority(p)`. -/
def Engine.call {ε : Type} (e : Engine ε) (matcher : Nat) (method : Matcher ε → Matcher ε) :
    Engine ε :=
  { e with store := Function.update e.store matcher (method (e.store matcher)) }

/-- What the dispatch loop does with a matcher. -/
inductive DispatchEvent where
  | evaluated (matcher : Nat)
  | launched (matcher : Nat)
deriving DecidableEq, Repr

/-- The loop of `handleEventInternal` (lines 225-251) over the copied registry: the
context after the loop and, in order, the matchers whose `Match` was evaluated and
whose handler was launched as a goroutine. -/
def dispatchLoop {ε : Type} (store : Nat → Matcher ε) :
    List Nat → Context ε → Context ε × List DispatchEvent
  | [], ctx => (ctx, [])
  | matcher :: rest, ctx =>
    if ctx.IsAborted then (ctx, [])
    else
      let r := (store matcher).Match ctx
      if r.2 then
        let ctx1 := { r.1 with matched := true }
        if (store matcher).block then
          (ctx1, [DispatchEvent.evaluated matcher, DispatchEvent.launched matcher])
        else
          let r2 := dispatchLoop store rest ctx1
          (r2.1, DispatchEvent.evaluated matcher :: DispatchEvent.launched matcher :: r2.2)
      else
        let r2 := dispatchLoop store rest r.1
        (r2.1, DispatchEvent.evaluated matcher :: r2.2)

/-- The method `handleEventInternal`. -/
def Engine.handleEventInternal {ε : Type} (e : Engine ε) (ctx : Context ε) :
    Context ε × List DispatchEvent :=
  dispatchLoop e.store e.matchers ctx

/-- The loop over `ms` started on `ctx` runs to the end of `ms`: it meets no abort
and no matching matcher with the block flag. -/
def RunsThrough {ε : Type} (store : Nat → Matcher ε) : List Nat → Context ε → Prop
  | [], _ => True
  | matcher :: rest, ctx =>
    ctx.IsAborted = false ∧
      (((store matcher).Match ctx).2 = true → (store matcher).block = false) ∧
      RunsThrough store rest (dispatchLoop store [matcher] ctx).1

/-! ## Invariants of the automaton -/

/-- The children maps of `h` form a tree under pointer `0` in which node `u` is
reached from the root by spelling `str u`. -/
structure TrieShape (h : Heap) (str : Nat → List Rune) : Prop where
  root : str 0 = []
  pos : 0 < h.size
  keys : ∀ u, ((h.cell u).children.map Prod.fst).Nodup
  child : ∀ u c v, u < h.size → h.child u c = some v → v < h.size ∧ str v = str u ++ [c]
  parent : ∀ v, v < h.size → v ≠ 0 → ∃ u c, u < h.size ∧ h.child u c = some v
  inj : ∀ u v, u < h.size → v < h.size → str u = str v → u = v
  depth : ∀ u, u < h.size → (str u).length < h.size

/-- The state after step one of `Build` for the patterns `P`: a trie whose output
flags mark exactly the non-empty patterns, no failure pointer set, and nothing
stored beyond the allocated nodes. -/
structure TrieInv (P : List (List Rune)) (h : Heap) (str : Nat → List Rune) : Prop where
  shape : TrieShape h str
  out : ∀ u, u < h.size → ((h.cell u).output = true ↔ str u ≠ [] ∧ str u ∈ P)
  has : ∀ p ∈ P, p ≠ [] → ∃ u, u < h.size ∧ str u = p
  nofail : ∀ u, (h.cell u).fail = none
  fresh : ∀ u, h.size ≤ u → h.cell u = NewACNode

/-- Node `f` spells the longest proper suffix of the path of `v` that is itself
a path of the trie with `n` nodes. -/
def IsFail (str : Nat → List Rune) (n v f : Nat) : Prop :=
  f < n ∧ str f <:+ str v ∧ (str f).length < (str v).length ∧
    ∀ x, x < n → str x <:+ str v → (str x).length < (str v).length →
      (str x).length ≤ (str f).length

/-- Node `v` has its final failure pointer and output flag. -/
def Final (P : List (List Rune)) (str : Nat → List Rune) (h : Heap) (v : Nat) : Prop :=
  (∃ f, (h.cell v).fail = some f ∧ IsFail str h.size v f) ∧
    ((h.cell v).output = true ↔ PatSuffix P (str v))

/-- Node `v` is as step one of `Build` left it. -/
def Raw (P : List (List Rune)) (str : Nat → List Rune) (h : Heap) (v : Nat) : Prop :=
  (h.cell v).fail = none ∧ ((h.cell v).output = true ↔ str v ≠ [] ∧ str v ∈ P)

/-- Invariant of the loop over the children of the root (lines 64-67): `pre` are
the entries already visited, `queue` the queue. -/
structure InitInv (P : List (List Rune)) (str : Nat → List Rune) (h : Heap)
    (pre : List (Rune × Nat)) (queue : List Nat) : Prop where
  shape : TrieShape h str
  has : ∀ p ∈ P, p ≠ [] → ∃ u, u < h.size ∧ str u = p
  queue_eq : queue = pre.map Prod.snd
  final : ∀ v ∈ queue, Final P str h v
  raw : ∀ v, v < h.size → v ∉ queue → Raw P str h v

/-- Invariant of the breadth-first loop (lines 70-101): `done` are the nodes
already taken from the queue (the root first), `cur` is the node being processed
(if any) with `pre` the entries of its children map already visited, and `queue`
is the queue. -/
structure BfsInv (P : List (List Rune)) (str : Nat → List Rune) (h : Heap)
    (done cur : List Nat) (pre : List (Rune × Nat)) (queue : List Nat) : Prop where
  shape : TrieShape h str
  has : ∀ p ∈ P, p ≠ [] → ∃ u, u < h.size ∧ str u = p
  root_done : 0 ∈ done
  nodup : (done ++ cur ++ queue).Nodup
  sorted : (done ++ cur ++ queue).Pairwise (fun a b => (str a).length ≤ (str b).length)
  mem_iff : ∀ v, v ∈ done ++ cur ++ queue ↔
    v = 0 ∨ ∃ u c, u < h.size ∧ h.child u c = some v ∧ (u ∈ done ∨ (u ∈ cur ∧ (c, v) ∈ pre))
  final : ∀ v ∈ done ++ cur ++ queue, v ≠ 0 → Final P str h v
  raw : ∀ v, v < h.size → (v = 0 ∨ v ∉ done ++ cur ++ queue) → Raw P str h v

/-- The automaton `Build` returns for the patterns `P`. -/
structure ACInv (P : List (List Rune)) (str : Nat → List Rune) (h : Heap) : Prop where
  shape : TrieShape h str
  has : ∀ p ∈ P, p ≠ [] → ∃ u, u < h.size ∧ str u = p
  final : ∀ v, v < h.size → v ≠ 0 → Final P str h v
  root_out : (h.cell 0).output = false

/-- Node `u` spells the longest suffix of the text `w` read so far that is a
path of the trie. -/
def IsState (str : Nat → List Rune) (n : Nat) (w : List Rune) (u : Nat) : Prop :=
  u < n ∧ str u <:+ w ∧ ∀ x, x < n → str x <:+ w → (str x).length ≤ (str u).length

/-! ## Invariants of the versioned cache -/

/-- A keyword manager never lowers its version, and leaves its keywords alone
whenever it leaves its version alone. -/
structure LawfulManager {σ : Type} (km : KeywordManager σ) : Prop where
  mono : ∀ p op, km.GetVersion p ≤ km.GetVersion (km.apply p op)
  same : ∀ p op, km.GetVersion (km.apply p op) = km.GetVersion p →
    km.GetKeywords (km.apply p op) = km.GetKeywords p

/-- The cache is behind the provider, or it holds the automaton of the provider's
current keywords. -/
def CacheOK {σ : Type} (km : KeywordManager σ) (p : σ) (cache : acCache) : Prop :=
  cache.lastVersion < km.GetVersion p ∨
    (cache.lastVersion = km.GetVersion p ∧ ∃ str, ACInv (km.GetKeywords p) str cache.machine.heap)

/-- The iteration order that walks a children map in the order of insertion. -/
def RangeOrder.insertion : RangeOrder := fun _ m => m

/-- The iteration order that walks a children map against the order of insertion. -/
def RangeOrder.reversed : RangeOrder := fun _ m => m.reverse

/-! ## Examples -/

/-- The patterns `ab` and `bc`. -/
def patternsAbBc : List (List Rune) := [runes "ab", runes "bc"]

/-- The patterns `he`, `she`, `his`, `hers` and an empty pattern. -/
def patternsHers : List (List Rune) := [runes "he", runes "she", runes "his", runes "hers", []]

/-- A run that calls the predicate, replaces the keywords, calls again, clears the
keywords and calls once more. -/
def sampleRun : List ProviderStep :=
  [ProviderStep.call RangeOrder.insertion (runes "xabcx"),
   ProviderStep.mutate (KeywordOp.SetKeywords [runes "zz"]),
   ProviderStep.call RangeOrder.reversed (runes "xabcx"),
   ProviderStep.mutate KeywordOp.Clear,
   ProviderStep.call RangeOrder.insertion (runes "zz")]

/-- Registration through the public interface: `OnMessage()` followed by
`Priority(p)` on the matcher it returns, for each priority in turn. -/
def registerAll {ε : Type} (big : SliceSorter Nat) : Engine ε → List Int → Engine ε
  | e, [] => e
  | e, p :: rest =>
    let r := e.OnMessage big []
    registerAll big (r.1.call r.2 (fun m => m.Priority p)) rest

/-- A private message with the text `hi`. -/
def sampleMessage : Event := Event.PrivateMessageEvent 10 1 (runes "hi")

/-- A matcher memory for examples: matcher `0` never matches and has the block flag,
matcher `1` matches, matcher `2` matches and has the block flag, matcher `3` aborts
the context and does not match; every other matcher matches. -/
def sampleStore : Nat → Matcher Unit
  | 0 => (newMatcher (some (fun ctx => (ctx, false))) []).SetBlock []
  | 2 => (newMatcher none []).SetBlock []
  | 3 => newMatcher (some (fun ctx => (ctx.Abort, false))) []
  | _ => newMatcher none []

/-! ## keyword_provider.go: calls and their effect on the version -/

/-- A call of a method of the interface `KeywordManager`. -/
inductive ManagerCall where
  | mutate (op : KeywordOp)
  | GetKeywords
  | GetVersion
  | Count

/-- The manager after a call: `GetKeywords`, `GetVersion` and `Count` assign nothing. -/
def KeywordManager.call {σ : Type} (km : KeywordManager σ) (p : σ) : ManagerCall → σ
  | .mutate op => km.apply p op
  | .GetKeywords => p
  | .GetVersion => p
  | .Count => p

/-- Whether a call is a mutation of the keyword set: every `SetKeywords`, `AddKeyword`
and `Clear`, and a `RemoveKeyword` that returns `true`. -/
def KeywordManager.isMutation {σ : Type} (km : KeywordManager σ) (p : σ) : ManagerCall → Bool
  | .mutate (.RemoveKeyword keyword) => (km.RemoveKeyword p keyword).2
  | .mutate _ => true
  | _ => false

/-- The manager after a series of calls. -/
def KeywordManager.run {σ : Type} (km : KeywordManager σ) : σ → List ManagerCall → σ
  | p, [] => p
  | p, c :: rest => km.run (km.call p c) rest

/-- The number of mutations of the keyword set in a series of calls. -/
def KeywordManager.mutations {σ : Type} (km : KeywordManager σ) : σ → List ManagerCall → Nat
  | _, [] => 0
  | p, c :: rest => (if km.isMutation p c then 1 else 0) + km.mutations (km.call p c) rest

/-- What a manager lets a caller observe. -/
structure Observation where
  keywords : List (List Rune)
  version : Int
  count : Nat
deriving DecidableEq

/-- The observation of a manager: `GetKeywords()`, `GetVersion()`, `Count()`. -/
def KeywordManager.observe {σ : Type} (km : KeywordManager σ) (p : σ) : Observation :=
  { keywords := km.GetKeywords p, version := km.GetVersion p, count := km.Count p }

/-- What a mutating call returns: the result of `RemoveKeyword`, nothing for the others. -/
def KeywordManager.result {σ : Type} (km : KeywordManager σ) (p : σ) : KeywordOp → Option Bool
  | .RemoveKeyword keyword => some (km.RemoveKeyword p keyword).2
  | _ => none

/-- For each step of a series of mutations, what the call returned and the observation
of the manager after it. -/
def KeywordManager.history {σ : Type} (km : KeywordManager σ) :
    σ → List KeywordOp → List (Option Bool × Observation)
  | _, [] => []
  | p, op :: rest =>
    (km.result p op, km.observe (km.apply p op)) :: km.history (km.apply p op) rest

/-! ## keyword_provider.go with slices in memory

The managers once more, this time with the backing arrays of their slices, to see
what a caller holding a slice can reach. A slice here always starts at the first
element of its array. -/

namespace Mem

/-- The backing arrays: `arrays a` is the content of array `a`, `next` the next
array to allocate. -/
structure Memory where
  arrays : Nat → List (List Rune)
  next : Nat

/-- A slice `[]string`: its backing array and its length. -/
structure Slice where
  array : Nat
  len : Nat
deriving DecidableEq, Repr

/-- The elements of a slice. -/
def Memory.read (mem : Memory) (s : Slice) : List (List Rune) :=
  (mem.arrays s.array).take s.len

/-- A slice literal or `make` followed by `copy`: a new array with the given elements. -/
def Memory.alloc (mem : Memory) (elems : List (List Rune)) : Memory × Slice :=
  ({ arrays := Function.update mem.arrays mem.next elems, next := mem.next + 1 },
    { array := mem.next, len := elems.length })

/-- The assignment `s[i] = v` (for `i < len(s)`). -/
def Memory.store (mem : Memory) (s : Slice) (i : Nat) (v : List Rune) : Memory :=
  if i < s.len then
    { mem with arrays := Function.update mem.arrays s.array ((mem.arrays s.array).set i v) }
  else mem

/-- The struct `DefaultKeywordManager`. -/
structure DefaultKeywordManager where
  keywords : Slice
  version : Int

/-- `NewKeywordManager(keywords)`: keeps the slice it is given. -/
def NewKeywordManager (keywords : Slice) : DefaultKeywordManager := ⟨keywords, 1⟩

/-- `GetKeywords()`: `make` a slice of the same length and `copy` into it. -/
def DefaultKeywordManager.GetKeywords (mem : Memory) (m : DefaultKeywordManager) :
    Memory × Slice :=
  mem.alloc (mem.read m.keywords)

/-- The struct `AtomicKeywordManager`: `keywords` is the slice held by the `atomic.Value`. -/
structure AtomicKeywordManager where
  keywords : Slice
  version : Int

/-- `NewAtomicKeywordManager(keywords)`: stores the slice it is given. -/
def NewAtomicKeywordManager (keywords : Slice) : AtomicKeywordManager := ⟨keywords, 1⟩

/-- `GetKeywords()`: returns the stored slice. -/
def AtomicKeywordManager.GetKeywords (mem : Memory) (m : AtomicKeywordManager) :
    Memory × Slice :=
  (mem, m.keywords)

/-- A caller calls `GetKeywords()`, assigns `v` to element `i` of the slice it got and
calls `GetKeywords()` again: the elements of the slice the second call returns. -/
def DefaultKeywordManager.rereadAfterStore (mem : Memory) (m : DefaultKeywordManager)
    (i : Nat) (v : List Rune) : List (List Rune) :=
  let r1 := m.GetKeywords mem
  let mem2 := r1.1.store r1.2 i v
  let r2 := m.GetKeywords mem2
  r2.1.read r2.2

/-- The same steps of a caller on an `AtomicKeywordManager`. -/
def AtomicKeywordManager.rereadAfterStore (mem : Memory) (m : AtomicKeywordManager)
    (i : Nat) (v : List Rune) : List (List Rune) :=
  let r1 := m.GetKeywords mem
  let mem2 := r1.1.store r1.2 i v
  let r2 := m.GetKeywords mem2
  r2.1.read r2.2

/-- `SetKeywords(keywords)` of `DefaultKeywordManager`: keeps the slice it is given. -/
def DefaultKeywordManager.SetKeywords (m : DefaultKeywordManager) (keywords : Slice) :
    DefaultKeywordManager :=
  { keywords := keywords, version := m.version + 1 }

/-- The statement `s = append(s[:i], s[i+1:]...)` for `i < len(s)`: the elements after
index `i` move one place down inside the backing array, whose last used place keeps its
element; the slice is one shorter. -/
def Memory.shiftOut (mem : Memory) (s : Slice) (i : Nat) : Memory × Slice :=
  let arr := mem.arrays s.array
  let shifted := arr.take i ++ (arr.take s.len).drop (i + 1) ++ arr.drop (s.len - 1)
  ({ mem with arrays := Function.update mem.arrays s.array shifted },
    { array := s.array, len := s.len - 1 })

/-- `RemoveKeyword(keyword)` of `DefaultKeywordManager`: at the first index holding the
keyword the rest of the slice is shifted down in place. -/
def DefaultKeywordManager.RemoveKeyword (mem : Memory) (m : DefaultKeywordManager)
    (keyword : List Rune) : Memory × DefaultKeywordManager × Bool :=
  match findKeyword keyword (mem.read m.keywords) 0 with
  | some i =>
    let r := mem.shiftOut m.keywords i
    (r.1, { keywords := r.2, version := m.version + 1 }, true)
  | none => (mem, m, false)

/-- `SetKeywords(keywords)` of `AtomicKeywordManager`: stores a copy of the slice. -/
def AtomicKeywordManager.SetKeywords (mem : Memory) (m : AtomicKeywordManager)
    (keywords : Slice) : Memory × AtomicKeywordManager :=
  let r := mem.alloc (mem.read keywords)
  (r.1, { keywords := r.2, version := m.version + 1 })

/-- `RemoveKeyword(keyword)` of `AtomicKeywordManager`: at the first index holding the
keyword a new slice without that element is stored. -/
def AtomicKeywordManager.RemoveKeyword (mem : Memory) (m : AtomicKeywordManager)
    (keyword : List Rune) : Memory × AtomicKeywordManager × Bool :=
  let current := m.GetKeywords mem
  match findKeyword keyword (current.1.read current.2) 0 with
  | some i =>
    let r := current.1.alloc
      ((current.1.read current.2).take i ++ (current.1.read current.2).drop (i + 1))
    (r.1, { keywords := r.2, version := m.version + 1 }, true)
  | none => (current.1, m, false)

/-- A caller makes a manager from its slice `s`, calls `RemoveKeyword(keyword)` and
`SetKeywords(s)` with the same slice, and then `GetKeywords()`, `GetVersion()` and
`Count()`: the result of `RemoveKeyword` and the keywords, version and count read at
the end. -/
def DefaultKeywordManager.reuseAfterRemove (mem : Memory) (s : Slice) (keyword : List Rune) :
    Bool × List (List Rune) × Int × Nat :=
  let m := NewKeywordManager s
  let r := m.RemoveKeyword mem keyword
  let m2 := r.2.1.SetKeywords s
  let g := m2.GetKeywords r.1
  (r.2.2, g.1.read g.2, m2.version, m2.keywords.len)

/-- The same steps of a caller on an `AtomicKeywordManager`. -/
def AtomicKeywordManager.reuseAfterRemove (mem : Memory) (s : Slice) (keyword : List Rune) :
    Bool × List (List Rune) × Int × Nat :=
  let m := NewAtomicKeywordManager s
  let r := m.RemoveKeyword mem keyword
  let r2 := r.2.1.SetKeywords r.1 s
  let g := r2.2.GetKeywords r2.1
  (r.2.2, g.1.read g.2, r2.2.version, (g.1.read g.2).length)

/-- A memory holding one array, with the keywords `ab` and `bc`. -/
def sampleMemory : Memory := (Memory.alloc ⟨fun _ => [], 0⟩ patternsAbBc).1

/-- The slice over the array of `sampleMemory`. -/
def sampleSlice : Slice := (Memory.alloc ⟨fun _ => [], 0⟩ patternsAbBc).2

end Mem

/-! ## filter.go: the sensitive word filter

A `DFANode` (`children`, `isEnd`) is kept in the same node store as an `ACNode`:
its `isEnd` is the field `output`, and the field `fail` is never set. -/

/-- Whether a rune is a valid Unicode code point: not a surrogate and at most `U+10FFFF`. -/
def validRune (r : Rune) : Bool := decide (r < 0xD800) || (decide (0xDFFF < r) && decide (r ≤ 0x10FFFF))

/-- The conversion `string(rs)` of a rune slice, read back as code points: a rune that
is not a valid code point is encoded as `U+FFFD`. -/
def stringOfRunes (rs : List Rune) : List Rune :=
  rs.map (fun r => if validRune r then r else 0xFFFD)

/-- The struct `SensitiveFilter`: `trie` is the node store, with the root at pointer `0`. -/
structure SensitiveFilter where
  trie : Heap

/-- The method `addWord`: walk the runes of the word down from the root, creating the
missing nodes, and set `isEnd` on the last node. -/
def SensitiveFilter.addWord (sf : SensitiveFilter) (word : List Rune) : SensitiveFilter :=
  let r := insertRunes sf.trie 0 word
  ⟨r.1.setOutput r.2⟩

/-- The method `Reload`; `lines` is what `readLines(sf.filePath)` returns, `none` for an
error. On an error the filter is left as it was and the error is returned (`false`);
otherwise the trie is rebuilt under a fresh root from the non-empty words. -/
def SensitiveFilter.Reload (sf : SensitiveFilter) (lines : Option (List (List Rune))) :
    SensitiveFilter × Bool :=
  match lines with
  | none => (sf, false)
  | some data =>
    (data.foldl (fun s word => if word = [] then s else s.addWord word) ⟨Heap.init⟩, true)

/-- The inner loop of `Contains` (lines 226-236) from `node` over the runes from
position `j` on: whether a node with `isEnd` is reached. -/
def containsWalk (h : Heap) : Nat → List Rune → Bool
  | _, [] => false
  | node, c :: rest =>
    match h.child node c with
    | some child => if (h.cell child).output then true else containsWalk h child rest
    | none => false

/-- The outer loop of `Contains` (lines 222-237) over the runes from position `i` on. -/
def containsLoop (h : Heap) : List Rune → Bool
  | [] => false
  | c :: rest => if containsWalk h 0 (c :: rest) then true else containsLoop h rest

/-- The method `Contains`. -/
def SensitiveFilter.Contains (sf : SensitiveFilter) (text : List Rune) : Bool :=
  containsLoop sf.trie text

/-- The slice expression `runes[i:j]`. -/
def sliceOf (runes : List Rune) (i j : Nat) : List Rune := (runes.drop i).take (j - i)

/-- The loop `for k := start; k < j; k++ { result[k] = replace }` with `n` rounds left. -/
def markFrom (replace : Rune) : Nat → Nat → List Rune → List Rune
  | _, 0, result => result
  | k, n + 1, result => markFrom replace (k + 1) n (result.set k replace)

/-- The inner loop of `Filter` (lines 256-269): `rest` are the runes from position `j` on. -/
def filterWalk (h : Heap) (replace : Rune) (start : Nat) :
    Nat → Nat → List Rune → List Rune → List Rune
  | _, _, [], result => result
  | node, j, c :: rest, result =>
    match h.child node c with
    | some child =>
      filterWalk h replace start child (j + 1) rest
        (if (h.cell child).output then markFrom replace start (j + 1 - start) result else result)
    | none => result

/-- The outer loop of `Filter` (lines 251-270): `rest` are the runes from position `i` on. -/
def filterLoop (h : Heap) (replace : Rune) : Nat → List Rune → List Rune → List Rune
  | _, [], result => result
  | i, c :: rest, result =>
    filterLoop h replace (i + 1) rest (filterWalk h replace i 0 i (c :: rest) result)

/-- The method `Filter`: the loops run on a copy of the runes of the text, and the
result is converted back to a string. -/
def SensitiveFilter.Filter (sf : SensitiveFilter) (text : List Rune) (replace : Rune) :
    List Rune :=
  stringOfRunes (filterLoop sf.trie replace 0 text text)

/-- The inner loop of `FindAll` (lines 287-297): `rest` are the runes from position `j` on. -/
def findWalk (h : Heap) (runes : List Rune) (i : Nat) :
    Nat → Nat → List Rune → List (List Rune) → List (List Rune)
  | _, _, [], words => words
  | node, j, c :: rest, words =>
    match h.child node c with
    | some child =>
      findWalk h runes i child (j + 1) rest
        (if (h.cell child).output then words ++ [stringOfRunes (sliceOf runes i (j + 1))]
         else words)
    | none => words

/-- The outer loop of `FindAll` (lines 283-298): `rest` are the runes from position `i` on. -/
def findLoop (h : Heap) (runes : List Rune) :
    Nat → List Rune → List (List Rune) → List (List Rune)
  | _, [], words => words
  | i, c :: rest, words =>
    findLoop h runes (i + 1) rest (findWalk h runes i 0 i (c :: rest) words)

/-- The method `FindAll`. -/
def SensitiveFilter.FindAll (sf : SensitiveFilter) (text : List Rune) : List (List Rune) :=
  findLoop sf.trie text 0 text []

/-! ### Specification of the filter -/

/-- The text is a sequence of valid code points, as `[]rune(text)` yields. -/
def ValidText (T : List Rune) : Prop := ∀ c ∈ T, validRune c = true

/-- Position `k` of the text lies in a span `[i, j)` whose runes are a word of `W`. -/
def Covered (W : List (List Rune)) (T : List Rune) (k : Nat) : Prop :=
  ∃ i j, i ≤ k ∧ k < j ∧ j ≤ T.length ∧ sliceOf T i j ∈ W

/-- The substrings `T[i:j]`, `i < j`, that are words of `W`, one per pair `(i, j)`: by
increasing `i`, and for equal `i` by increasing `j`. -/
def occurrences (W : List (List Rune)) (T : List Rune) : List (List Rune) :=
  (List.range T.length).flatMap (fun i =>
    ((List.range' (i + 1) (T.length - i)).filter (fun j => decide (sliceOf T i j ∈ W))).map
      (fun j => sliceOf T i j))

/-- Some word of `W` is `base` followed by a non-empty prefix of `r`. -/
def WordAhead (W : List (List Rune)) (base r : List Rune) : Prop :=
  ∃ q, q ≠ [] ∧ q <+: r ∧ base ++ q ∈ W

/-- The positions `j` at which the inner loop of `Contains`, `Filter` and `FindAll`,
started at `node` with `rest` the runes from position `j` on, finds `isEnd` set. -/
def walkEnds (h : Heap) : Nat → Nat → List Rune → List Nat
  | _, _, [] => []
  | node, j, c :: rest =>
    match h.child node c with
    | some child =>
      (if (h.cell child).output then [j + 1] else []) ++ walkEnds h child (j + 1) rest
    | none => []

/-- The result so far of `Filter` on the text `T`: the positions in `S` hold the
replacement, the others the rune of `T`. -/
def Marks (T : List Rune) (replace : Rune) (S : Nat → Prop) (result : List Rune) : Prop :=
  result.length = T.length ∧
    ∀ k, k < T.length → (S k → result[k]? = some replace) ∧ (¬ S k → result[k]? = T[k]?)

/-- Position `k` lies in a span that starts before position `n` and spells a word. -/
def CoveredBefore (W : List (List Rune)) (T : List Rune) (n k : Nat) : Prop :=
  ∃ i j, i < n ∧ i ≤ k ∧ k < j ∧ j ≤ T.length ∧ sliceOf T i j ∈ W

/-- The word list of the examples: `ab`, an empty line, `abc`, `bc`. -/
def sampleWords : List (List Rune) := [runes "ab", [], runes "abc", runes "bc"]

/-- A filter loaded with `sampleWords`. -/
def sampleFilter : SensitiveFilter :=
  (SensitiveFilter.Reload ⟨Heap.init⟩ (some sampleWords)).1

/-- The words `a` and `U+FFFD`. -/
def replacementWords : List (List Rune) := [runes "a", [0xFFFD]]

/-- A filter loaded with `replacementWords`. -/
def replacementFilter : SensitiveFilter :=
  (SensitiveFilter.Reload ⟨Heap.init⟩ (some replacementWords)).1

/-! ## matcher.go: the trie-backed predicate and the per-provider caches -/

/-- The interface `VersionedKeywordProvider` over provider states `σ`. -/
structure VersionedKeywordProvider (σ : Type) where
  GetKeywords : σ → List (List Rune)
  GetVersion : σ → Int

/-- A `KeywordManager` is a `VersionedKeywordProvider` (the embedded interface). -/
def KeywordManager.toProvider {σ : Type} (km : KeywordManager σ) : VersionedKeywordProvider σ :=
  ⟨km.GetKeywords, km.GetVersion⟩

/-- One call of the predicate returned by `acMatcher(provider)` for any
`VersionedKeywordProvider`, as `acMatcher` above. -/
def VersionedKeywordProvider.acMatcher {σ : Type} (provider : VersionedKeywordProvider σ)
    (ord : RangeOrder) (cache : acCache) (p : σ) (text : List Rune) : Option (acCache × Bool) :=
  let version := provider.GetVersion p
  let needUpdate := decide (cache.lastVersion ≠ version)
  if needUpdate then
    let words := provider.GetKeywords p
    if words.length = 0 then some (cache, false)
    else
      match cache.machine.Build ord words with
      | none => none
      | some machine =>
        match machine.Match text with
        | none => none
        | some b => some ({ machine := machine, lastVersion := version }, b)
  else
    match cache.machine.Match text with
    | none => none
    | some b => some (cache, b)

/-- The struct `dfaCache` of `dfaMatcher`: `root` is nil (`none`) or a trie with its
root at pointer `0`. -/
structure dfaCache where
  root : Option Heap
  lastVersion : Int

/-- The cache `dfaMatcher` starts with: no trie, `lastVersion = -1`. -/
def dfaCache.new : dfaCache := ⟨none, -1⟩

/-- The closure `buildDFA`: a fresh root, then every non-empty word is walked down from
the root, creating the missing nodes, and `isEnd` is set on its last node. -/
def buildDFA (words : List (List Rune)) : Heap :=
  words.foldl (fun root word =>
    if word = [] then root
    else
      let r := insertRunes root 0 word
      r.1.setOutput r.2) Heap.init

/-- The closure `matchDFA`: `false` on a nil root, otherwise the loops of `Contains`. -/
def matchDFA (root : Option Heap) (text : List Rune) : Bool :=
  match root with
  | none => false
  | some h => containsLoop h text

/-- One call of the predicate returned by `dfaMatcher(provider)` in sequential use, on
the provider state `p` and the plain text of the event. Returns the cache after the
call and the result. -/
def dfaMatcher {σ : Type} (provider : VersionedKeywordProvider σ) (cache : dfaCache)
    (p : σ) (text : List Rune) : dfaCache × Bool :=
  let version := provider.GetVersion p
  let needUpdate := cache.root.isNone || decide (cache.lastVersion ≠ version)
  if needUpdate then
    let words := provider.GetKeywords p
    if words.length = 0 then (cache, false)
    else
      -- the second check sees what the first one saw
      let root := buildDFA words
      ({ root := some root, lastVersion := version }, matchDFA (some root) text)
  else (cache, matchDFA cache.root text)

/-- A provider that always reports the keyword `a` and the version `-1`. -/
def sentinelProvider : VersionedKeywordProvider Unit :=
  ⟨fun _ => [runes "a"], fun _ => -1⟩

/-- A non-nil interface value `VersionedKeywordProvider` as a key of the cache map: its
dynamic type is comparable, and then `k` identifies the key, or it is not (a struct
with a slice field, say), and then hashing it panics. -/
inductive ProviderKey (κ : Type) where
  | comparable (k : κ)
  | uncomparable

/-- The value `cacheMap.LoadOrStore(k, fresh)` returns for a key `k` of a comparable
type: the entry for `k`, or else the fresh cache (fresh machine, `lastVersion = -1`),
which becomes the entry. On a key that is not comparable `LoadOrStore` panics; the
callers below give `none` for such a key and do not come here. -/
def loadOrStore {κ : Type} (cacheMap : κ → Option acCache) (k : κ) : acCache :=
  match cacheMap k with
  | some c => c
  | none => acCache.new

/-- One call of the predicate returned by `acMatcherWithContext(provider)` in sequential
use. `versionedProvider` is what `provider.GetProvider(ctx)` returns: nil (`none`), or
a provider, given by its key and its state `p` at this moment. `cacheMap k = none` when
the map has no entry for `k`. The result is `none` when the call panics, as
`LoadOrStore` does on a key that is not comparable. -/
def acMatcherWithContext {κ σ : Type} [DecidableEq κ] (vp : VersionedKeywordProvider σ)
    (ord : RangeOrder) (cacheMap : κ → Option acCache)
    (versionedProvider : Option (ProviderKey κ × σ)) (text : List Rune) :
    Option ((κ → Option acCache) × Bool) :=
  match versionedProvider with
  | none => some (cacheMap, false)
  | some (.uncomparable, _) => none
  | some (.comparable k, p) =>
    let cache := loadOrStore cacheMap k
    let version := vp.GetVersion p
    let needUpdate := decide (cache.lastVersion ≠ version)
    if needUpdate then
      let words := vp.GetKeywords p
      if words.length = 0 then some (Function.update cacheMap k (some cache), false)
      else
        match cache.machine.Build ord words with
        | none => none
        | some machine =>
          match machine.Match text with
          | none => none
          | some b =>
            some (Function.update cacheMap k (some { machine := machine, lastVersion := version }), b)
    else
      match cache.machine.Match text with
      | none => none
      | some b => some (Function.update cacheMap k (some cache), b)

/-- An event as the predicates see it: what `GetProvider(ctx)` returns for it, its plain
text, and the order in which a rebuild during the call walks the children maps. -/
structure ContextCall (κ σ : Type) where
  provider : Option (ProviderKey κ × σ)
  ord : RangeOrder
  text : List Rune

/-- The cache map after the predicate of `acMatcherWithContext` has been called on the
events in turn. -/
def contextRun {κ σ : Type} [DecidableEq κ] (vp : VersionedKeywordProvider σ) :
    (κ → Option acCache) → List (ContextCall κ σ) → Option (κ → Option acCache)
  | cacheMap, [] => some cacheMap
  | cacheMap, s :: rest =>
    match acMatcherWithContext vp s.ord cacheMap s.provider s.text with
    | none => none
    | some r => contextRun vp r.1 rest

/-- The cache of a dedicated `acMatcher` predicate for the provider with the key `k`
after it has been called on those of the events that resolve to that provider, in
turn. -/
def dedicatedRun {κ σ : Type} [DecidableEq κ] (vp : VersionedKeywordProvider σ) (k : κ) :
    acCache → List (ContextCall κ σ) → Option acCache
  | cache, [] => some cache
  | cache, s :: rest =>
    match s.provider with
    | some (.comparable k2, p) =>
      if k2 = k then
        match vp.acMatcher s.ord cache p s.text with
        | none => none
        | some r => dedicatedRun vp k r.1 rest
      else dedicatedRun vp k cache rest
    | _ => dedicatedRun vp k cache rest

/-- The provider of the event, when there is one, has a comparable dynamic type. -/
def ContextCall.Comparable {κ σ : Type} (s : ContextCall κ σ) : Prop :=
  ∀ p, s.provider ≠ some (.uncomparable, p)

/-- Two series of events that agree in the providers resolved and in the texts; the
orders in which rebuilds walk the maps may differ. -/
def SameEvents {κ σ : Type} : List (ContextCall κ σ) → List (ContextCall κ σ) → Prop
  | [], [] => True
  | a :: as, b :: bs => a.provider = b.provider ∧ a.text = b.text ∧ SameEvents as bs
  | _, _ => False

/-- Two caches with the same version that answer every text alike. -/
def CacheEquiv (c1 c2 : acCache) : Prop :=
  c1.lastVersion = c2.lastVersion ∧
    ∀ T, ∃ b, c1.machine.Match T = some b ∧ c2.machine.Match T = some b

/-- The caches of `acMatcher` and `dfaMatcher` for one provider correspond: the same
version, and either nothing built yet (version `-1`), or the automaton and the trie of
the same word list. -/
def CachesAgree (ac : acCache) (dfa : dfaCache) : Prop :=
  ac.lastVersion = dfa.lastVersion ∧
    ((dfa.root = none ∧ ac.lastVersion = -1) ∨
      ∃ W str, dfa.root = some (buildDFA W) ∧ ACInv W str ac.machine.heap)

/-- The patterns of `patternsAbBc` in another order, with a duplicate and an empty
pattern. -/
def patternsBcAb : List (List Rune) := [runes "bc", [], runes "ab", runes "bc"]

/-- A machine that holds the automaton of other patterns. -/
def usedMachine : ACMachine := ⟨buildTrie patternsHers, 7⟩

/-- Two providers, `0` with the keyword `ab` at version 1 and `1` with the keyword `bc`
at version 1, and three events: one for provider `0`, one that resolves to nil, one for
provider `1`. -/
def sampleCalls : List (ContextCall Nat DefaultKeywordManager) :=
  [⟨some (.comparable 0, NewKeywordManager [runes "ab"]), RangeOrder.insertion, runes "xab"⟩,
   ⟨none, RangeOrder.insertion, runes "ab"⟩,
   ⟨some (.comparable 1, NewKeywordManager [runes "bc"]), RangeOrder.insertion, runes "xab"⟩]

/-- A further event for provider `0`. -/
def sampleLastCall : ContextCall Nat DefaultKeywordManager :=
  ⟨some (.comparable 0, NewKeywordManager [runes "ab"]), RangeOrder.insertion, runes "abc"⟩

/-- The events of `sampleCalls` with another order for the rebuilds. -/
def sampleCallsReversed : List (ContextCall Nat DefaultKeywordManager) :=
  [⟨some (.comparable 0, NewKeywordManager [runes "ab"]), RangeOrder.reversed, runes "xab"⟩,
   ⟨none, RangeOrder.reversed, runes "ab"⟩,
   ⟨some (.comparable 1, NewKeywordManager [runes "bc"]), RangeOrder.reversed, runes "xab"⟩]

/-- The event of `sampleLastCall` with another order for the rebuilds. -/
def sampleLastCallReversed : ContextCall Nat DefaultKeywordManager :=
  ⟨some (.comparable 0, NewKeywordManager [runes "ab"]), RangeOrder.reversed, runes "abc"⟩

/-- An event that resolves to a provider of a dynamic type that is not comparable, holding
the keyword `ab`. -/
def uncomparableCall : ContextCall Nat DefaultKeywordManager :=
  ⟨some (.uncomparable, NewKeywordManager [runes "ab"]), RangeOrder.insertion, runes "abc"⟩

/-! ## Middleware chains (matcher.go, engine.go, middleware/middleware.go) -/

/-- The loop `for i := len(mws) - 1; i >= 0; i-- { handler = mws[i](handler) }` with
`n` rounds left, so that the next index is `n - 1`. -/
def wrapHandler {η : Type} (mws : List (η → η)) : Nat → η → η
  | 0, handler => handler
  | i + 1, handler =>
    match mws[i]? with
    | some mw => wrapHandler mws i (mw handler)
    | none => handler

/-- The method `Matcher.Handle`. -/
def Matcher.Handle {ε : Type} (m : Matcher ε) (handler : HandlerFunc ε) : Matcher ε :=
  { m with handler := some handler }

/-- The method `Matcher.Use`. -/
def Matcher.Use {ε : Type} (m : Matcher ε) (middlewares : List (HandlerFunc ε → HandlerFunc ε)) :
    Matcher ε :=
  { m with middlewares := m.middlewares ++ middlewares }

/-- The method `Matcher.Execute`: nothing happens without a handler; otherwise the
handler is wrapped in the middlewares and run on the context. -/
def Matcher.Execute {ε : Type} (m : Matcher ε) (ctx : Context ε) : Context ε :=
  match m.handler with
  | none => ctx
  | some handler => wrapHandler m.middlewares m.middlewares.length handler ctx

/-- The method `Engine.Use`. -/
def Engine.Use {ε : Type} (e : Engine ε) (middlewares : List (HandlerFunc ε → HandlerFunc ε)) :
    Engine ε :=
  { e with middlewares := e.middlewares ++ middlewares }

/-- The method `Engine.HandleEvent`: `handleEventInternal`, wrapped in the middlewares of
the engine, runs on a new context. -/
def Engine.HandleEvent {ε : Type} (e : Engine ε) (evt : Event) (bot : ε) : Context ε :=
  wrapHandler e.middlewares e.middlewares.length (fun ctx => (e.handleEventInternal ctx).1)
    (NewContext evt bot)

/-- The struct `middleware.Chain`; `η` is the type `HandlerFunc` of the package. -/
structure Chain (η : Type) where
  middlewares : List (η → η)

/-- The function `middleware.NewChain`. -/
def NewChain {η : Type} (middlewares : List (η → η)) : Chain η := ⟨middlewares⟩

/-- The method `Chain.Use`. -/
def Chain.Use {η : Type} (c : Chain η) (m : List (η → η)) : Chain η :=
  ⟨c.middlewares ++ m⟩

/-- The method `Chain.Then`. -/
def Chain.Then {η : Type} (c : Chain η) (handler : η) : η :=
  wrapHandler c.middlewares c.middlewares.length handler

/-- The composition `m0(m1(...m(n-1)(h)...))` of the middlewares `[m0, ..., m(n-1)]`
around `h`. -/
def nest {η : Type} : List (η → η) → η → η
  | [], h => h
  | m :: rest, h => m (nest rest h)

/-- A middleware that records `name` in the environment before it calls `next`. -/
def tagMiddleware (name : Nat) : HandlerFunc (List Nat) → HandlerFunc (List Nat) :=
  fun next ctx => next { ctx with env := ctx.env ++ [name] }

/-! ## limiter.go: the in-memory limiter

A `time.Time` is an integer count of nanoseconds, a `time.Duration` an `int64`, and
`t.After(u)` is `u < t`. -/

/-- The struct `MemoryLimiter` over keys `κ`: `records k = none` when the map has no
entry for `k`. -/
structure MemoryLimiter (κ : Type) where
  records : κ → Option (List Int)
  duration : Int
  maxCount : Int

/-- `NewMemoryLimiter(duration, maxCount, onExceed)`. -/
def NewMemoryLimiter {κ : Type} (duration maxCount : Int) : MemoryLimiter κ :=
  { records := fun _ => none, duration := duration, maxCount := maxCount }

/-- The value of an `int64` expression whose exact value is `x`: it wraps around. -/
def wrapInt64 (x : Int) : Int :=
  (x + 9223372036854775808) % 18446744073709551616 - 9223372036854775808

/-- The expression `now.Add(-l.duration)`; the negation of the `int64` duration wraps at
`math.MinInt64`. -/
def MemoryLimiter.windowStart {κ : Type} (l : MemoryLimiter κ) (now : Int) : Int :=
  now + wrapInt64 (-l.duration)

/-- The loop that keeps the records after `windowStart`. -/
def validRecords (windowStart : Int) (records : List Int) : List Int :=
  records.filter (fun t => decide (windowStart < t))

/-- The first block of `Allow` (lines 150-158): the records of an existing entry are
replaced by those after `windowStart`. -/
def MemoryLimiter.prune {κ : Type} [DecidableEq κ] (l : MemoryLimiter κ) (key : κ)
    (windowStart : Int) : MemoryLimiter κ :=
  match l.records key with
  | some records =>
    { l with records := Function.update l.records key (some (validRecords windowStart records)) }
  | none => l

/-- The map read `l.records[key]`, the nil slice for a missing key. -/
def MemoryLimiter.lookup {κ : Type} (l : MemoryLimiter κ) (key : κ) : List Int :=
  match l.records key with
  | some records => records
  | none => []

/-- The method `Allow`, called at the time `now`. Returns the limiter after the call and
the result. -/
def MemoryLimiter.Allow {κ : Type} [DecidableEq κ] (l : MemoryLimiter κ) (key : κ) (now : Int) :
    MemoryLimiter κ × Bool :=
  let windowStart := l.windowStart now
  let l1 := l.prune key windowStart
  if l1.maxCount ≤ ((l1.lookup key).length : Int) then (l1, false)
  else
    ({ l1 with records := Function.update l1.records key (some (l1.lookup key ++ [now])) }, true)

/-- The method `Reset`. -/
def MemoryLimiter.Reset {κ : Type} [DecidableEq κ] (l : MemoryLimiter κ) (key : κ) :
    MemoryLimiter κ :=
  { l with records := Function.update l.records key none }

/-- The body of the loop of `cleanup` for one entry: the records after `windowStart`, or
no entry when none is left. -/
def sweepEntry (windowStart : Int) : Option (List Int) → Option (List Int)
  | some records =>
    if (validRecords windowStart records).length = 0 then none
    else some (validRecords windowStart records)
  | none => none

/-- One round of the loop of `cleanup`, at the time `now`: every entry keeps its records
after the window start, and an entry left without records is deleted. -/
def MemoryLimiter.sweep {κ : Type} (l : MemoryLimiter κ) (now : Int) : MemoryLimiter κ :=
  { l with records := fun key => sweepEntry (l.windowStart now) (l.records key) }

/-- A step of a sequential run of a limiter: a call of `Allow`, or a round of `cleanup`,
at a given time. -/
inductive LimiterStep (κ : Type) where
  | Allow (key : κ) (now : Int)
  | sweep (now : Int)

/-- The time of a step. -/
def LimiterStep.time {κ : Type} : LimiterStep κ → Int
  | .Allow _ now => now
  | .sweep now => now

/-- The limiter after the steps, and the calls of `Allow` with their results. -/
def MemoryLimiter.run {κ : Type} [DecidableEq κ] :
    MemoryLimiter κ → List (LimiterStep κ) → MemoryLimiter κ × List (κ × Int × Bool)
  | l, [] => (l, [])
  | l, .Allow key now :: rest =>
    let r := l.Allow key now
    let r2 := MemoryLimiter.run r.1 rest
    (r2.1, (key, now, r.2) :: r2.2)
  | l, .sweep now :: rest => MemoryLimiter.run (l.sweep now) rest

/-- The times of the admitted calls for `key` in a log of calls. -/
def admitted {κ : Type} [DecidableEq κ] (key : κ) (log : List (κ × Int × Bool)) : List Int :=
  (log.filter (fun c => decide (c.1 = key) && c.2.2)).map (fun c => c.2.1)

/-- The number of times of `ts` in the interval `(t - duration, t]`. -/
def countWithin (duration t : Int) (ts : List Int) : Nat :=
  (ts.filter (fun s => decide (t - duration < s) && decide (s ≤ t))).length

/-- The steps are made at non-decreasing times. -/
def TimesAscend {κ : Type} (steps : List (LimiterStep κ)) : Prop :=
  steps.Pairwise (fun a b => a.time ≤ b.time)

/-- Invariant of a run: the records of every key agree, from any late enough time on, with
the admitted calls; no admitted call is later than a late enough time; and no window holds
more than `mc` admitted calls. -/
structure LimiterInv {κ : Type} (l : MemoryLimiter κ) (d mc : Int) (adm : κ → List Int)
    (late : Int → Prop) : Prop where
  dur : l.duration = d
  range : -9223372036854775808 < d ∧ d < 9223372036854775808
  max : l.maxCount = mc
  recs : ∀ key now, late now →
    validRecords (now - d) (l.lookup key) = validRecords (now - d) (adm key)
  le : ∀ key t now, t ∈ adm key → late now → t ≤ now
  cnt : ∀ key t, (countWithin d t (adm key) : Int) ≤ mc

/-- Five calls for one key at the times 0 to 4. -/
def fiveCalls : List (LimiterStep Nat) :=
  [.Allow 0 0, .Allow 0 1, .Allow 0 2, .Allow 0 3, .Allow 0 4]

/-- A run on two keys with a window of 10 and at most 2 calls. -/
def sampleLimiterRun : List (LimiterStep Nat) :=
  [.Allow 0 1, .Allow 0 2, .Allow 1 2, .Allow 0 5, .sweep 8, .Allow 0 11, .Allow 0 12,
   .Allow 0 12, .Allow 0 12]

/-! ## matcher.go: concurrent callers of the predicate of `acMatcher`

Callers run in goroutines. The accesses to the cache are made under `cache.mu`, so
every locked block is one step; the steps of the callers interleave in any order. -/

/-- Where a caller of the predicate stands. -/
inductive CallerPc where
  /-- Before `provider.GetVersion()`. -/
  | start
  /-- Before the block under `RLock` that computes `needUpdate`. -/
  | check (version : Int)
  /-- With `needUpdate` true, before `provider.GetKeywords()`. -/
  | snapshot (version : Int)
  /-- With a non-empty snapshot, before the block under `Lock`. -/
  | lock (version : Int) (words : List (List Rune))
  /-- Before `cache.machine.Match(text)`. -/
  | matching
  /-- After the `return`. -/
  | returned
deriving DecidableEq

/-- The cache shared by the callers, the number of calls of `Build` made so far, and
where each caller stands. -/
structure RaceState where
  cache : acCache
  rebuilds : Nat
  pcs : Nat → CallerPc

/-- The state in which no caller has started. -/
def RaceState.start (cache : acCache) : RaceState :=
  { cache := cache, rebuilds := 0, pcs := fun _ => CallerPc.start }

/-- The caller `i` moves to `pc`. -/
def RaceState.goto (s : RaceState) (i : Nat) (pc : CallerPc) : RaceState :=
  { s with pcs := Function.update s.pcs i pc }

/-- The next step of the caller `i` of the predicate of `acMatcher(provider)`, the
provider being in the state `p`; `ord i` is the order in which a rebuild by the caller
`i` walks the children maps. A caller that has returned does nothing. -/
def callerStep {σ : Type} (provider : VersionedKeywordProvider σ) (ord : Nat → RangeOrder)
    (p : σ) (s : RaceState) (i : Nat) : Option RaceState :=
  match s.pcs i with
  | .start => some (s.goto i (.check (provider.GetVersion p)))
  | .check version =>
    if s.cache.lastVersion ≠ version then some (s.goto i (.snapshot version))
    else some (s.goto i .matching)
  | .snapshot version =>
    if (provider.GetKeywords p).length = 0 then some (s.goto i .returned)
    else some (s.goto i (.lock version (provider.GetKeywords p)))
  | .lock version words =>
    if s.cache.lastVersion ≠ version then
      match s.cache.machine.Build (ord i) words with
      | none => none
      | some machine =>
        some { cache := { machine := machine, lastVersion := version },
               rebuilds := s.rebuilds + 1,
               pcs := Function.update s.pcs i .matching }
    else some (s.goto i .matching)
  | .matching => some (s.goto i .returned)
  | .returned => some s

/-- The state after the callers have taken their steps in the order of the schedule. -/
def raceRun {σ : Type} (provider : VersionedKeywordProvider σ) (ord : Nat → RangeOrder)
    (p : σ) : RaceState → List Nat → Option RaceState
  | s, [] => some s
  | s, i :: rest =>
    match callerStep provider ord p s i with
    | none => none
    | some s2 => raceRun provider ord p s2 rest

/-- What a caller holds was read from the provider in the state with version `v` and
keywords `K`. -/
def CallerPc.Observes (v : Int) (K : List (List Rune)) : CallerPc → Prop
  | .check version => version = v
  | .snapshot version => version = v
  | .lock version words => version = v ∧ words = K ∧ K.length ≠ 0
  | _ => True

/-- The caller has passed the point where a rebuild could be needed. -/
def CallerPc.Passed : CallerPc → Prop
  | .matching => True
  | .returned => True
  | _ => False

/-- Invariant of the interleaved steps of callers of the predicate of `acMatcher` who all
see the version `v` and the keywords `K`, started with the cache `c0`. -/
structure RaceInv (c0 : acCache) (v : Int) (K : List (List Rune)) (s : RaceState) : Prop where
  obs : ∀ i, (s.pcs i).Observes v K
  once : (s.rebuilds = 0 ∧ s.cache = c0) ∨ (s.rebuilds = 1 ∧ s.cache.lastVersion = v)
  built : c0.lastVersion ≠ v → K.length ≠ 0 → s.rebuilds = 0 → ∀ i, ¬ (s.pcs i).Passed
  empty : K.length = 0 → s.rebuilds = 0

/-! ### Concurrent callers of the predicate of `dfaMatcher` -/

/-- The cache shared by the callers of the predicate of `dfaMatcher`, the number of calls
of `buildDFA` made so far, and where each caller stands. -/
structure DfaRaceState where
  cache : dfaCache
  rebuilds : Nat
  pcs : Nat → CallerPc

/-- The state in which no caller has started. -/
def DfaRaceState.start (cache : dfaCache) : DfaRaceState :=
  { cache := cache, rebuilds := 0, pcs := fun _ => CallerPc.start }

/-- The caller `i` moves to `pc`. -/
def DfaRaceState.goto (s : DfaRaceState) (i : Nat) (pc : CallerPc) : DfaRaceState :=
  { s with pcs := Function.update s.pcs i pc }

/-- The test `cache.root == nil || cache.lastVersion != version`. -/
def dfaCache.stale (cache : dfaCache) (version : Int) : Bool :=
  cache.root.isNone || decide (cache.lastVersion ≠ version)

/-- The next step of the caller `i` of the predicate of `dfaMatcher(provider)`, the
provider being in the state `p`. A caller that has returned does nothing. -/
def dfaCallerStep {σ : Type} (provider : VersionedKeywordProvider σ) (p : σ)
    (s : DfaRaceState) (i : Nat) : DfaRaceState :=
  match s.pcs i with
  | .start => s.goto i (.check (provider.GetVersion p))
  | .check version =>
    if s.cache.stale version then s.goto i (.snapshot version) else s.goto i .matching
  | .snapshot version =>
    if (provider.GetKeywords p).length = 0 then s.goto i .returned
    else s.goto i (.lock version (provider.GetKeywords p))
  | .lock version words =>
    if s.cache.stale version then
      { cache := { root := some (buildDFA words), lastVersion := version },
        rebuilds := s.rebuilds + 1,
        pcs := Function.update s.pcs i .matching }
    else s.goto i .matching
  | .matching => s.goto i .returned
  | .returned => s

/-- The state after the callers have taken their steps in the order of the schedule. -/
def dfaRaceRun {σ : Type} (provider : VersionedKeywordProvider σ) (p : σ) :
    DfaRaceState → List Nat → DfaRaceState
  | s, [] => s
  | s, i :: rest => dfaRaceRun provider p (dfaCallerStep provider p s i) rest

/-- Invariant of the interleaved steps of callers of the predicate of `dfaMatcher`. -/
structure DfaRaceInv (c0 : dfaCache) (v : Int) (K : List (List Rune)) (s : DfaRaceState) :
    Prop where
  obs : ∀ i, (s.pcs i).Observes v K
  once : (s.rebuilds = 0 ∧ s.cache = c0) ∨ (s.rebuilds = 1 ∧ s.cache.stale v = false)
  built : c0.stale v = true → K.length ≠ 0 → s.rebuilds = 0 → ∀ i, ¬ (s.pcs i).Passed
  empty : K.length = 0 → s.rebuilds = 0

/-! ### Concurrent callers of the predicate of `acMatcherWithContext` -/

/-- Where a caller of the predicate of `acMatcherWithContext` stands, once `GetProvider`
has returned a provider. -/
inductive ContextCallerPc where
  /-- Before `cacheMap.LoadOrStore`. -/
  | start
  /-- Before `versionedProvider.GetVersion()`. -/
  | loaded
  /-- Before the block under `RLock` that computes `needUpdate`. -/
  | check (version : Int)
  /-- With `needUpdate` true, before `versionedProvider.GetKeywords()`. -/
  | snapshot (version : Int)
  /-- With a non-empty snapshot, before the block under `Lock`. -/
  | lock (version : Int) (words : List (List Rune))
  /-- Before `cache.machine.Match(text)`. -/
  | matching
  /-- After the `return`. -/
  | returned
deriving DecidableEq

/-- The cache map shared by the callers, the number of calls of `Build` made so far, and
where each caller stands. -/
structure ContextRaceState (κ : Type) where
  cacheMap : κ → Option acCache
  rebuilds : Nat
  pcs : Nat → ContextCallerPc

/-- The state in which no caller has started. -/
def ContextRaceState.start {κ : Type} (cacheMap : κ → Option acCache) : ContextRaceState κ :=
  { cacheMap := cacheMap, rebuilds := 0, pcs := fun _ => ContextCallerPc.start }

/-- The caller `i` moves to `pc`. -/
def ContextRaceState.goto {κ : Type} (s : ContextRaceState κ) (i : Nat) (pc : ContextCallerPc) :
    ContextRaceState κ :=
  { s with pcs := Function.update s.pcs i pc }

/-- The next step of the caller `i` of the predicate of `acMatcherWithContext`, for whom
`GetProvider` has returned the provider with the key `key`, in the state `p`. The cache
of the provider is the entry of the map, which `LoadOrStore` makes once. The result is
`none` when the step panics. A caller that has returned does nothing. -/
def contextCallerStep {κ σ : Type} [DecidableEq κ] (provider : VersionedKeywordProvider σ)
    (ord : Nat → RangeOrder) (key : ProviderKey κ) (p : σ) (s : ContextRaceState κ) (i : Nat) :
    Option (ContextRaceState κ) :=
  match key with
  | .uncomparable =>
    match s.pcs i with
    | .start => none
    | _ => some s
  | .comparable k =>
    match s.pcs i with
    | .start =>
      some { cacheMap := Function.update s.cacheMap k (some (loadOrStore s.cacheMap k)),
             rebuilds := s.rebuilds,
             pcs := Function.update s.pcs i .loaded }
    | .loaded => some (s.goto i (.check (provider.GetVersion p)))
    | .check version =>
      if (loadOrStore s.cacheMap k).lastVersion ≠ version then some (s.goto i (.snapshot version))
      else some (s.goto i .matching)
    | .snapshot version =>
      if (provider.GetKeywords p).length = 0 then some (s.goto i .returned)
      else some (s.goto i (.lock version (provider.GetKeywords p)))
    | .lock version words =>
      if (loadOrStore s.cacheMap k).lastVersion ≠ version then
        match (loadOrStore s.cacheMap k).machine.Build (ord i) words with
        | none => none
        | some machine =>
          some { cacheMap := Function.update s.cacheMap k
                   (some { machine := machine, lastVersion := version }),
                 rebuilds := s.rebuilds + 1,
                 pcs := Function.update s.pcs i .matching }
      else some (s.goto i .matching)
    | .matching => some (s.goto i .returned)
    | .returned => some s

/-- The state after the callers have taken their steps in the order of the schedule. -/
def contextRaceRun {κ σ : Type} [DecidableEq κ] (provider : VersionedKeywordProvider σ)
    (ord : Nat → RangeOrder) (key : ProviderKey κ) (p : σ) :
    ContextRaceState κ → List Nat → Option (ContextRaceState κ)
  | s, [] => some s
  | s, i :: rest =>
    match contextCallerStep provider ord key p s i with
    | none => none
    | some s2 => contextRaceRun provider ord key p s2 rest

/-- What a caller holds was read from the provider in the state with version `v` and
keywords `K`. -/
def ContextCallerPc.Observes (v : Int) (K : List (List Rune)) : ContextCallerPc → Prop
  | .check version => version = v
  | .snapshot version => version = v
  | .lock version words => version = v ∧ words = K ∧ K.length ≠ 0
  | _ => True

/-- The caller has passed the point where a rebuild could be needed. -/
def ContextCallerPc.Passed : ContextCallerPc → Prop
  | .matching => True
  | .returned => True
  | _ => False

/-- Invariant of the interleaved steps of callers of the predicate of
`acMatcherWithContext` that resolve to the provider with the key `k`. -/
structure ContextRaceInv {κ : Type} (k : κ) (c0 : acCache) (v : Int) (K : List (List Rune))
    (s : ContextRaceState κ) : Prop where
  obs : ∀ i, (s.pcs i).Observes v K
  once : (s.rebuilds = 0 ∧ loadOrStore s.cacheMap k = c0) ∨
    (s.rebuilds = 1 ∧ (loadOrStore s.cacheMap k).lastVersion = v)
  built : c0.lastVersion ≠ v → K.length ≠ 0 → s.rebuilds = 0 → ∀ i, ¬ (s.pcs i).Passed
  empty : K.length = 0 → s.rebuilds = 0

/-- A schedule that interleaves the steps of the callers `0` and `1` of the predicate of
`acMatcherWithContext` until both have returned. -/
def sampleContextSchedule : List Nat := [0, 1, 0, 1, 1, 0, 1, 0, 0, 1, 0, 1]

/-- A provider state with version 2 and no keywords. -/
def clearedManager : DefaultKeywordManager := (NewKeywordManager [runes "ab"]).Clear

/-- A provider state with version 2 and the keywords `ab`, `bc`. -/
def grownManager : DefaultKeywordManager := (NewKeywordManager [runes "ab"]).AddKeyword (runes "bc")

/-- A schedule that interleaves the steps of the callers `0` and `1` until both have
returned. -/
def sampleSchedule : List Nat := [0, 1, 0, 1, 1, 0, 1, 0, 0, 1]

/-! ## Paths of the automaton -/

/-- The node `v` is reached from the root by the path that spells `w`. -/
inductive Spells (h : Heap) : Nat → List Rune → Prop where
  | root : Spells h 0 []
  | child {u v : Nat} {w : List Rune} {c : Rune} :
      Spells h u w → h.child u c = some v → Spells h v (w ++ [c])

/-- The node reached from `node` by the path that spells `w`, if there is one. -/
def nodeOf (h : Heap) : Nat → List Rune → Option Nat
  | node, [] => some node
  | node, c :: rest =>
    match h.child node c with
    | some next => nodeOf h next rest
    | none => none

/-- The patterns `he`, `she`, `his`, `hers`. -/
def patternsUshers : List (List Rune) := [runes "he", runes "she", runes "his", runes "hers"]

/-! ## matcher.go: the predicate of `acMatcher` with its calls of `Build` counted -/

/-- One call of the predicate returned by `acMatcher(provider)`, as
`VersionedKeywordProvider.acMatcher`, returning in addition the number of calls of
`cache.machine.Build` it has made. -/
def VersionedKeywordProvider.acMatcherCounted {σ : Type} (provider : VersionedKeywordProvider σ)
    (ord : RangeOrder) (cache : acCache) (p : σ) (text : List Rune) :
    Option (acCache × Bool × Nat) :=
  let version := provider.GetVersion p
  let needUpdate := decide (cache.lastVersion ≠ version)
  if needUpdate then
    let words := provider.GetKeywords p
    if words.length = 0 then some (cache, false, 0)
    else
      match cache.machine.Build ord words with
      | none => none
      | some machine =>
        match machine.Match text with
        | none => none
        | some b => some ({ machine := machine, lastVersion := version }, b, 1)
  else
    match cache.machine.Match text with
    | none => none
    | some b => some (cache, b, 0)

/-- The cache holds an automaton: that of a fresh machine or one that `Build` made. -/
def acCache.Built (cache : acCache) : Prop :=
  ∃ W str, ACInv W str cache.machine.heap

/-! ## filter.go: the replacing filter -/

/-- The plain text of the message after the filter returned by `AsReplacer(replace)` has
run on a message with the plain text `text`: the message is replaced by the single
text segment `Filter(text, replace)` when `Contains(text)`, and left alone otherwise. -/
def SensitiveFilter.AsReplacer (sf : SensitiveFilter) (replace : Rune) (text : List Rune) :
    List Rune :=
  if sf.Contains text then sf.Filter text replace else text

/-! ## sort.Slice for slices of more than 12 elements

`Engine.addMatcher` calls the library function `sort.Slice`, which since Go 1.19 runs
`pdqsort_func` (file `sort/zsortfunc.go` of the Go distribution) with
`limit = bits.Len(length)`. The functions below follow that file. A slice is a list,
`data.Less(i, j)` compares the elements at two places and `data.Swap(i, j)` exchanges
them. The one function left as a parameter is `breakPatterns_func`, which moves three
elements to places drawn from a pseudo-random sequence; a parameter that gives `none`
stands for a run in which that function must not be reached. -/

/-- The call `data.Less(i, j)`. -/
def lessAt {α : Type} (less : α → α → Bool) (data : List α) (i j : Nat) : Bool :=
  match data[i]?, data[j]? with
  | some x, some y => less x y
  | _, _ => false

/-- The call `data.Swap(i, j)`. -/
def swapAt {α : Type} (data : List α) (i j : Nat) : List α :=
  match data[i]?, data[j]? with
  | some x, some y => (data.set i y).set j x
  | _, _ => data

/-- The inner loop of `insertionSort_func`:
`for j := i; j > a && data.Less(j, j-1); j-- { data.Swap(j, j-1) }`. -/
def insertionSink {α : Type} (less : α → α → Bool) (a : Nat) : Nat → List α → List α
  | 0, data => data
  | j + 1, data =>
    if j + 1 > a && lessAt less data (j + 1) j then
      insertionSink less a j (swapAt data (j + 1) j)
    else data

/-- `insertionSort_func(data, a, b)`: the inner loop for `i` from `a + 1` up to `b - 1`. -/
def insertionSort_func {α : Type} (less : α → α → Bool) (data : List α) (a b : Nat) : List α :=
  (List.range' (a + 1) (b - (a + 1))).foldl (fun d i => insertionSink less a i d) data

/-- `siftDown_func(data, lo, hi, first)`; the loop runs at most `hi` times, which the
first argument counts. -/
def siftDown_func {α : Type} (less : α → α → Bool) (hi first : Nat) :
    Nat → List α → Nat → List α
  | 0, data, _ => data
  | fuel + 1, data, root =>
    let child := 2 * root + 1
    if child ≥ hi then data
    else
      let child2 :=
        if child + 1 < hi && lessAt less data (first + child) (first + child + 1) then child + 1
        else child
      if !lessAt less data (first + root) (first + child2) then data
      else siftDown_func less hi first fuel (swapAt data (first + root) (first + child2)) child2

/-- `heapSort_func(data, a, b)`. -/
def heapSort_func {α : Type} (less : α → α → Bool) (data : List α) (a b : Nat) : List α :=
  let hi := b - a
  let built := ((List.range ((hi - 1) / 2 + 1)).reverse).foldl
    (fun d i => siftDown_func less hi a hi d i) data
  ((List.range hi).reverse).foldl
    (fun d i => siftDown_func less i a hi (swapAt d a (a + i)) 0) built

/-- The loop `for i <= j && p(i) { i++ }`; it runs at most `j + 1 - i` times, which the
first argument counts. The result is the last value of `i`. -/
def scanUp (p : Nat → Bool) (j : Nat) : Nat → Nat → Nat
  | 0, i => i
  | fuel + 1, i => if i ≤ j && p i then scanUp p j fuel (i + 1) else i

/-- The loop `for i <= j && p(j) { j-- }`, for `i ≥ 1`. The result is the last value of
`j`. -/
def scanDown (p : Nat → Bool) (i : Nat) : Nat → Nat
  | 0 => 0
  | j + 1 => if i ≤ j + 1 && p (j + 1) then scanDown p i j else j + 1

/-- The second loop of `partition_func`, which ends with `break`; the result is the
slice and the last value of `j`. The first argument counts the rounds. -/
def partitionLoop {α : Type} (less : α → α → Bool) (a : Nat) :
    Nat → List α → Nat → Nat → List α × Nat
  | 0, data, _, j => (data, j)
  | fuel + 1, data, i, j =>
    let i1 := scanUp (fun x => lessAt less data x a) j (j + 1 - i) i
    let j1 := scanDown (fun x => !lessAt less data x a) i1 j
    if i1 > j1 then (data, j1)
    else partitionLoop less a fuel (swapAt data i1 j1) (i1 + 1) (j1 - 1)

/-- `partition_func(data, a, b, pivot)`: the slice, `newpivot`, `alreadyPartitioned`. -/
def partition_func {α : Type} (less : α → α → Bool) (data : List α) (a b pivot : Nat) :
    List α × Nat × Bool :=
  let d0 := swapAt data a pivot
  let i := scanUp (fun x => lessAt less d0 x a) (b - 1) (b - 1 - a) (a + 1)
  let j := scanDown (fun x => !lessAt less d0 x a) i (b - 1)
  if i > j then (swapAt d0 j a, j, true)
  else
    let d1 := swapAt d0 i j
    let r := partitionLoop less a (b - a) d1 (i + 1) (j - 1)
    (swapAt r.1 r.2 a, r.2, false)

/-- The loop of `partitionEqual_func`; the result is the slice and the last value of
`i`. The first argument counts the rounds. -/
def partitionEqualLoop {α : Type} (less : α → α → Bool) (a : Nat) :
    Nat → List α → Nat → Nat → List α × Nat
  | 0, data, i, _ => (data, i)
  | fuel + 1, data, i, j =>
    let i1 := scanUp (fun x => !lessAt less data a x) j (j + 1 - i) i
    let j1 := scanDown (fun x => lessAt less data a x) i1 j
    if i1 > j1 then (data, i1)
    else partitionEqualLoop less a fuel (swapAt data i1 j1) (i1 + 1) (j1 - 1)

/-- `partitionEqual_func(data, a, b, pivot)`: the slice and `newpivot`. -/
def partitionEqual_func {α : Type} (less : α → α → Bool) (data : List α) (a b pivot : Nat) :
    List α × Nat :=
  partitionEqualLoop less a (b - a) (swapAt data a pivot) (a + 1) (b - 1)

/-- The loop `for j := i - 1; j >= 1; j-- { if !data.Less(j, j-1) { break }; data.Swap(j, j-1) }`
of `partialInsertionSort_func`, from the value `j` on. -/
def shiftLeft {α : Type} (less : α → α → Bool) : Nat → List α → List α
  | 0, data => data
  | j + 1, data =>
    if !lessAt less data (j + 1) j then data
    else shiftLeft less j (swapAt data (j + 1) j)

/-- The loop `for j := i + 1; j < b; j++ { if !data.Less(j, j-1) { break }; data.Swap(j, j-1) }`
of `partialInsertionSort_func`, from the value `j` on; the first argument counts the
rounds. -/
def shiftRight {α : Type} (less : α → α → Bool) (b : Nat) : Nat → List α → Nat → List α
  | 0, data, _ => data
  | fuel + 1, data, j =>
    if j < b then
      if !lessAt less data j (j - 1) then data
      else shiftRight less b fuel (swapAt data j (j - 1)) (j + 1)
    else data

/-- The outer loop of `partialInsertionSort_func(data, a, b)`; the first argument is the
number of rounds left of `maxSteps = 5`. The result is the slice and whether it is
sorted. -/
def partialInsertionLoop {α : Type} (less : α → α → Bool) (a b : Nat) :
    Nat → List α → Nat → List α × Bool
  | 0, data, _ => (data, false)
  | steps + 1, data, i =>
    let i1 := scanUp (fun x => !lessAt less data x (x - 1)) (b - 1) (b - i) i
    if i1 = b then (data, true)
    else if b - a < 50 then (data, false)
    else
      let d1 := swapAt data i1 (i1 - 1)
      let d2 := if i1 - a ≥ 2 then shiftLeft less (i1 - 1) d1 else d1
      let d3 := if b - i1 ≥ 2 then shiftRight less b (b - i1) d2 (i1 + 1) else d2
      partialInsertionLoop less a b steps d3 i1

/-- `partialInsertionSort_func(data, a, b)`. -/
def partialInsertionSort_func {α : Type} (less : α → α → Bool) (data : List α) (a b : Nat) :
    List α × Bool :=
  partialInsertionLoop less a b 5 data (a + 1)

/-- `order2_func(data, a, b, swaps)`: the two indices and the new value of `swaps`. -/
def order2_func {α : Type} (less : α → α → Bool) (data : List α) (a b swaps : Nat) :
    Nat × Nat × Nat :=
  if lessAt less data b a then (b, a, swaps + 1) else (a, b, swaps)

/-- `median_func(data, a, b, c, swaps)`: the index and the new value of `swaps`. -/
def median_func {α : Type} (less : α → α → Bool) (data : List α) (a b c swaps : Nat) :
    Nat × Nat :=
  let r1 := order2_func less data a b swaps
  let r2 := order2_func less data r1.2.1 c r1.2.2
  let r3 := order2_func less data r1.1 r2.1 r2.2.2
  (r3.2.1, r3.2.2)

/-- `medianAdjacent_func(data, a, swaps)`. -/
def medianAdjacent_func {α : Type} (less : α → α → Bool) (data : List α) (a swaps : Nat) :
    Nat × Nat :=
  median_func less data (a - 1) a (a + 1) swaps

/-- The type `sortedHint`. -/
inductive sortedHint where
  | unknownHint
  | increasingHint
  | decreasingHint
deriving DecidableEq

/-- `choosePivot_func(data, a, b)`: the pivot and the hint. -/
def choosePivot_func {α : Type} (less : α → α → Bool) (data : List α) (a b : Nat) :
    Nat × sortedHint :=
  let l := b - a
  let i := a + l / 4 * 1
  let j := a + l / 4 * 2
  let k := a + l / 4 * 3
  let r : Nat × Nat :=
    if l ≥ 8 then
      if l ≥ 50 then
        let ri := medianAdjacent_func less data i 0
        let rj := medianAdjacent_func less data j ri.2
        let rk := medianAdjacent_func less data k rj.2
        median_func less data ri.1 rj.1 rk.1 rk.2
      else median_func less data i j k 0
    else (j, 0)
  if r.2 = 0 then (r.1, .increasingHint)
  else if r.2 = 12 then (r.1, .decreasingHint)
  else (r.1, .unknownHint)

/-- The loop of `reverseRange_func`; the first argument counts the rounds. -/
def reverseLoop {α : Type} : Nat → List α → Nat → Nat → List α
  | 0, data, _, _ => data
  | fuel + 1, data, i, j =>
    if i < j then reverseLoop fuel (swapAt data i j) (i + 1) (j - 1) else data

/-- `reverseRange_func(data, a, b)`. -/
def reverseRange_func {α : Type} (data : List α) (a b : Nat) : List α :=
  reverseLoop (b - a) data a (b - 1)

/-- `bits.Len(n)`: the number of binary digits of `n`; the first argument counts them. -/
def bitsLen : Nat → Nat → Nat
  | 0, _ => 0
  | fuel + 1, n => if n = 0 then 0 else bitsLen fuel (n / 2) + 1

/-- What one round of the loop of `pdqsort_func` does with the slice before it goes on. -/
inductive PdqRound (α : Type) where
  /-- The `return` after `partialInsertionSort_func` has sorted the slice. -/
  | sorted (data : List α)
  /-- The `a = mid; continue` after `partitionEqual_func`. -/
  | equal (data : List α) (mid : Nat)
  /-- The results of `partition_func`. -/
  | parted (data : List α) (mid : Nat) (alreadyPartitioned : Bool)

/-- One round of the loop of `pdqsort_func` from `choosePivot_func` to the partition, on a
slice of more than 12 elements. -/
def pdqsortRound {α : Type} (less : α → α → Bool) (data : List α) (a b : Nat)
    (wasBalanced wasPartitioned : Bool) : PdqRound α :=
  let c := choosePivot_func less data a b
  let d2 := if c.2 = .decreasingHint then reverseRange_func data a b else data
  let pivot := if c.2 = .decreasingHint then (b - 1) - (c.1 - a) else c.1
  let hint := if c.2 = .decreasingHint then sortedHint.increasingHint else c.2
  let tryPartial := wasBalanced && wasPartitioned && decide (hint = .increasingHint)
  let ps := if tryPartial then partialInsertionSort_func less d2 a b else (d2, false)
  if ps.2 then .sorted ps.1
  else if a > 0 && !lessAt less ps.1 (a - 1) pivot then
    let pe := partitionEqual_func less ps.1 a b pivot
    .equal pe.1 pe.2
  else
    let pt := partition_func less ps.1 a b pivot
    .parted pt.1 pt.2.1 pt.2.2

/-- `pdqsort_func(data, a, b, limit)`, entered in its loop with the given values of
`wasBalanced` and `wasPartitioned`. `breakPatterns` stands for `breakPatterns_func`. The
first argument bounds the rounds of the loop and the depth of the calls; `none` means
that it did not suffice, or that `breakPatterns` gave `none`. -/
def pdqsortLoop {α : Type} (breakPatterns : List α → Nat → Nat → Option (List α))
    (less : α → α → Bool) :
    Nat → List α → Nat → Nat → Nat → Bool → Bool → Option (List α)
  | 0, _, _, _, _, _, _ => none
  | fuel + 1, data, a, b, limit, wasBalanced, wasPartitioned =>
    if b - a ≤ 12 then some (insertionSort_func less data a b)
    else if limit = 0 then some (heapSort_func less data a b)
    else
      match (if !wasBalanced then breakPatterns data a b else some data) with
      | none => none
      | some d1 =>
        match pdqsortRound less d1 a b wasBalanced wasPartitioned with
        | .sorted d => some d
        | .equal d mid =>
          pdqsortLoop breakPatterns less fuel d mid b
            (if !wasBalanced then limit - 1 else limit) wasBalanced wasPartitioned
        | .parted d mid alreadyPartitioned =>
          if mid - a < b - mid then
            match pdqsortLoop breakPatterns less fuel d a mid
                (if !wasBalanced then limit - 1 else limit) true true with
            | none => none
            | some d4 =>
              pdqsortLoop breakPatterns less fuel d4 (mid + 1) b
                (if !wasBalanced then limit - 1 else limit)
                (decide (mid - a ≥ (b - a) / 8)) alreadyPartitioned
          else
            match pdqsortLoop breakPatterns less fuel d (mid + 1) b
                (if !wasBalanced then limit - 1 else limit) true true with
            | none => none
            | some d4 =>
              pdqsortLoop breakPatterns less fuel d4 a mid
                (if !wasBalanced then limit - 1 else limit)
                (decide (b - mid ≥ (b - a) / 8)) alreadyPartitioned

/-- `pdqsort_func(data, a, b, limit)`. -/
def pdqsort_func {α : Type} (breakPatterns : List α → Nat → Nat → Option (List α))
    (less : α → α → Bool) (data : List α) (a b limit : Nat) : Option (List α) :=
  pdqsortLoop breakPatterns less (b - a + 1) data a b limit true true

/-- `sort.Slice(x, less)` as the library has it:
`pdqsort_func(lessSwap{less, swap}, 0, length, bits.Len(uint(length)))`, where `less`
compares the elements that stand at two places of the slice. -/
def sortSlicePdq {α : Type} (breakPatterns : List α → Nat → Nat → Option (List α)) :
    SliceSorter α :=
  fun less l =>
    (pdqsort_func breakPatterns less l 0 l.length (bitsLen l.length l.length)).getD l

/-- The parameter for runs that never reach `breakPatterns_func`: a run that reaches it
has no result. -/
def breakPatternsUnreached {α : Type} : List α → Nat → Nat → Option (List α) :=
  fun _ _ _ => none

/-- Priorities of thirteen matchers registered in turn: all `0` but the twelfth, which
is given priority `1`. -/
def thirteenPriorities : List Int := [0, 0, 0, 0, 0, 0, 0, 0, 0, 0, 0, 1, 0]

/-! ## Association lists and the node store -/

theorem lookup_cons_eq (c k : Rune) (v : Nat) (m : List (Rune × Nat)) :
    List.lookup c ((k, v) :: m) = if c = k then some v else List.lookup c m := by
  by_cases hck : c = k
  · subst hck; simp [List.lookup]
  · have : (c == k) = false := by simpa using hck
    simp [List.lookup, this, hck]

theorem mem_of_lookup {m : List (Rune × Nat)} {c : Rune} {v : Nat}
    (hl : List.lookup c m = some v) : (c, v) ∈ m := by
  induction m with
  | nil => simp at hl
  | cons a m ih =>
    obtain ⟨k, x⟩ := a
    rw [lookup_cons_eq] at hl
    by_cases hck : c = k
    · rw [if_pos hck] at hl
      cases hl; subst hck; exact List.mem_cons_self _ _
    · rw [if_neg hck] at hl
      exact List.mem_cons_of_mem _ (ih hl)

theorem lookup_of_mem {m : List (Rune × Nat)} (hk : (m.map Prod.fst).Nodup) {c : Rune} {v : Nat}
    (hm : (c, v) ∈ m) : List.lookup c m = some v := by
  induction m with
  | nil => simp at hm
  | cons a m ih =>
    obtain ⟨k, x⟩ := a
    rw [lookup_cons_eq]
    simp only [List.map_cons, List.nodup_cons] at hk
    rcases List.mem_cons.1 hm with heq | hin
    · cases heq; simp
    · have hne : c ≠ k := by
        intro hck; subst hck
        exact hk.1 (List.mem_map.2 ⟨(c, v), hin, rfl⟩)
      rw [if_neg hne]; exact ih hk.2 hin

theorem not_mem_keys_of_lookup_none {m : List (Rune × Nat)} {c : Rune}
    (hl : List.lookup c m = none) : c ∉ m.map Prod.fst := by
  induction m with
  | nil => simp
  | cons a m ih =>
    obtain ⟨k, x⟩ := a
    rw [lookup_cons_eq] at hl
    by_cases hck : c = k
    · rw [if_pos hck] at hl; cases hl
    · rw [if_neg hck] at hl
      simp only [List.map_cons, List.mem_cons, not_or]
      exact ⟨hck, ih hl⟩

@[simp] theorem Heap.setFail_size (h : Heap) (u f : Nat) : (h.setFail u f).size = h.size := rfl

@[simp] theorem Heap.setOutput_size (h : Heap) (u : Nat) : (h.setOutput u).size = h.size := rfl

theorem Heap.setFail_cell_ne (h : Heap) {u v : Nat} (f : Nat) (hne : v ≠ u) :
    (h.setFail u f).cell v = h.cell v := by
  simp [Heap.setFail, Function.update_noteq hne]

theorem Heap.setOutput_cell_ne (h : Heap) {u v : Nat} (hne : v ≠ u) :
    (h.setOutput u).cell v = h.cell v := by
  simp [Heap.setOutput, Function.update_noteq hne]

@[simp] theorem Heap.setFail_cell_self (h : Heap) (u f : Nat) :
    (h.setFail u f).cell u = { h.cell u with fail := some f } := by
  simp [Heap.setFail]

@[simp] theorem Heap.setOutput_cell_self (h : Heap) (u : Nat) :
    (h.setOutput u).cell u = { h.cell u with output := true } := by
  simp [Heap.setOutput]

@[simp] theorem Heap.setFail_children (h : Heap) (u f v : Nat) :
    ((h.setFail u f).cell v).children = (h.cell v).children := by
  by_cases hv : v = u
  · subst hv; simp
  · rw [Heap.setFail_cell_ne h f hv]

@[simp] theorem Heap.setOutput_children (h : Heap) (u v : Nat) :
    ((h.setOutput u).cell v).children = (h.cell v).children := by
  by_cases hv : v = u
  · subst hv; simp
  · rw [Heap.setOutput_cell_ne h hv]

@[simp] theorem Heap.setFail_output (h : Heap) (u f v : Nat) :
    ((h.setFail u f).cell v).output = (h.cell v).output := by
  by_cases hv : v = u
  · subst hv; simp
  · rw [Heap.setFail_cell_ne h f hv]

@[simp] theorem Heap.setOutput_fail (h : Heap) (u v : Nat) :
    ((h.setOutput u).cell v).fail = (h.cell v).fail := by
  by_cases hv : v = u
  · subst hv; simp
  · rw [Heap.setOutput_cell_ne h hv]

@[simp] theorem Heap.setFail_child (h : Heap) (u f v : Nat) (c : Rune) :
    (h.setFail u f).child v c = h.child v c := by
  simp [Heap.child]

@[simp] theorem Heap.setOutput_child (h : Heap) (u v : Nat) (c : Rune) :
    (h.setOutput u).child v c = h.child v c := by
  simp [Heap.child]

/-! ## The shape of the trie -/

theorem TrieShape.of_children_eq {h h2 : Heap} {str : Nat → List Rune} (hs : TrieShape h str)
    (hsize : h2.size = h.size) (hch : ∀ u, (h2.cell u).children = (h.cell u).children) :
    TrieShape h2 str := by
  have hchild : ∀ u c, h2.child u c = h.child u c := by
    intro u c; simp [Heap.child, hch]
  refine ⟨hs.root, by rw [hsize]; exact hs.pos, ?_, ?_, ?_, ?_, ?_⟩
  · intro u; rw [hch]; exact hs.keys u
  · intro u c v hu hc
    rw [hsize] at hu ⊢; rw [hchild] at hc
    exact hs.child u c v hu hc
  · intro v hv hv0
    rw [hsize] at hv
    obtain ⟨u, c, hu, hc⟩ := hs.parent v hv hv0
    exact ⟨u, c, by rw [hsize]; exact hu, by rw [hchild]; exact hc⟩
  · intro u v hu hv
    rw [hsize] at hu hv
    exact hs.inj u v hu hv
  · intro u hu
    rw [hsize] at hu ⊢
    exact hs.depth u hu

theorem TrieShape.setFail {h : Heap} {str : Nat → List Rune} (hs : TrieShape h str) (u f : Nat) :
    TrieShape (h.setFail u f) str :=
  hs.of_children_eq rfl (fun v => Heap.setFail_children h u f v)

theorem TrieShape.setOutput {h : Heap} {str : Nat → List Rune} (hs : TrieShape h str) (u : Nat) :
    TrieShape (h.setOutput u) str :=
  hs.of_children_eq rfl (fun v => Heap.setOutput_children h u v)

theorem TrieShape.child_ne_zero {h : Heap} {str : Nat → List Rune} (hs : TrieShape h str)
    {u v : Nat} {c : Rune} (hu : u < h.size) (hc : h.child u c = some v) : v ≠ 0 := by
  intro hv0
  have h1 := (hs.child u c v hu hc).2
  rw [hv0, hs.root] at h1
  simp at h1

theorem TrieShape.str_ne_nil {h : Heap} {str : Nat → List Rune} (hs : TrieShape h str)
    {v : Nat} (hv : v < h.size) (hv0 : v ≠ 0) : str v ≠ [] := by
  obtain ⟨u, c, hu, hc⟩ := hs.parent v hv hv0
  rw [(hs.child u c v hu hc).2]
  simp

theorem TrieShape.eq_zero_of_str {h : Heap} {str : Nat → List Rune} (hs : TrieShape h str)
    {v : Nat} (hv : v < h.size) (hnil : str v = []) : v = 0 := by
  by_contra hv0
  exact hs.str_ne_nil hv hv0 hnil

/-- A node spelling `str u ++ [c]` is the `c`-child of `u`. -/
theorem TrieShape.child_of_str {h : Heap} {str : Nat → List Rune} (hs : TrieShape h str)
    {u x : Nat} {c : Rune} (hu : u < h.size) (hx : x < h.size) (hstr : str x = str u ++ [c]) :
    h.child u c = some x := by
  have hx0 : x ≠ 0 := by
    intro h0; rw [h0, hs.root] at hstr; simp at hstr
  obtain ⟨u2, c2, hu2, hc2⟩ := hs.parent x hx hx0
  have h2 := (hs.child u2 c2 x hu2 hc2).2
  rw [hstr] at h2
  have h3 := List.append_inj' h2 rfl
  have hc : c = c2 := by simpa using h3.2
  have huu : u = u2 := hs.inj u u2 hu hu2 h3.1
  rw [huu, hc]; exact hc2

/-- The paths of the trie are closed under dropping the last rune. -/
theorem TrieShape.node_snoc {h : Heap} {str : Nat → List Rune} (hs : TrieShape h str)
    {x : Nat} {t : List Rune} {c : Rune} (hx : x < h.size) (hstr : str x = t ++ [c]) :
    ∃ u, u < h.size ∧ str u = t ∧ h.child u c = some x := by
  have hx0 : x ≠ 0 := by
    intro h0; rw [h0, hs.root] at hstr; simp at hstr
  obtain ⟨u, c2, hu, hc2⟩ := hs.parent x hx hx0
  have h2 := (hs.child u c2 x hu hc2).2
  rw [hstr] at h2
  have h3 := List.append_inj' h2 rfl
  have hc : c = c2 := by simpa using h3.2
  exact ⟨u, hu, h3.1.symm, by rw [hc]; exact hc2⟩

/-! ## Step one of `Build`: the trie -/

theorem Heap.addChild_snd (h : Heap) (node : Nat) (ch : Rune) : (h.addChild node ch).2 = h.size := rfl

theorem Heap.addChild_size (h : Heap) (node : Nat) (ch : Rune) :
    (h.addChild node ch).1.size = h.size + 1 := rfl

theorem Heap.addChild_cell_self (h : Heap) {node : Nat} (ch : Rune) (hn : node < h.size) :
    (h.addChild node ch).1.cell node =
      { h.cell node with children := (ch, h.size) :: (h.cell node).children } := by
  have hne : node ≠ h.size := Nat.ne_of_lt hn
  simp [Heap.addChild, Function.update_noteq hne]

theorem Heap.addChild_cell_ne (h : Heap) {node u : Nat} (ch : Rune)
    (hfresh : h.cell h.size = NewACNode) (hne : u ≠ node) :
    (h.addChild node ch).1.cell u = h.cell u := by
  simp only [Heap.addChild, Function.update_noteq hne]
  by_cases hu : u = h.size
  · subst hu; simp [hfresh]
  · simp [Function.update_noteq hu]

theorem Heap.addChild_child (h : Heap) {node : Nat} (ch : Rune) (hn : node < h.size)
    (hfresh : h.cell h.size = NewACNode) (u : Nat) (c : Rune) :
    (h.addChild node ch).1.child u c =
      if u = node ∧ c = ch then some h.size else h.child u c := by
  by_cases hu : u = node
  · subst hu
    simp only [Heap.child, Heap.addChild_cell_self h ch hn, lookup_cons_eq, true_and]
  · simp only [Heap.child, Heap.addChild_cell_ne h ch hfresh hu, hu, false_and, if_false]

theorem Heap.addChild_fail (h : Heap) {node : Nat} (ch : Rune) (hn : node < h.size)
    (hfresh : h.cell h.size = NewACNode) (u : Nat) :
    ((h.addChild node ch).1.cell u).fail = (h.cell u).fail := by
  by_cases hu : u = node
  · subst hu; rw [Heap.addChild_cell_self h ch hn]
  · rw [Heap.addChild_cell_ne h ch hfresh hu]

theorem Heap.addChild_output (h : Heap) {node : Nat} (ch : Rune) (hn : node < h.size)
    (hfresh : h.cell h.size = NewACNode) (u : Nat) :
    ((h.addChild node ch).1.cell u).output = (h.cell u).output := by
  by_cases hu : u = node
  · subst hu; rw [Heap.addChild_cell_self h ch hn]
  · rw [Heap.addChild_cell_ne h ch hfresh hu]

/-- Adding a missing child keeps the trie a trie; the new node spells the path of
its parent followed by the new rune. -/
theorem TrieShape.addChild {h : Heap} {str : Nat → List Rune} (hs : TrieShape h str)
    (hfresh : ∀ u, h.size ≤ u → h.cell u = NewACNode)
    {node : Nat} {ch : Rune} (hn : node < h.size) (hnone : h.child node ch = none) :
    TrieShape (h.addChild node ch).1 (Function.update str h.size (str node ++ [ch])) := by
  have hf := hfresh h.size (Nat.le_refl _)
  have hold : ∀ u, u < h.size → Function.update str h.size (str node ++ [ch]) u = str u := by
    intro u hu
    exact Function.update_noteq (Nat.ne_of_lt hu) _ _
  have hnew : Function.update str h.size (str node ++ [ch]) h.size = str node ++ [ch] :=
    Function.update_same _ _ _
  have hchild_new : ∀ u c, h.child h.size c = some u → False := by
    intro u c hc
    simp [Heap.child, hf, NewACNode] at hc
  refine ⟨?_, ?_, ?_, ?_, ?_, ?_, ?_⟩
  · rw [hold 0 hs.pos]; exact hs.root
  · rw [Heap.addChild_size]; omega
  · intro u
    by_cases hu : u = node
    · subst hu
      rw [Heap.addChild_cell_self h ch hn]
      simp only [List.map_cons, List.nodup_cons]
      exact ⟨not_mem_keys_of_lookup_none hnone, hs.keys u⟩
    · rw [Heap.addChild_cell_ne h ch hf hu]; exact hs.keys u
  · intro u c v hu hc
    rw [Heap.addChild_size] at hu ⊢
    rw [Heap.addChild_child h ch hn hf] at hc
    by_cases hcase : u = node ∧ c = ch
    · rw [if_pos hcase] at hc
      cases hc
      obtain ⟨h1, h2⟩ := hcase
      subst h1; subst h2
      refine ⟨Nat.lt_succ_self _, ?_⟩
      rw [hnew, hold u hn]
    · rw [if_neg hcase] at hc
      have hu2 : u < h.size := by
        rcases Nat.lt_succ_iff_lt_or_eq.1 hu with h1 | h1
        · exact h1
        · subst h1; exact (hchild_new v c hc).elim
      obtain ⟨hv, hsv⟩ := hs.child u c v hu2 hc
      refine ⟨Nat.lt_succ_of_lt hv, ?_⟩
      rw [hold v hv, hold u hu2]; exact hsv
  · intro v hv hv0
    rw [Heap.addChild_size] at hv ⊢
    rcases Nat.lt_succ_iff_lt_or_eq.1 hv with h1 | h1
    · obtain ⟨u, c, hu, hc⟩ := hs.parent v h1 hv0
      refine ⟨u, c, Nat.lt_succ_of_lt hu, ?_⟩
      rw [Heap.addChild_child h ch hn hf]
      have hcase : ¬ (u = node ∧ c = ch) := by
        rintro ⟨h2, h3⟩
        subst h2; subst h3
        rw [hnone] at hc; cases hc
      rw [if_neg hcase]; exact hc
    · refine ⟨node, ch, Nat.lt_succ_of_lt hn, ?_⟩
      rw [Heap.addChild_child h ch hn hf, if_pos ⟨rfl, rfl⟩, h1]
  · intro u v hu hv huv
    rw [Heap.addChild_size] at hu hv
    rcases Nat.lt_succ_iff_lt_or_eq.1 hu with h1 | h1
    · rcases Nat.lt_succ_iff_lt_or_eq.1 hv with h2 | h2
      · rw [hold u h1, hold v h2] at huv
        exact hs.inj u v h1 h2 huv
      · subst h2
        rw [hold u h1, hnew] at huv
        have := hs.child_of_str hn h1 huv
        rw [hnone] at this; cases this
    · rcases Nat.lt_succ_iff_lt_or_eq.1 hv with h2 | h2
      · subst h1
        rw [hold v h2, hnew] at huv
        have := hs.child_of_str hn h2 huv.symm
        rw [hnone] at this; cases this
      · rw [h1, h2]
  · intro u hu
    rw [Heap.addChild_size] at hu ⊢
    rcases Nat.lt_succ_iff_lt_or_eq.1 hu with h1 | h1
    · rw [hold u h1]
      exact Nat.lt_succ_of_lt (hs.depth u h1)
    · rw [h1, hnew]
      have := hs.depth node hn
      simp only [List.length_append, List.length_singleton]
      omega

/-- The effect of the inner loop of step one: the store stays a trie, old nodes
keep their paths, the node returned spells the path of `node` followed by `w`,
and no failure pointer or output flag is touched. -/
theorem insertRunes_spec (w : List Rune) : ∀ (h : Heap) (node : Nat) (str : Nat → List Rune),
    TrieShape h str → (∀ u, h.size ≤ u → h.cell u = NewACNode) → node < h.size →
    ∃ str2, TrieShape (insertRunes h node w).1 str2 ∧
      (∀ u, (insertRunes h node w).1.size ≤ u → (insertRunes h node w).1.cell u = NewACNode) ∧
      (∀ u, u < h.size → str2 u = str u) ∧
      h.size ≤ (insertRunes h node w).1.size ∧
      (insertRunes h node w).2 < (insertRunes h node w).1.size ∧
      str2 (insertRunes h node w).2 = str node ++ w ∧
      (∀ u, ((insertRunes h node w).1.cell u).fail = (h.cell u).fail) ∧
      (∀ u, ((insertRunes h node w).1.cell u).output = (h.cell u).output) := by
  induction w with
  | nil =>
    intro h node str hs hfresh hn
    exact ⟨str, hs, hfresh, fun _ _ => rfl, Nat.le_refl _, hn, by simp [insertRunes],
      fun _ => rfl, fun _ => rfl⟩
  | cons ch rest ih =>
    intro h node str hs hfresh hn
    cases hc : h.child node ch with
    | some next =>
      have hstep : insertRunes h node (ch :: rest) = insertRunes h next rest := by
        simp [insertRunes, hc]
      rw [hstep]
      obtain ⟨hnext, hsn⟩ := hs.child node ch next hn hc
      obtain ⟨str2, h1, h2, h3, h4, h5, h6, h7, h8⟩ := ih h next str hs hfresh hnext
      refine ⟨str2, h1, h2, h3, h4, h5, ?_, h7, h8⟩
      rw [h6, hsn]; simp
    | none =>
      have hstep : insertRunes h node (ch :: rest) =
          insertRunes (h.addChild node ch).1 h.size rest := by
        simp [insertRunes, hc, Heap.addChild_snd]
      rw [hstep]
      have hf := hfresh h.size (Nat.le_refl _)
      have hs1 := hs.addChild hfresh hn hc
      have hfresh1 : ∀ u, (h.addChild node ch).1.size ≤ u →
          (h.addChild node ch).1.cell u = NewACNode := by
        intro u hu
        rw [Heap.addChild_size] at hu
        have hne : u ≠ node := by omega
        rw [Heap.addChild_cell_ne h ch hf hne]
        exact hfresh u (by omega)
      have hn1 : h.size < (h.addChild node ch).1.size := by
        rw [Heap.addChild_size]; omega
      obtain ⟨str2, h1, h2, h3, h4, h5, h6, h7, h8⟩ :=
        ih (h.addChild node ch).1 h.size _ hs1 hfresh1 hn1
      refine ⟨str2, h1, h2, ?_, ?_, h5, ?_, ?_, ?_⟩
      · intro u hu
        rw [h3 u (by rw [Heap.addChild_size]; omega)]
        exact Function.update_noteq (Nat.ne_of_lt hu) _ _
      · rw [Heap.addChild_size] at h4; omega
      · rw [h6, Function.update_same]; simp
      · intro u; rw [h7, Heap.addChild_fail h ch hn hf]
      · intro u; rw [h8, Heap.addChild_output h ch hn hf]

theorem TrieInv.init : TrieInv [] Heap.init (fun _ => []) := by
  refine ⟨⟨rfl, by simp [Heap.init], ?_, ?_, ?_, ?_, ?_⟩, ?_, ?_, ?_, ?_⟩
  · intro u; simp [Heap.init, NewACNode]
  · intro u c v _ hc; simp [Heap.child, Heap.init, NewACNode] at hc
  · intro v hv hv0; simp [Heap.init] at hv; exact (hv0 hv).elim
  · intro u v hu hv _; simp [Heap.init] at hu hv; rw [hu, hv]
  · intro u _; simp [Heap.init]
  · intro u _; simp [Heap.init, NewACNode]
  · intro p hp; simp at hp
  · intro u; simp [Heap.init, NewACNode]
  · intro u _; simp [Heap.init]

/-- One iteration of the pattern loop keeps the invariant of step one. -/
theorem trieInv_insertPattern {P : List (List Rune)} {h : Heap} {str : Nat → List Rune}
    (hi : TrieInv P h str) (p : List Rune) :
    ∃ str2, TrieInv (P ++ [p]) (insertPattern h p) str2 := by
  by_cases hp : p = []
  · subst hp
    refine ⟨str, ?_⟩
    have : insertPattern h [] = h := by simp [insertPattern]
    rw [this]
    refine ⟨hi.shape, ?_, ?_, hi.nofail, hi.fresh⟩
    · intro u hu
      rw [hi.out u hu]
      constructor
      · rintro ⟨h1, h2⟩; exact ⟨h1, List.mem_append_left _ h2⟩
      · rintro ⟨h1, h2⟩
        refine ⟨h1, ?_⟩
        rcases List.mem_append.1 h2 with h3 | h3
        · exact h3
        · simp at h3; exact (h1 h3).elim
    · intro q hq hq0
      rcases List.mem_append.1 hq with h3 | h3
      · exact hi.has q h3 hq0
      · simp at h3; exact (hq0 h3).elim
  · have hdef : insertPattern h p = (insertRunes h 0 p).1.setOutput (insertRunes h 0 p).2 := by
      simp [insertPattern, hp]
    rw [hdef]
    obtain ⟨str2, h1, h2, h3, h4, h5, h6, h7, h8⟩ :=
      insertRunes_spec p h 0 str hi.shape hi.fresh hi.shape.pos
    rw [hi.shape.root, List.nil_append] at h6
    refine ⟨str2, h1.setOutput _, ?_, ?_, ?_, ?_⟩
    · intro u hu
      rw [Heap.setOutput_size] at hu
      by_cases hun : u = (insertRunes h 0 p).2
      · rw [hun, Heap.setOutput_cell_self, h6]
        simp [hp]
      · rw [Heap.setOutput_cell_ne _ hun, h8]
        have hne : str2 u ≠ p := by
          intro heq
          exact hun (h1.inj u _ hu h5 (heq.trans h6.symm))
        by_cases hold : u < h.size
        · rw [hi.out u hold, h3 u hold]
          constructor
          · rintro ⟨a, b⟩; exact ⟨a, List.mem_append_left _ b⟩
          · rintro ⟨a, b⟩
            refine ⟨a, ?_⟩
            rcases List.mem_append.1 b with b1 | b1
            · exact b1
            · simp at b1; rw [← h3 u hold] at b1; exact (hne b1).elim
        · have hcell : h.cell u = NewACNode := hi.fresh u (by omega)
          rw [hcell]
          constructor
          · intro hf; simp [NewACNode] at hf
          · rintro ⟨a, b⟩
            exfalso
            rcases List.mem_append.1 b with b1 | b1
            · obtain ⟨u0, hu0, hs0⟩ := hi.has _ b1 a
              have : u0 = u := h1.inj u0 u (by omega) hu (by rw [h3 u0 hu0]; exact hs0)
              omega
            · simp at b1; exact hne b1
    · intro q hq hq0
      rw [Heap.setOutput_size]
      rcases List.mem_append.1 hq with b1 | b1
      · obtain ⟨u0, hu0, hs0⟩ := hi.has _ b1 hq0
        exact ⟨u0, by omega, by rw [h3 u0 hu0]; exact hs0⟩
      · simp at b1; subst b1
        exact ⟨_, h5, h6⟩
    · intro u; rw [Heap.setOutput_fail, h7]; exact hi.nofail u
    · intro u hu
      rw [Heap.setOutput_size] at hu
      have hne : u ≠ (insertRunes h 0 p).2 := by omega
      rw [Heap.setOutput_cell_ne _ hne]
      exact h2 u hu

theorem trieInv_foldl (Q : List (List Rune)) : ∀ (P : List (List Rune)) (h : Heap)
    (str : Nat → List Rune), TrieInv P h str →
    ∃ str2, TrieInv (P ++ Q) (Q.foldl insertPattern h) str2 := by
  induction Q with
  | nil => intro P h str hi; exact ⟨str, by simpa using hi⟩
  | cons q Q ih =>
    intro P h str hi
    obtain ⟨str1, h1⟩ := trieInv_insertPattern hi q
    obtain ⟨str2, h2⟩ := ih (P ++ [q]) _ str1 h1
    refine ⟨str2, ?_⟩
    simpa [List.append_assoc] using h2

/-- Step one of `Build` yields the trie of the patterns. -/
theorem buildTrie_inv (P : List (List Rune)) : ∃ str, TrieInv P (buildTrie P) str := by
  obtain ⟨str, hi⟩ := trieInv_foldl P [] Heap.init _ TrieInv.init
  exact ⟨str, by simpa [buildTrie] using hi⟩

/-! ## Suffixes -/

theorem suffix_snoc_cases {s w : List Rune} {c : Rune} (hs : s <:+ w ++ [c]) :
    s = [] ∨ ∃ t, s = t ++ [c] ∧ t <:+ w := by
  rcases List.eq_nil_or_concat s with h0 | ⟨t, d, hd⟩
  · exact Or.inl h0
  · right
    rw [List.concat_eq_append] at hd
    subst hd
    obtain ⟨r, hr⟩ := hs
    rw [← List.append_assoc] at hr
    have h3 := List.append_inj' hr rfl
    have hdc : d = c := by simpa using h3.2
    subst hdc
    exact ⟨t, rfl, ⟨r, h3.1⟩⟩

theorem suffix_snoc {s w : List Rune} (c : Rune) (hs : s <:+ w) : s ++ [c] <:+ w ++ [c] := by
  obtain ⟨r, hr⟩ := hs
  exact ⟨r, by rw [← List.append_assoc, hr]⟩

theorem suffix_eq_of_length {a b w : List Rune} (ha : a <:+ w) (hb : b <:+ w)
    (hl : a.length = b.length) : a = b := by
  have h1 : a <:+ b := List.suffix_of_suffix_length_le ha hb (Nat.le_of_eq hl)
  exact h1.eq_of_length hl

/-! ## Failure chains -/

/-- One step along a failure chain while looking for a `c`-transition: when `x` has
no `c`-child, every candidate suffix is no longer than the path of the failure
node of `x`. -/
theorem chain_step {str : Nat → List Rune} {h : Heap} (hs : TrieShape h str) {x f : Nat}
    {c : Rune} {S : List Rune} (Q : List Rune → Prop) (hx : x < h.size)
    (hfail : IsFail str h.size x f) (hnone : h.child x c = none) (hxS : str x <:+ S)
    (hmax : ∀ t, Q t → t <:+ S → (∃ y, y < h.size ∧ str y = t ++ [c]) →
      t.length ≤ (str x).length) :
    str f <:+ S ∧ ∀ t, Q t → t <:+ S → (∃ y, y < h.size ∧ str y = t ++ [c]) →
      t.length ≤ (str f).length := by
  obtain ⟨hf, hfx, hflen, hfmax⟩ := hfail
  refine ⟨hfx.trans hxS, ?_⟩
  intro t hQ htS hy
  have hle := hmax t hQ htS hy
  obtain ⟨y, hy1, hy2⟩ := hy
  rcases Nat.lt_or_eq_of_le hle with hlt | heq
  · obtain ⟨u, hu, hut, _⟩ := hs.node_snoc hy1 hy2
    have htx : t <:+ str x := List.suffix_of_suffix_length_le htS hxS hle
    have := hfmax u hu (by rw [hut]; exact htx) (by rw [hut]; exact hlt)
    rw [hut] at this; exact this
  · have htx : t = str x := suffix_eq_of_length htS hxS heq
    rw [htx] at hy2
    have := hs.child_of_str hx hy1 hy2
    rw [hnone] at this; cases this

/-- The loop of lines 79-89 finds the failure node of a child `v` of `cur` reached by
`c`, given enough fuel and final failure pointers on all shorter paths. -/
theorem findFail_spec {str : Nat → List Rune} {h : Heap} (hs : TrieShape h str)
    {cur v : Nat} {c : Rune} (hv : str v = str cur ++ [c])
    (hfin : ∀ x, x < h.size → x ≠ 0 → (str x).length < (str cur).length →
      ∃ f, (h.cell x).fail = some f ∧ IsFail str h.size x f) :
    ∀ fuel x, (str x).length < fuel → x < h.size → str x <:+ str cur →
      (str x).length < (str cur).length →
      (∀ t, t.length < (str cur).length → t <:+ str cur →
        (∃ y, y < h.size ∧ str y = t ++ [c]) → t.length ≤ (str x).length) →
      ∃ f, findFail fuel h (some x) c = some (some f) ∧ IsFail str h.size v f := by
  intro fuel
  induction fuel with
  | zero => intro x hlt; omega
  | succ fuel ih =>
    intro x hfuel hx hxs hxlen hmax
    cases hc : h.child x c with
    | some next =>
      obtain ⟨hn, hns⟩ := hs.child x c next hx hc
      refine ⟨next, by simp [findFail, hc], hn, ?_, ?_, ?_⟩
      · rw [hv, hns]; exact suffix_snoc c hxs
      · rw [hv, hns]; simp; omega
      · intro y hy hys hyl
        rw [hv] at hys hyl
        simp only [List.length_append, List.length_singleton] at hyl
        rcases suffix_snoc_cases hys with h0 | ⟨t, ht, hts⟩
        · rw [h0]; simp
        · have htl : t.length < (str cur).length := by
            rw [ht] at hyl; simp at hyl; exact hyl
          have := hmax t htl hts ⟨y, hy, ht⟩
          rw [ht, hns]; simp; exact this
    | none =>
      by_cases hx0 : x = 0
      · subst hx0
        refine ⟨0, by simp [findFail, hc], hx, ?_, ?_, ?_⟩
        · rw [hs.root]; exact List.nil_suffix
        · rw [hv, hs.root]; simp
        · intro y hy hys hyl
          rw [hv] at hys hyl
          simp only [List.length_append, List.length_singleton] at hyl
          rcases suffix_snoc_cases hys with h0 | ⟨t, ht, hts⟩
          · rw [h0]; simp
          · exfalso
            have htl : t.length < (str cur).length := by
              rw [ht] at hyl; simp at hyl; exact hyl
            have h1 := hmax t htl hts ⟨y, hy, ht⟩
            rw [hs.root] at h1
            have ht0 : t = [] := List.length_eq_zero.1 (Nat.le_zero.1 h1)
            rw [ht0] at ht
            have h2 := hs.child_of_str hx hy (by rw [hs.root]; exact ht)
            rw [hc] at h2; cases h2
      · obtain ⟨f, hff, hfail⟩ := hfin x hx hx0 hxlen
        have hstep : findFail (fuel + 1) h (some x) c = findFail fuel h (some f) c := by
          simp [findFail, hc, hx0, hff]
        rw [hstep]
        obtain ⟨h1, h2⟩ := chain_step hs (fun t => t.length < (str cur).length) hx hfail hc hxs
          (fun t hq hts hy => hmax t hq hts hy)
        have hfl : (str f).length < (str x).length := hfail.2.2.1
        exact ih f (by omega) hfail.1 h1 (by omega) h2

/-! ## Step two of `Build`: failure pointers -/

theorem Final.of_cell_eq {P : List (List Rune)} {str : Nat → List Rune} {h h2 : Heap} {v : Nat}
    (hf : Final P str h v) (hsize : h2.size = h.size) (hcell : h2.cell v = h.cell v) :
    Final P str h2 v := by
  unfold Final at hf ⊢
  rw [hsize, hcell]; exact hf

theorem Raw.of_cell_unchanged {P : List (List Rune)} {str : Nat → List Rune} {h h2 : Heap} {v : Nat}
    (hf : Raw P str h v) (hcell : h2.cell v = h.cell v) : Raw P str h2 v := by
  unfold Raw at hf ⊢
  rw [hcell]; exact hf

theorem not_patSuffix_nil (P : List (List Rune)) : ¬ PatSuffix P [] := by
  rintro ⟨p, _, hp0, hps⟩
  exact hp0 (List.eq_nil_of_suffix_nil hps)

/-- The output flag after inheritance: a pattern is a suffix of the path of `v` iff
the path is itself a pattern or a pattern is a suffix of the path of the failure node. -/
theorem output_final {P : List (List Rune)} {str : Nat → List Rune} {n v f : Nat}
    (has : ∀ p ∈ P, p ≠ [] → ∃ u, u < n ∧ str u = p) (hfail : IsFail str n v f) :
    ((str v ≠ [] ∧ str v ∈ P) ∨ PatSuffix P (str f)) ↔ PatSuffix P (str v) := by
  obtain ⟨_, hfs, _, hmax⟩ := hfail
  constructor
  · rintro (⟨h0, hp⟩ | ⟨p, hp, hp0, hps⟩)
    · exact ⟨str v, hp, h0, List.suffix_refl _⟩
    · exact ⟨p, hp, hp0, hps.trans hfs⟩
  · rintro ⟨p, hp, hp0, hps⟩
    obtain ⟨u, hu, hup⟩ := has p hp hp0
    rcases Nat.lt_or_eq_of_le hps.length_le with hlt | heq
    · right
      have := hmax u hu (by rw [hup]; exact hps) (by rw [hup]; exact hlt)
      rw [hup] at this
      exact ⟨p, hp, hp0, List.suffix_of_suffix_length_le hps hfs this⟩
    · left
      have : p = str v := hps.eq_of_length heq
      rw [← this]; exact ⟨hp0, hp⟩

theorem nodup_length_le {l : List Nat} {n : Nat} (hnd : l.Nodup) (hlt : ∀ x ∈ l, x < n) :
    l.length ≤ n := by
  have h1 : l.toFinset.card = l.length := List.toFinset_card_of_nodup hnd
  have h2 : l.toFinset ⊆ Finset.range n := by
    intro x hx
    exact Finset.mem_range.2 (hlt x (List.mem_toFinset.1 hx))
  have h3 := Finset.card_le_card h2
  rw [Finset.card_range, h1] at h3
  exact h3

/-! ### The children of the root -/

theorem InitInv.at_start {P : List (List Rune)} {str : Nat → List Rune} {h : Heap}
    (hi : TrieInv P h str) : InitInv P str h [] [] := by
  refine ⟨hi.shape, hi.has, rfl, ?_, ?_⟩
  · intro v hv; simp at hv
  · intro v hv _; exact ⟨hi.nofail v, hi.out v hv⟩

theorem initQueue_spec {P : List (List Rune)} {str : Nat → List Rune}
    (rest : List (Rune × Nat)) : ∀ (h : Heap) (pre : List (Rune × Nat)) (queue : List Nat),
    InitInv P str h pre queue → (∀ c v, (c, v) ∈ rest → h.child 0 c = some v) →
    ((pre ++ rest).map Prod.snd).Nodup →
    InitInv P str (initQueue h rest queue).1 (pre ++ rest) (initQueue h rest queue).2 ∧
      (initQueue h rest queue).1.size = h.size ∧
      ∀ u, ((initQueue h rest queue).1.cell u).children = (h.cell u).children := by
  induction rest with
  | nil =>
    intro h pre queue hi _ _
    simpa [initQueue] using hi
  | cons a rest ih =>
    obtain ⟨c, v⟩ := a
    intro h pre queue hi hch hnd
    have hcv : h.child 0 c = some v := hch c v (List.mem_cons_self _ _)
    obtain ⟨hv, hsv⟩ := hi.shape.child 0 c v hi.shape.pos hcv
    rw [hi.shape.root, List.nil_append] at hsv
    have hvq : v ∉ queue := by
      rw [hi.queue_eq]
      intro hmem
      simp only [List.map_append, List.map_cons] at hnd
      have := (List.nodup_append.1 hnd).2.2
      exact this hmem (List.mem_cons_self _ _)
    have hstep : initQueue h ((c, v) :: rest) queue =
        initQueue (h.setFail v 0) rest (queue ++ [v]) := by simp [initQueue]
    rw [hstep]
    have hi2 : InitInv P str (h.setFail v 0) (pre ++ [(c, v)]) (queue ++ [v]) := by
      refine ⟨hi.shape.setFail v 0, hi.has, by simp [hi.queue_eq], ?_, ?_⟩
      · intro x hx
        rcases List.mem_append.1 hx with h1 | h1
        · have hne : x ≠ v := fun e => hvq (e ▸ h1)
          exact (hi.final x h1).of_cell_eq rfl (Heap.setFail_cell_ne h 0 hne)
        · simp at h1; subst h1
          have hfail : IsFail str h.size x 0 := by
            refine ⟨hi.shape.pos, ?_, ?_, ?_⟩
            · rw [hi.shape.root]; exact List.nil_suffix
            · rw [hi.shape.root, hsv]; simp
            · intro y _ _ hyl
              rw [hsv] at hyl; simp at hyl
              rw [hyl]; simp
          refine ⟨⟨0, by simp, hfail⟩, ?_⟩
          rw [Heap.setFail_output, (hi.raw x hv hvq).2]
          have := output_final hi.has hfail
          rw [← this]
          constructor
          · intro hl; exact Or.inl hl
          · rintro (hl | hr)
            · exact hl
            · rw [hi.shape.root] at hr; exact (not_patSuffix_nil P hr).elim
      · intro x hx hxq
        rw [Heap.setFail_size] at hx
        have hne : x ≠ v := by
          intro e; apply hxq; rw [e]; simp
        have hxq2 : x ∉ queue := fun hm => hxq (List.mem_append_left _ hm)
        exact (hi.raw x hx hxq2).of_cell_unchanged (Heap.setFail_cell_ne h 0 hne)
    have hch2 : ∀ c2 v2, (c2, v2) ∈ rest → (h.setFail v 0).child 0 c2 = some v2 := by
      intro c2 v2 hm
      rw [Heap.setFail_child]
      exact hch c2 v2 (List.mem_cons_of_mem _ hm)
    have hnd2 : (((pre ++ [(c, v)]) ++ rest).map Prod.snd).Nodup := by
      simpa [List.append_assoc] using hnd
    obtain ⟨r1, r2, r3⟩ := ih (h.setFail v 0) (pre ++ [(c, v)]) (queue ++ [v]) hi2 hch2 hnd2
    refine ⟨by simpa [List.append_assoc] using r1, by rw [r2]; rfl, ?_⟩
    intro u; rw [r3, Heap.setFail_children]

/-! ### The breadth-first loop -/

theorem BfsInv.mem_lt {P : List (List Rune)} {str : Nat → List Rune} {h : Heap}
    {done cur : List Nat} {pre : List (Rune × Nat)} {queue : List Nat}
    (hi : BfsInv P str h done cur pre queue) {v : Nat} (hv : v ∈ done ++ cur ++ queue) :
    v < h.size := by
  rcases (hi.mem_iff v).1 hv with h0 | ⟨u, c, hu, hc, _⟩
  · rw [h0]; exact hi.shape.pos
  · exact (hi.shape.child u c v hu hc).1

/-- Breadth-first order: a node shorter than everything still waiting has been
taken from the queue already. -/
theorem BfsInv.done_of_short {P : List (List Rune)} {str : Nat → List Rune} {h : Heap}
    {done cur : List Nat} {pre : List (Rune × Nat)} {queue : List Nat}
    (hi : BfsInv P str h done cur pre queue) :
    ∀ n x, (str x).length = n → x < h.size →
      (∀ y ∈ cur ++ queue, (str x).length < (str y).length) → x ∈ done := by
  intro n
  induction n using Nat.strong_induction_on with
  | _ n ih =>
    intro x hxn hx hshort
    by_cases hx0 : x = 0
    · rw [hx0]; exact hi.root_done
    · obtain ⟨u, c, hu, hc⟩ := hi.shape.parent x hx hx0
      have hsx := (hi.shape.child u c x hu hc).2
      have hlen : (str x).length = (str u).length + 1 := by rw [hsx]; simp
      have hud : u ∈ done := by
        apply ih (str u).length (by omega) u rfl hu
        intro y hy
        have := hshort y hy
        omega
      have hxM : x ∈ done ++ cur ++ queue :=
        (hi.mem_iff x).2 (Or.inr ⟨u, c, hu, hc, Or.inl hud⟩)
      rw [List.append_assoc] at hxM
      rcases List.mem_append.1 hxM with h1 | h1
      · exact h1
      · have := hshort x h1
        omega

theorem BfsInv.cur_le_queue {P : List (List Rune)} {str : Nat → List Rune} {h : Heap}
    {done : List Nat} {cur : Nat} {pre : List (Rune × Nat)} {queue : List Nat}
    (hi : BfsInv P str h done [cur] pre queue) :
    ∀ y ∈ [cur] ++ queue, (str cur).length ≤ (str y).length := by
  intro y hy
  rcases List.mem_append.1 hy with h1 | h1
  · simp at h1; rw [h1]
  · have hs := hi.sorted
    rw [List.pairwise_append] at hs
    exact hs.2.2 cur (by simp) y h1

theorem BfsInv.done_le_cur {P : List (List Rune)} {str : Nat → List Rune} {h : Heap}
    {done : List Nat} {cur : Nat} {pre : List (Rune × Nat)} {queue : List Nat}
    (hi : BfsInv P str h done [cur] pre queue) :
    ∀ y ∈ done, (str y).length ≤ (str cur).length := by
  intro y hy
  have hs := hi.sorted
  rw [List.append_assoc, List.pairwise_append] at hs
  exact hs.2.2 y hy cur (by simp)

theorem BfsInv.done_of_lt {P : List (List Rune)} {str : Nat → List Rune} {h : Heap}
    {done : List Nat} {cur : Nat} {pre : List (Rune × Nat)} {queue : List Nat}
    (hi : BfsInv P str h done [cur] pre queue) {x : Nat} (hx : x < h.size)
    (hlt : (str x).length < (str cur).length) : x ∈ done := by
  apply hi.done_of_short _ x rfl hx
  intro y hy
  have := hi.cur_le_queue y hy
  omega

theorem BfsInv.mem_of_le {P : List (List Rune)} {str : Nat → List Rune} {h : Heap}
    {done : List Nat} {cur : Nat} {pre : List (Rune × Nat)} {queue : List Nat}
    (hi : BfsInv P str h done [cur] pre queue) {x : Nat} (hx : x < h.size)
    (hle : (str x).length ≤ (str cur).length) : x ∈ done ++ [cur] ++ queue := by
  by_cases hx0 : x = 0
  · exact (hi.mem_iff x).2 (Or.inl hx0)
  · obtain ⟨u, c, hu, hc⟩ := hi.shape.parent x hx hx0
    have hsx := (hi.shape.child u c x hu hc).2
    have hlen : (str x).length = (str u).length + 1 := by rw [hsx]; simp
    have hud : u ∈ done := hi.done_of_lt hu (by omega)
    exact (hi.mem_iff x).2 (Or.inr ⟨u, c, hu, hc, Or.inl hud⟩)

theorem BfsInv.cur_ne_zero {P : List (List Rune)} {str : Nat → List Rune} {h : Heap}
    {done : List Nat} {cur : Nat} {pre : List (Rune × Nat)} {queue : List Nat}
    (hi : BfsInv P str h done [cur] pre queue) : cur ≠ 0 := by
  intro h0
  have hnd := hi.nodup
  rw [List.append_assoc] at hnd
  have := (List.nodup_append.1 hnd).2.2
  exact this hi.root_done (by rw [h0]; simp)

/-- Every node the loop has reached is at most one level below the current one. -/
theorem BfsInv.len_le {P : List (List Rune)} {str : Nat → List Rune} {h : Heap}
    {done : List Nat} {cur : Nat} {pre : List (Rune × Nat)} {queue : List Nat}
    (hi : BfsInv P str h done [cur] pre queue) :
    ∀ x ∈ done ++ [cur] ++ queue, (str x).length ≤ (str cur).length + 1 := by
  intro x hx
  rcases (hi.mem_iff x).1 hx with h0 | ⟨u, c, hu, hc, hcase⟩
  · rw [h0, hi.shape.root]; simp
  · have hsx := (hi.shape.child u c x hu hc).2
    have hlen : (str x).length = (str u).length + 1 := by rw [hsx]; simp
    rcases hcase with h1 | ⟨h1, _⟩
    · have := hi.done_le_cur u h1; omega
    · simp at h1; rw [hlen, h1]

/-- A child whose map entry has not been visited yet has not been reached. -/
theorem BfsInv.child_not_mem {P : List (List Rune)} {str : Nat → List Rune} {h : Heap}
    {done : List Nat} {cur : Nat} {pre : List (Rune × Nat)} {queue : List Nat}
    (hi : BfsInv P str h done [cur] pre queue) {c : Rune} {v : Nat}
    (hcur : cur < h.size) (hc : h.child cur c = some v) (hpre : (c, v) ∉ pre) :
    v ∉ done ++ [cur] ++ queue := by
  intro hv
  have hsv := (hi.shape.child cur c v hcur hc).2
  rcases (hi.mem_iff v).1 hv with h0 | ⟨u, c2, hu, hc2, hcase⟩
  · exact hi.shape.child_ne_zero hcur hc h0
  · have hsv2 := (hi.shape.child u c2 v hu hc2).2
    rw [hsv] at hsv2
    have h3 := List.append_inj' hsv2 rfl
    have hcc : c = c2 := by simpa using h3.2
    have huu : cur = u := hi.shape.inj cur u hcur hu h3.1
    subst hcc; subst huu
    rcases hcase with h1 | ⟨_, h1⟩
    · have hnd := hi.nodup
      rw [List.append_assoc] at hnd
      exact (List.nodup_append.1 hnd).2.2 h1 (by simp)
    · exact hpre h1

/-- The loop body of lines 75-99 for an entry `(c, v)` of the children map of the
current node that has not been visited: it does not fail, gives `v` its final
failure pointer and output flag, and appends `v` to the queue. -/
theorem processChild_spec {P : List (List Rune)} {str : Nat → List Rune} {h : Heap}
    {done : List Nat} {cur : Nat} {pre : List (Rune × Nat)} {queue : List Nat}
    (hi : BfsInv P str h done [cur] pre queue) {c : Rune} {v : Nat}
    (hc : h.child cur c = some v) (hpre : (c, v) ∉ pre) :
    ∃ h2, processChild h queue cur c v = some (h2, queue ++ [v]) ∧
      BfsInv P str h2 done [cur] (pre ++ [(c, v)]) (queue ++ [v]) ∧
      h2.size = h.size ∧ ∀ u, (h2.cell u).children = (h.cell u).children := by
  have hcurM : cur ∈ done ++ [cur] ++ queue := by simp
  have hcur : cur < h.size := hi.mem_lt hcurM
  have hcur0 : cur ≠ 0 := hi.cur_ne_zero
  obtain ⟨hv, hsv⟩ := hi.shape.child cur c v hcur hc
  have hv0 : v ≠ 0 := hi.shape.child_ne_zero hcur hc
  have hvM : v ∉ done ++ [cur] ++ queue := hi.child_not_mem hcur hc hpre
  obtain ⟨⟨f0, hf0, hfail0⟩, _⟩ := hi.final cur hcurM hcur0
  -- the failure chain of the current node is final
  have hfin : ∀ x, x < h.size → x ≠ 0 → (str x).length < (str cur).length →
      ∃ f, (h.cell x).fail = some f ∧ IsFail str h.size x f := by
    intro x hx hx0 hlt
    have hxd : x ∈ done := hi.done_of_lt hx hlt
    exact (hi.final x (by simp [hxd]) hx0).1
  have hmax0 : ∀ t, t.length < (str cur).length → t <:+ str cur →
      (∃ y, y < h.size ∧ str y = t ++ [c]) → t.length ≤ (str f0).length := by
    intro t htl hts ⟨y, hy, hyt⟩
    obtain ⟨u, hu, hut, _⟩ := hi.shape.node_snoc hy hyt
    have := hfail0.2.2.2 u hu (by rw [hut]; exact hts) (by rw [hut]; exact htl)
    rw [hut] at this; exact this
  obtain ⟨f, hff, hfail⟩ := findFail_spec hi.shape hsv hfin h.size f0
    (hi.shape.depth f0 hfail0.1) hfail0.1 hfail0.2.1 hfail0.2.2.1 hmax0
  have hfv : f ≠ v := by
    intro e
    have := hfail.2.2.1
    rw [e] at this; omega
  -- the output flag of the failure node is final
  have hfout : (h.cell f).output = true ↔ PatSuffix P (str f) := by
    by_cases hf0' : f = 0
    · rw [hf0', (hi.raw 0 hi.shape.pos (Or.inl rfl)).2, hi.shape.root]
      constructor
      · rintro ⟨a, _⟩; exact (a rfl).elim
      · intro a; exact (not_patSuffix_nil P a).elim
    · have hfl : (str f).length ≤ (str cur).length := by
        have := hfail.2.2.1
        rw [hsv] at this; simp at this; omega
      exact (hi.final f (hi.mem_of_le hfail.1 hfl) hf0').2
  have hraw := hi.raw v hv (Or.inr hvM)
  have hcellf : ((h.setFail v f).cell v).fail = some f := by simp
  -- the store after the body
  let h2 : Heap := if ((h.setFail v f).cell f).output then (h.setFail v f).setOutput v
    else h.setFail v f
  have hrun : processChild h queue cur c v = some (h2, queue ++ [v]) := by
    simp only [processChild, hf0, hff, hcellf]
    simp [h2]
  have hsize : h2.size = h.size := by
    simp only [h2]; split <;> rfl
  have hcell_ne : ∀ x, x ≠ v → h2.cell x = h.cell x := by
    intro x hx
    simp only [h2]
    split
    · rw [Heap.setOutput_cell_ne _ hx, Heap.setFail_cell_ne _ _ hx]
    · rw [Heap.setFail_cell_ne _ _ hx]
  have hchildren : ∀ u, (h2.cell u).children = (h.cell u).children := by
    intro u
    simp only [h2]
    split <;> simp
  have hfail2 : (h2.cell v).fail = some f := by
    simp only [h2]
    split <;> simp
  have hout2 : (h2.cell v).output = true ↔ PatSuffix P (str v) := by
    rw [← output_final hi.has hfail, ← hraw.2, ← hfout]
    simp only [h2, Heap.setFail_output]
    by_cases ho : (h.cell f).output = true
    · simp [ho]
    · simp [ho]
  have hfinal_v : Final P str h2 v := ⟨⟨f, hfail2, by rw [hsize]; exact hfail⟩, hout2⟩
  refine ⟨h2, hrun, ?_, hsize, hchildren⟩
  have hlist : done ++ [cur] ++ (queue ++ [v]) = (done ++ [cur] ++ queue) ++ [v] := by
    simp [List.append_assoc]
  refine ⟨hi.shape.of_children_eq hsize hchildren, ?_, hi.root_done, ?_, ?_, ?_, ?_, ?_⟩
  · intro p hp hp0; rw [hsize]; exact hi.has p hp hp0
  · rw [hlist]
    refine List.nodup_append.2 ⟨hi.nodup, by simp, ?_⟩
    intro a ha hav
    simp at hav; subst hav; exact hvM ha
  · rw [hlist, List.pairwise_append]
    refine ⟨hi.sorted, by simp, ?_⟩
    intro a ha b hb
    simp at hb; subst hb
    have := hi.len_le a ha
    rw [hsv]; simp; exact this
  · intro x
    rw [hlist, List.mem_append, hi.mem_iff x, hsize]
    have hchild : ∀ u c2, h2.child u c2 = h.child u c2 := by
      intro u c2; simp [Heap.child, hchildren]
    constructor
    · rintro (h1 | h1)
      · rcases h1 with h0 | ⟨u, c2, hu, hc2, hcase⟩
        · exact Or.inl h0
        · refine Or.inr ⟨u, c2, hu, by rw [hchild]; exact hc2, ?_⟩
          rcases hcase with a | ⟨a, b⟩
          · exact Or.inl a
          · exact Or.inr ⟨a, List.mem_append_left _ b⟩
      · simp at h1; subst h1
        exact Or.inr ⟨cur, c, hcur, by rw [hchild]; exact hc, Or.inr ⟨by simp, by simp⟩⟩
    · rintro (h0 | ⟨u, c2, hu, hc2, hcase⟩)
      · exact Or.inl (Or.inl h0)
      · rw [hchild] at hc2
        rcases hcase with a | ⟨a, b⟩
        · exact Or.inl (Or.inr ⟨u, c2, hu, hc2, Or.inl a⟩)
        · rcases List.mem_append.1 b with b1 | b1
          · exact Or.inl (Or.inr ⟨u, c2, hu, hc2, Or.inr ⟨a, b1⟩⟩)
          · simp at b1
            right; simp [b1.2]
  · intro x hx hx0
    rw [hlist] at hx
    rcases List.mem_append.1 hx with h1 | h1
    · have hne : x ≠ v := fun e => hvM (e ▸ h1)
      exact (hi.final x h1 hx0).of_cell_eq hsize (hcell_ne x hne)
    · simp at h1; subst h1; exact hfinal_v
  · intro x hx hcase
    rw [hsize] at hx
    rw [hlist] at hcase
    have hne : x ≠ v := by
      rcases hcase with a | a
      · rw [a]; exact fun e => hv0 e.symm
      · intro e; apply a; rw [e]; simp
    refine (hi.raw x hx ?_).of_cell_unchanged (hcell_ne x hne)
    rcases hcase with a | a
    · exact Or.inl a
    · exact Or.inr (fun hm => a (List.mem_append_left _ hm))

/-- The loop over the children of the current node. -/
theorem processChildren_spec {P : List (List Rune)} {str : Nat → List Rune}
    {done : List Nat} {cur : Nat} (rest : List (Rune × Nat)) :
    ∀ (h : Heap) (pre : List (Rune × Nat)) (queue : List Nat),
    BfsInv P str h done [cur] pre queue → (∀ c v, (c, v) ∈ rest → h.child cur c = some v) →
    (pre ++ rest).Nodup →
    ∃ h2 q2, processChildren cur h queue rest = some (h2, q2) ∧
      BfsInv P str h2 done [cur] (pre ++ rest) q2 ∧
      h2.size = h.size ∧ ∀ u, (h2.cell u).children = (h.cell u).children := by
  induction rest with
  | nil =>
    intro h pre queue hi _ _
    exact ⟨h, queue, by simp [processChildren], by simpa using hi, rfl, fun _ => rfl⟩
  | cons a rest ih =>
    obtain ⟨c, v⟩ := a
    intro h pre queue hi hch hnd
    have hpre : (c, v) ∉ pre := by
      intro hm
      exact (List.nodup_append.1 hnd).2.2 hm (List.mem_cons_self _ _)
    obtain ⟨h1, hrun, hi1, hsize1, hch1⟩ :=
      processChild_spec hi (hch c v (List.mem_cons_self _ _)) hpre
    have hch2 : ∀ c2 v2, (c2, v2) ∈ rest → h1.child cur c2 = some v2 := by
      intro c2 v2 hm
      have := hch c2 v2 (List.mem_cons_of_mem _ hm)
      simpa [Heap.child, hch1] using this
    have hnd2 : ((pre ++ [(c, v)]) ++ rest).Nodup := by
      simpa [List.append_assoc] using hnd
    obtain ⟨h2, q2, hrun2, hi2, hsize2, hchn2⟩ := ih h1 (pre ++ [(c, v)]) (queue ++ [v]) hi1 hch2 hnd2
    refine ⟨h2, q2, ?_, by simpa [List.append_assoc] using hi2, by rw [hsize2, hsize1], ?_⟩
    · simp [processChildren, hrun, hrun2]
    · intro u; rw [hchn2, hch1]

theorem perm_entries {str : Nat → List Rune} {h : Heap} (hs : TrieShape h str)
    {ord : RangeOrder} (hord : ord.Valid) (u : Nat) :
    (ord u (h.cell u).children).Nodup ∧
      ∀ c v, (c, v) ∈ ord u (h.cell u).children ↔ h.child u c = some v := by
  have hperm := hord u (h.cell u).children
  have hnd : (h.cell u).children.Nodup := List.Nodup.of_map _ (hs.keys u)
  refine ⟨hperm.nodup_iff.2 hnd, ?_⟩
  intro c v
  rw [hperm.mem_iff]
  exact ⟨fun hm => lookup_of_mem (hs.keys u) hm, fun hl => mem_of_lookup hl⟩

/-- When the queue is empty every node has its final failure pointer and output flag. -/
theorem BfsInv.finish {P : List (List Rune)} {str : Nat → List Rune} {h : Heap}
    {done : List Nat} (hi : BfsInv P str h done [] [] []) : ACInv P str h := by
  refine ⟨hi.shape, hi.has, ?_, ?_⟩
  · intro v hv hv0
    have hvd : v ∈ done := hi.done_of_short _ v rfl hv (by simp)
    exact hi.final v (by simp [hvd]) hv0
  · have := (hi.raw 0 hi.shape.pos (Or.inl rfl)).2
    rw [hi.shape.root] at this
    cases ho : (h.cell 0).output with
    | false => rfl
    | true => exact ((this.1 ho).1 rfl).elim

/-- The breadth-first loop terminates within its fuel and completes the automaton. -/
theorem bfs_spec {P : List (List Rune)} {str : Nat → List Rune} {ord : RangeOrder}
    (hord : ord.Valid) : ∀ (fuel : Nat) (h : Heap) (done queue : List Nat),
    BfsInv P str h done [] [] queue → h.size ≤ fuel + done.length →
    ∃ h2, bfs ord fuel h queue = some h2 ∧ ACInv P str h2 := by
  intro fuel
  induction fuel with
  | zero =>
    intro h done queue hi hfuel
    cases queue with
    | nil => exact ⟨h, by simp [bfs], hi.finish⟩
    | cons cur queue =>
      exfalso
      have hlen := nodup_length_le hi.nodup (fun x hx => hi.mem_lt hx)
      simp at hlen hfuel
      omega
  | succ fuel ih =>
    intro h done queue hi hfuel
    cases queue with
    | nil => exact ⟨h, by simp [bfs], hi.finish⟩
    | cons cur queue =>
      have hlist : done ++ [] ++ cur :: queue = done ++ [cur] ++ queue := by simp
      have hi1 : BfsInv P str h done [cur] [] queue := by
        refine ⟨hi.shape, hi.has, hi.root_done, by rw [← hlist]; exact hi.nodup,
          by rw [← hlist]; exact hi.sorted, ?_, ?_, ?_⟩
        · intro v; rw [← hlist, hi.mem_iff v]; simp
        · intro v hv; rw [← hlist] at hv; exact hi.final v hv
        · intro v hv hcase; rw [← hlist] at hcase; exact hi.raw v hv hcase
      obtain ⟨hnd, hmem⟩ := perm_entries hi.shape hord cur
      obtain ⟨h2, q2, hrun, hi2, hsize2, hch2⟩ := processChildren_spec
        (ord cur (h.cell cur).children) h [] queue hi1 (fun c v hm => (hmem c v).1 hm)
        (by simpa using hnd)
      have hlist2 : done ++ [cur] ++ [] ++ q2 = done ++ [cur] ++ q2 := by simp
      have hi3 : BfsInv P str h2 (done ++ [cur]) [] [] q2 := by
        refine ⟨hi2.shape, hi2.has, List.mem_append_left _ hi.root_done,
          by rw [hlist2]; exact hi2.nodup, by rw [hlist2]; exact hi2.sorted, ?_, ?_, ?_⟩
        · intro v
          rw [hlist2, hi2.mem_iff v]
          constructor
          · rintro (h0 | ⟨u, c, hu, hc, hcase⟩)
            · exact Or.inl h0
            · refine Or.inr ⟨u, c, hu, hc, Or.inl ?_⟩
              rcases hcase with a | ⟨a, _⟩
              · exact List.mem_append_left _ a
              · exact List.mem_append_right _ a
          · rintro (h0 | ⟨u, c, hu, hc, hcase⟩)
            · exact Or.inl h0
            · refine Or.inr ⟨u, c, hu, hc, ?_⟩
              rcases hcase with a | ⟨a, _⟩
              · rcases List.mem_append.1 a with a1 | a1
                · exact Or.inl a1
                · refine Or.inr ⟨a1, ?_⟩
                  simp at a1; subst a1
                  simp only [List.nil_append]
                  rw [hmem]
                  simpa [Heap.child, hch2] using hc
              · simp at a
        · intro v hv; rw [hlist2] at hv; exact hi2.final v hv
        · intro v hv hcase; rw [hlist2] at hcase; exact hi2.raw v hv hcase
      have hfuel3 : h2.size ≤ fuel + (done ++ [cur]).length := by
        rw [hsize2]; simp; omega
      obtain ⟨h3, hrun3, hac⟩ := ih h2 (done ++ [cur]) q2 hi3 hfuel3
      exact ⟨h3, by simp [bfs, hrun, hrun3], hac⟩

/-- Step two of `Build` completes the trie of `P` to the automaton of `P`. -/
theorem buildFail_spec {P : List (List Rune)} {str : Nat → List Rune} {h : Heap}
    {ord : RangeOrder} (hord : ord.Valid) (ht : TrieInv P h str) :
    ∃ h2, buildFail ord h = some h2 ∧ ACInv P str h2 := by
  obtain ⟨hnd, hmem⟩ := perm_entries ht.shape hord 0
  have hnd2 : ((ord 0 (h.cell 0).children).map Prod.snd).Nodup := by
    rw [List.nodup_map_iff_inj_on hnd]
    rintro ⟨c1, v1⟩ h1 ⟨c2, v2⟩ h2 hv
    simp only at hv; subst hv
    have a1 := (ht.shape.child 0 c1 v1 ht.shape.pos ((hmem c1 v1).1 h1)).2
    have a2 := (ht.shape.child 0 c2 v1 ht.shape.pos ((hmem c2 v1).1 h2)).2
    rw [a1] at a2
    have := (List.append_inj' a2 rfl).2
    simp at this; rw [this]
  obtain ⟨hi, hsize, hch⟩ := initQueue_spec (ord 0 (h.cell 0).children) h [] []
    (InitInv.at_start ht) (fun c v hm => (hmem c v).1 hm) (by simpa using hnd2)
  simp only [List.nil_append] at hi
  set r := initQueue h (ord 0 (h.cell 0).children) [] with hr
  have hq : r.2 = (ord 0 (h.cell 0).children).map Prod.snd := hi.queue_eq
  have hchild : ∀ u c, r.1.child u c = h.child u c := by
    intro u c; simp [Heap.child, hch]
  have hq0 : ∀ v, v ∈ r.2 ↔ ∃ c, r.1.child 0 c = some v := by
    intro v
    rw [hq, List.mem_map]
    constructor
    · rintro ⟨⟨c, v2⟩, hm, rfl⟩
      exact ⟨c, by rw [hchild]; exact (hmem c v2).1 hm⟩
    · rintro ⟨c, hc⟩
      rw [hchild] at hc
      exact ⟨(c, v), (hmem c v).2 hc, rfl⟩
  have h0q : (0 : Nat) ∉ r.2 := by
    intro hm
    obtain ⟨c, hc⟩ := (hq0 0).1 hm
    exact hi.shape.child_ne_zero hi.shape.pos hc rfl
  have hlen1 : ∀ v ∈ r.2, (str v).length = 1 := by
    intro v hv
    obtain ⟨c, hc⟩ := (hq0 v).1 hv
    rw [(hi.shape.child 0 c v hi.shape.pos hc).2, hi.shape.root]; simp
  have hb : BfsInv P str r.1 [0] [] [] r.2 := by
    refine ⟨hi.shape, hi.has, by simp, ?_, ?_, ?_, ?_, ?_⟩
    · simp only [List.append_nil, List.singleton_append, List.nodup_cons]
      exact ⟨h0q, by rw [hq]; exact hnd2⟩
    · simp only [List.append_nil, List.singleton_append, List.pairwise_cons]
      refine ⟨fun a _ => by rw [hi.shape.root]; simp, ?_⟩
      apply List.pairwise_of_forall_mem_list
      intro a ha b hb
      rw [hlen1 a ha, hlen1 b hb]
    · intro v
      simp only [List.append_nil, List.singleton_append, List.mem_cons, List.mem_singleton,
        List.not_mem_nil, false_and, or_false]
      rw [hq0]
      constructor
      · rintro (a | ⟨c, hc⟩)
        · exact Or.inl a
        · exact Or.inr ⟨0, c, hi.shape.pos, hc, rfl⟩
      · rintro (a | ⟨u, c, _, hc, hu⟩)
        · exact Or.inl a
        · subst hu; exact Or.inr ⟨c, hc⟩
    · intro v hv hv0
      simp only [List.append_nil, List.singleton_append, List.mem_cons] at hv
      rcases hv with a | a
      · exact (hv0 a).elim
      · exact hi.final v a
    · intro v hv hcase
      apply hi.raw v hv
      rcases hcase with a | a
      · rw [a]; exact h0q
      · intro hm; apply a; simp [hm]
  obtain ⟨h2, hrun, hac⟩ := bfs_spec hord r.1.size r.1 [0] r.2 hb (by simp)
  exact ⟨h2, by simpa [buildFail] using hrun, hac⟩

/-! ## `Build` as a whole -/

/-- `Build` always returns: for every pattern list and every iteration order of the
maps it yields the automaton of the patterns and leaves `lastVersion` alone. -/
theorem Build_spec {ord : RangeOrder} (hord : ord.Valid) (ac : ACMachine)
    (P : List (List Rune)) :
    ∃ m, ac.Build ord P = some m ∧ m.lastVersion = ac.lastVersion ∧
      ∃ str, ACInv P str m.heap := by
  obtain ⟨str, ht⟩ := buildTrie_inv P
  obtain ⟨h2, hrun, hac⟩ := buildFail_spec hord ht
  exact ⟨{ ac with heap := h2 }, by simp [ACMachine.Build, hrun], rfl, str, hac⟩

/-! ## Scanning -/

theorem followFail_spec {P : List (List Rune)} {str : Nat → List Rune} {h : Heap}
    (ha : ACInv P str h) {w : List Rune} {c : Rune} :
    ∀ fuel x, (str x).length < fuel → x < h.size → str x <:+ w →
      (∀ t, t <:+ w → (∃ y, y < h.size ∧ str y = t ++ [c]) → t.length ≤ (str x).length) →
      ∃ r, followFail fuel h x c = some r ∧ r < h.size ∧ str r <:+ w ∧
        (r = 0 ∨ ∃ y, h.child r c = some y) ∧
        (∀ t, t <:+ w → (∃ y, y < h.size ∧ str y = t ++ [c]) →
          t.length ≤ (str r).length) := by
  intro fuel
  induction fuel with
  | zero => intro x hlt; omega
  | succ fuel ih =>
    intro x hfuel hx hxs hmax
    by_cases hcond : x ≠ 0 ∧ h.child x c = none
    · obtain ⟨hx0, hnone⟩ := hcond
      obtain ⟨⟨f, hff, hfail⟩, _⟩ := ha.final x hx hx0
      have hstep : followFail (fuel + 1) h x c = followFail fuel h f c := by
        simp [followFail, hx0, hnone, hff]
      rw [hstep]
      obtain ⟨h1, h2⟩ := chain_step ha.shape (fun _ => True) hx hfail hnone hxs
        (fun t _ hts hy => hmax t hts hy)
      have hfl : (str f).length < (str x).length := hfail.2.2.1
      exact ih f (by omega) hfail.1 h1 (fun t hts hy => h2 t trivial hts hy)
    · refine ⟨x, by simp only [followFail, if_neg hcond], hx, hxs, ?_, hmax⟩
      by_cases hx0 : x = 0
      · exact Or.inl hx0
      · right
        cases hc : h.child x c with
        | none => exact (hcond ⟨hx0, hc⟩).elim
        | some y => exact ⟨y, rfl⟩

theorem IsState.at_root {P : List (List Rune)} {str : Nat → List Rune} {h : Heap}
    (ha : ACInv P str h) : IsState str h.size [] 0 := by
  refine ⟨ha.shape.pos, by rw [ha.shape.root], ?_⟩
  intro x _ hxs
  rw [List.eq_nil_of_suffix_nil hxs]; simp

/-- One step of the scan keeps the current node at the longest suffix of the text
read so far that is a path of the trie, and never fails. -/
theorem acStep_spec {P : List (List Rune)} {str : Nat → List Rune} {h : Heap}
    (ha : ACInv P str h) {w : List Rune} {u : Nat} (c : Rune)
    (hst : IsState str h.size w u) :
    ∃ n, acStep h u c = some n ∧ IsState str h.size (w ++ [c]) n := by
  obtain ⟨hu, hus, humax⟩ := hst
  have hmax0 : ∀ t, t <:+ w → (∃ y, y < h.size ∧ str y = t ++ [c]) →
      t.length ≤ (str u).length := by
    intro t hts ⟨y, hy, hyt⟩
    obtain ⟨x, hx, hxt, _⟩ := ha.shape.node_snoc hy hyt
    have := humax x hx (by rw [hxt]; exact hts)
    rw [hxt] at this; exact this
  obtain ⟨r, hrun, hr, hrs, hrc, hrmax⟩ :=
    followFail_spec ha h.size u (ha.shape.depth u hu) hu hus hmax0
  cases hc : h.child r c with
  | some nxt =>
    obtain ⟨hn, hns⟩ := ha.shape.child r c nxt hr hc
    refine ⟨nxt, by simp [acStep, hrun, hc], hn, by rw [hns]; exact suffix_snoc c hrs, ?_⟩
    intro x hx hxs
    rcases suffix_snoc_cases hxs with h0 | ⟨t, ht, hts⟩
    · rw [h0]; simp
    · have := hrmax t hts ⟨x, hx, ht⟩
      rw [ht, hns]; simp; exact this
  | none =>
    have hr0 : r = 0 := by
      rcases hrc with a | ⟨y, hy⟩
      · exact a
      · rw [hc] at hy; cases hy
    subst hr0
    refine ⟨0, by simp [acStep, hrun, hc], hr, by rw [ha.shape.root]; exact List.nil_suffix, ?_⟩
    intro x hx hxs
    rcases suffix_snoc_cases hxs with h0 | ⟨t, ht, hts⟩
    · rw [h0]; simp
    · exfalso
      have h1 := hrmax t hts ⟨x, hx, ht⟩
      rw [ha.shape.root] at h1
      have ht0 : t = [] := List.length_eq_zero.1 (Nat.le_zero.1 h1)
      rw [ht0] at ht
      have h2 := ha.shape.child_of_str hr hx (by rw [ha.shape.root]; exact ht)
      rw [hc] at h2; cases h2

/-- In the automaton the output flag of a node tells whether a pattern is a suffix of
its path (the root included). -/
theorem ACInv.output_iff_patSuffix {P : List (List Rune)} {str : Nat → List Rune} {h : Heap}
    (ha : ACInv P str h) {u : Nat} (hu : u < h.size) :
    (h.cell u).output = true ↔ PatSuffix P (str u) := by
  by_cases hu0 : u = 0
  · rw [hu0, ha.root_out, ha.shape.root]
    constructor
    · intro a; cases a
    · intro a; exact (not_patSuffix_nil P a).elim
  · exact (ha.final u hu hu0).2

theorem IsState.patSuffix_iff {P : List (List Rune)} {str : Nat → List Rune} {h : Heap}
    (ha : ACInv P str h) {w : List Rune} {u : Nat} (hst : IsState str h.size w u) :
    PatSuffix P (str u) ↔ PatSuffix P w := by
  obtain ⟨hu, hus, humax⟩ := hst
  constructor
  · rintro ⟨p, hp, hp0, hps⟩
    exact ⟨p, hp, hp0, hps.trans hus⟩
  · rintro ⟨p, hp, hp0, hps⟩
    obtain ⟨x, hx, hxp⟩ := ha.has p hp hp0
    have := humax x hx (by rw [hxp]; exact hps)
    rw [hxp] at this
    exact ⟨p, hp, hp0, List.suffix_of_suffix_length_le hps hus this⟩

/-- At the current node of the scan the output flag tells whether a pattern ends at
the last rune read. -/
theorem IsState.output_iff_ends {P : List (List Rune)} {str : Nat → List Rune} {h : Heap}
    (ha : ACInv P str h) {w : List Rune} {u : Nat} (hst : IsState str h.size w u) :
    (h.cell u).output = true ↔ PatSuffix P w := by
  rw [ha.output_iff_patSuffix hst.1, hst.patSuffix_iff ha]

theorem occurs_snoc (P : List (List Rune)) (w : List Rune) (c : Rune) :
    Occurs P (w ++ [c]) ↔ Occurs P w ∨ PatSuffix P (w ++ [c]) := by
  constructor
  · rintro ⟨p, hp, hp0, hpi⟩
    rcases List.infix_concat_iff.1 hpi with h1 | h1
    · exact Or.inr ⟨p, hp, hp0, h1⟩
    · exact Or.inl ⟨p, hp, hp0, h1⟩
  · rintro (⟨p, hp, hp0, hpi⟩ | ⟨p, hp, hp0, hps⟩)
    · exact ⟨p, hp, hp0, List.infix_concat_iff.2 (Or.inr hpi)⟩
    · exact ⟨p, hp, hp0, hps.isInfix⟩

theorem not_occurs_nil (P : List (List Rune)) : ¬ Occurs P [] := by
  rintro ⟨p, _, hp0, hpi⟩
  exact hp0 (List.eq_nil_of_infix_nil hpi)

theorem Occurs.append {P : List (List Rune)} {w : List Rune} (ho : Occurs P w)
    (r : List Rune) : Occurs P (w ++ r) := by
  obtain ⟨p, hp, hp0, hpi⟩ := ho
  exact ⟨p, hp, hp0, hpi.trans (List.prefix_append w r).isInfix⟩

/-- The scanning loop of `Match`, started in the state of the text `w` in which no
pattern occurs, returns whether a pattern occurs in `w ++ rest`. -/
theorem matchLoop_spec {P : List (List Rune)} {str : Nat → List Rune} {h : Heap}
    (ha : ACInv P str h) (rest : List Rune) : ∀ (w : List Rune) (u : Nat),
    IsState str h.size w u → ¬ Occurs P w →
    ∃ b, matchLoop h u rest = some b ∧ (b = true ↔ Occurs P (w ++ rest)) := by
  induction rest with
  | nil =>
    intro w u _ hno
    refine ⟨false, by simp [matchLoop], ?_⟩
    simp [hno]
  | cons c rest ih =>
    intro w u hst hno
    obtain ⟨n, hrun, hst2⟩ := acStep_spec ha c hst
    have hout := hst2.output_iff_ends ha
    have hsplit : w ++ c :: rest = (w ++ [c]) ++ rest := by simp
    by_cases ho : (h.cell n).output = true
    · refine ⟨true, by simp [matchLoop, hrun, ho], ?_⟩
      simp only [true_iff]
      rw [hsplit]
      exact Occurs.append ((occurs_snoc P w c).2 (Or.inr (hout.1 ho))) rest
    · have hno2 : ¬ Occurs P (w ++ [c]) := by
        rw [occurs_snoc]
        rintro (a | a)
        · exact hno a
        · exact ho (hout.2 a)
      obtain ⟨b, hb, hiff⟩ := ih (w ++ [c]) n hst2 hno2
      refine ⟨b, ?_, by rw [hsplit]; exact hiff⟩
      simp [matchLoop, hrun, ho, hb]

/-- The loop of lines 164-170 returns whether a pattern is a suffix of the path of
`u`; it never follows a nil pointer. -/
theorem chainOutput_spec {P : List (List Rune)} {str : Nat → List Rune} {h : Heap}
    (ha : ACInv P str h) : ∀ fuel u, (str u).length < fuel → u < h.size →
    ∃ b, chainOutput fuel h u = some b ∧ (b = true ↔ PatSuffix P (str u)) := by
  intro fuel
  induction fuel with
  | zero => intro u hlt; omega
  | succ fuel ih =>
    intro u hfuel hu
    by_cases hu0 : u = 0
    · refine ⟨false, by simp [chainOutput, hu0], ?_⟩
      rw [hu0, ha.shape.root]
      simp [not_patSuffix_nil]
    · by_cases ho : (h.cell u).output = true
      · refine ⟨true, by simp [chainOutput, hu0, ho], ?_⟩
        simp [← ha.output_iff_patSuffix hu, ho]
      · obtain ⟨⟨f, hff, hfail⟩, _⟩ := ha.final u hu hu0
        have hfl : (str f).length < (str u).length := hfail.2.2.1
        obtain ⟨b, hb, hiff⟩ := ih f (by omega) hfail.1
        have hnu : ¬ PatSuffix P (str u) := fun a => ho ((ha.output_iff_patSuffix hu).2 a)
        have hnf : ¬ PatSuffix P (str f) := by
          rintro ⟨p, hp, hp0, hps⟩
          exact hnu ⟨p, hp, hp0, hps.trans hfail.2.1⟩
        refine ⟨b, by simp [chainOutput, hu0, ho, hff, hb], ?_⟩
        rw [hiff]
        exact ⟨fun a => (hnf a).elim, fun a => (hnu a).elim⟩

/-- The scanning loop of `MatchAll`, started in the state of the text `w`, appends to
the positions found so far the positions at which a pattern ends, in increasing order. -/
theorem matchAllLoop_spec {P : List (List Rune)} {str : Nat → List Rune} {h : Heap}
    (ha : ACInv P str h) (rest : List Rune) : ∀ (w : List Rune) (u : Nat) (acc : List Nat),
    IsState str h.size w u →
    ∃ r, matchAllLoop h u w.length rest acc = some (acc ++ r) ∧
      r.Pairwise (fun a b => a < b) ∧
      ∀ i, i ∈ r ↔ (w.length ≤ i ∧ i < w.length + rest.length ∧
        PatSuffix P ((w ++ rest).take (i + 1))) := by
  induction rest with
  | nil =>
    intro w u acc _
    refine ⟨[], by simp [matchAllLoop], List.Pairwise.nil, ?_⟩
    intro i
    constructor
    · intro hm; simp at hm
    · rintro ⟨h1, h2, _⟩
      simp at h2; omega
  | cons c rest ih =>
    intro w u acc hst
    obtain ⟨n, hrun, hst2⟩ := acStep_spec ha c hst
    obtain ⟨b, hb, hbiff⟩ := chainOutput_spec ha (h.size + 1) n
      (Nat.lt_succ_of_lt (ha.shape.depth n hst2.1)) hst2.1
    rw [hst2.patSuffix_iff ha] at hbiff
    have hsplit : w ++ c :: rest = (w ++ [c]) ++ rest := by simp
    have hlen : (w ++ [c]).length = w.length + 1 := by simp
    have htake : (w ++ c :: rest).take (w.length + 1) = w ++ [c] := by
      rw [hsplit]; exact List.take_left' hlen
    cases b with
    | true =>
      obtain ⟨r, hr, hsorted, hmem⟩ := ih (w ++ [c]) n (acc ++ [w.length]) hst2
      rw [hlen] at hr hmem
      refine ⟨w.length :: r, ?_, ?_, ?_⟩
      · simp [matchAllLoop, hrun, hb, hr]
      · refine List.pairwise_cons.2 ⟨?_, hsorted⟩
        intro a ha'
        have := ((hmem a).1 ha').1
        omega
      · intro i
        rw [List.mem_cons, hmem i, hsplit]
        constructor
        · rintro (h1 | ⟨h1, h2, h3⟩)
          · subst h1
            refine ⟨Nat.le_refl _, by simp, ?_⟩
            rw [← hsplit, htake]
            exact hbiff.1 rfl
          · exact ⟨by omega, by simp at h2 ⊢; omega, h3⟩
        · rintro ⟨h1, h2, h3⟩
          rcases Nat.eq_or_lt_of_le h1 with h4 | h4
          · exact Or.inl h4.symm
          · exact Or.inr ⟨by omega, by simp at h2 ⊢; omega, h3⟩
    | false =>
      obtain ⟨r, hr, hsorted, hmem⟩ := ih (w ++ [c]) n acc hst2
      rw [hlen] at hr hmem
      refine ⟨r, ?_, hsorted, ?_⟩
      · simp [matchAllLoop, hrun, hb, hr]
      · intro i
        rw [hmem i, hsplit]
        constructor
        · rintro ⟨h1, h2, h3⟩
          exact ⟨by omega, by simp at h2 ⊢; omega, h3⟩
        · rintro ⟨h1, h2, h3⟩
          rcases Nat.eq_or_lt_of_le h1 with h4 | h4
          · exfalso
            rw [← h4, ← hsplit, htake] at h3
            have := hbiff.2 h3
            cases this
          · exact ⟨by omega, by simp at h2 ⊢; omega, h3⟩

theorem RangeOrder.insertion_valid : RangeOrder.insertion.Valid :=
  fun _ m => List.Perm.refl m

theorem RangeOrder.reversed_valid : RangeOrder.reversed.Valid :=
  fun _ m => List.reverse_perm m

/-- On the automaton of `P`, `Match` returns whether a pattern of `P` occurs. -/
theorem match_of_inv {P : List (List Rune)} {str : Nat → List Rune} {h : Heap}
    (ha : ACInv P str h) (T : List Rune) :
    ∃ b, matchLoop h 0 T = some b ∧ (b = true ↔ Occurs P T) := by
  have := matchLoop_spec ha T [] 0 (IsState.at_root ha) (not_occurs_nil P)
  simpa using this

/-! ## The versioned cache -/

theorem DefaultKeywordManager.lawful_default : LawfulManager DefaultKeywordManager.methods := by
  constructor
  · intro p op
    cases op with
    | SetKeywords k =>
      show p.version ≤ p.version + 1
      omega
    | AddKeyword k =>
      show p.version ≤ p.version + 1
      omega
    | RemoveKeyword k =>
      show p.version ≤ (DefaultKeywordManager.RemoveKeyword p k).1.version
      unfold DefaultKeywordManager.RemoveKeyword
      split
      · show p.version ≤ p.version + 1
        omega
      · exact le_refl _
    | Clear =>
      show p.version ≤ p.version + 1
      omega
  · intro p op
    cases op with
    | SetKeywords k =>
      intro hv
      have : p.version + 1 = p.version := hv
      omega
    | AddKeyword k =>
      intro hv
      have : p.version + 1 = p.version := hv
      omega
    | RemoveKeyword k =>
      show (DefaultKeywordManager.RemoveKeyword p k).1.version = p.version →
        (DefaultKeywordManager.RemoveKeyword p k).1.keywords = p.keywords
      unfold DefaultKeywordManager.RemoveKeyword
      split
      · intro hv
        have : p.version + 1 = p.version := hv
        omega
      · intro _; rfl
    | Clear =>
      intro hv
      have : p.version + 1 = p.version := hv
      omega

theorem AtomicKeywordManager.lawful_atomic : LawfulManager AtomicKeywordManager.methods := by
  constructor
  · intro p op
    cases op with
    | SetKeywords k =>
      show p.version ≤ p.version + 1
      omega
    | AddKeyword k =>
      show p.version ≤ p.version + 1
      omega
    | RemoveKeyword k =>
      show p.version ≤ (AtomicKeywordManager.RemoveKeyword p k).1.version
      unfold AtomicKeywordManager.RemoveKeyword
      simp only
      split
      · show p.version ≤ p.version + 1
        omega
      · exact le_refl _
    | Clear =>
      show p.version ≤ p.version + 1
      omega
  · intro p op
    cases op with
    | SetKeywords k =>
      intro hv
      have : p.version + 1 = p.version := hv
      omega
    | AddKeyword k =>
      intro hv
      have : p.version + 1 = p.version := hv
      omega
    | RemoveKeyword k =>
      show (AtomicKeywordManager.RemoveKeyword p k).1.version = p.version →
        (AtomicKeywordManager.RemoveKeyword p k).1.keywords = p.keywords
      unfold AtomicKeywordManager.RemoveKeyword
      simp only
      split
      · intro hv
        have : p.version + 1 = p.version := hv
        omega
      · intro _; rfl
    | Clear =>
      intro hv
      have : p.version + 1 = p.version := hv
      omega

theorem CacheOK.apply {σ : Type} {km : KeywordManager σ} (hl : LawfulManager km) {p : σ}
    {cache : acCache} (hc : CacheOK km p cache) (op : KeywordOp) :
    CacheOK km (km.apply p op) cache := by
  have hm := hl.mono p op
  rcases hc with h1 | ⟨h1, h2⟩
  · exact Or.inl (lt_of_lt_of_le h1 hm)
  · rcases lt_or_eq_of_le hm with h3 | h3
    · exact Or.inl (by rw [h1]; exact h3)
    · refine Or.inr ⟨by rw [h1]; exact h3, ?_⟩
      rw [hl.same p op h3.symm]; exact h2

/-- One call of the predicate: it returns, its result is whether a keyword occurs in
the text, and the cache stays consistent with the provider. -/
theorem acMatcher_spec {σ : Type} (km : KeywordManager σ) {ord : RangeOrder}
    (hord : ord.Valid) {p : σ} {cache : acCache} (hc : CacheOK km p cache)
    (text : List Rune) :
    ∃ cache2 b, acMatcher km ord cache p text = some (cache2, b) ∧
      (b = true ↔ Occurs (km.GetKeywords p) text) ∧ CacheOK km p cache2 := by
  by_cases hv : cache.lastVersion = km.GetVersion p
  · have hinv : ∃ str, ACInv (km.GetKeywords p) str cache.machine.heap := by
      rcases hc with h1 | ⟨_, h2⟩
      · omega
      · exact h2
    obtain ⟨str, ha⟩ := hinv
    obtain ⟨b, hb, hiff⟩ := match_of_inv ha text
    refine ⟨cache, b, ?_, hiff, hc⟩
    simp [acMatcher, hv, ACMachine.Match, hb]
  · by_cases hw : (km.GetKeywords p).length = 0
    · refine ⟨cache, false, by simp [acMatcher, hv, hw], ?_, hc⟩
      have hnil : km.GetKeywords p = [] := List.length_eq_zero.1 hw
      rw [hnil]
      constructor
      · intro a; cases a
      · rintro ⟨q, hq, _⟩; simp at hq
    · obtain ⟨m, hbuild, _, str, ha⟩ := Build_spec hord cache.machine (km.GetKeywords p)
      obtain ⟨b, hb, hiff⟩ := match_of_inv ha text
      refine ⟨{ machine := m, lastVersion := km.GetVersion p }, b, ?_, hiff,
        Or.inr ⟨rfl, str, ha⟩⟩
      simp [acMatcher, hv, hw, hbuild, ACMachine.Match, hb]

theorem callsCorrect_of_cacheOK {σ : Type} {km : KeywordManager σ} (hl : LawfulManager km)
    (steps : List ProviderStep) : ∀ (p : σ) (cache : acCache), OrdersValid steps →
    CacheOK km p cache → CallsCorrect km p cache steps := by
  induction steps with
  | nil => intro p cache _ _; trivial
  | cons s rest ih =>
    intro p cache hv hc
    cases s with
    | mutate op => exact ih (km.apply p op) cache hv (hc.apply hl op)
    | call ord text =>
      obtain ⟨hord, hrest⟩ := hv
      obtain ⟨cache2, b, hrun, hiff, hc2⟩ := acMatcher_spec km hord hc text
      exact ⟨cache2, b, hrun, hiff, ih p cache2 hrest hc2⟩

/-! ## `sort.Slice` -/

theorem sinkLeft_perm {α : Type} (less : α → α → Bool) (x : α) (l : List α) :
    (sinkLeft less x l).Perm (x :: l) := by
  induction l with
  | nil => exact List.Perm.refl _
  | cons y l ih =>
    unfold sinkLeft
    split
    · exact ((List.Perm.cons y ih).trans (List.Perm.swap x y l))
    · exact List.Perm.refl _

theorem sinkLeft_sorted {α : Type} (key : α → Int) (x : α) (l : List α)
    (hl : l.Pairwise (fun a b => key a ≤ key b)) :
    (sinkLeft (fun a b => decide (key a > key b)) x l).Pairwise (fun a b => key a ≤ key b) := by
  induction l with
  | nil => simp [sinkLeft]
  | cons y l ih =>
    obtain ⟨hy, hl2⟩ := List.pairwise_cons.1 hl
    unfold sinkLeft
    by_cases hxy : key x > key y
    · simp only [hxy, decide_True, if_true]
      refine List.pairwise_cons.2 ⟨?_, ih hl2⟩
      intro z hz
      rcases List.mem_cons.1 ((sinkLeft_perm _ x l).mem_iff.1 hz) with h1 | h1
      · rw [h1]; omega
      · exact hy z h1
    · simp only [hxy, decide_False, Bool.false_eq_true, if_false]
      refine List.pairwise_cons.2 ⟨?_, hl⟩
      intro z hz
      rcases List.mem_cons.1 hz with h1 | h1
      · rw [h1]; omega
      · have := hy z h1; omega

theorem sinkLeft_filter {α : Type} (key : α → Int) (p : Int) (x : α) (l : List α) :
    (sinkLeft (fun a b => decide (key a > key b)) x l).filter (fun a => decide (key a = p)) =
      (if key x = p then [x] else []) ++ l.filter (fun a => decide (key a = p)) := by
  induction l with
  | nil => by_cases hx : key x = p <;> simp [sinkLeft, hx]
  | cons y l ih =>
    unfold sinkLeft
    by_cases hxy : key x > key y
    · simp only [hxy, decide_True, if_true]
      rw [List.filter_cons, ih]
      by_cases hx : key x = p
      · have hy : ¬ key y = p := by omega
        simp [hx, hy]
      · by_cases hy : key y = p <;> simp [hx, hy, List.filter_cons]
    · simp only [hxy, decide_False, Bool.false_eq_true, if_false]
      by_cases hx : key x = p
      · simp [List.filter_cons, hx]
      · simp [List.filter_cons, hx]

theorem foldl_sinkLeft_perm {α : Type} (less : α → α → Bool) (l : List α) :
    ∀ acc, (l.foldl (fun left x => sinkLeft less x left) acc).Perm (acc ++ l) := by
  induction l with
  | nil => intro acc; simp
  | cons x l ih =>
    intro acc
    simp only [List.foldl_cons]
    refine (ih _).trans ?_
    have h1 : (sinkLeft less x acc ++ l).Perm ((x :: acc) ++ l) :=
      List.Perm.append_right l (sinkLeft_perm less x acc)
    refine h1.trans ?_
    simp only [List.cons_append]
    exact (List.perm_middle).symm

theorem foldl_sinkLeft_sorted {α : Type} (key : α → Int) (l : List α) :
    ∀ acc, acc.Pairwise (fun a b => key a ≤ key b) →
      (l.foldl (fun left x => sinkLeft (fun a b => decide (key a > key b)) x left) acc).Pairwise
        (fun a b => key a ≤ key b) := by
  induction l with
  | nil => intro acc h; simpa using h
  | cons x l ih =>
    intro acc h
    simp only [List.foldl_cons]
    exact ih _ (sinkLeft_sorted key x acc h)

theorem foldl_sinkLeft_filter {α : Type} (key : α → Int) (p : Int) (l : List α) :
    ∀ acc, (l.foldl (fun left x => sinkLeft (fun a b => decide (key a > key b)) x left) acc).filter
        (fun a => decide (key a = p)) =
      (l.filter (fun a => decide (key a = p))).reverse ++ acc.filter (fun a => decide (key a = p)) := by
  induction l with
  | nil => intro acc; simp
  | cons x l ih =>
    intro acc
    simp only [List.foldl_cons]
    rw [ih, sinkLeft_filter]
    by_cases hx : key x = p
    · simp [List.filter_cons, hx]
    · simp [List.filter_cons, hx]

theorem insertionSort_perm {α : Type} (less : α → α → Bool) (l : List α) :
    (insertionSort less l).Perm l := by
  unfold insertionSort
  refine (List.reverse_perm _).trans ?_
  simpa using foldl_sinkLeft_perm less l []

theorem insertionSort_sorted {α : Type} (key : α → Int) (l : List α) :
    (insertionSort (fun a b => decide (key a > key b)) l).Pairwise (fun a b => key a ≥ key b) := by
  unfold insertionSort
  rw [List.pairwise_reverse]
  exact foldl_sinkLeft_sorted key l [] List.Pairwise.nil

/-- Insertion sort is stable: the elements of any one key keep their order. -/
theorem insertionSort_filter {α : Type} (key : α → Int) (p : Int) (l : List α) :
    (insertionSort (fun a b => decide (key a > key b)) l).filter (fun a => decide (key a = p)) =
      l.filter (fun a => decide (key a = p)) := by
  unfold insertionSort
  rw [List.filter_reverse, foldl_sinkLeft_filter]
  simp

theorem insertionSort_valid {α : Type} : SliceSorter.Valid (insertionSort : SliceSorter α) :=
  fun key l => ⟨insertionSort_perm _ l, insertionSort_sorted key l⟩

theorem sortSlice_perm {α : Type} {big : SliceSorter α} (hbig : big.Valid) (key : α → Int)
    (l : List α) : (sortSlice big (fun a b => decide (key a > key b)) l).Perm l := by
  unfold sortSlice
  split
  · exact insertionSort_perm _ l
  · exact (hbig key l).1

theorem sortSlice_sorted {α : Type} {big : SliceSorter α} (hbig : big.Valid) (key : α → Int)
    (l : List α) :
    (sortSlice big (fun a b => decide (key a > key b)) l).Pairwise (fun a b => key a ≥ key b) := by
  unfold sortSlice
  split
  · exact insertionSort_sorted key l
  · exact (hbig key l).2

theorem sortSlice_filter {α : Type} (big : SliceSorter α) (key : α → Int) (p : Int)
    (l : List α) (hlen : l.length ≤ 12) :
    (sortSlice big (fun a b => decide (key a > key b)) l).filter (fun a => decide (key a = p)) =
      l.filter (fun a => decide (key a = p)) := by
  unfold sortSlice
  rw [if_pos hlen]
  exact insertionSort_filter key p l

/-! ## The dispatch loop -/

theorem dispatchLoop_aborted {ε : Type} (store : Nat → Matcher ε) (ms : List Nat)
    (ctx : Context ε) (ha : ctx.IsAborted = true) : dispatchLoop store ms ctx = (ctx, []) := by
  cases ms with
  | nil => rfl
  | cons m rest => simp [dispatchLoop, ha]

/-- A loop that runs through `pre` goes on with `post` on the context `pre` left. -/
theorem dispatchLoop_append {ε : Type} (store : Nat → Matcher ε) (pre post : List Nat) :
    ∀ ctx : Context ε, RunsThrough store pre ctx →
      dispatchLoop store (pre ++ post) ctx =
        ((dispatchLoop store post (dispatchLoop store pre ctx).1).1,
          (dispatchLoop store pre ctx).2 ++
            (dispatchLoop store post (dispatchLoop store pre ctx).1).2) := by
  induction pre with
  | nil => intro ctx _; simp [dispatchLoop]
  | cons m pre ih =>
    intro ctx hrun
    obtain ⟨hna, hblock, hrest⟩ := hrun
    simp only [List.cons_append]
    by_cases hm : ((store m).Match ctx).2 = true
    · have hb := hblock hm
      have hone : (dispatchLoop store [m] ctx).1 = { ((store m).Match ctx).1 with matched := true } := by
        simp [dispatchLoop, hna, hm, hb]
      rw [hone] at hrest
      have h1 := ih _ hrest
      simp [dispatchLoop, hna, hm, hb, h1]
    · have hone : (dispatchLoop store [m] ctx).1 = ((store m).Match ctx).1 := by
        simp [dispatchLoop, hna, hm]
      rw [hone] at hrest
      have h1 := ih _ hrest
      simp [dispatchLoop, hna, hm, h1]

/-! ## `Matcher.Match` -/

theorem runFilters_pass {ε : Type} (fs : List (Filter ε)) : ∀ (i : Nat) (ctx : Context ε),
    (∀ j, j < fs.length → filterResult fs ctx j = some true) →
    runFilters fs i ctx = (afterFilters fs ctx, true, (List.range' i fs.length).map Call.filter) := by
  induction fs with
  | nil => intro i ctx _; simp [runFilters, afterFilters]
  | cons f fs ih =>
    intro i ctx hall
    have h0 : (f ctx).2 = true := by
      have := hall 0 (by simp)
      simpa [filterResult] using this
    have hrest : ∀ j, j < fs.length → filterResult fs (f ctx).1 j = some true := by
      intro j hj
      have := hall (j + 1) (by simp; omega)
      simpa [filterResult] using this
    simp [runFilters, h0, ih (i + 1) (f ctx).1 hrest, afterFilters, List.range'_succ]

theorem runFilters_fail {ε : Type} (fs : List (Filter ε)) : ∀ (i : Nat) (ctx : Context ε) (k : Nat),
    (∀ j, j < k → filterResult fs ctx j = some true) → filterResult fs ctx k = some false →
    (runFilters fs i ctx).2.1 = false ∧
      (runFilters fs i ctx).2.2 = (List.range' i (k + 1)).map Call.filter := by
  induction fs with
  | nil => intro i ctx k _ hk; simp [filterResult] at hk
  | cons f fs ih =>
    intro i ctx k hall hk
    cases k with
    | zero =>
      have h0 : (f ctx).2 = false := by simpa [filterResult] using hk
      simp [runFilters, h0]
    | succ k =>
      have h0 : (f ctx).2 = true := by
        have := hall 0 (by omega)
        simpa [filterResult] using this
      have hrest : ∀ j, j < k → filterResult fs (f ctx).1 j = some true := by
        intro j hj
        have := hall (j + 1) (by omega)
        simpa [filterResult] using this
      have hk2 : filterResult fs (f ctx).1 k = some false := by simpa [filterResult] using hk
      obtain ⟨a, b⟩ := ih (i + 1) (f ctx).1 k hrest hk2
      simp [runFilters, h0, a, b, List.range'_succ]

theorem filterResult_isSome {ε : Type} (fs : List (Filter ε)) : ∀ (ctx : Context ε) (j : Nat),
    j < fs.length → ∃ b, filterResult fs ctx j = some b := by
  induction fs with
  | nil => intro ctx j hj; simp at hj
  | cons f fs ih =>
    intro ctx j hj
    cases j with
    | zero => exact ⟨_, rfl⟩
    | succ j => exact ih (f ctx).1 j (by simpa using hj)

/-- The filter loop returns `true` exactly when every filter does. -/
theorem runFilters_true_iff {ε : Type} (fs : List (Filter ε)) : ∀ (i : Nat) (ctx : Context ε),
    (runFilters fs i ctx).2.1 = true ↔ ∀ j, j < fs.length → filterResult fs ctx j = some true := by
  induction fs with
  | nil => intro i ctx; simp [runFilters]
  | cons f fs ih =>
    intro i ctx
    by_cases h0 : (f ctx).2 = true
    · have : (runFilters (f :: fs) i ctx).2.1 = (runFilters fs (i + 1) (f ctx).1).2.1 := by
        simp [runFilters, h0]
      rw [this, ih]
      constructor
      · intro hall j hj
        cases j with
        | zero => simp [filterResult, h0]
        | succ j => simpa [filterResult] using hall j (by simpa using hj)
      · intro hall j hj
        have := hall (j + 1) (by simp; omega)
        simpa [filterResult] using this
    · have : (runFilters (f :: fs) i ctx).2.1 = false := by
        simp [runFilters, h0]
      rw [this]
      constructor
      · intro a; cases a
      · intro hall
        have := hall 0 (by simp)
        simp [filterResult] at this
        exact (h0 this).elim

theorem runFilters_ctx_of_true {ε : Type} (fs : List (Filter ε)) (i : Nat) (ctx : Context ε)
    (ht : (runFilters fs i ctx).2.1 = true) : (runFilters fs i ctx).1 = afterFilters fs ctx := by
  rw [runFilters_pass fs i ctx ((runFilters_true_iff fs i ctx).1 ht)]

/-! ## The automaton: `Match` and `MatchAll` -/

/-- C1: for every pattern list `P` and text `T`, whatever the machine held before and in
whatever order the children maps are walked, `Build(P)` returns and `Match(T)` on the
result returns `true` exactly when some non-empty pattern of `P` occurs as a contiguous
run of code points of `T`; empty patterns never cause a match. -/
theorem ACMachine.Match_iff_occurs (ord : RangeOrder) (hord : ord.Valid) (ac0 : ACMachine)
    (P : List (List Rune)) (T : List Rune) :
    ∃ ac b, ac0.Build ord P = some ac ∧ ac.Match T = some b ∧
      (b = true ↔ ∃ p ∈ P, p ≠ [] ∧ p <:+: T) ∧ ((∀ p ∈ P, p = []) → b = false) := by
  obtain ⟨ac, hbuild, _, str, ha⟩ := Build_spec hord ac0 P
  obtain ⟨b, hb, hiff⟩ := match_of_inv ha T
  refine ⟨ac, b, hbuild, hb, hiff, ?_⟩
  intro hall
  cases hbt : b with
  | false => rfl
  | true =>
    obtain ⟨p, hp, hp0, _⟩ := hiff.1 hbt
    exact (hp0 (hall p hp)).elim

theorem ACMachine.Match_iff_occurs_witness :
    RangeOrder.reversed.Valid ∧
      (∃ ac b, NewACMachine.Build RangeOrder.reversed patternsHers = some ac ∧
        ac.Match (runes "ushers") = some b ∧
        (b = true ↔ ∃ p ∈ patternsHers, p ≠ [] ∧ p <:+: runes "ushers") ∧
        ((∀ p ∈ patternsHers, p = []) → b = false)) ∧
      (NewACMachine.Build RangeOrder.reversed patternsHers).bind
        (fun ac => ac.Match (runes "ushers")) = some true ∧
      (NewACMachine.Build RangeOrder.reversed [[]]).bind
        (fun ac => ac.Match (runes "ushers")) = some false :=
  ⟨RangeOrder.reversed_valid,
    ACMachine.Match_iff_occurs RangeOrder.reversed RangeOrder.reversed_valid NewACMachine
      patternsHers (runes "ushers"),
    by decide, by decide⟩

/-- C2: for every pattern list `P` and text `T`, `MatchAll(T)` after `Build(P)` returns the
strictly increasing list of exactly the indices `i < len(T)` such that some non-empty
pattern of `P` is a suffix of the first `i+1` code points of `T`: each such index once,
and all of them (the scan does not stop at the first). -/
theorem ACMachine.MatchAll_end_positions (ord : RangeOrder) (hord : ord.Valid)
    (ac0 : ACMachine) (P : List (List Rune)) (T : List Rune) :
    ∃ ac r, ac0.Build ord P = some ac ∧ ac.MatchAll T = some r ∧
      r.Pairwise (fun a b => a < b) ∧
      ∀ i, i ∈ r ↔ (i < T.length ∧ ∃ p ∈ P, p ≠ [] ∧ p <:+ T.take (i + 1)) := by
  obtain ⟨ac, hbuild, _, str, ha⟩ := Build_spec hord ac0 P
  obtain ⟨r, hr, hsorted, hmem⟩ := matchAllLoop_spec ha T [] 0 [] (IsState.at_root ha)
  refine ⟨ac, r, hbuild, by simpa [ACMachine.MatchAll] using hr, hsorted, ?_⟩
  intro i
  rw [hmem i]
  simp [PatSuffix]

theorem ACMachine.MatchAll_end_positions_witness :
    RangeOrder.insertion.Valid ∧
      (∃ ac r, NewACMachine.Build RangeOrder.insertion patternsAbBc = some ac ∧
        ac.MatchAll (runes "xabcx") = some r ∧ r.Pairwise (fun a b => a < b) ∧
        ∀ i, i ∈ r ↔ (i < (runes "xabcx").length ∧
          ∃ p ∈ patternsAbBc, p ≠ [] ∧ p <:+ (runes "xabcx").take (i + 1))) ∧
      (NewACMachine.Build RangeOrder.insertion patternsAbBc).bind
        (fun ac => ac.MatchAll (runes "xabcx")) = some [2, 3] :=
  ⟨RangeOrder.insertion_valid,
    ACMachine.MatchAll_end_positions RangeOrder.insertion RangeOrder.insertion_valid
      NewACMachine patternsAbBc (runes "xabcx"),
    by decide⟩

/-! ## The versioned cache -/

/-- C3: for a provider made by `NewKeywordManager` or `NewAtomicKeywordManager` and any
sequential run of mutations (`SetKeywords`, `AddKeyword`, `RemoveKeyword`, `Clear`) and
calls of the predicate of `acMatcher`, every call returns, and returns `true` exactly
when some non-empty keyword the provider holds at that moment occurs in the plain text
of the event; so the first call after a mutation already answers for the new keywords,
and an empty keyword list gives `false`. -/
theorem acMatcher_follows_provider (keywords : List (List Rune)) (steps : List ProviderStep)
    (hvalid : OrdersValid steps) :
    CallsCorrect DefaultKeywordManager.methods (NewKeywordManager keywords) acCache.new steps ∧
      CallsCorrect AtomicKeywordManager.methods (NewAtomicKeywordManager keywords)
        acCache.new steps := by
  constructor
  · apply callsCorrect_of_cacheOK DefaultKeywordManager.lawful_default steps _ _ hvalid
    left
    show (-1 : Int) < 1
    omega
  · apply callsCorrect_of_cacheOK AtomicKeywordManager.lawful_atomic steps _ _ hvalid
    left
    show (-1 : Int) < 1
    omega

theorem acMatcher_follows_provider_witness :
    OrdersValid sampleRun ∧
      (CallsCorrect DefaultKeywordManager.methods (NewKeywordManager patternsAbBc)
          acCache.new sampleRun ∧
        CallsCorrect AtomicKeywordManager.methods (NewAtomicKeywordManager patternsAbBc)
          acCache.new sampleRun) :=
  ⟨⟨RangeOrder.insertion_valid, RangeOrder.reversed_valid, RangeOrder.insertion_valid, trivial⟩,
    acMatcher_follows_provider patternsAbBc sampleRun
      ⟨RangeOrder.insertion_valid, RangeOrder.reversed_valid, RangeOrder.insertion_valid,
        trivial⟩⟩

/-! ## The registry -/

/-- C4: the dispatch order is not the priority order when priorities are given through
the public interface. After `OnMessage().Priority(1)` and `OnMessage().Priority(5)` the
registry still lists the first matcher before the second, and for a private message
`handleEventInternal` evaluates and launches the matcher of priority 1 before the
matcher of priority 5: `addMatcher` sorted while the new matcher still had priority 0,
and `Priority` does not sort again. -/
theorem handleEventInternal_order_after_Priority (big : SliceSorter Nat) :
    (registerAll (ε := Unit) big NewEngine [1, 5]).matchers = [0, 1] ∧
      ((registerAll (ε := Unit) big NewEngine [1, 5]).store 0).priority = 1 ∧
      ((registerAll (ε := Unit) big NewEngine [1, 5]).store 1).priority = 5 ∧
      ((registerAll (ε := Unit) big NewEngine [1, 5]).handleEventInternal
        (NewContext sampleMessage ())).2 =
          [DispatchEvent.evaluated 0, DispatchEvent.launched 0,
            DispatchEvent.evaluated 1, DispatchEvent.launched 1] :=
  ⟨rfl, rfl, rfl, rfl⟩

/-- C5: right after `addMatcher`, and so right after every `On*` call, the registry is a
rearrangement of the previous registry with the new matcher added, and it is ordered by
non-increasing priority (the priorities the matchers have at that moment). -/
theorem Engine.addMatcher_sorted_perm {ε : Type} (big : SliceSorter Nat) (hbig : big.Valid)
    (e : Engine ε) (matcher : Nat) (matchFunc : Option (Filter ε)) (filters : List (Filter ε)) :
    ((e.addMatcher big matcher).matchers.Perm (e.matchers ++ [matcher]) ∧
      (e.addMatcher big matcher).matchers.Pairwise
        (fun a b => ((e.addMatcher big matcher).store a).priority ≥
          ((e.addMatcher big matcher).store b).priority)) ∧
    ((e.On big matchFunc filters).1.matchers.Perm (e.matchers ++ [(e.On big matchFunc filters).2]) ∧
      (e.On big matchFunc filters).1.matchers.Pairwise
        (fun a b => ((e.On big matchFunc filters).1.store a).priority ≥
          ((e.On big matchFunc filters).1.store b).priority)) :=
  ⟨⟨sortSlice_perm hbig (fun a => (e.store a).priority) _,
      sortSlice_sorted hbig (fun a => (e.store a).priority) _⟩,
    ⟨sortSlice_perm hbig
        (fun a => (Function.update e.store e.next (newMatcher matchFunc filters) a).priority) _,
      sortSlice_sorted hbig
        (fun a => (Function.update e.store e.next (newMatcher matchFunc filters) a).priority) _⟩⟩

theorem Engine.addMatcher_sorted_perm_witness :
    SliceSorter.Valid (insertionSort : SliceSorter Nat) ∧
      ((((registerAll (ε := Unit) insertionSort NewEngine [5, 1, 5]).addMatcher insertionSort
            3).matchers.Perm
          ((registerAll (ε := Unit) insertionSort NewEngine [5, 1, 5]).matchers ++ [3]) ∧
        ((registerAll (ε := Unit) insertionSort NewEngine [5, 1, 5]).addMatcher insertionSort
            3).matchers.Pairwise
          (fun a b =>
            (((registerAll (ε := Unit) insertionSort NewEngine [5, 1, 5]).addMatcher
              insertionSort 3).store a).priority ≥
            (((registerAll (ε := Unit) insertionSort NewEngine [5, 1, 5]).addMatcher
              insertionSort 3).store b).priority)) ∧
      (((registerAll (ε := Unit) insertionSort NewEngine [5, 1, 5]).On insertionSort none
            []).1.matchers.Perm
          ((registerAll (ε := Unit) insertionSort NewEngine [5, 1, 5]).matchers ++
            [((registerAll (ε := Unit) insertionSort NewEngine [5, 1, 5]).On insertionSort none
              []).2]) ∧
        ((registerAll (ε := Unit) insertionSort NewEngine [5, 1, 5]).On insertionSort none
            []).1.matchers.Pairwise
          (fun a b =>
            (((registerAll (ε := Unit) insertionSort NewEngine [5, 1, 5]).On insertionSort none
              []).1.store a).priority ≥
            (((registerAll (ε := Unit) insertionSort NewEngine [5, 1, 5]).On insertionSort none
              []).1.store b).priority))) ∧
      ((registerAll (ε := Unit) insertionSort NewEngine [5, 1, 5]).addMatcher insertionSort
        3).matchers = [0, 2, 1, 3] :=
  ⟨insertionSort_valid,
    Engine.addMatcher_sorted_perm insertionSort insertionSort_valid
      (registerAll (ε := Unit) insertionSort NewEngine [5, 1, 5]) 3 none [],
    by decide⟩

/-- C6, amended: while the registry holds at most 12 matchers after the insertion
(`sort.Slice` then runs its insertion sort), `addMatcher` keeps the order among matchers
of equal priority and places the new matcher after the existing matchers of its
priority; registering priorities 5, 1, 5, 0 through the public interface gives the
order first, third, second, fourth. -/
theorem Engine.addMatcher_stable_upto_twelve {ε : Type} (big : SliceSorter Nat) (e : Engine ε)
    (matcher : Nat) (hlen : e.matchers.length < 12) (p : Int) :
    (e.addMatcher big matcher).matchers.filter (fun a => decide ((e.store a).priority = p)) =
        e.matchers.filter (fun a => decide ((e.store a).priority = p)) ++
          (if (e.store matcher).priority = p then [matcher] else []) ∧
      (registerAll (ε := Unit) big NewEngine [5, 1, 5, 0]).matchers = [0, 2, 1, 3] := by
  refine ⟨?_, rfl⟩
  have h1 := sortSlice_filter big (fun a => (e.store a).priority) p (e.matchers ++ [matcher])
    (by simp; omega)
  show (sortSlice big (fun a b => decide ((e.store a).priority > (e.store b).priority))
    (e.matchers ++ [matcher])).filter (fun a => decide ((e.store a).priority = p)) = _
  rw [h1, List.filter_append]
  by_cases hp : (e.store matcher).priority = p <;> simp [List.filter_cons, hp]

theorem Engine.addMatcher_stable_upto_twelve_witness :
    ((registerAll (ε := Unit) insertionSort NewEngine [5, 1, 5]).call 3
        (fun m => m.Priority 5)).matchers.length < 12 ∧
      ((((registerAll (ε := Unit) insertionSort NewEngine [5, 1, 5]).call 3
            (fun m => m.Priority 5)).addMatcher insertionSort 3).matchers.filter
          (fun a => decide
            ((((registerAll (ε := Unit) insertionSort NewEngine [5, 1, 5]).call 3
              (fun m => m.Priority 5)).store a).priority = 5)) =
        ((registerAll (ε := Unit) insertionSort NewEngine [5, 1, 5]).call 3
            (fun m => m.Priority 5)).matchers.filter
          (fun a => decide
            ((((registerAll (ε := Unit) insertionSort NewEngine [5, 1, 5]).call 3
              (fun m => m.Priority 5)).store a).priority = 5)) ++
          (if (((registerAll (ε := Unit) insertionSort NewEngine [5, 1, 5]).call 3
              (fun m => m.Priority 5)).store 3).priority = 5
            then [3] else []) ∧
        (registerAll (ε := Unit) insertionSort NewEngine [5, 1, 5, 0]).matchers = [0, 2, 1, 3]) ∧
      (((registerAll (ε := Unit) insertionSort NewEngine [5, 1, 5]).call 3
          (fun m => m.Priority 5)).addMatcher insertionSort 3).matchers = [0, 2, 3, 1] :=
  ⟨by decide,
    Engine.addMatcher_stable_upto_twelve insertionSort
      ((registerAll (ε := Unit) insertionSort NewEngine [5, 1, 5]).call 3
        (fun m => m.Priority 5)) 3 (by decide) 5,
    by decide⟩

/-! ## Dispatch -/

/-- C7: when the loop of `handleEventInternal` reaches a matcher `m` (after running
through the matchers `pre` before it, the context not aborted): if `m` matches and has
the block flag, the loop ends with `m` — what was done for `pre` stands and no matcher
of `post` is evaluated or launched; if `m` matches without the block flag, or does not
match (with or without the flag), the loop goes on with `post`. -/
theorem dispatchLoop_block {ε : Type} (store : Nat → Matcher ε) (pre post : List Nat) (m : Nat)
    (ctx : Context ε) (hpre : RunsThrough store pre ctx)
    (hna : (dispatchLoop store pre ctx).1.IsAborted = false) :
    (((store m).Match (dispatchLoop store pre ctx).1).2 = true → (store m).block = true →
      (dispatchLoop store (pre ++ m :: post) ctx).2 =
        (dispatchLoop store pre ctx).2 ++
          [DispatchEvent.evaluated m, DispatchEvent.launched m]) ∧
    (((store m).Match (dispatchLoop store pre ctx).1).2 = true → (store m).block = false →
      (dispatchLoop store (pre ++ m :: post) ctx).2 =
        (dispatchLoop store pre ctx).2 ++
          [DispatchEvent.evaluated m, DispatchEvent.launched m] ++
          (dispatchLoop store post
            { ((store m).Match (dispatchLoop store pre ctx).1).1 with matched := true }).2) ∧
    (((store m).Match (dispatchLoop store pre ctx).1).2 = false →
      (dispatchLoop store (pre ++ m :: post) ctx).2 =
        (dispatchLoop store pre ctx).2 ++ [DispatchEvent.evaluated m] ++
          (dispatchLoop store post ((store m).Match (dispatchLoop store pre ctx).1).1).2) := by
  rw [dispatchLoop_append store pre (m :: post) ctx hpre]
  refine ⟨?_, ?_, ?_⟩
  · intro hm hb
    simp [dispatchLoop, hna, hm, hb]
  · intro hm hb
    simp [dispatchLoop, hna, hm, hb]
  · intro hm
    simp [dispatchLoop, hna, hm]

theorem dispatchLoop_block_witness :
    RunsThrough sampleStore [0, 1] (NewContext Event.other ()) ∧
      (dispatchLoop sampleStore [0, 1] (NewContext Event.other ())).1.IsAborted = false ∧
      (dispatchLoop sampleStore ([0, 1] ++ 2 :: [4]) (NewContext Event.other ())).2 =
        [DispatchEvent.evaluated 0, DispatchEvent.evaluated 1, DispatchEvent.launched 1,
          DispatchEvent.evaluated 2, DispatchEvent.launched 2] :=
  ⟨⟨rfl, fun h => Bool.noConfusion h, ⟨rfl, fun _ => rfl, trivial⟩⟩, rfl,
    (dispatchLoop_block sampleStore [0, 1] [4] 2 (NewContext Event.other ())
      ⟨rfl, fun h => Bool.noConfusion h, ⟨rfl, fun _ => rfl, trivial⟩⟩ rfl).1 rfl rfl⟩

/-- C8: when the loop of `handleEventInternal` starts on an aborted context it evaluates
nothing; and when the evaluation of a matcher `m` (a predicate or filter run by its `Match`)
leaves the context aborted, `m` is the last matcher evaluated: the loop stops before
the next `Match`, no matcher of `post` is evaluated or launched, and what was evaluated
and launched before stands (the handler of `m` included, if `m` matched). -/
theorem dispatchLoop_abort {ε : Type} (store : Nat → Matcher ε) (pre post : List Nat) (m : Nat)
    (ctx : Context ε) (hpre : RunsThrough store pre ctx)
    (hna : (dispatchLoop store pre ctx).1.IsAborted = false)
    (hab : ((store m).Match (dispatchLoop store pre ctx).1).1.IsAborted = true) :
    (dispatchLoop store (pre ++ m :: post) ctx).2 =
        (dispatchLoop store pre ctx).2 ++ DispatchEvent.evaluated m ::
          (if ((store m).Match (dispatchLoop store pre ctx).1).2 then [DispatchEvent.launched m]
            else []) ∧
      ∀ (ms : List Nat) (c : Context ε), c.IsAborted = true → dispatchLoop store ms c = (c, []) := by
  refine ⟨?_, fun ms c hc => dispatchLoop_aborted store ms c hc⟩
  rw [dispatchLoop_append store pre (m :: post) ctx hpre]
  by_cases hm : ((store m).Match (dispatchLoop store pre ctx).1).2 = true
  · have hab2 : ({ ((store m).Match (dispatchLoop store pre ctx).1).1 with
        matched := true } : Context ε).IsAborted = true := hab
    by_cases hb : (store m).block = true
    · simp [dispatchLoop, hna, hm, hb]
    · simp [dispatchLoop, hna, hm, hb, dispatchLoop_aborted store post _ hab2]
  · simp [dispatchLoop, hna, hm, dispatchLoop_aborted store post _ hab]

theorem dispatchLoop_abort_witness :
    RunsThrough sampleStore [0, 1] (NewContext Event.other ()) ∧
      (dispatchLoop sampleStore [0, 1] (NewContext Event.other ())).1.IsAborted = false ∧
      ((sampleStore 3).Match
        (dispatchLoop sampleStore [0, 1] (NewContext Event.other ())).1).1.IsAborted = true ∧
      ((dispatchLoop sampleStore ([0, 1] ++ 3 :: [4]) (NewContext Event.other ())).2 =
          (dispatchLoop sampleStore [0, 1] (NewContext Event.other ())).2 ++
            DispatchEvent.evaluated 3 ::
              (if ((sampleStore 3).Match
                  (dispatchLoop sampleStore [0, 1] (NewContext Event.other ())).1).2
                then [DispatchEvent.launched 3] else []) ∧
        ∀ (ms : List Nat) (c : Context Unit), c.IsAborted = true →
          dispatchLoop sampleStore ms c = (c, [])) ∧
      (dispatchLoop sampleStore ([0, 1] ++ 3 :: [4]) (NewContext Event.other ())).2 =
        [DispatchEvent.evaluated 0, DispatchEvent.evaluated 1, DispatchEvent.launched 1,
          DispatchEvent.evaluated 3] :=
  ⟨⟨rfl, fun h => Bool.noConfusion h, ⟨rfl, fun _ => rfl, trivial⟩⟩, rfl, rfl,
    dispatchLoop_abort sampleStore [0, 1] [4] 3 (NewContext Event.other ())
      ⟨rfl, fun h => Bool.noConfusion h, ⟨rfl, fun _ => rfl, trivial⟩⟩ rfl rfl,
    rfl⟩

/-! ## `Matcher.Match` -/

theorem runMatchFunc_fst {ε : Type} (m : Matcher ε) (ctx : Context ε) :
    (runMatchFunc m.matchFunc ctx).1 = m.afterMatchFunc ctx := by
  unfold runMatchFunc Matcher.afterMatchFunc
  cases m.matchFunc <;> rfl

theorem runMatchFunc_true_iff {ε : Type} (m : Matcher ε) (ctx : Context ε) :
    (runMatchFunc m.matchFunc ctx).2.1 = true ↔ ∀ f, m.matchFunc = some f → (f ctx).2 = true := by
  unfold runMatchFunc
  cases m.matchFunc with
  | none => simp
  | some f => simp

theorem runMatchFunc_calls {ε : Type} (m : Matcher ε) (ctx : Context ε) :
    (runMatchFunc m.matchFunc ctx).2.2 = m.matchFuncCalls := by
  unfold runMatchFunc Matcher.matchFuncCalls
  cases m.matchFunc <;> rfl

theorem runFilters_calls {ε : Type} (fs : List (Filter ε)) : ∀ (i : Nat) (ctx : Context ε),
    ∀ c ∈ (runFilters fs i ctx).2.2, ∃ j, c = Call.filter j := by
  induction fs with
  | nil => intro i ctx c hc; simp [runFilters] at hc
  | cons f fs ih =>
    intro i ctx c hc
    by_cases h0 : (f ctx).2 = true
    · simp only [runFilters, h0, if_true, List.mem_cons] at hc
      rcases hc with h1 | h1
      · exact ⟨i, h1⟩
      · exact ih (i + 1) (f ctx).1 c h1
    · simp only [runFilters, h0, Bool.false_eq_true, if_false, List.mem_singleton] at hc
      exact ⟨i, hc⟩

theorem runLimiter_true_iff {ε : Type} (limiter : Option (Limiter ε)) (ctx : Context ε) :
    (runLimiter limiter ctx).2.1 = true ↔
      ∀ l, limiter = some l →
        (l.Allow (generateLimiterKey ctx.GetUserID ctx.GetGroupID) ctx).2 = true := by
  cases limiter with
  | none => simp [runLimiter]
  | some l =>
    by_cases ha : (l.Allow (generateLimiterKey ctx.GetUserID ctx.GetGroupID) ctx).2 = true
    · simp [runLimiter, ha]
    · cases hx : l.onExceed <;> simp [runLimiter, ha, hx]

theorem runLimiter_calls {ε : Type} (limiter : Option (Limiter ε)) (ctx : Context ε) :
    (limiter = none ∧ (runLimiter limiter ctx).2.2 = []) ∨
      (∃ l, limiter = some l ∧
        ((runLimiter limiter ctx).2.2 =
            [Call.Allow (generateLimiterKey ctx.GetUserID ctx.GetGroupID)] ∨
          ((l.Allow (generateLimiterKey ctx.GetUserID ctx.GetGroupID) ctx).2 = false ∧
            (runLimiter limiter ctx).2.2 =
              [Call.Allow (generateLimiterKey ctx.GetUserID ctx.GetGroupID), Call.onExceed]))) := by
  cases limiter with
  | none => left; simp [runLimiter]
  | some l =>
    right
    refine ⟨l, rfl, ?_⟩
    by_cases ha : (l.Allow (generateLimiterKey ctx.GetUserID ctx.GetGroupID) ctx).2 = true
    · left; simp [runLimiter, ha]
    · cases hx : l.onExceed with
      | none => left; simp [runLimiter, ha, hx]
      | some cb => right; simp [runLimiter, ha, hx]

/-- The result of `Match` in terms of its three steps. -/
theorem match_result_iff {ε : Type} (m : Matcher ε) (ctx : Context ε) :
    (m.Match ctx).2 = true ↔
      (∀ f, m.matchFunc = some f → (f ctx).2 = true) ∧
      (∀ j, j < m.filters.length →
        filterResult m.filters (m.afterMatchFunc ctx) j = some true) ∧
      (∀ l, m.limiter = some l →
        (l.Allow
          (generateLimiterKey (afterFilters m.filters (m.afterMatchFunc ctx)).GetUserID
            (afterFilters m.filters (m.afterMatchFunc ctx)).GetGroupID)
          (afterFilters m.filters (m.afterMatchFunc ctx))).2 = true) := by
  rw [← runMatchFunc_true_iff, ← runFilters_true_iff m.filters 0]
  show (m.matchTrace ctx).2.1 = true ↔ _
  unfold Matcher.matchTrace
  simp only [runMatchFunc_fst]
  by_cases h0 : (runMatchFunc m.matchFunc ctx).2.1 = true
  · by_cases h1 : (runFilters m.filters 0 (m.afterMatchFunc ctx)).2.1 = true
    · have hctx := runFilters_ctx_of_true m.filters 0 (m.afterMatchFunc ctx) h1
      simp only [h0, h1, Bool.true_eq_false, if_false, true_and]
      rw [hctx, runLimiter_true_iff]
    · simp [h0, h1]
  · simp [h0]

/-- C9: `Match(ctx)` returns `true` exactly when the predicate, if one is set, returns
`true`, every registered filter returns `true` (each run on the context the step before
left), and the limiter, if one is attached, admits the key made from the user id and
group id of the event; so a filter returning `false` or a denial by the limiter makes
the result `false`. The key is `limiter:user:<user>` when the group id is 0 and
`limiter:group:<group>:user:<user>` otherwise, and the ids are those of the event: the
user id of a message or request, the group id of a group message or group request and
0 for the other events. -/
theorem Matcher.Match_true_iff {ε : Type} (m : Matcher ε) (ctx : Context ε) :
    ((m.Match ctx).2 = true ↔
      (∀ f, m.matchFunc = some f → (f ctx).2 = true) ∧
      (∀ j, j < m.filters.length →
        filterResult m.filters (m.afterMatchFunc ctx) j = some true) ∧
      (∀ l, m.limiter = some l →
        (l.Allow
          (generateLimiterKey (afterFilters m.filters (m.afterMatchFunc ctx)).GetUserID
            (afterFilters m.filters (m.afterMatchFunc ctx)).GetGroupID)
          (afterFilters m.filters (m.afterMatchFunc ctx))).2 = true)) ∧
    (∀ userID groupID : Int, generateLimiterKey userID groupID =
      if groupID = 0 then LimiterKey.user userID else LimiterKey.group groupID userID) ∧
    (∀ (c : Context ε) (u g mid : Int) (text : List Rune),
      (c.Event = Event.PrivateMessageEvent u mid text → c.GetUserID = u ∧ c.GetGroupID = 0) ∧
      (c.Event = Event.GroupMessageEvent u g mid text → c.GetUserID = u ∧ c.GetGroupID = g) ∧
      (c.Event = Event.FriendRequestEvent u → c.GetUserID = u ∧ c.GetGroupID = 0) ∧
      (c.Event = Event.GroupRequestEvent u g → c.GetUserID = u ∧ c.GetGroupID = g) ∧
      (c.Event = Event.other → c.GetUserID = 0 ∧ c.GetGroupID = 0)) ∧
    (∀ (c : Context ε) (l : Limiter ε) (u g mid : Int) (text : List Rune),
      c.Event = Event.GroupMessageEvent u g mid text → g ≠ 0 →
        (runLimiter (some l) c).2.1 = (l.Allow (LimiterKey.group g u) c).2) ∧
    (∀ (c : Context ε) (l : Limiter ε) (u mid : Int) (text : List Rune),
      c.Event = Event.PrivateMessageEvent u mid text →
        (runLimiter (some l) c).2.1 = (l.Allow (LimiterKey.user u) c).2) := by
  refine ⟨match_result_iff m ctx, fun _ _ => rfl, ?_, ?_, ?_⟩
  · intro c u g mid text
    refine ⟨?_, ?_, ?_, ?_, ?_⟩ <;> intro h <;> simp [Context.GetUserID, Context.GetGroupID, h]
  · intro c l u g mid text h hg
    have hu : c.GetUserID = u := by simp [Context.GetUserID, h]
    have hgid : c.GetGroupID = g := by simp [Context.GetGroupID, h]
    simp only [runLimiter, hu, hgid, generateLimiterKey, if_neg hg]
    cases hr : (l.Allow (LimiterKey.group g u) c).2
    · cases hx : l.onExceed <;> simp [hr, hx]
    · simp [hr]
  · intro c l u mid text h
    have hu : c.GetUserID = u := by simp [Context.GetUserID, h]
    have hgid : c.GetGroupID = 0 := by simp [Context.GetGroupID, h]
    simp only [runLimiter, hu, hgid, generateLimiterKey, if_true]
    cases hr : (l.Allow (LimiterKey.user u) c).2
    · cases hx : l.onExceed <;> simp [hr, hx]
    · simp [hr]

/-- C10: `Match` invokes the predicate, then the filters in the order of registration,
then the limiter, and stops at the first that fails: a predicate returning `false` is
the only call; when filter `k` is the first to return `false` the calls end with filter
`k`; `Allow` is called, once and last but for the `onExceed` callback of a denial,
only when the predicate and every filter have passed. -/
theorem Matcher.Match_call_order {ε : Type} (m : Matcher ε) (ctx : Context ε) :
    (∀ f, m.matchFunc = some f → (f ctx).2 = false →
      (m.matchTrace ctx).2.2 = [Call.matchFunc]) ∧
    (∀ k, (∀ f, m.matchFunc = some f → (f ctx).2 = true) →
      (∀ j, j < k → filterResult m.filters (m.afterMatchFunc ctx) j = some true) →
      filterResult m.filters (m.afterMatchFunc ctx) k = some false →
      (m.matchTrace ctx).2.2 = m.matchFuncCalls ++ (List.range (k + 1)).map Call.filter) ∧
    ((∀ f, m.matchFunc = some f → (f ctx).2 = true) →
      (∀ j, j < m.filters.length →
        filterResult m.filters (m.afterMatchFunc ctx) j = some true) →
      ∃ tail, (m.matchTrace ctx).2.2 =
          m.matchFuncCalls ++ (List.range m.filters.length).map Call.filter ++ tail ∧
        ((m.limiter = none ∧ tail = []) ∨
          (∃ l, m.limiter = some l ∧
            (tail = [Call.Allow (generateLimiterKey
                (afterFilters m.filters (m.afterMatchFunc ctx)).GetUserID
                (afterFilters m.filters (m.afterMatchFunc ctx)).GetGroupID)] ∨
              ((m.Match ctx).2 = false ∧
                tail = [Call.Allow (generateLimiterKey
                  (afterFilters m.filters (m.afterMatchFunc ctx)).GetUserID
                  (afterFilters m.filters (m.afterMatchFunc ctx)).GetGroupID),
                  Call.onExceed]))))) ∧
    (∀ key, Call.Allow key ∈ (m.matchTrace ctx).2.2 →
      (∀ f, m.matchFunc = some f → (f ctx).2 = true) ∧
      (∀ j, j < m.filters.length →
        filterResult m.filters (m.afterMatchFunc ctx) j = some true)) := by
  refine ⟨?_, ?_, ?_, ?_⟩
  · intro f hf h0
    simp [Matcher.matchTrace, runMatchFunc, hf, h0]
  · intro k hp hall hk
    have h0 := (runMatchFunc_true_iff m ctx).2 hp
    obtain ⟨a, b⟩ := runFilters_fail m.filters 0 (m.afterMatchFunc ctx) k hall hk
    simp [Matcher.matchTrace, runMatchFunc_fst, runMatchFunc_calls, h0, a, b, List.range_eq_range']
  · intro hp hall
    have h0 := (runMatchFunc_true_iff m ctx).2 hp
    have h1 := runFilters_pass m.filters 0 (m.afterMatchFunc ctx) hall
    refine ⟨(runLimiter m.limiter (afterFilters m.filters (m.afterMatchFunc ctx))).2.2, ?_, ?_⟩
    · simp [Matcher.matchTrace, runMatchFunc_fst, runMatchFunc_calls, h0, h1,
        List.range_eq_range']
    · rcases runLimiter_calls m.limiter (afterFilters m.filters (m.afterMatchFunc ctx)) with
        ⟨a, b⟩ | ⟨l, a, b | ⟨b, c⟩⟩
      · exact Or.inl ⟨a, b⟩
      · exact Or.inr ⟨l, a, Or.inl b⟩
      · refine Or.inr ⟨l, a, Or.inr ⟨?_, c⟩⟩
        have hne : ¬ (m.Match ctx).2 = true := by
          intro ht
          have := ((match_result_iff m ctx).1 ht).2.2 l a
          rw [b] at this; cases this
        simpa using hne
  · intro key hkey
    by_cases h0 : (runMatchFunc m.matchFunc ctx).2.1 = true
    · refine ⟨(runMatchFunc_true_iff m ctx).1 h0, ?_⟩
      rw [← runFilters_true_iff m.filters 0]
      by_contra h1
      simp only [Matcher.matchTrace, runMatchFunc_fst, runMatchFunc_calls, h0, h1,
        Bool.true_eq_false, if_false, Bool.not_eq_true] at hkey
      have h1f : (runFilters m.filters 0 (m.afterMatchFunc ctx)).2.1 = false := by
        simpa using h1
      simp only [h1f, if_true, List.mem_append] at hkey
      rcases hkey with hk | hk
      · unfold Matcher.matchFuncCalls at hk
        cases hmf : m.matchFunc with
        | none => simp [hmf] at hk
        | some f => simp [hmf] at hk
      · obtain ⟨j, hj⟩ := runFilters_calls m.filters 0 _ _ hk
        cases hj
    · exfalso
      have h0f : (runMatchFunc m.matchFunc ctx).2.1 = false := by simpa using h0
      simp only [Matcher.matchTrace, h0f, if_true, runMatchFunc_calls] at hkey
      unfold Matcher.matchFuncCalls at hkey
      cases hmf : m.matchFunc with
      | none => simp [hmf] at hkey
      | some f => simp [hmf] at hkey

/-! ## The keyword managers -/

/-- The search loop of `RemoveKeyword` finds the first occurrence of the keyword. -/
theorem findKeyword_some (keyword : List Rune) (l : List (List Rune)) : ∀ i j,
    findKeyword keyword l i = some j →
    ∃ front back, l = front ++ keyword :: back ∧ keyword ∉ front ∧ j = i + front.length := by
  induction l with
  | nil => intro i j h; simp [findKeyword] at h
  | cons kw rest ih =>
    intro i j h
    by_cases hk : kw = keyword
    · subst hk
      simp [findKeyword] at h
      exact ⟨[], rest, rfl, by simp, by simp [h]⟩
    · simp only [findKeyword, hk, if_false] at h
      obtain ⟨front, back, h1, h2, h3⟩ := ih (i + 1) j h
      refine ⟨kw :: front, back, by rw [h1]; rfl, ?_, by simp [h3]; omega⟩
      simp only [List.mem_cons, not_or]
      exact ⟨fun e => hk e.symm, h2⟩

theorem findKeyword_none (keyword : List Rune) (l : List (List Rune)) : ∀ i,
    findKeyword keyword l i = none ↔ keyword ∉ l := by
  induction l with
  | nil => intro i; simp [findKeyword]
  | cons kw rest ih =>
    intro i
    by_cases hk : kw = keyword
    · subst hk; simp [findKeyword]
    · simp only [findKeyword, hk, if_false, List.mem_cons, not_or]
      rw [ih (i + 1)]
      exact ⟨fun h => ⟨fun e => hk e.symm, h⟩, fun h => h.2⟩

theorem take_drop_remove (front back : List (List Rune)) (keyword : List Rune) :
    (front ++ keyword :: back).take (0 + front.length) ++
      (front ++ keyword :: back).drop (0 + front.length + 1) = front ++ back := by
  simp [List.take_append_eq_append_take, List.drop_append_eq_append_drop]

/-- The two cases of `RemoveKeyword` on a keyword list, as both managers compute them. -/
theorem removeKeyword_cases (keyword : List Rune) (l : List (List Rune)) :
    (keyword ∉ l ∧ findKeyword keyword l 0 = none) ∨
      ∃ i front back, findKeyword keyword l 0 = some i ∧ l = front ++ keyword :: back ∧
        keyword ∉ front ∧ l.take i ++ l.drop (i + 1) = front ++ back := by
  cases h : findKeyword keyword l 0 with
  | none => exact Or.inl ⟨(findKeyword_none keyword l 0).1 h, rfl⟩
  | some i =>
    obtain ⟨front, back, h1, h2, h3⟩ := findKeyword_some keyword l 0 i h
    refine Or.inr ⟨i, front, back, rfl, h1, h2, ?_⟩
    rw [h3, h1]
    exact take_drop_remove front back keyword

theorem default_remove_none {p : DefaultKeywordManager} {k : List Rune}
    (h : findKeyword k p.keywords 0 = none) : p.RemoveKeyword k = (p, false) := by
  simp [DefaultKeywordManager.RemoveKeyword, h]

theorem default_remove_some {p : DefaultKeywordManager} {k : List Rune} {i : Nat}
    (h : findKeyword k p.keywords 0 = some i) :
    p.RemoveKeyword k =
      ({ keywords := p.keywords.take i ++ p.keywords.drop (i + 1), version := p.version + 1 },
        true) := by
  simp [DefaultKeywordManager.RemoveKeyword, h]

theorem atomic_remove_none {p : AtomicKeywordManager} {k : List Rune}
    (h : findKeyword k p.keywords 0 = none) : p.RemoveKeyword k = (p, false) := by
  simp [AtomicKeywordManager.RemoveKeyword, AtomicKeywordManager.GetKeywords, h]

theorem atomic_remove_some {p : AtomicKeywordManager} {k : List Rune} {i : Nat}
    (h : findKeyword k p.keywords 0 = some i) :
    p.RemoveKeyword k =
      ({ keywords := p.keywords.take i ++ p.keywords.drop (i + 1), version := p.version + 1 },
        true) := by
  simp [AtomicKeywordManager.RemoveKeyword, AtomicKeywordManager.GetKeywords, h]

theorem default_version_step (p : DefaultKeywordManager) (c : ManagerCall) :
    (DefaultKeywordManager.methods.call p c).version =
      p.version + (if DefaultKeywordManager.methods.isMutation p c then 1 else 0) := by
  cases c with
  | mutate op =>
    cases op with
    | SetKeywords k => simp [KeywordManager.call, KeywordManager.apply, KeywordManager.isMutation,
        DefaultKeywordManager.methods, DefaultKeywordManager.SetKeywords]
    | AddKeyword k => simp [KeywordManager.call, KeywordManager.apply, KeywordManager.isMutation,
        DefaultKeywordManager.methods, DefaultKeywordManager.AddKeyword]
    | RemoveKeyword k =>
      show (p.RemoveKeyword k).1.version =
        p.version + (if (p.RemoveKeyword k).2 = true then 1 else 0)
      rcases Option.eq_none_or_eq_some (findKeyword k p.keywords 0) with h | ⟨i, h⟩
      · rw [default_remove_none h]; simp
      · rw [default_remove_some h]; simp
    | Clear => simp [KeywordManager.call, KeywordManager.apply, KeywordManager.isMutation,
        DefaultKeywordManager.methods, DefaultKeywordManager.Clear]
  | GetKeywords => simp [KeywordManager.call, KeywordManager.isMutation]
  | GetVersion => simp [KeywordManager.call, KeywordManager.isMutation]
  | Count => simp [KeywordManager.call, KeywordManager.isMutation]

theorem atomic_version_step (p : AtomicKeywordManager) (c : ManagerCall) :
    (AtomicKeywordManager.methods.call p c).version =
      p.version + (if AtomicKeywordManager.methods.isMutation p c then 1 else 0) := by
  cases c with
  | mutate op =>
    cases op with
    | SetKeywords k => simp [KeywordManager.call, KeywordManager.apply, KeywordManager.isMutation,
        AtomicKeywordManager.methods, AtomicKeywordManager.SetKeywords]
    | AddKeyword k => simp [KeywordManager.call, KeywordManager.apply, KeywordManager.isMutation,
        AtomicKeywordManager.methods, AtomicKeywordManager.AddKeyword]
    | RemoveKeyword k =>
      show (p.RemoveKeyword k).1.version =
        p.version + (if (p.RemoveKeyword k).2 = true then 1 else 0)
      rcases Option.eq_none_or_eq_some (findKeyword k p.keywords 0) with h | ⟨i, h⟩
      · rw [atomic_remove_none h]; simp
      · rw [atomic_remove_some h]; simp
    | Clear => simp [KeywordManager.call, KeywordManager.apply, KeywordManager.isMutation,
        AtomicKeywordManager.methods, AtomicKeywordManager.Clear]
  | GetKeywords => simp [KeywordManager.call, KeywordManager.isMutation]
  | GetVersion => simp [KeywordManager.call, KeywordManager.isMutation]
  | Count => simp [KeywordManager.call, KeywordManager.isMutation]

theorem default_version_run (calls : List ManagerCall) : ∀ p : DefaultKeywordManager,
    (DefaultKeywordManager.methods.run p calls).version =
      p.version + DefaultKeywordManager.methods.mutations p calls := by
  induction calls with
  | nil => intro p; simp [KeywordManager.run, KeywordManager.mutations]
  | cons c rest ih =>
    intro p
    simp only [KeywordManager.run, KeywordManager.mutations]
    rw [ih, default_version_step]
    split <;> push_cast <;> omega

theorem atomic_version_run (calls : List ManagerCall) : ∀ p : AtomicKeywordManager,
    (AtomicKeywordManager.methods.run p calls).version =
      p.version + AtomicKeywordManager.methods.mutations p calls := by
  induction calls with
  | nil => intro p; simp [KeywordManager.run, KeywordManager.mutations]
  | cons c rest ih =>
    intro p
    simp only [KeywordManager.run, KeywordManager.mutations]
    rw [ih, atomic_version_step]
    split <;> push_cast <;> omega

/-- C11: a manager made by `NewKeywordManager` or `NewAtomicKeywordManager` has version 1;
every call that mutates the keyword set (`SetKeywords`, `AddKeyword`, `Clear`, and a
`RemoveKeyword` that removes a keyword) raises the version by exactly 1 and every other
call (`GetKeywords`, `GetVersion`, `Count`, a `RemoveKeyword` that finds nothing) leaves
it as it was; so after a series of calls with `n` mutations the version is `1 + n`. -/
theorem keywordManager_version_counts_mutations (keywords : List (List Rune))
    (calls : List ManagerCall) (c : ManagerCall) (d : DefaultKeywordManager)
    (a : AtomicKeywordManager) :
    (DefaultKeywordManager.methods.GetVersion (NewKeywordManager keywords) = 1 ∧
      AtomicKeywordManager.methods.GetVersion (NewAtomicKeywordManager keywords) = 1) ∧
    (DefaultKeywordManager.methods.GetVersion (DefaultKeywordManager.methods.call d c) =
        DefaultKeywordManager.methods.GetVersion d +
          (if DefaultKeywordManager.methods.isMutation d c then 1 else 0) ∧
      AtomicKeywordManager.methods.GetVersion (AtomicKeywordManager.methods.call a c) =
        AtomicKeywordManager.methods.GetVersion a +
          (if AtomicKeywordManager.methods.isMutation a c then 1 else 0)) ∧
    (DefaultKeywordManager.methods.GetVersion
        (DefaultKeywordManager.methods.run (NewKeywordManager keywords) calls) =
        1 + DefaultKeywordManager.methods.mutations (NewKeywordManager keywords) calls ∧
      AtomicKeywordManager.methods.GetVersion
        (AtomicKeywordManager.methods.run (NewAtomicKeywordManager keywords) calls) =
        1 + AtomicKeywordManager.methods.mutations (NewAtomicKeywordManager keywords) calls) :=
  ⟨⟨rfl, rfl⟩, ⟨default_version_step d c, atomic_version_step a c⟩,
    ⟨default_version_run calls _, atomic_version_run calls _⟩⟩

/-- C12: for both managers `RemoveKeyword(k)` returns `true` exactly when `k` is in the
keyword list; then the first occurrence of `k`, and nothing else, is taken out of the
list (the list was `front ++ k :: back` with `k` not in `front` and becomes
`front ++ back`) and the version grows by 1; when it returns `false` the manager is
left as it was, keyword list and version. -/
theorem removeKeyword_removes_first (d : DefaultKeywordManager) (a : AtomicKeywordManager)
    (k : List Rune) :
    (((d.RemoveKeyword k).2 = true ↔ k ∈ d.GetKeywords) ∧
      ((d.RemoveKeyword k).2 = true →
        ∃ front back, d.GetKeywords = front ++ k :: back ∧ k ∉ front ∧
          (d.RemoveKeyword k).1.GetKeywords = front ++ back ∧
          (d.RemoveKeyword k).1.GetVersion = d.GetVersion + 1) ∧
      ((d.RemoveKeyword k).2 = false → (d.RemoveKeyword k).1 = d)) ∧
    (((a.RemoveKeyword k).2 = true ↔ k ∈ a.GetKeywords) ∧
      ((a.RemoveKeyword k).2 = true →
        ∃ front back, a.GetKeywords = front ++ k :: back ∧ k ∉ front ∧
          (a.RemoveKeyword k).1.GetKeywords = front ++ back ∧
          (a.RemoveKeyword k).1.GetVersion = a.GetVersion + 1) ∧
      ((a.RemoveKeyword k).2 = false → (a.RemoveKeyword k).1 = a)) := by
  constructor
  · rcases removeKeyword_cases k d.keywords with ⟨h1, h2⟩ | ⟨i, front, back, h1, h2, h3, h4⟩
    · simp [DefaultKeywordManager.RemoveKeyword, DefaultKeywordManager.GetKeywords, h1, h2]
    · have hmem : k ∈ d.keywords := by rw [h2]; simp
      refine ⟨?_, ?_, ?_⟩
      · simp [DefaultKeywordManager.RemoveKeyword, DefaultKeywordManager.GetKeywords, h1, hmem]
      · intro _
        exact ⟨front, back, h2, h3,
          by simp [DefaultKeywordManager.RemoveKeyword, DefaultKeywordManager.GetKeywords, h1, h4],
          by simp [DefaultKeywordManager.RemoveKeyword, DefaultKeywordManager.GetVersion, h1]⟩
      · intro hf
        simp [DefaultKeywordManager.RemoveKeyword, h1] at hf
  · rcases removeKeyword_cases k a.keywords with ⟨h1, h2⟩ | ⟨i, front, back, h1, h2, h3, h4⟩
    · simp [AtomicKeywordManager.RemoveKeyword, AtomicKeywordManager.GetKeywords, h1, h2]
    · have hmem : k ∈ a.keywords := by rw [h2]; simp
      refine ⟨?_, ?_, ?_⟩
      · simp [AtomicKeywordManager.RemoveKeyword, AtomicKeywordManager.GetKeywords, h1, hmem]
      · intro _
        exact ⟨front, back, h2, h3,
          by simp [AtomicKeywordManager.RemoveKeyword, AtomicKeywordManager.GetKeywords, h1, h4],
          by simp [AtomicKeywordManager.RemoveKeyword, AtomicKeywordManager.GetKeywords,
            AtomicKeywordManager.GetVersion, h1]⟩
      · intro hf
        simp [AtomicKeywordManager.RemoveKeyword, AtomicKeywordManager.GetKeywords, h1] at hf

/-- The two managers agree step by step when they agree at the start. -/
theorem history_agree (ops : List KeywordOp) : ∀ (d : DefaultKeywordManager)
    (a : AtomicKeywordManager), d.keywords = a.keywords → d.version = a.version →
    DefaultKeywordManager.methods.history d ops = AtomicKeywordManager.methods.history a ops := by
  induction ops with
  | nil => intro d a _ _; rfl
  | cons op rest ih =>
    intro d a hk hv
    have hstep : (DefaultKeywordManager.methods.apply d op).keywords =
          (AtomicKeywordManager.methods.apply a op).keywords ∧
        (DefaultKeywordManager.methods.apply d op).version =
          (AtomicKeywordManager.methods.apply a op).version := by
      cases op with
      | SetKeywords k => exact ⟨rfl, by
          show d.version + 1 = a.version + 1
          rw [hv]⟩
      | AddKeyword k => exact ⟨by
          show d.keywords ++ [k] = a.keywords ++ [k]
          rw [hk], by
          show d.version + 1 = a.version + 1
          rw [hv]⟩
      | RemoveKeyword k =>
        show (d.RemoveKeyword k).1.keywords = (a.RemoveKeyword k).1.keywords ∧
          (d.RemoveKeyword k).1.version = (a.RemoveKeyword k).1.version
        rcases Option.eq_none_or_eq_some (findKeyword k a.keywords 0) with h | ⟨i, h⟩
        · rw [default_remove_none (by rw [hk]; exact h), atomic_remove_none h]
          exact ⟨hk, hv⟩
        · rw [default_remove_some (by rw [hk]; exact h), atomic_remove_some h]
          exact ⟨by simp [hk], by simp [hv]⟩
      | Clear => exact ⟨rfl, by
          show d.version + 1 = a.version + 1
          rw [hv]⟩
    have hres : DefaultKeywordManager.methods.result d op =
        AtomicKeywordManager.methods.result a op := by
      cases op with
      | RemoveKeyword k =>
        show some (d.RemoveKeyword k).2 = some (a.RemoveKeyword k).2
        rcases Option.eq_none_or_eq_some (findKeyword k a.keywords 0) with h | ⟨i, h⟩
        · rw [default_remove_none (by rw [hk]; exact h), atomic_remove_none h]
        · rw [default_remove_some (by rw [hk]; exact h), atomic_remove_some h]
      | SetKeywords k => rfl
      | AddKeyword k => rfl
      | Clear => rfl
    have hobs : DefaultKeywordManager.methods.observe (DefaultKeywordManager.methods.apply d op) =
        AtomicKeywordManager.methods.observe (AtomicKeywordManager.methods.apply a op) := by
      simp only [KeywordManager.observe]
      show Observation.mk (DefaultKeywordManager.methods.apply d op).keywords
          (DefaultKeywordManager.methods.apply d op).version
          (DefaultKeywordManager.methods.apply d op).keywords.length =
        Observation.mk (AtomicKeywordManager.methods.apply a op).keywords
          (AtomicKeywordManager.methods.apply a op).version
          (AtomicKeywordManager.methods.apply a op).keywords.length
      rw [hstep.1, hstep.2]
    simp only [KeywordManager.history]
    rw [hres, hobs, ih _ _ hstep.1 hstep.2]

/-- As long as every slice handed to a manager is a fresh one that the caller does not
use again, so that keyword lists behave as values: started from the same initial
keyword list and driven by the same series of `SetKeywords`, `AddKeyword`,
`RemoveKeyword` and `Clear` calls, `DefaultKeywordManager` and `AtomicKeywordManager`
show the same keyword list, version and count at the start and after every step, and
return the same result from every `RemoveKeyword`. -/
theorem managers_interchangeable (keywords : List (List Rune)) (ops : List KeywordOp) :
    DefaultKeywordManager.methods.observe (NewKeywordManager keywords) =
        AtomicKeywordManager.methods.observe (NewAtomicKeywordManager keywords) ∧
      DefaultKeywordManager.methods.history (NewKeywordManager keywords) ops =
        AtomicKeywordManager.methods.history (NewAtomicKeywordManager keywords) ops :=
  ⟨rfl, history_agree ops _ _ rfl rfl⟩

/-! ## `GetKeywords` and the slice it returns -/

theorem Mem.read_alloc (mem : Mem.Memory) (elems : List (List Rune)) :
    (mem.alloc elems).1.read (mem.alloc elems).2 = elems := by
  simp [Mem.Memory.alloc, Mem.Memory.read]

theorem Mem.read_alloc_old (mem : Mem.Memory) (elems : List (List Rune)) (s : Mem.Slice)
    (hlive : s.array < mem.next) : (mem.alloc elems).1.read s = mem.read s := by
  have hne : s.array ≠ mem.next := Nat.ne_of_lt hlive
  simp [Mem.Memory.alloc, Mem.Memory.read, Function.update_noteq hne]

theorem Mem.read_store_other (mem : Mem.Memory) (s t : Mem.Slice) (i : Nat) (v : List Rune)
    (hne : t.array ≠ s.array) : (mem.store s i v).read t = mem.read t := by
  unfold Mem.Memory.store
  split
  · simp [Mem.Memory.read, Function.update_noteq hne]
  · rfl

/-- The slice `DefaultKeywordManager.GetKeywords` returns is over a new array: whatever
a caller stores through it, the next `GetKeywords()` returns the same elements as
before. -/
theorem default_GetKeywords_is_copy (mem : Mem.Memory) (m : Mem.DefaultKeywordManager)
    (hlive : m.keywords.array < mem.next) (i : Nat) (v : List Rune) :
    m.rereadAfterStore mem i v = mem.read m.keywords := by
  have hne : m.keywords.array ≠ mem.next := Nat.ne_of_lt hlive
  unfold Mem.DefaultKeywordManager.rereadAfterStore Mem.DefaultKeywordManager.GetKeywords
  simp only
  rw [Mem.read_alloc, Mem.read_store_other _ _ _ _ _ hne, Mem.read_alloc_old _ _ _ hlive]

/-- C13 fails for `AtomicKeywordManager`: its `GetKeywords` hands out the stored slice
itself. For a manager made from the keywords `ab`, `bc`, a caller that overwrites
element 0 of the returned slice with `zz` makes the next `GetKeywords()` return `zz`,
`bc`, where the first returned `ab`, `bc`; the same steps on a `DefaultKeywordManager`,
whose `GetKeywords` copies, leave `ab`, `bc`. -/
theorem atomic_GetKeywords_shares_slice :
    (Mem.NewAtomicKeywordManager Mem.sampleSlice).rereadAfterStore Mem.sampleMemory 0
        (runes "zz") = [runes "zz", runes "bc"] ∧
      ((Mem.NewAtomicKeywordManager Mem.sampleSlice).GetKeywords Mem.sampleMemory).1.read
          ((Mem.NewAtomicKeywordManager Mem.sampleSlice).GetKeywords Mem.sampleMemory).2 =
        [runes "ab", runes "bc"] ∧
      (Mem.NewKeywordManager Mem.sampleSlice).rereadAfterStore Mem.sampleMemory 0
        (runes "zz") = [runes "ab", runes "bc"] := by
  refine ⟨by decide, by decide, by decide⟩

/-- C14 fails on a slice that the caller uses again: a caller makes a manager from the
slice `s` holding `ab`, `bc`, calls `RemoveKeyword(ab)` and then `SetKeywords(s)`. The
`DefaultKeywordManager` keeps `s` itself and its `RemoveKeyword` shifts the elements
down inside the array of `s`, so `GetKeywords()` returns `bc`, `bc` at the end; the
`AtomicKeywordManager` builds new slices and returns `ab`, `bc`. The results of
`RemoveKeyword`, the versions and the counts are the same. -/
theorem keywordManagers_differ_on_reused_slice :
    Mem.DefaultKeywordManager.reuseAfterRemove Mem.sampleMemory Mem.sampleSlice (runes "ab") =
        (true, [runes "bc", runes "bc"], 3, 2) ∧
      Mem.AtomicKeywordManager.reuseAfterRemove Mem.sampleMemory Mem.sampleSlice (runes "ab") =
        (true, [runes "ab", runes "bc"], 3, 2) := by
  refine ⟨by decide, by decide⟩

/-! ## The sensitive word filter -/

theorem reload_fold (W : List (List Rune)) : ∀ s : SensitiveFilter,
    (W.foldl (fun s word => if word = [] then s else s.addWord word) s).trie =
      W.foldl insertPattern s.trie := by
  induction W with
  | nil => intro s; rfl
  | cons w W ih =>
    intro s
    simp only [List.foldl_cons]
    rw [ih]
    congr 1
    by_cases hw : w = []
    · simp [hw, insertPattern]
    · simp [hw, insertPattern, SensitiveFilter.addWord]

/-- The trie `Reload` leaves is the trie of step one of `Build`. -/
theorem Reload_trie (sf : SensitiveFilter) (W : List (List Rune)) :
    (sf.Reload (some W)).1.trie = buildTrie W := by
  simp only [SensitiveFilter.Reload, buildTrie]
  exact reload_fold W ⟨Heap.init⟩

theorem buildDFA_eq (W : List (List Rune)) : buildDFA W = buildTrie W := rfl

/-- Every prefix of a path of the trie is a path of the trie. -/
theorem TrieShape.node_prefix {h : Heap} {str : Nat → List Rune} (hs : TrieShape h str) :
    ∀ (n : Nat) (b a : List Rune) (x : Nat), b.length = n → x < h.size → str x = a ++ b →
      ∃ u, u < h.size ∧ str u = a := by
  intro n
  induction n with
  | zero =>
    intro b a x hb hx hstr
    have : b = [] := List.length_eq_zero.mp hb
    subst this
    exact ⟨x, hx, by simpa using hstr⟩
  | succ n ih =>
    intro b a x hb hx hstr
    rcases List.eq_nil_or_concat b with hnil | ⟨b2, c, hbc⟩
    · subst hnil; simp at hb
    · rw [List.concat_eq_append] at hbc
      subst hbc
      have hstr2 : str x = (a ++ b2) ++ [c] := by rw [hstr]; simp
      obtain ⟨u, hu, hus, _⟩ := hs.node_snoc hx hstr2
      exact ih b2 a u (by simpa using hb) hu hus

/-- A rune without an entry in the children map of `u` continues no path through `u`. -/
theorem TrieShape.no_child {h : Heap} {str : Nat → List Rune} (hs : TrieShape h str)
    {u : Nat} {c : Rune} (hu : u < h.size) (hc : h.child u c = none) (b : List Rune) (x : Nat)
    (hx : x < h.size) : str x ≠ str u ++ c :: b := by
  intro hstr
  have hstr2 : str x = (str u ++ [c]) ++ b := by rw [hstr]; simp
  obtain ⟨v, hv, hvs⟩ := hs.node_prefix b.length b _ x rfl hx hstr2
  have := hs.child_of_str hu hv hvs
  rw [hc] at this
  cases this

/-- The flag `isEnd` of a child. -/
theorem TrieInv.child_output {W : List (List Rune)} {h : Heap} {str : Nat → List Rune}
    (ht : TrieInv W h str) {u v : Nat} {c : Rune} (hu : u < h.size)
    (hc : h.child u c = some v) :
    v < h.size ∧ str v = str u ++ [c] ∧ ((h.cell v).output = true ↔ str u ++ [c] ∈ W) := by
  obtain ⟨hv, hvs⟩ := ht.shape.child u c v hu hc
  refine ⟨hv, hvs, ?_⟩
  rw [ht.out v hv, hvs]
  simp

/-- A rune without an entry in the children map of `u` continues no word through `u`. -/
theorem TrieInv.no_word {W : List (List Rune)} {h : Heap} {str : Nat → List Rune}
    (ht : TrieInv W h str) {u : Nat} {c : Rune} (hu : u < h.size) (hc : h.child u c = none)
    (b : List Rune) : str u ++ c :: b ∉ W := by
  intro hmem
  obtain ⟨x, hx, hxs⟩ := ht.has _ hmem (by simp)
  exact ht.shape.no_child hu hc b x hx hxs

theorem containsWalk_spec {W : List (List Rune)} {h : Heap} {str : Nat → List Rune}
    (ht : TrieInv W h str) : ∀ (r : List Rune) (u : Nat), u < h.size →
      (containsWalk h u r = true ↔ WordAhead W (str u) r) := by
  intro r
  induction r with
  | nil =>
    intro u _
    simp only [containsWalk, WordAhead]
    constructor
    · intro hf; cases hf
    · rintro ⟨q, hq, hpre, _⟩
      exact absurd (List.prefix_nil.mp hpre) hq
  | cons c rest ih =>
    intro u hu
    rcases hch : h.child u c with _ | v
    · simp only [containsWalk, hch]
      constructor
      · intro hf; cases hf
      · rintro ⟨q, hq, hpre, hmem⟩
        cases q with
        | nil => exact absurd rfl hq
        | cons a q2 =>
          have ha : a = c := (List.cons_prefix_cons.mp hpre).1
          subst ha
          exact absurd hmem (ht.no_word hu hch q2)
    · obtain ⟨hv, hvs, hout⟩ := ht.child_output hu hch
      simp only [containsWalk, hch]
      by_cases ho : (h.cell v).output = true
      · simp only [ho, if_true, true_iff]
        exact ⟨[c], by simp, by simp, hout.mp ho⟩
      · simp only [ho, Bool.false_eq_true, if_false]
        rw [ih v hv, hvs]
        constructor
        · rintro ⟨q, hq, hpre, hmem⟩
          exact ⟨c :: q, by simp, List.cons_prefix_cons.mpr ⟨rfl, hpre⟩, by simpa using hmem⟩
        · rintro ⟨q, hq, hpre, hmem⟩
          cases q with
          | nil => exact absurd rfl hq
          | cons a q2 =>
            obtain ⟨ha, hpre2⟩ := List.cons_prefix_cons.mp hpre
            subst ha
            have hq2 : q2 ≠ [] := by
              intro hnil
              subst hnil
              exact ho (hout.mpr hmem)
            exact ⟨q2, hq2, hpre2, by simpa using hmem⟩

theorem occurs_cons (W : List (List Rune)) (c : Rune) (rest : List Rune) :
    Occurs W (c :: rest) ↔ WordAhead W [] (c :: rest) ∨ Occurs W rest := by
  constructor
  · rintro ⟨p, hp, hne, hin⟩
    rcases List.infix_cons_iff.mp hin with hpre | hin2
    · exact Or.inl ⟨p, hne, hpre, by simpa using hp⟩
    · exact Or.inr ⟨p, hp, hne, hin2⟩
  · rintro (⟨q, hq, hpre, hmem⟩ | ⟨p, hp, hne, hin⟩)
    · exact ⟨q, by simpa using hmem, hq, List.infix_cons_iff.mpr (Or.inl hpre)⟩
    · exact ⟨p, hp, hne, List.infix_cons_iff.mpr (Or.inr hin)⟩

theorem containsLoop_spec {W : List (List Rune)} {h : Heap} {str : Nat → List Rune}
    (ht : TrieInv W h str) : ∀ T : List Rune, containsLoop h T = true ↔ Occurs W T := by
  intro T
  induction T with
  | nil =>
    simp only [containsLoop]
    constructor
    · intro hf; cases hf
    · rintro ⟨p, _, hne, hin⟩
      exact absurd (List.infix_nil.mp hin) hne
  | cons c rest ih =>
    rw [occurs_cons, ← ih]
    have hw := containsWalk_spec ht (c :: rest) 0 ht.shape.pos
    rw [ht.shape.root] at hw
    rw [← hw]
    simp only [containsLoop]
    by_cases hc : containsWalk h 0 (c :: rest) = true
    · simp [hc]
    · simp [hc]

/-- C15: for a filter whose trie `Reload` built from the word list `W` (whatever the
filter held before), `Contains(T)` is true if and only if some non-empty word of `W`
occurs as a contiguous run of code points of `T`. -/
theorem Contains_iff_occurs (sf : SensitiveFilter) (W : List (List Rune)) (T : List Rune) :
    (sf.Reload (some W)).2 = true ∧
      ((sf.Reload (some W)).1.Contains T = true ↔ Occurs W T) := by
  refine ⟨rfl, ?_⟩
  obtain ⟨str, ht⟩ := buildTrie_inv W
  rw [SensitiveFilter.Contains, Reload_trie]
  exact containsLoop_spec ht T

/-! ## The spans found by the trie walk -/

theorem walkEnds_spec {W : List (List Rune)} {h : Heap} {str : Nat → List Rune}
    (ht : TrieInv W h str) : ∀ (rest : List Rune) (u j : Nat), u < h.size →
      walkEnds h u j rest =
        (List.range' (j + 1) rest.length).filter
          (fun e => decide (str u ++ rest.take (e - j) ∈ W)) := by
  intro rest
  induction rest with
  | nil => intro u j _; simp [walkEnds]
  | cons c rest ih =>
    intro u j hu
    rcases hch : h.child u c with _ | v
    · simp only [walkEnds, hch]
      symm
      rw [List.filter_eq_nil_iff]
      intro e he
      have hje : j + 1 ≤ e := (List.mem_range'_1.mp he).1
      obtain ⟨d, hd⟩ : ∃ d, e - j = d + 1 := ⟨e - j - 1, by omega⟩
      simp only [hd, List.take_succ_cons, decide_eq_true_eq]
      exact ht.no_word hu hch _
    · obtain ⟨hv, hvs, hout⟩ := ht.child_output hu hch
      simp only [walkEnds, hch, List.length_cons]
      rw [ih v (j + 1) hv, List.range'_succ, List.filter_cons]
      have h1 : j + 1 - j = 1 := by omega
      have hfirst : decide (str u ++ List.take (j + 1 - j) (c :: rest) ∈ W) =
          (h.cell v).output := by
        rw [h1]
        simp only [List.take_succ_cons, List.take_zero]
        by_cases ho : (h.cell v).output = true
        · rw [ho]; exact decide_eq_true (hout.mp ho)
        · have hno : str u ++ [c] ∉ W := fun hm => ho (hout.mpr hm)
          rw [Bool.not_eq_true] at ho
          rw [ho]; exact decide_eq_false hno
      rw [hfirst]
      have hrest : (List.range' (j + 1 + 1) rest.length).filter
            (fun e => decide (str v ++ rest.take (e - (j + 1)) ∈ W)) =
          (List.range' (j + 1 + 1) rest.length).filter
            (fun e => decide (str u ++ (c :: rest).take (e - j) ∈ W)) := by
        apply List.filter_congr
        intro e he
        have hje : j + 1 + 1 ≤ e := (List.mem_range'_1.mp he).1
        obtain ⟨d, hd⟩ : ∃ d, e - j = d + 1 := ⟨e - j - 1, by omega⟩
        have hd2 : e - (j + 1) = d := by omega
        rw [hd, hd2, hvs]
        simp
      rw [hrest]
      cases (h.cell v).output <;> simp

/-- The walk from the root at position `i` finds the ends of the words that start at `i`. -/
theorem walkEnds_root {W : List (List Rune)} {h : Heap} {str : Nat → List Rune}
    (ht : TrieInv W h str) (T : List Rune) (i : Nat) :
    walkEnds h 0 i (T.drop i) =
      (List.range' (i + 1) (T.length - i)).filter (fun e => decide (sliceOf T i e ∈ W)) := by
  rw [walkEnds_spec ht (T.drop i) 0 i ht.shape.pos, ht.shape.root, List.length_drop]
  rfl

theorem drop_succ_of_cons {T rest : List Rune} {c : Rune} {i : Nat}
    (h : c :: rest = T.drop i) : rest = T.drop (i + 1) := by
  have h2 : T.drop (i + 1) = (T.drop i).drop 1 := by
    rw [List.drop_drop]
  rw [h2, ← h]
  rfl

theorem stringOfRunes_valid {l : List Rune} (hl : ∀ c ∈ l, validRune c = true) :
    stringOfRunes l = l := by
  induction l with
  | nil => rfl
  | cons a l ih =>
    have ha : validRune a = true := hl a (List.mem_cons_self a l)
    have hl2 : ∀ c ∈ l, validRune c = true := fun c hc => hl c (List.mem_cons_of_mem a hc)
    simp only [stringOfRunes, List.map_cons, ha, if_true]
    congr 1
    exact ih hl2

theorem stringOfRunes_slice {T : List Rune} (hT : ValidText T) (i j : Nat) :
    stringOfRunes (sliceOf T i j) = sliceOf T i j :=
  stringOfRunes_valid (fun c hc => hT c (List.mem_of_mem_drop (List.mem_of_mem_take hc)))

/-! ## FindAll -/

theorem findWalk_eq (h : Heap) (runes : List Rune) (i : Nat) :
    ∀ (rest : List Rune) (u j : Nat) (words : List (List Rune)),
      findWalk h runes i u j rest words =
        words ++ (walkEnds h u j rest).map (fun e => stringOfRunes (sliceOf runes i e)) := by
  intro rest
  induction rest with
  | nil => intro u j words; simp [findWalk, walkEnds]
  | cons c rest ih =>
    intro u j words
    rcases hch : h.child u c with _ | v
    · simp [findWalk, walkEnds, hch]
    · simp only [findWalk, walkEnds, hch]
      rw [ih]
      cases (h.cell v).output <;> simp

theorem findLoop_spec {W : List (List Rune)} {h : Heap} {str : Nat → List Rune}
    (ht : TrieInv W h str) (T : List Rune) :
    ∀ (rest : List Rune) (i : Nat) (words : List (List Rune)), rest = T.drop i →
      findLoop h T i rest words =
        words ++ (List.range' i rest.length).flatMap (fun i =>
          ((List.range' (i + 1) (T.length - i)).filter
            (fun e => decide (sliceOf T i e ∈ W))).map
              (fun e => stringOfRunes (sliceOf T i e))) := by
  intro rest
  induction rest with
  | nil => intro i words _; simp [findLoop]
  | cons c rest ih =>
    intro i words hrest
    simp only [findLoop, List.length_cons]
    rw [ih (i + 1) _ (drop_succ_of_cons hrest), findWalk_eq, hrest, walkEnds_root ht,
      List.range'_succ, List.flatMap_cons, List.append_assoc]

/-- C17: for a filter whose trie `Reload` built from the word list `W`, `FindAll(T)` is
the list of the substrings `T[i:j]`, one entry for every pair `i < j` such that `T[i:j]`
is a word of `W`, ordered by increasing `i` and for equal `i` by increasing `j`. -/
theorem FindAll_eq_occurrences (sf : SensitiveFilter) (W : List (List Rune)) (T : List Rune)
    (hT : ValidText T) :
    (sf.Reload (some W)).1.FindAll T = occurrences W T := by
  obtain ⟨str, ht⟩ := buildTrie_inv W
  rw [SensitiveFilter.FindAll, Reload_trie, findLoop_spec ht T T 0 [] rfl, occurrences,
    List.range_eq_range', List.nil_append]
  congr 1
  funext i
  congr 1
  funext e
  exact stringOfRunes_slice hT i e

theorem FindAll_eq_occurrences_witness :
    ValidText (runes "xabcxab") ∧
      sampleFilter.FindAll (runes "xabcxab") = occurrences sampleWords (runes "xabcxab") ∧
      sampleFilter.FindAll (runes "xabcxab") =
        [runes "ab", runes "abc", runes "bc", runes "ab"] :=
  ⟨by unfold ValidText; decide,
   FindAll_eq_occurrences ⟨Heap.init⟩ sampleWords (runes "xabcxab")
     (by unfold ValidText; decide),
   by decide⟩

/-! ## Filter -/

theorem markFrom_spec (r : Rune) : ∀ (n k : Nat) (res : List Rune),
    (markFrom r k n res).length = res.length ∧
      ∀ m, (markFrom r k n res)[m]? =
        if k ≤ m ∧ m < k + n ∧ m < res.length then some r else res[m]? := by
  intro n
  induction n with
  | zero =>
    intro k res
    refine ⟨rfl, fun m => ?_⟩
    have hno : ¬ (k ≤ m ∧ m < k + 0 ∧ m < res.length) := by omega
    rw [if_neg hno]
    rfl
  | succ n ih =>
    intro k res
    obtain ⟨hlen, hget⟩ := ih (k + 1) (res.set k r)
    simp only [markFrom]
    refine ⟨by rw [hlen, List.length_set], fun m => ?_⟩
    rw [hget m, List.length_set, List.getElem?_set]
    by_cases h1 : k + 1 ≤ m ∧ m < k + 1 + n ∧ m < res.length
    · have h2 : k ≤ m ∧ m < k + (n + 1) ∧ m < res.length := by omega
      rw [if_pos h1, if_pos h2]
    · rw [if_neg h1]
      by_cases hkm : k = m
      · subst hkm
        by_cases hk : k < res.length
        · have h2 : k ≤ k ∧ k < k + (n + 1) ∧ k < res.length := by omega
          rw [if_pos rfl, if_pos hk, if_pos h2]
        · have h2 : ¬ (k ≤ k ∧ k < k + (n + 1) ∧ k < res.length) := by omega
          rw [if_pos rfl, if_neg hk, if_neg h2]
          exact (List.getElem?_eq_none (by omega)).symm
      · have h2 : ¬ (k ≤ m ∧ m < k + (n + 1) ∧ m < res.length) := by omega
        rw [if_neg hkm, if_neg h2]

theorem Marks.of_iff {T : List Rune} {r : Rune} {S S2 : Nat → Prop} {res : List Rune}
    (hm : Marks T r S res) (hiff : ∀ k, k < T.length → (S k ↔ S2 k)) : Marks T r S2 res := by
  refine ⟨hm.1, fun k hk => ?_⟩
  obtain ⟨h1, h2⟩ := hm.2 k hk
  exact ⟨fun hs => h1 ((hiff k hk).mpr hs), fun hs => h2 (fun h => hs ((hiff k hk).mp h))⟩

theorem Marks.markFrom {T : List Rune} {r : Rune} {S : Nat → Prop} {res : List Rune}
    (hm : Marks T r S res) (start e : Nat) (hse : start ≤ e) :
    Marks T r (fun k => S k ∨ (start ≤ k ∧ k < e)) (XBot.markFrom r start (e - start) res) := by
  obtain ⟨hlen, hget⟩ := markFrom_spec r (e - start) start res
  refine ⟨by rw [hlen, hm.1], fun k hk => ?_⟩
  obtain ⟨h1, h2⟩ := hm.2 k hk
  rw [hget k]
  constructor
  · rintro (hs | ⟨hsk, hke⟩)
    · by_cases hc : start ≤ k ∧ k < start + (e - start) ∧ k < res.length
      · rw [if_pos hc]
      · rw [if_neg hc]; exact h1 hs
    · have hc : start ≤ k ∧ k < start + (e - start) ∧ k < res.length := by
        rw [hm.1]; omega
      rw [if_pos hc]
  · intro hn
    have hc : ¬ (start ≤ k ∧ k < start + (e - start) ∧ k < res.length) := by
      intro hc
      exact hn (Or.inr ⟨hc.1, by omega⟩)
    rw [if_neg hc]
    exact h2 (fun hs => hn (Or.inl hs))

theorem Marks.foldl {T : List Rune} {r : Rune} (start : Nat) :
    ∀ (ends : List Nat) (S : Nat → Prop) (res : List Rune), Marks T r S res →
      (∀ e ∈ ends, start ≤ e) →
      Marks T r (fun k => S k ∨ ∃ e ∈ ends, start ≤ k ∧ k < e)
        (ends.foldl (fun res e => XBot.markFrom r start (e - start) res) res) := by
  intro ends
  induction ends with
  | nil =>
    intro S res hm _
    exact hm.of_iff (fun k _ => by simp)
  | cons e ends ih =>
    intro S res hm hends
    simp only [List.foldl_cons]
    have h1 := hm.markFrom start e (hends e (List.mem_cons_self e ends))
    have h2 := ih _ _ h1 (fun x hx => hends x (List.mem_cons_of_mem e hx))
    refine h2.of_iff (fun k _ => ?_)
    simp only [List.mem_cons, exists_eq_or_imp]
    tauto

theorem filterWalk_eq (h : Heap) (r : Rune) (start : Nat) :
    ∀ (rest : List Rune) (u j : Nat) (res : List Rune),
      filterWalk h r start u j rest res =
        (walkEnds h u j rest).foldl (fun res e => markFrom r start (e - start) res) res := by
  intro rest
  induction rest with
  | nil => intro u j res; simp [filterWalk, walkEnds]
  | cons c rest ih =>
    intro u j res
    rcases hch : h.child u c with _ | v
    · simp [filterWalk, walkEnds, hch]
    · simp only [filterWalk, walkEnds, hch]
      rw [ih]
      cases (h.cell v).output <;> simp

theorem coveredBefore_succ (W : List (List Rune)) (T : List Rune) (i k : Nat) :
    (CoveredBefore W T i k ∨
      ∃ e ∈ (List.range' (i + 1) (T.length - i)).filter (fun e => decide (sliceOf T i e ∈ W)),
        i ≤ k ∧ k < e) ↔ CoveredBefore W T (i + 1) k := by
  constructor
  · rintro (⟨a, b, ha, hak, hkb, hb, hw⟩ | ⟨e, he, hik, hke⟩)
    · exact ⟨a, b, by omega, hak, hkb, hb, hw⟩
    · rw [List.mem_filter, List.mem_range'_1] at he
      exact ⟨i, e, by omega, hik, hke, by omega, by simpa using he.2⟩
  · rintro ⟨a, b, ha, hak, hkb, hb, hw⟩
    by_cases hai : a < i
    · exact Or.inl ⟨a, b, hai, hak, hkb, hb, hw⟩
    · have hai2 : a = i := by omega
      subst hai2
      refine Or.inr ⟨b, ?_, hak, hkb⟩
      rw [List.mem_filter, List.mem_range'_1]
      exact ⟨by omega, by simpa using hw⟩

theorem filterLoop_spec {W : List (List Rune)} {h : Heap} {str : Nat → List Rune}
    (ht : TrieInv W h str) (T : List Rune) (r : Rune) :
    ∀ (rest : List Rune) (i : Nat) (res : List Rune), rest = T.drop i →
      Marks T r (CoveredBefore W T i) res →
      Marks T r (CoveredBefore W T T.length) (filterLoop h r i rest res) := by
  intro rest
  induction rest with
  | nil =>
    intro i res hrest hm
    have hi : T.length ≤ i := List.drop_eq_nil_iff.mp hrest.symm
    simp only [filterLoop]
    refine hm.of_iff (fun k hk => ?_)
    constructor
    · rintro ⟨a, b, _, hak, hkb, hb, hw⟩
      exact ⟨a, b, by omega, hak, hkb, hb, hw⟩
    · rintro ⟨a, b, _, hak, hkb, hb, hw⟩
      exact ⟨a, b, by omega, hak, hkb, hb, hw⟩
  | cons c rest ih =>
    intro i res hrest hm
    simp only [filterLoop]
    apply ih (i + 1) _ (drop_succ_of_cons hrest)
    rw [filterWalk_eq, hrest, walkEnds_root ht]
    have h1 := Marks.foldl i
      ((List.range' (i + 1) (T.length - i)).filter (fun e => decide (sliceOf T i e ∈ W)))
      _ res hm (by
        intro e he
        rw [List.mem_filter, List.mem_range'_1] at he
        omega)
    exact h1.of_iff (fun k _ => coveredBefore_succ W T i k)

theorem covered_iff (W : List (List Rune)) (T : List Rune) (k : Nat) :
    CoveredBefore W T T.length k ↔ Covered W T k := by
  constructor
  · rintro ⟨a, b, _, hak, hkb, hb, hw⟩
    exact ⟨a, b, hak, hkb, hb, hw⟩
  · rintro ⟨a, b, hak, hkb, hb, hw⟩
    exact ⟨a, b, by omega, hak, hkb, hb, hw⟩

/-- What `Filter` returns for a text of valid code points: the covered positions hold the
code point that the conversion to a string makes of `r`, the others the code point of
`T`. -/
theorem filter_marks (sf : SensitiveFilter) (W : List (List Rune)) (T : List Rune) (r : Rune)
    (hT : ValidText T) :
    Marks T (if validRune r = true then r else 0xFFFD) (Covered W T)
      ((sf.Reload (some W)).1.Filter T r) := by
  obtain ⟨str, ht⟩ := buildTrie_inv W
  have hstart : Marks T r (CoveredBefore W T 0) T := by
    refine ⟨rfl, fun k _ => ⟨?_, fun _ => rfl⟩⟩
    rintro ⟨a, b, ha, _⟩
    omega
  have hm := (filterLoop_spec ht T r T 0 T rfl hstart).of_iff (fun k _ => covered_iff W T k)
  rw [SensitiveFilter.Filter, Reload_trie]
  refine ⟨by rw [stringOfRunes, List.length_map, hm.1], fun k hk => ?_⟩
  obtain ⟨h1, h2⟩ := hm.2 k hk
  rw [stringOfRunes, List.getElem?_map]
  constructor
  · intro hc
    rw [h1 hc]
    rfl
  · intro hc
    rw [h2 hc, List.getElem?_eq_getElem hk]
    simp [hT _ (List.getElem_mem hk)]

/-- C16, as the code has it: for a filter whose trie `Reload` built from the word list `W`
and a text `T` of valid code points, `Filter(T, r)` has as many code points as `T`;
position `k` holds the replacement if `k` lies in some span `[i, j)` of `T` whose runes
are a word of `W` (overlapping and nested spans included), and the code point of `T`
otherwise. The replacement is `r` when `r` is a valid code point and `U+FFFD` when it is
not, as the result is converted back to a string. -/
theorem Filter_marks_spans (sf : SensitiveFilter) (W : List (List Rune)) (T : List Rune)
    (r : Rune) (hT : ValidText T) :
    ((sf.Reload (some W)).1.Filter T r).length = T.length ∧
      ∀ k, k < T.length →
        (Covered W T k → ((sf.Reload (some W)).1.Filter T r)[k]? =
          some (if validRune r = true then r else 0xFFFD)) ∧
        (¬ Covered W T k → ((sf.Reload (some W)).1.Filter T r)[k]? = T[k]?) :=
  filter_marks sf W T r hT

theorem Filter_marks_spans_witness :
    ValidText (runes "xabcxab") ∧
      sampleFilter.Filter (runes "xabcxab") 42 = [120, 42, 42, 42, 120, 42, 42] ∧
      ((sampleFilter.Filter (runes "xabcxab") 42).length = (runes "xabcxab").length ∧
        ∀ k, k < (runes "xabcxab").length →
          (Covered sampleWords (runes "xabcxab") k →
            (sampleFilter.Filter (runes "xabcxab") 42)[k]? =
              some (if validRune 42 = true then 42 else 0xFFFD)) ∧
          (¬ Covered sampleWords (runes "xabcxab") k →
            (sampleFilter.Filter (runes "xabcxab") 42)[k]? = (runes "xabcxab")[k]?)) :=
  ⟨by unfold ValidText; decide, by decide,
   Filter_marks_spans ⟨Heap.init⟩ sampleWords (runes "xabcxab") 42
     (by unfold ValidText; decide)⟩

/-- C16 as stated fails for a replacement that is no valid code point: with the words
`ab`, `abc`, `bc`, the text `ab` and the surrogate `0xD800` as `r`, position 0 lies in
the span of the word `ab`, and `Filter` returns `U+FFFD` there, not `r`. -/
theorem Filter_surrogate_replacement :
    Covered sampleWords (runes "ab") 0 ∧
      sampleFilter.Filter (runes "ab") 0xD800 = [0xFFFD, 0xFFFD] ∧
      (sampleFilter.Filter (runes "ab") 0xD800)[0]? ≠ some 0xD800 :=
  ⟨⟨0, 2, by decide, by decide, by decide, by decide⟩, by decide, by decide⟩

/-! ## Rebuilding from the same set of patterns -/

theorem occurs_congr {P Q : List (List Rune)} (hPQ : ∀ p, p ≠ [] → (p ∈ P ↔ p ∈ Q))
    (T : List Rune) : Occurs P T ↔ Occurs Q T := by
  constructor
  · rintro ⟨p, hp, hne, hin⟩
    exact ⟨p, (hPQ p hne).mp hp, hne, hin⟩
  · rintro ⟨p, hp, hne, hin⟩
    exact ⟨p, (hPQ p hne).mpr hp, hne, hin⟩

theorem patSuffix_congr {P Q : List (List Rune)} (hPQ : ∀ p, p ≠ [] → (p ∈ P ↔ p ∈ Q))
    (w : List Rune) : PatSuffix P w ↔ PatSuffix Q w := by
  constructor
  · rintro ⟨p, hp, hne, hin⟩
    exact ⟨p, (hPQ p hne).mp hp, hne, hin⟩
  · rintro ⟨p, hp, hne, hin⟩
    exact ⟨p, (hPQ p hne).mpr hp, hne, hin⟩

/-- Two automata of the same set of non-empty patterns give the same answer. -/
theorem matchLoop_congr {P Q : List (List Rune)} {s1 s2 : Nat → List Rune} {h1 h2 : Heap}
    (ha1 : ACInv P s1 h1) (ha2 : ACInv Q s2 h2) (hPQ : ∀ p, p ≠ [] → (p ∈ P ↔ p ∈ Q))
    (T : List Rune) :
    ∃ b, matchLoop h1 0 T = some b ∧ matchLoop h2 0 T = some b := by
  obtain ⟨b1, hb1, hiff1⟩ := match_of_inv ha1 T
  obtain ⟨b2, hb2, hiff2⟩ := match_of_inv ha2 T
  have hb : b1 = b2 := by
    rw [occurs_congr hPQ T] at hiff1
    cases b1 <;> cases b2 <;> simp_all
  subst hb
  exact ⟨b1, hb1, hb2⟩

theorem sorted_ext {r1 r2 : List Nat} (h1 : r1.Pairwise (fun a b => a < b))
    (h2 : r2.Pairwise (fun a b => a < b)) (hmem : ∀ i, i ∈ r1 ↔ i ∈ r2) : r1 = r2 := by
  have hn1 : r1.Nodup := h1.imp (fun hab => Nat.ne_of_lt hab)
  have hn2 : r2.Nodup := h2.imp (fun hab => Nat.ne_of_lt hab)
  have hperm : r1.Perm r2 := (List.perm_ext_iff_of_nodup hn1 hn2).mpr hmem
  exact List.eq_of_perm_of_sorted hperm h1 h2

/-- Two automata of the same set of non-empty patterns report the same positions. -/
theorem matchAllLoop_congr {P Q : List (List Rune)} {s1 s2 : Nat → List Rune} {h1 h2 : Heap}
    (ha1 : ACInv P s1 h1) (ha2 : ACInv Q s2 h2) (hPQ : ∀ p, p ≠ [] → (p ∈ P ↔ p ∈ Q))
    (T : List Rune) :
    ∃ r, matchAllLoop h1 0 0 T [] = some r ∧ matchAllLoop h2 0 0 T [] = some r := by
  obtain ⟨r1, hr1, hs1, hm1⟩ := matchAllLoop_spec ha1 T [] 0 [] (IsState.at_root ha1)
  obtain ⟨r2, hr2, hs2, hm2⟩ := matchAllLoop_spec ha2 T [] 0 [] (IsState.at_root ha2)
  have heq : r1 = r2 := by
    apply sorted_ext hs1 hs2
    intro i
    rw [hm1 i, hm2 i, patSuffix_congr hPQ]
  subst heq
  exact ⟨r1, by simpa using hr1, by simpa using hr2⟩

/-- C18: for pattern lists `P` and `Q` with the same non-empty members (in any order,
with any duplicates), `Build(P)` on a machine in any state and `Build(Q)` on a fresh
machine both return, and `Match` and `MatchAll` then return the same result on every
text, whatever the orders in which the two builds walk the maps. -/
theorem Build_depends_on_pattern_set (ord1 ord2 : RangeOrder) (hord1 : ord1.Valid)
    (hord2 : ord2.Valid) (ac0 : ACMachine) (P Q : List (List Rune))
    (hPQ : ∀ p, p ≠ [] → (p ∈ P ↔ p ∈ Q)) :
    ∃ m1 m2, ac0.Build ord1 P = some m1 ∧ NewACMachine.Build ord2 Q = some m2 ∧
      ∀ T, (∃ b, m1.Match T = some b ∧ m2.Match T = some b) ∧
        (∃ r, m1.MatchAll T = some r ∧ m2.MatchAll T = some r) := by
  obtain ⟨m1, hb1, _, s1, ha1⟩ := Build_spec hord1 ac0 P
  obtain ⟨m2, hb2, _, s2, ha2⟩ := Build_spec hord2 NewACMachine Q
  refine ⟨m1, m2, hb1, hb2, fun T => ⟨?_, ?_⟩⟩
  · exact matchLoop_congr ha1 ha2 hPQ T
  · exact matchAllLoop_congr ha1 ha2 hPQ T

theorem Build_depends_on_pattern_set_witness :
    (∀ p, p ≠ [] → (p ∈ patternsBcAb ↔ p ∈ patternsAbBc)) ∧
      (∃ m1 m2, usedMachine.Build RangeOrder.reversed patternsBcAb = some m1 ∧
        NewACMachine.Build RangeOrder.insertion patternsAbBc = some m2 ∧
        ∀ T, (∃ b, m1.Match T = some b ∧ m2.Match T = some b) ∧
          (∃ r, m1.MatchAll T = some r ∧ m2.MatchAll T = some r)) ∧
      (usedMachine.Build RangeOrder.reversed patternsBcAb).bind
        (fun m => m.MatchAll (runes "xabcx")) = some [2, 3] :=
  ⟨by intro p hp; simp [patternsBcAb, patternsAbBc, hp]; tauto,
   Build_depends_on_pattern_set RangeOrder.reversed RangeOrder.insertion
     RangeOrder.reversed_valid RangeOrder.insertion_valid usedMachine patternsBcAb
     patternsAbBc (by intro p hp; simp [patternsBcAb, patternsAbBc, hp]; tauto),
   by decide⟩

/-! ## The trie-backed predicate -/

/-- The predicate of `acMatcher` for a keyword manager is the predicate for the manager
seen as a `VersionedKeywordProvider`. -/
theorem acMatcher_eq_toProvider {σ : Type} (km : KeywordManager σ) (ord : RangeOrder)
    (cache : acCache) (p : σ) (text : List Rune) :
    acMatcher km ord cache p text = km.toProvider.acMatcher ord cache p text := rfl

/-- The trie of `dfaMatcher` answers whether a non-empty word occurs. -/
theorem matchDFA_spec (W : List (List Rune)) (T : List Rune) :
    matchDFA (some (buildDFA W)) T = true ↔ Occurs W T := by
  obtain ⟨str, ht⟩ := buildTrie_inv W
  rw [buildDFA_eq]
  exact containsLoop_spec ht T

/-- As long as the provider does not report the version `-1`, a call of the predicate of
`acMatcher` and a call of the predicate of `dfaMatcher` on corresponding caches return
the same result and leave corresponding caches. -/
theorem dfaMatcher_agrees {σ : Type} (vp : VersionedKeywordProvider σ) {ord : RangeOrder}
    (hord : ord.Valid) {ac : acCache} {dfa : dfaCache} (hag : CachesAgree ac dfa) (p : σ)
    (hver : vp.GetVersion p ≠ -1) (text : List Rune) :
    ∃ ac2, vp.acMatcher ord ac p text = some (ac2, (dfaMatcher vp dfa p text).2) ∧
      CachesAgree ac2 (dfaMatcher vp dfa p text).1 := by
  obtain ⟨hv, hcase⟩ := hag
  by_cases hup : ac.lastVersion = vp.GetVersion p
  · -- no rebuild: something has been built
    rcases hcase with ⟨_, hneg⟩ | ⟨W, str, hroot, ha⟩
    · rw [hneg] at hup; exact absurd hup.symm hver
    · obtain ⟨b, hb, hiff⟩ := match_of_inv ha text
      have hdfa : dfaMatcher vp dfa p text = (dfa, matchDFA (some (buildDFA W)) text) := by
        simp [dfaMatcher, hroot, ← hv, hup]
      have hbb : b = matchDFA (some (buildDFA W)) text := by
        have h2 := matchDFA_spec W text
        cases b <;> cases hm : matchDFA (some (buildDFA W)) text <;> simp_all
      rw [hdfa]
      refine ⟨ac, ?_, hv, Or.inr ⟨W, str, hroot, ha⟩⟩
      simp [VersionedKeywordProvider.acMatcher, hup, ACMachine.Match, hb, hbb]
  · have hup2 : dfa.lastVersion ≠ vp.GetVersion p := by rw [← hv]; exact hup
    by_cases hw : (vp.GetKeywords p).length = 0
    · refine ⟨ac, ?_, ?_⟩
      · simp [VersionedKeywordProvider.acMatcher, dfaMatcher, hup, hup2, hw]
      · have hdfa : (dfaMatcher vp dfa p text).1 = dfa := by
          simp [dfaMatcher, hup2, hw]
        rw [hdfa]
        exact ⟨hv, hcase⟩
    · obtain ⟨m, hbuild, _, str, ha⟩ := Build_spec hord ac.machine (vp.GetKeywords p)
      obtain ⟨b, hb, hiff⟩ := match_of_inv ha text
      have hdfa : dfaMatcher vp dfa p text =
          (⟨some (buildDFA (vp.GetKeywords p)), vp.GetVersion p⟩,
            matchDFA (some (buildDFA (vp.GetKeywords p))) text) := by
        simp [dfaMatcher, hup2, hw]
      have hbb : b = matchDFA (some (buildDFA (vp.GetKeywords p))) text := by
        have h2 := matchDFA_spec (vp.GetKeywords p) text
        cases b <;> cases hm : matchDFA (some (buildDFA (vp.GetKeywords p))) text <;> simp_all
      rw [hdfa]
      refine ⟨⟨m, vp.GetVersion p⟩, ?_, rfl, Or.inr ⟨vp.GetKeywords p, str, rfl, ha⟩⟩
      simp [VersionedKeywordProvider.acMatcher, hup, hw, hbuild, ACMachine.Match, hb, hbb]

/-- C19: the predicates of `acMatcher` and `dfaMatcher` differ on a provider that reports
the keyword `a` at version `-1`: on the text `a`, the first call of the predicate of
`acMatcher` returns `false` and leaves its cache as it was (version `-1`, a machine with
the root only), while the first call of the predicate of `dfaMatcher` builds the trie
and returns `true`, as the keyword occurs in the text. -/
theorem acMatcher_dfaMatcher_differ_at_sentinel :
    (sentinelProvider.acMatcher RangeOrder.insertion acCache.new () (runes "a")).map Prod.snd =
        some false ∧
      (sentinelProvider.acMatcher RangeOrder.insertion acCache.new () (runes "a")).map
        (fun r => (r.1.lastVersion, r.1.machine.heap.size)) = some (-1, 1) ∧
      (dfaMatcher sentinelProvider dfaCache.new () (runes "a")).2 = true ∧
      Occurs (sentinelProvider.GetKeywords ()) (runes "a") := by
  refine ⟨by decide, by decide, by decide, ?_⟩
  exact ⟨runes "a", by simp [sentinelProvider], by decide, List.infix_refl _⟩

/-! ## The per-provider caches -/

theorem matchLoop_init (T : List Rune) : ∀ node, node = 0 → matchLoop Heap.init node T = some false := by
  induction T with
  | nil => intro node _; rfl
  | cons c T ih =>
    intro node hn
    subst hn
    have hstep : acStep Heap.init 0 c = some 0 := by
      simp [acStep, followFail, Heap.init, Heap.child, NewACNode]
    simp only [matchLoop, hstep]
    have hout : (Heap.init.cell 0).output = false := rfl
    rw [hout]
    exact ih 0 rfl

theorem CacheEquiv.fresh : CacheEquiv acCache.new acCache.new :=
  ⟨rfl, fun T => ⟨false, matchLoop_init T 0 rfl, matchLoop_init T 0 rfl⟩⟩

/-- One call of the predicate of `acMatcher` on two caches that answer alike returns the
same result and leaves caches that answer alike, whatever the orders of the rebuilds. -/
theorem acMatcher_equiv {σ : Type} (vp : VersionedKeywordProvider σ) {ord1 ord2 : RangeOrder}
    (h1 : ord1.Valid) (h2 : ord2.Valid) {c1 c2 : acCache} (heq : CacheEquiv c1 c2) (p : σ)
    (text : List Rune) :
    ∃ d1 d2 b, vp.acMatcher ord1 c1 p text = some (d1, b) ∧
      vp.acMatcher ord2 c2 p text = some (d2, b) ∧ CacheEquiv d1 d2 := by
  obtain ⟨hv, hall⟩ := heq
  by_cases hup : c1.lastVersion = vp.GetVersion p
  · have hup2 : c2.lastVersion = vp.GetVersion p := by rw [← hv]; exact hup
    obtain ⟨b, hb1, hb2⟩ := hall text
    exact ⟨c1, c2, b, by simp [VersionedKeywordProvider.acMatcher, hup, hb1],
      by simp [VersionedKeywordProvider.acMatcher, hup2, hb2], hv, hall⟩
  · have hup2 : ¬ c2.lastVersion = vp.GetVersion p := by rw [← hv]; exact hup
    by_cases hw : (vp.GetKeywords p).length = 0
    · exact ⟨c1, c2, false, by simp [VersionedKeywordProvider.acMatcher, hup, hw],
        by simp [VersionedKeywordProvider.acMatcher, hup2, hw], hv, hall⟩
    · obtain ⟨m1, hb1, _, s1, ha1⟩ := Build_spec h1 c1.machine (vp.GetKeywords p)
      obtain ⟨m2, hb2, _, s2, ha2⟩ := Build_spec h2 c2.machine (vp.GetKeywords p)
      have hsame : ∀ T, ∃ b, m1.Match T = some b ∧ m2.Match T = some b :=
        fun T => matchLoop_congr ha1 ha2 (fun _ _ => Iff.rfl) T
      obtain ⟨b, hm1, hm2⟩ := hsame text
      exact ⟨⟨m1, vp.GetVersion p⟩, ⟨m2, vp.GetVersion p⟩, b,
        by simp [VersionedKeywordProvider.acMatcher, hup, hw, hb1, hm1],
        by simp [VersionedKeywordProvider.acMatcher, hup2, hw, hb2, hm2], rfl, hsame⟩

/-- A call of the predicate of `acMatcherWithContext` that resolves to the provider `k`
is a call of the predicate of `acMatcher` on the entry of `k`. -/
theorem acMatcherWithContext_some {κ σ : Type} [DecidableEq κ] (vp : VersionedKeywordProvider σ)
    (ord : RangeOrder) (cacheMap : κ → Option acCache) (k : κ) (p : σ) (text : List Rune) :
    acMatcherWithContext vp ord cacheMap (some (.comparable k, p)) text =
      (vp.acMatcher ord (loadOrStore cacheMap k) p text).map
        (fun r => (Function.update cacheMap k (some r.1), r.2)) := by
  simp only [acMatcherWithContext, VersionedKeywordProvider.acMatcher]
  by_cases hup : (loadOrStore cacheMap k).lastVersion = vp.GetVersion p
  · simp only [hup, ne_eq, not_true_eq_false, decide_False, Bool.false_eq_true, if_false]
    cases (loadOrStore cacheMap k).machine.Match text <;> rfl
  · simp only [hup, ne_eq, not_false_eq_true, decide_True, if_true]
    by_cases hw : (vp.GetKeywords p).length = 0
    · simp only [hw, if_true]; rfl
    · simp only [hw, if_false]
      cases (loadOrStore cacheMap k).machine.Build ord (vp.GetKeywords p) with
      | none => rfl
      | some m =>
        dsimp only
        cases m.Match text <;> rfl

theorem loadOrStore_update {κ : Type} [DecidableEq κ] (cacheMap : κ → Option acCache)
    (k k2 : κ) (c : acCache) :
    loadOrStore (Function.update cacheMap k (some c)) k2 =
      if k2 = k then c else loadOrStore cacheMap k2 := by
  by_cases hk : k2 = k
  · subst hk; simp [loadOrStore]
  · simp [loadOrStore, Function.update_noteq hk, hk]

/-- Invariant of a run over providers of comparable types: the entry of every provider
answers like the cache of a dedicated predicate that has seen the events of that
provider only. -/
theorem contextRun_equiv {κ σ : Type} [DecidableEq κ] (vp : VersionedKeywordProvider σ) :
    ∀ (steps steps2 : List (ContextCall κ σ)) (cacheMap : κ → Option acCache)
      (ded : κ → acCache), SameEvents steps steps2 → (∀ a ∈ steps, a.Comparable) →
      (∀ a ∈ steps, a.ord.Valid) → (∀ a ∈ steps2, a.ord.Valid) →
      (∀ k, CacheEquiv (loadOrStore cacheMap k) (ded k)) →
      ∃ cm, contextRun vp cacheMap steps = some cm ∧
        ∀ k, ∃ c, dedicatedRun vp k (ded k) steps2 = some c ∧
          CacheEquiv (loadOrStore cm k) c := by
  intro steps
  induction steps with
  | nil =>
    intro steps2 cacheMap ded hsame _ _ _ hinv
    cases steps2 with
    | nil => exact ⟨cacheMap, rfl, fun k => ⟨ded k, rfl, hinv k⟩⟩
    | cons b bs => exact absurd hsame (by simp [SameEvents])
  | cons a as ih =>
    intro steps2 cacheMap ded hsame hcomp hv hv2 hinv
    cases steps2 with
    | nil => exact absurd hsame (by simp [SameEvents])
    | cons b bs =>
      obtain ⟨hprov, htext, hrest⟩ := hsame
      have hva : ∀ x ∈ as, x.ord.Valid := fun x hx => hv x (List.mem_cons_of_mem a hx)
      have hvb : ∀ x ∈ bs, x.ord.Valid := fun x hx => hv2 x (List.mem_cons_of_mem b hx)
      have hca : ∀ x ∈ as, x.Comparable := fun x hx => hcomp x (List.mem_cons_of_mem a hx)
      rcases hap : a.provider with _ | ⟨key, p⟩
      · -- nil provider: nothing changes
        have hbp : b.provider = none := by rw [← hprov, hap]
        obtain ⟨cm, hcm, hall⟩ := ih bs cacheMap ded hrest hca hva hvb hinv
        refine ⟨cm, ?_, fun k => ?_⟩
        · simp only [contextRun, hap, acMatcherWithContext]
          exact hcm
        · obtain ⟨c, hc, hce⟩ := hall k
          exact ⟨c, by simp only [dedicatedRun, hbp]; exact hc, hce⟩
      · cases key with
        | uncomparable => exact absurd hap (hcomp a (List.mem_cons_self a as) p)
        | comparable k0 =>
          have hbp : b.provider = some (.comparable k0, p) := by rw [← hprov, hap]
          obtain ⟨d1, d2, r, hr1, hr2, hd⟩ :=
            acMatcher_equiv vp (hv a (List.mem_cons_self a as))
              (hv2 b (List.mem_cons_self b bs)) (hinv k0) p a.text
          have hinv2 : ∀ k, CacheEquiv (loadOrStore (Function.update cacheMap k0 (some d1)) k)
              (Function.update ded k0 d2 k) := by
            intro k
            rw [loadOrStore_update]
            by_cases hk : k = k0
            · subst hk; simpa using hd
            · simpa [hk, Function.update_noteq hk] using hinv k
          obtain ⟨cm, hcm, hall⟩ := ih bs _ _ hrest hca hva hvb hinv2
          refine ⟨cm, ?_, fun k => ?_⟩
          · simp only [contextRun, hap, acMatcherWithContext_some, hr1, Option.map_some']
            exact hcm
          · obtain ⟨c, hc, hce⟩ := hall k
            refine ⟨c, ?_, hce⟩
            by_cases hk : k = k0
            · subst hk
              rw [htext] at hr2
              simp only [dedicatedRun, hbp, if_true, hr2]
              simpa using hc
            · have hk2 : ¬ k0 = k := fun h => hk h.symm
              simp only [dedicatedRun, hbp, hk2, if_false]
              simpa [Function.update_noteq hk] using hc

/-- C20, as the code has it: in a sequential series of events whose providers have
comparable dynamic types (pointers to managers, say), the predicate of
`acMatcherWithContext` always returns; it returns `false` on an event for which
`GetProvider` returns nil, and on an event that resolves to the provider with the key
`k` it returns what a dedicated predicate of `acMatcher` for that provider returns on
that event after having been called on exactly the earlier events that resolve to it,
whatever the orders in which the rebuilds of the two predicates walk the maps. -/
theorem acMatcherWithContext_per_provider {κ σ : Type} [DecidableEq κ]
    (vp : VersionedKeywordProvider σ) (steps steps2 : List (ContextCall κ σ))
    (s s2 : ContextCall κ σ) (hsame : SameEvents steps steps2)
    (htext : s.text = s2.text) (hcomp : ∀ a ∈ steps, a.Comparable)
    (hv : ∀ a ∈ steps, a.ord.Valid) (hv2 : ∀ a ∈ steps2, a.ord.Valid)
    (hs : s.ord.Valid) (hs2 : s2.ord.Valid) :
    ∃ cm, contextRun vp (fun _ => none) steps = some cm ∧
      (s.provider = none →
        acMatcherWithContext vp s.ord cm s.provider s.text = some (cm, false)) ∧
      (∀ k p, s.provider = some (.comparable k, p) →
        ∃ c cm2 c2 b, dedicatedRun vp k acCache.new steps2 = some c ∧
          acMatcherWithContext vp s.ord cm s.provider s.text = some (cm2, b) ∧
          vp.acMatcher s2.ord c p s2.text = some (c2, b)) := by
  obtain ⟨cm, hcm, hall⟩ := contextRun_equiv vp steps steps2 (fun _ => none)
    (fun _ => acCache.new) hsame hcomp hv hv2 (fun _ => CacheEquiv.fresh)
  refine ⟨cm, hcm, ?_, ?_⟩
  · intro hnone
    rw [hnone]
    rfl
  · intro k p hsome
    obtain ⟨c, hc, hce⟩ := hall k
    obtain ⟨d1, d2, b, hr1, hr2, _⟩ := acMatcher_equiv vp hs hs2 hce p s.text
    refine ⟨c, Function.update cm k (some d1), d2, b, hc, ?_, ?_⟩
    · rw [hsome, acMatcherWithContext_some, hr1]
      rfl
    · rw [← htext]
      exact hr2

theorem acMatcherWithContext_per_provider_witness :
    SameEvents sampleCalls sampleCallsReversed ∧ (∀ a ∈ sampleCalls, a.Comparable) ∧
      (∃ cm, contextRun DefaultKeywordManager.methods.toProvider (fun _ => none) sampleCalls =
          some cm ∧
        (sampleLastCall.provider = none →
          acMatcherWithContext DefaultKeywordManager.methods.toProvider sampleLastCall.ord cm
            sampleLastCall.provider sampleLastCall.text = some (cm, false)) ∧
        (∀ k p, sampleLastCall.provider = some (.comparable k, p) →
          ∃ c cm2 c2 b,
            dedicatedRun DefaultKeywordManager.methods.toProvider k acCache.new
              sampleCallsReversed = some c ∧
            acMatcherWithContext DefaultKeywordManager.methods.toProvider sampleLastCall.ord cm
              sampleLastCall.provider sampleLastCall.text = some (cm2, b) ∧
            DefaultKeywordManager.methods.toProvider.acMatcher sampleLastCallReversed.ord c p
              sampleLastCallReversed.text = some (c2, b))) ∧
      ((contextRun DefaultKeywordManager.methods.toProvider (fun _ => none) sampleCalls).bind
        (fun cm => acMatcherWithContext DefaultKeywordManager.methods.toProvider
          sampleLastCall.ord cm sampleLastCall.provider sampleLastCall.text)).map Prod.snd =
        some true :=
  ⟨⟨rfl, rfl, rfl, rfl, rfl, rfl, trivial⟩,
   (by
      intro a ha p
      simp only [sampleCalls, List.mem_cons, List.mem_singleton, List.not_mem_nil, or_false] at ha
      rcases ha with rfl | rfl | rfl <;> simp),
   acMatcherWithContext_per_provider DefaultKeywordManager.methods.toProvider sampleCalls
     sampleCallsReversed sampleLastCall sampleLastCallReversed
     ⟨rfl, rfl, rfl, rfl, rfl, rfl, trivial⟩ rfl
     (by
      intro a ha p
      simp only [sampleCalls, List.mem_cons, List.mem_singleton, List.not_mem_nil, or_false] at ha
      rcases ha with rfl | rfl | rfl <;> simp)
     (by
      intro a ha
      simp only [sampleCalls, List.mem_cons, List.mem_singleton, List.not_mem_nil, or_false] at ha
      rcases ha with rfl | rfl | rfl <;> exact RangeOrder.insertion_valid)
     (by
      intro a ha
      simp only [sampleCallsReversed, List.mem_cons, List.mem_singleton, List.not_mem_nil,
        or_false] at ha
      rcases ha with rfl | rfl | rfl <;> exact RangeOrder.reversed_valid)
     RangeOrder.insertion_valid RangeOrder.reversed_valid,
   by decide⟩

/-- C20 as stated fails for a provider whose dynamic type is not comparable: on an event
that resolves to such a provider, holding the keyword `ab`, the predicate of
`acMatcherWithContext` panics in `LoadOrStore` (it does not return), while a dedicated
predicate of `acMatcher` for that provider returns `true` on the text `abc`. -/
theorem acMatcherWithContext_uncomparable_provider :
    acMatcherWithContext DefaultKeywordManager.methods.toProvider uncomparableCall.ord
        (fun _ : Nat => none) uncomparableCall.provider uncomparableCall.text = none ∧
      (DefaultKeywordManager.methods.toProvider.acMatcher uncomparableCall.ord acCache.new
        (NewKeywordManager [runes "ab"]) uncomparableCall.text).map Prod.snd = some true :=
  ⟨rfl, by decide⟩

/-! ## Middleware chains -/

theorem nest_append {η : Type} (a b : List (η → η)) (h : η) :
    nest (a ++ b) h = nest a (nest b h) := by
  induction a with
  | nil => rfl
  | cons m a ih =>
    show m (nest (a ++ b) h) = m (nest a (nest b h))
    rw [ih]

/-- With `i` rounds left the loop wraps the handler in the first `i` middlewares. -/
theorem wrapHandler_take {η : Type} (mws : List (η → η)) : ∀ (i : Nat) (handler : η),
    i ≤ mws.length → wrapHandler mws i handler = nest (mws.take i) handler := by
  intro i
  induction i with
  | zero => intro handler _; rfl
  | succ i ih =>
    intro handler hi
    have hlt : i < mws.length := hi
    simp only [wrapHandler, List.getElem?_eq_getElem hlt]
    rw [ih _ (Nat.le_of_lt hlt)]
    have htake : mws.take (i + 1) = mws.take i ++ [mws[i]] := by
      rw [List.take_succ, List.getElem?_eq_getElem hlt]
      rfl
    rw [htake, nest_append]
    rfl

theorem wrapHandler_nest {η : Type} (mws : List (η → η)) (handler : η) :
    wrapHandler mws mws.length handler = nest mws handler := by
  rw [wrapHandler_take mws mws.length handler (Nat.le_refl _), List.take_length]

theorem foldl_Use_matcher {ε : Type} (mws : List (HandlerFunc ε → HandlerFunc ε)) :
    ∀ m : Matcher ε, (mws.foldl (fun m mw => m.Use [mw]) m).middlewares = m.middlewares ++ mws := by
  induction mws with
  | nil => intro m; simp
  | cons mw mws ih =>
    intro m
    simp only [List.foldl_cons]
    rw [ih]
    simp [Matcher.Use]

/-- C21: a matcher whose middlewares `m0, ..., m(n-1)` were registered by `Use` in that
order (one by one or in one call) and whose handler is `h` executes
`m0(m1(...m(n-1)(h)...))(ctx)`; `Engine.HandleEvent` wraps `handleEventInternal` and
`Chain.Then` wraps its handler in the same order, the first registered outermost. -/
theorem middlewares_first_outermost {ε η : Type} (m : Matcher ε) (e : Engine ε) (c : Chain η)
    (mws : List (HandlerFunc ε → HandlerFunc ε)) (cmws : List (η → η)) (h : HandlerFunc ε)
    (g : η) (ctx : Context ε) (evt : Event) (bot : ε) :
    (((mws.foldl (fun m mw => m.Use [mw]) m).Handle h).Execute ctx =
        nest (m.middlewares ++ mws) h ctx ∧
      ((m.Use mws).Handle h).Execute ctx = nest (m.middlewares ++ mws) h ctx) ∧
    (e.Use mws).HandleEvent evt bot =
      nest (e.middlewares ++ mws) (fun ctx => ((e.Use mws).handleEventInternal ctx).1)
        (NewContext evt bot) ∧
    ((c.Use cmws).Then g = nest (c.middlewares ++ cmws) g ∧
      (NewChain cmws).Then g = nest cmws g) ∧
    ((((newMatcher none []).Use
        [tagMiddleware 0, tagMiddleware 1, tagMiddleware 2]).Handle
          (fun ctx => { ctx with env := ctx.env ++ [9] })).Execute
        (NewContext Event.other [])).env = [0, 1, 2, 9] := by
  refine ⟨⟨?_, ?_⟩, ?_, ⟨?_, ?_⟩, ?_⟩
  · simp only [Matcher.Execute, Matcher.Handle, wrapHandler_nest, foldl_Use_matcher]
  · simp only [Matcher.Execute, Matcher.Handle, Matcher.Use, wrapHandler_nest]
  · simp only [Engine.HandleEvent, wrapHandler_nest]
    rfl
  · simp only [Chain.Then, Chain.Use, wrapHandler_nest]
  · simp only [Chain.Then, NewChain, wrapHandler_nest]
  · rfl

/-! ## The in-memory limiter -/

theorem validRecords_append (w : Int) (a b : List Int) :
    validRecords w (a ++ b) = validRecords w a ++ validRecords w b := by
  simp [validRecords]

theorem validRecords_twice {w1 w2 : Int} (h : w1 ≤ w2) (l : List Int) :
    validRecords w2 (validRecords w1 l) = validRecords w2 l := by
  simp only [validRecords, List.filter_filter]
  apply List.filter_congr
  intro t _
  by_cases h2 : w2 < t
  · have h1 : w1 < t := lt_of_le_of_lt h h2
    simp [h1, h2]
  · simp [h2]

theorem lookup_prune {κ : Type} [DecidableEq κ] (l : MemoryLimiter κ) (key k : κ) (w : Int) :
    (l.prune key w).lookup k = if k = key then validRecords w (l.lookup k) else l.lookup k := by
  unfold MemoryLimiter.prune MemoryLimiter.lookup
  by_cases hk : k = key
  · subst hk
    cases h : l.records k with
    | none => simp [h, validRecords]
    | some rs => simp [h]
  · cases h : l.records key with
    | none => simp [hk]
    | some rs => simp [hk, Function.update_noteq hk]

theorem lookup_sweep {κ : Type} (l : MemoryLimiter κ) (k : κ) (now : Int) :
    (l.sweep now).lookup k = validRecords (l.windowStart now) (l.lookup k) := by
  simp only [MemoryLimiter.sweep, MemoryLimiter.lookup]
  cases l.records k with
  | none => simp [sweepEntry, validRecords]
  | some rs =>
    by_cases he : (validRecords (l.windowStart now) rs).length = 0
    · simp [sweepEntry, he, List.length_eq_zero.mp he]
    · simp [sweepEntry, he]

/-- For a duration other than `math.MinInt64` the window starts `d` before `now`. -/
theorem LimiterInv.windowStart_eq {κ : Type} {l : MemoryLimiter κ} {d mc : Int}
    {adm : κ → List Int} {late : Int → Prop} (hi : LimiterInv l d mc adm late) (now : Int) :
    l.windowStart now = now - d := by
  have h1 := hi.range.1
  have h2 := hi.range.2
  unfold MemoryLimiter.windowStart wrapInt64
  rw [hi.dur]
  omega

theorem admitted_append {κ : Type} [DecidableEq κ] (key : κ) (a b : List (κ × Int × Bool)) :
    admitted key (a ++ b) = admitted key a ++ admitted key b := by
  simp [admitted]

theorem admitted_single {κ : Type} [DecidableEq κ] (key k : κ) (now : Int) (r : Bool) :
    admitted key [(k, now, r)] = if k = key ∧ r = true then [now] else [] := by
  by_cases hk : k = key <;> cases r <;> simp [admitted, hk]

theorem countWithin_eq_valid {d now : Int} {ts : List Int} (hle : ∀ t ∈ ts, t ≤ now) :
    countWithin d now ts = (validRecords (now - d) ts).length := by
  unfold countWithin validRecords
  congr 1
  apply List.filter_congr
  intro t ht
  simp [hle t ht]

theorem countWithin_le_valid {d now t : Int} (hnt : now ≤ t) (ts : List Int) :
    countWithin d t ts ≤ (validRecords (now - d) ts).length := by
  unfold countWithin validRecords
  apply List.Sublist.length_le
  apply List.monotone_filter_right
  intro s hs
  simp only [Bool.and_eq_true, decide_eq_true_eq] at hs ⊢
  omega

theorem countWithin_snoc (d t now : Int) (ts : List Int) :
    countWithin d t (ts ++ [now]) =
      countWithin d t ts + (if t - d < now ∧ now ≤ t then 1 else 0) := by
  unfold countWithin
  rw [List.filter_append, List.length_append]
  congr 1
  by_cases h : t - d < now ∧ now ≤ t
  · simp [h]
  · simp only [if_neg h]
    rw [List.length_eq_zero, List.filter_eq_nil_iff]
    intro s hs
    simp only [List.mem_singleton] at hs
    subst hs
    simpa using h

theorem LimiterInv.sweep {κ : Type} {l : MemoryLimiter κ} {d mc : Int} {adm : κ → List Int}
    {late : Int → Prop} (hi : LimiterInv l d mc adm late) (now0 : Int) :
    LimiterInv (l.sweep now0) d mc adm (fun now => now0 ≤ now ∧ late now) := by
  refine ⟨hi.dur, hi.range, hi.max, ?_, fun key t now ht hl => hi.le key t now ht hl.2, hi.cnt⟩
  intro key now hl
  rw [lookup_sweep, hi.windowStart_eq, validRecords_twice (by omega), hi.recs key now hl.2]

/-- One call of `Allow` keeps the invariant; a denied call finds `mc` admitted calls in
its window. -/
theorem LimiterInv.Allow {κ : Type} [DecidableEq κ] {l : MemoryLimiter κ} {d mc : Int}
    {pre : List (κ × Int × Bool)} {late : Int → Prop}
    (hi : LimiterInv l d mc (fun key => admitted key pre) late) (key0 : κ) (now0 : Int)
    (hl0 : late now0) :
    LimiterInv (l.Allow key0 now0).1 d mc
        (fun key => admitted key (pre ++ [(key0, now0, (l.Allow key0 now0).2)]))
        (fun now => now0 ≤ now ∧ late now) ∧
      ((l.Allow key0 now0).2 = false → (countWithin d now0 (admitted key0 pre) : Int) = mc) := by
  have hV : (l.prune key0 (l.windowStart now0)).lookup key0 =
      validRecords (now0 - d) (admitted key0 pre) := by
    rw [lookup_prune, if_pos rfl, hi.windowStart_eq, hi.recs key0 now0 hl0]
  have hcount : countWithin d now0 (admitted key0 pre) =
      (validRecords (now0 - d) (admitted key0 pre)).length :=
    countWithin_eq_valid (fun t ht => hi.le key0 t now0 ht hl0)
  have hmax : (l.prune key0 (l.windowStart now0)).maxCount = mc := by
    unfold MemoryLimiter.prune
    cases l.records key0 <;> exact hi.max
  have hdur : (l.prune key0 (l.windowStart now0)).duration = d := by
    unfold MemoryLimiter.prune
    cases l.records key0 <;> exact hi.dur
  by_cases hdeny : mc ≤ ((validRecords (now0 - d) (admitted key0 pre)).length : Int)
  · -- denied
    have hres : l.Allow key0 now0 = (l.prune key0 (l.windowStart now0), false) := by
      simp only [MemoryLimiter.Allow, hmax, hV, hdeny, if_true]
    rw [hres]
    refine ⟨⟨hdur, hi.range, hmax, ?_, ?_, ?_⟩, ?_⟩
    · intro key now hl
      simp only [admitted_append, admitted_single, Bool.false_eq_true, and_false, if_false,
        List.append_nil]
      rw [lookup_prune, ← hi.recs key now hl.2]
      by_cases hk : key = key0
      · rw [if_pos hk, hi.windowStart_eq, validRecords_twice (by omega)]
      · rw [if_neg hk]
    · intro key t now ht hl
      simp only [admitted_append, admitted_single, Bool.false_eq_true, and_false, if_false,
        List.append_nil] at ht
      exact hi.le key t now ht hl.2
    · intro key t
      simp only [admitted_append, admitted_single, Bool.false_eq_true, and_false, if_false,
        List.append_nil]
      exact hi.cnt key t
    · intro _
      have := hi.cnt key0 now0
      rw [hcount] at this ⊢
      omega
  · -- admitted
    have hres : l.Allow key0 now0 =
        ({ l.prune key0 (l.windowStart now0) with
            records := Function.update (l.prune key0 (l.windowStart now0)).records key0
              (some (validRecords (now0 - d) (admitted key0 pre) ++ [now0])) }, true) := by
      simp only [MemoryLimiter.Allow, hmax, hV, hdeny, if_false]
    rw [hres]
    refine ⟨⟨hdur, hi.range, hmax, ?_, ?_, ?_⟩, fun h => by cases h⟩
    · intro key now hl
      simp only [admitted_append, admitted_single, and_true]
      by_cases hk : key = key0
      · subst hk
        have hlook : MemoryLimiter.lookup
            { l.prune key (l.windowStart now0) with
              records := Function.update (l.prune key (l.windowStart now0)).records key
                (some (validRecords (now0 - d) (admitted key pre) ++ [now0])) } key =
            validRecords (now0 - d) (admitted key pre) ++ [now0] := by
          simp [MemoryLimiter.lookup]
        rw [hlook, if_pos rfl, validRecords_append, validRecords_append,
          validRecords_twice (by omega)]
      · have hk2 : ¬ key0 = key := fun h => hk h.symm
        have hlook : MemoryLimiter.lookup
            { l.prune key0 (l.windowStart now0) with
              records := Function.update (l.prune key0 (l.windowStart now0)).records key0
                (some (validRecords (now0 - d) (admitted key0 pre) ++ [now0])) } key =
            l.lookup key := by
          have := lookup_prune l key0 key (l.windowStart now0)
          rw [if_neg hk] at this
          rw [← this]
          simp [MemoryLimiter.lookup, Function.update_noteq hk]
        rw [hlook, if_neg hk2, List.append_nil, hi.recs key now hl.2]
    · intro key t now ht hl
      simp only [admitted_append, admitted_single, and_true, List.mem_append] at ht
      rcases ht with ht | ht
      · exact hi.le key t now ht hl.2
      · by_cases hk : key0 = key
        · rw [if_pos hk] at ht
          simp only [List.mem_singleton] at ht
          rw [ht]; exact hl.1
        · rw [if_neg hk] at ht
          cases ht
    · intro key t
      simp only [admitted_append, admitted_single, and_true]
      by_cases hk : key0 = key
      · subst hk
        rw [if_pos rfl, countWithin_snoc]
        by_cases hin : t - d < now0 ∧ now0 ≤ t
        · rw [if_pos hin]
          have := countWithin_le_valid (d := d) hin.2 (admitted key0 pre)
          push_cast
          omega
        · rw [if_neg hin]
          exact hi.cnt key0 t
      · rw [if_neg hk, List.append_nil]
        exact hi.cnt key t

theorem LimiterInv.at_new {κ : Type} [DecidableEq κ] (d mc : Int)
    (hd : -9223372036854775808 < d ∧ d < 9223372036854775808) (hmc : 0 ≤ mc) :
    LimiterInv (NewMemoryLimiter d mc : MemoryLimiter κ) d mc (fun key => admitted key [])
      (fun _ => True) := by
  refine ⟨rfl, hd, rfl, fun key now _ => rfl, ?_, ?_⟩
  · intro key t now ht
    simp [admitted] at ht
  · intro key t
    simpa [admitted, countWithin] using hmc

theorem MemoryLimiter.run_inv {κ : Type} [DecidableEq κ] (d mc : Int) :
    ∀ (steps : List (LimiterStep κ)) (l : MemoryLimiter κ) (pre : List (κ × Int × Bool))
      (late : Int → Prop), LimiterInv l d mc (fun key => admitted key pre) late →
      (∀ s ∈ steps, late s.time) → TimesAscend steps →
      (∀ key t, (countWithin d t (admitted key (pre ++ (l.run steps).2)) : Int) ≤ mc) ∧
      (∀ a b key now, (l.run steps).2 = a ++ (key, now, false) :: b →
        (countWithin d now (admitted key (pre ++ a)) : Int) = mc) := by
  intro steps
  induction steps with
  | nil =>
    intro l pre late hi _ _
    refine ⟨fun key t => by simpa [MemoryLimiter.run] using hi.cnt key t, ?_⟩
    intro a b key now hlog
    simp [MemoryLimiter.run] at hlog
  | cons step rest ih =>
    intro l pre late hi hlate hasc
    have hasc2 : TimesAscend rest := (List.pairwise_cons.mp hasc).2
    have hnext : ∀ s ∈ rest, step.time ≤ s.time := (List.pairwise_cons.mp hasc).1
    have hl0 : late step.time := hlate step (List.mem_cons_self step rest)
    cases step with
    | Allow key0 now0 =>
      obtain ⟨hinv, hden⟩ := hi.Allow key0 now0 hl0
      obtain ⟨h1, h2⟩ := ih (l.Allow key0 now0).1 (pre ++ [(key0, now0, (l.Allow key0 now0).2)])
        (fun now => now0 ≤ now ∧ late now) hinv
        (fun s hs => ⟨hnext s hs, hlate s (List.mem_cons_of_mem _ hs)⟩) hasc2
      simp only [MemoryLimiter.run]
      refine ⟨fun key t => by simpa using h1 key t, ?_⟩
      intro a b key now hlog
      cases a with
      | nil =>
        simp only [List.nil_append, List.cons.injEq, Prod.mk.injEq] at hlog
        obtain ⟨⟨hk, hn, hr⟩, _⟩ := hlog
        subst hk hn
        simpa using hden hr
      | cons x a2 =>
        simp only [List.cons_append, List.cons.injEq] at hlog
        obtain ⟨hx, hrest⟩ := hlog
        have := h2 a2 b key now hrest
        rw [← hx]
        simpa using this
    | sweep now0 =>
      have hinv := hi.sweep now0
      simp only [MemoryLimiter.run]
      exact ih (l.sweep now0) pre (fun now => now0 ≤ now ∧ late now) hinv
        (fun s hs => ⟨hnext s hs, hlate s (List.mem_cons_of_mem _ hs)⟩) hasc2

/-- C22, as the code has it: for `maxCount >= 0`, a duration other than `math.MinInt64` and
any series of `Allow` calls (for any keys, with rounds of `cleanup` in between, no
`Reset`) made at non-decreasing times, for every key and every time `t` at most
`maxCount` admitted calls of that key have their time in `(t - duration, t]`, and a call
is denied only when exactly `maxCount` admitted calls of its key lie in its window
`(now - duration, now]`. -/
theorem MemoryLimiter_sliding_window {κ : Type} [DecidableEq κ] (duration maxCount : Int)
    (hdur : -9223372036854775808 < duration ∧ duration < 9223372036854775808)
    (hmax : 0 ≤ maxCount) (steps : List (LimiterStep κ)) (hasc : TimesAscend steps) :
    (∀ key t, (countWithin duration t
        (admitted key ((NewMemoryLimiter duration maxCount).run steps).2) : Int) ≤ maxCount) ∧
      (∀ a b key now,
        ((NewMemoryLimiter duration maxCount).run steps).2 = a ++ (key, now, false) :: b →
          (countWithin duration now (admitted key a) : Int) = maxCount) := by
  have h := MemoryLimiter.run_inv duration maxCount steps (NewMemoryLimiter duration maxCount) []
    (fun _ => True) (LimiterInv.at_new duration maxCount hdur hmax) (fun _ _ => trivial) hasc
  simpa using h

theorem MemoryLimiter_sliding_window_witness :
    ((-9223372036854775808 : Int) < 10 ∧ (10 : Int) < 9223372036854775808) ∧
      (0 : Int) ≤ 2 ∧ TimesAscend sampleLimiterRun ∧
      ((∀ key t, (countWithin 10 t
          (admitted key ((NewMemoryLimiter 10 2).run sampleLimiterRun).2) : Int) ≤ 2) ∧
        (∀ a b key now,
          ((NewMemoryLimiter 10 2).run sampleLimiterRun).2 = a ++ (key, now, false) :: b →
            (countWithin 10 now (admitted key a) : Int) = 2)) ∧
      ((NewMemoryLimiter 10 2).run sampleLimiterRun).2 =
        [(0, 1, true), (0, 2, true), (1, 2, true), (0, 5, false), (0, 11, true), (0, 12, true),
          (0, 12, false), (0, 12, false)] :=
  ⟨by decide, by decide, by unfold TimesAscend; decide,
   MemoryLimiter_sliding_window 10 2 (by decide) (by decide) sampleLimiterRun
     (by unfold TimesAscend; decide),
   by decide⟩

/-- C22 as stated fails for the duration `math.MinInt64`: its negation wraps to itself,
the window start lies far in the past and no record is ever dropped. With
`maxCount = 1` and calls at the times 0 to 4 the first call is admitted and the others
are denied, although the window `(now - duration, now]` of the call at time 1 holds no
admitted call. -/
theorem MemoryLimiter_minInt64_duration :
    (0 : Int) ≤ 1 ∧ TimesAscend fiveCalls ∧
      ((NewMemoryLimiter (-9223372036854775808) 1).run fiveCalls).2 =
        [(0, 0, true), (0, 1, false), (0, 2, false), (0, 3, false), (0, 4, false)] ∧
      countWithin (-9223372036854775808) 1 (admitted 0 [((0 : Nat), (0 : Int), true)]) = 0 :=
  ⟨by decide, by unfold TimesAscend; decide, by decide, by decide⟩

/-! ## Concurrent callers of the predicate of `acMatcher` -/

theorem RaceInv.at_first (c0 : acCache) (v : Int) (K : List (List Rune)) :
    RaceInv c0 v K (RaceState.start c0) :=
  ⟨fun _ => trivial, Or.inl ⟨rfl, rfl⟩, fun _ _ _ _ h => h, fun _ => rfl⟩

/-- A move of the caller `i` that is no rebuild keeps the invariant, provided the new
place fits what was read and the caller passes only after a rebuild (or when none is
due). -/
theorem RaceInv.goto {c0 : acCache} {v : Int} {K : List (List Rune)} {s : RaceState}
    (hi : RaceInv c0 v K s) (i : Nat) (pc : CallerPc) (hobs : pc.Observes v K)
    (hpass : pc.Passed → c0.lastVersion ≠ v → K.length ≠ 0 → s.rebuilds ≠ 0) :
    RaceInv c0 v K (s.goto i pc) := by
  refine ⟨?_, hi.once, ?_, hi.empty⟩
  · intro j
    by_cases hj : j = i
    · subst hj; simpa [RaceState.goto] using hobs
    · simpa [RaceState.goto, Function.update_noteq hj] using hi.obs j
  · intro h1 h2 h3 j
    by_cases hj : j = i
    · subst hj
      simp only [RaceState.goto, Function.update_same]
      exact fun hp => hpass hp h1 h2 h3
    · simpa [RaceState.goto, Function.update_noteq hj] using hi.built h1 h2 h3 j

/-- Every step of a caller returns and keeps the invariant. -/
theorem callerStep_inv {σ : Type} (provider : VersionedKeywordProvider σ)
    {ord : Nat → RangeOrder} (hord : ∀ i, (ord i).Valid) (p : σ) {c0 : acCache} {s : RaceState}
    (hi : RaceInv c0 (provider.GetVersion p) (provider.GetKeywords p) s) (i : Nat) :
    ∃ s2, callerStep provider ord p s i = some s2 ∧
      RaceInv c0 (provider.GetVersion p) (provider.GetKeywords p) s2 := by
  have hobs := hi.obs i
  unfold callerStep
  rcases hpc : s.pcs i with _ | version | version | ⟨version, words⟩ | _ | _
  · -- start
    exact ⟨_, rfl, hi.goto i _ rfl (fun hp => absurd hp (by simp [CallerPc.Passed]))⟩
  · -- check
    rw [hpc] at hobs
    have hv : version = provider.GetVersion p := hobs
    subst hv
    by_cases hne : s.cache.lastVersion = provider.GetVersion p
    · refine ⟨s.goto i .matching, by simp [hne], hi.goto i _ trivial ?_⟩
      intro _ h1 _ h0
      rcases hi.once with ⟨_, hc⟩ | ⟨h, _⟩
      · rw [hc] at hne; exact h1 hne
      · omega
    · exact ⟨s.goto i (.snapshot _), by simp [hne],
        hi.goto i _ rfl (fun hp => absurd hp (by simp [CallerPc.Passed]))⟩
  · -- snapshot
    rw [hpc] at hobs
    have hv : version = provider.GetVersion p := hobs
    subst hv
    by_cases hw : (provider.GetKeywords p).length = 0
    · exact ⟨s.goto i .returned, by simp [hw],
        hi.goto i _ trivial (fun _ _ h2 => absurd hw h2)⟩
    · exact ⟨s.goto i (.lock _ _), by simp [hw],
        hi.goto i _ ⟨rfl, rfl, hw⟩ (fun hp => absurd hp (by simp [CallerPc.Passed]))⟩
  · -- lock
    rw [hpc] at hobs
    obtain ⟨hv, hwords, hK⟩ := hobs
    subst hv
    subst hwords
    by_cases hne : s.cache.lastVersion = provider.GetVersion p
    · refine ⟨s.goto i .matching, by simp [hne], hi.goto i _ trivial ?_⟩
      intro _ h1 _ h0
      rcases hi.once with ⟨_, hc⟩ | ⟨h, _⟩
      · rw [hc] at hne; exact h1 hne
      · omega
    · obtain ⟨m, hbuild, _, _⟩ := Build_spec (hord i) s.cache.machine (provider.GetKeywords p)
      have hzero : s.rebuilds = 0 := by
        rcases hi.once with ⟨h, _⟩ | ⟨_, hc⟩
        · exact h
        · exact absurd hc hne
      refine ⟨{ cache := { machine := m, lastVersion := provider.GetVersion p },
                rebuilds := s.rebuilds + 1,
                pcs := Function.update s.pcs i .matching },
        by simp only [hne, ne_eq, not_false_eq_true, if_true, hbuild], ?_, ?_, ?_, ?_⟩
      · intro j
        by_cases hj : j = i
        · subst hj; simp [CallerPc.Observes]
        · simpa [Function.update_noteq hj] using hi.obs j
      · exact Or.inr ⟨by simp [hzero], rfl⟩
      · intro _ _ h0
        simp at h0
      · intro hK0
        exact absurd hK0 hK
  · -- matching
    refine ⟨s.goto i .returned, rfl, hi.goto i _ trivial ?_⟩
    intro _ h1 h2 h0
    exact hi.built h1 h2 h0 i (by rw [hpc]; trivial)
  · -- returned
    exact ⟨s, rfl, hi⟩

theorem raceRun_inv {σ : Type} (provider : VersionedKeywordProvider σ)
    {ord : Nat → RangeOrder} (hord : ∀ i, (ord i).Valid) (p : σ) {c0 : acCache} :
    ∀ (schedule : List Nat) (s : RaceState),
      RaceInv c0 (provider.GetVersion p) (provider.GetKeywords p) s →
      ∃ s2, raceRun provider ord p s schedule = some s2 ∧
        RaceInv c0 (provider.GetVersion p) (provider.GetKeywords p) s2 := by
  intro schedule
  induction schedule with
  | nil => intro s hi; exact ⟨s, rfl, hi⟩
  | cons i rest ih =>
    intro s hi
    obtain ⟨s1, hs1, hi1⟩ := callerStep_inv provider hord p hi i
    obtain ⟨s2, hs2, hi2⟩ := ih s1 hi1
    exact ⟨s2, by simp only [raceRun, hs1, hs2], hi2⟩

/-- Concurrent callers of the predicate of `acMatcher` rebuild at most once, exactly once
when the cache is stale and the snapshot non-empty, and leave the cache alone on an
empty snapshot. -/
theorem acMatcher_race {σ : Type} (provider : VersionedKeywordProvider σ)
    (ord : Nat → RangeOrder) (hord : ∀ i, (ord i).Valid) (p : σ) (cache : acCache)
    (schedule : List Nat) :
    ∃ s, raceRun provider ord p (RaceState.start cache) schedule = some s ∧
      s.rebuilds ≤ 1 ∧
      (cache.lastVersion ≠ provider.GetVersion p → (provider.GetKeywords p).length ≠ 0 →
        (∃ i, s.pcs i = .matching ∨ s.pcs i = .returned) → s.rebuilds = 1) ∧
      (s.rebuilds = 1 → s.cache.lastVersion = provider.GetVersion p) ∧
      (s.rebuilds = 0 → s.cache = cache) ∧
      ((provider.GetKeywords p).length = 0 → s.rebuilds = 0 ∧ s.cache = cache) := by
  obtain ⟨s, hs, hi⟩ := raceRun_inv provider hord p schedule (RaceState.start cache)
    (RaceInv.at_first cache _ _)
  refine ⟨s, hs, ?_, ?_, ?_, ?_, ?_⟩
  · rcases hi.once with ⟨h, _⟩ | ⟨h, _⟩ <;> omega
  · rintro h1 h2 ⟨i, hpc⟩
    rcases hi.once with ⟨h, _⟩ | ⟨h, _⟩
    · exfalso
      apply hi.built h1 h2 h i
      rcases hpc with hpc | hpc <;> rw [hpc] <;> trivial
    · exact h
  · intro h1
    rcases hi.once with ⟨h, _⟩ | ⟨_, h⟩
    · omega
    · exact h
  · intro h0
    rcases hi.once with ⟨_, h⟩ | ⟨h, _⟩
    · exact h
    · omega
  · intro hK
    have h0 := hi.empty hK
    refine ⟨h0, ?_⟩
    rcases hi.once with ⟨_, h⟩ | ⟨h, _⟩
    · exact h
    · omega

/-! ## Concurrent callers of the predicate of `dfaMatcher` -/

theorem DfaRaceInv.at_dfa_start (c0 : dfaCache) (v : Int) (K : List (List Rune)) :
    DfaRaceInv c0 v K (DfaRaceState.start c0) :=
  ⟨fun _ => trivial, Or.inl ⟨rfl, rfl⟩, fun _ _ _ _ h => h, fun _ => rfl⟩

theorem DfaRaceInv.dfa_goto {c0 : dfaCache} {v : Int} {K : List (List Rune)} {s : DfaRaceState}
    (hi : DfaRaceInv c0 v K s) (i : Nat) (pc : CallerPc) (hobs : pc.Observes v K)
    (hpass : pc.Passed → c0.stale v = true → K.length ≠ 0 → s.rebuilds ≠ 0) :
    DfaRaceInv c0 v K (s.goto i pc) := by
  refine ⟨?_, hi.once, ?_, hi.empty⟩
  · intro j
    by_cases hj : j = i
    · subst hj; simpa [DfaRaceState.goto] using hobs
    · simpa [DfaRaceState.goto, Function.update_noteq hj] using hi.obs j
  · intro h1 h2 h3 j
    by_cases hj : j = i
    · subst hj
      simp only [DfaRaceState.goto, Function.update_same]
      exact fun hp => hpass hp h1 h2 h3
    · simpa [DfaRaceState.goto, Function.update_noteq hj] using hi.built h1 h2 h3 j

theorem dfaCache.stale_built (root : Heap) (v : Int) :
    dfaCache.stale { root := some root, lastVersion := v } v = false := by
  simp [dfaCache.stale]

theorem dfaCallerStep_inv {σ : Type} (provider : VersionedKeywordProvider σ) (p : σ)
    {c0 : dfaCache} {s : DfaRaceState}
    (hi : DfaRaceInv c0 (provider.GetVersion p) (provider.GetKeywords p) s) (i : Nat) :
    DfaRaceInv c0 (provider.GetVersion p) (provider.GetKeywords p)
      (dfaCallerStep provider p s i) := by
  have hobs := hi.obs i
  unfold dfaCallerStep
  rcases hpc : s.pcs i with _ | version | version | ⟨version, words⟩ | _ | _
  · exact hi.dfa_goto i _ rfl (fun hp => absurd hp (by simp [CallerPc.Passed]))
  · rw [hpc] at hobs
    have hv : version = provider.GetVersion p := hobs
    subst hv
    by_cases hst : s.cache.stale (provider.GetVersion p) = true
    · simp only [hst, if_true]
      exact hi.dfa_goto i _ rfl (fun hp => absurd hp (by simp [CallerPc.Passed]))
    · simp only [hst, Bool.false_eq_true, if_false]
      refine hi.dfa_goto i _ trivial ?_
      intro _ h1 _ h0
      rcases hi.once with ⟨_, hc⟩ | ⟨h, _⟩
      · rw [hc] at hst; exact hst h1
      · omega
  · rw [hpc] at hobs
    have hv : version = provider.GetVersion p := hobs
    subst hv
    by_cases hw : (provider.GetKeywords p).length = 0
    · simp only [hw, if_true]
      exact hi.dfa_goto i _ trivial (fun _ _ h2 => absurd hw h2)
    · simp only [hw, if_false]
      exact hi.dfa_goto i _ ⟨rfl, rfl, hw⟩ (fun hp => absurd hp (by simp [CallerPc.Passed]))
  · rw [hpc] at hobs
    obtain ⟨hv, hwords, hK⟩ := hobs
    subst hv
    subst hwords
    by_cases hst : s.cache.stale (provider.GetVersion p) = true
    · simp only [hst, if_true]
      have hzero : s.rebuilds = 0 := by
        rcases hi.once with ⟨h, _⟩ | ⟨_, hc⟩
        · exact h
        · rw [hc] at hst; cases hst
      refine ⟨?_, ?_, ?_, ?_⟩
      · intro j
        by_cases hj : j = i
        · subst hj; simp [CallerPc.Observes]
        · simpa [Function.update_noteq hj] using hi.obs j
      · exact Or.inr ⟨by simp [hzero], dfaCache.stale_built _ _⟩
      · intro _ _ h0
        simp at h0
      · intro hK0
        exact absurd hK0 hK
    · simp only [hst, Bool.false_eq_true, if_false]
      refine hi.dfa_goto i _ trivial ?_
      intro _ h1 _ h0
      rcases hi.once with ⟨_, hc⟩ | ⟨h, _⟩
      · rw [hc] at hst; exact hst h1
      · omega
  · refine hi.dfa_goto i _ trivial ?_
    intro _ h1 h2 h0
    exact hi.built h1 h2 h0 i (by rw [hpc]; trivial)
  · exact hi

theorem dfaRaceRun_inv {σ : Type} (provider : VersionedKeywordProvider σ) (p : σ)
    {c0 : dfaCache} : ∀ (schedule : List Nat) (s : DfaRaceState),
      DfaRaceInv c0 (provider.GetVersion p) (provider.GetKeywords p) s →
      DfaRaceInv c0 (provider.GetVersion p) (provider.GetKeywords p)
        (dfaRaceRun provider p s schedule) := by
  intro schedule
  induction schedule with
  | nil => intro s hi; exact hi
  | cons i rest ih =>
    intro s hi
    exact ih _ (dfaCallerStep_inv provider p hi i)

/-- Concurrent callers of the predicate of `dfaMatcher` rebuild at most once, exactly once
when the cache is stale and the snapshot non-empty, and leave the cache alone on an
empty snapshot. -/
theorem dfaMatcher_race {σ : Type} (provider : VersionedKeywordProvider σ) (p : σ)
    (cache : dfaCache) (schedule : List Nat) :
    (dfaRaceRun provider p (DfaRaceState.start cache) schedule).rebuilds ≤ 1 ∧
      (cache.stale (provider.GetVersion p) = true → (provider.GetKeywords p).length ≠ 0 →
        (∃ i, (dfaRaceRun provider p (DfaRaceState.start cache) schedule).pcs i = .matching ∨
          (dfaRaceRun provider p (DfaRaceState.start cache) schedule).pcs i = .returned) →
        (dfaRaceRun provider p (DfaRaceState.start cache) schedule).rebuilds = 1) ∧
      ((dfaRaceRun provider p (DfaRaceState.start cache) schedule).rebuilds = 1 →
        (dfaRaceRun provider p (DfaRaceState.start cache) schedule).cache.stale
          (provider.GetVersion p) = false) ∧
      ((dfaRaceRun provider p (DfaRaceState.start cache) schedule).rebuilds = 0 →
        (dfaRaceRun provider p (DfaRaceState.start cache) schedule).cache = cache) ∧
      ((provider.GetKeywords p).length = 0 →
        (dfaRaceRun provider p (DfaRaceState.start cache) schedule).rebuilds = 0 ∧
        (dfaRaceRun provider p (DfaRaceState.start cache) schedule).cache = cache) := by
  have hi := dfaRaceRun_inv provider p schedule (DfaRaceState.start cache)
    (DfaRaceInv.at_dfa_start cache _ _)
  generalize dfaRaceRun provider p (DfaRaceState.start cache) schedule = s at hi
  refine ⟨?_, ?_, ?_, ?_, ?_⟩
  · rcases hi.once with ⟨h, _⟩ | ⟨h, _⟩ <;> omega
  · rintro h1 h2 ⟨i, hpc⟩
    rcases hi.once with ⟨h, _⟩ | ⟨h, _⟩
    · exfalso
      apply hi.built h1 h2 h i
      rcases hpc with hpc | hpc <;> rw [hpc] <;> trivial
    · exact h
  · intro h1
    rcases hi.once with ⟨h, _⟩ | ⟨_, h⟩
    · omega
    · exact h
  · intro h0
    rcases hi.once with ⟨_, h⟩ | ⟨h, _⟩
    · exact h
    · omega
  · intro hK
    have h0 := hi.empty hK
    refine ⟨h0, ?_⟩
    rcases hi.once with ⟨_, h⟩ | ⟨h, _⟩
    · exact h
    · omega

/-! ## Concurrent callers of the predicate of `acMatcherWithContext` -/

theorem ContextRaceInv.at_context_start {κ : Type} (k : κ) (cacheMap : κ → Option acCache) (v : Int)
    (K : List (List Rune)) :
    ContextRaceInv k (loadOrStore cacheMap k) v K (ContextRaceState.start cacheMap) :=
  ⟨fun _ => trivial, Or.inl ⟨rfl, rfl⟩, fun _ _ _ _ h => h, fun _ => rfl⟩

theorem ContextRaceInv.context_goto {κ : Type} {k : κ} {c0 : acCache} {v : Int} {K : List (List Rune)}
    {s : ContextRaceState κ} (hi : ContextRaceInv k c0 v K s) (i : Nat) (pc : ContextCallerPc)
    (hobs : pc.Observes v K)
    (hpass : pc.Passed → c0.lastVersion ≠ v → K.length ≠ 0 → s.rebuilds ≠ 0) :
    ContextRaceInv k c0 v K (s.goto i pc) := by
  refine ⟨?_, hi.once, ?_, hi.empty⟩
  · intro j
    by_cases hj : j = i
    · subst hj; simpa [ContextRaceState.goto] using hobs
    · simpa [ContextRaceState.goto, Function.update_noteq hj] using hi.obs j
  · intro h1 h2 h3 j
    by_cases hj : j = i
    · subst hj
      simp only [ContextRaceState.goto, Function.update_same]
      exact fun hp => hpass hp h1 h2 h3
    · simpa [ContextRaceState.goto, Function.update_noteq hj] using hi.built h1 h2 h3 j

theorem contextCallerStep_inv {κ σ : Type} [DecidableEq κ]
    (provider : VersionedKeywordProvider σ) {ord : Nat → RangeOrder}
    (hord : ∀ i, (ord i).Valid) (k : κ) (p : σ) {c0 : acCache} {s : ContextRaceState κ}
    (hi : ContextRaceInv k c0 (provider.GetVersion p) (provider.GetKeywords p) s) (i : Nat) :
    ∃ s2, contextCallerStep provider ord (.comparable k) p s i = some s2 ∧
      ContextRaceInv k c0 (provider.GetVersion p) (provider.GetKeywords p) s2 := by
  have hobs := hi.obs i
  unfold contextCallerStep
  simp only
  rcases hpc : s.pcs i with _ | _ | version | version | ⟨version, words⟩ | _ | _
  · -- start: LoadOrStore
    refine ⟨_, rfl, ?_, ?_, ?_, hi.empty⟩
    · intro j
      by_cases hj : j = i
      · subst hj; simp [ContextCallerPc.Observes]
      · simpa [Function.update_noteq hj] using hi.obs j
    · have hsame : loadOrStore (Function.update s.cacheMap k (some (loadOrStore s.cacheMap k))) k =
          loadOrStore s.cacheMap k := by
        rw [loadOrStore_update, if_pos rfl]
      simpa only [hsame] using hi.once
    · intro h1 h2 h3 j
      by_cases hj : j = i
      · subst hj; simp [ContextCallerPc.Passed]
      · simpa [Function.update_noteq hj] using hi.built h1 h2 h3 j
  · -- loaded
    exact ⟨_, rfl, hi.context_goto i _ rfl (fun hp => absurd hp (by simp [ContextCallerPc.Passed]))⟩
  · -- check
    rw [hpc] at hobs
    have hv : version = provider.GetVersion p := hobs
    subst hv
    by_cases hne : (loadOrStore s.cacheMap k).lastVersion = provider.GetVersion p
    · refine ⟨s.goto i .matching, by simp [hne], hi.context_goto i _ trivial ?_⟩
      intro _ h1 _ h0
      rcases hi.once with ⟨_, hc⟩ | ⟨h, _⟩
      · rw [hc] at hne; exact h1 hne
      · omega
    · exact ⟨s.goto i (.snapshot _), by simp [hne],
        hi.context_goto i _ rfl (fun hp => absurd hp (by simp [ContextCallerPc.Passed]))⟩
  · -- snapshot
    rw [hpc] at hobs
    have hv : version = provider.GetVersion p := hobs
    subst hv
    by_cases hw : (provider.GetKeywords p).length = 0
    · exact ⟨s.goto i .returned, by simp [hw],
        hi.context_goto i _ trivial (fun _ _ h2 => absurd hw h2)⟩
    · exact ⟨s.goto i (.lock _ _), by simp [hw],
        hi.context_goto i _ ⟨rfl, rfl, hw⟩ (fun hp => absurd hp (by simp [ContextCallerPc.Passed]))⟩
  · -- lock
    rw [hpc] at hobs
    obtain ⟨hv, hwords, hK⟩ := hobs
    subst hv
    subst hwords
    by_cases hne : (loadOrStore s.cacheMap k).lastVersion = provider.GetVersion p
    · refine ⟨s.goto i .matching, by simp [hne], hi.context_goto i _ trivial ?_⟩
      intro _ h1 _ h0
      rcases hi.once with ⟨_, hc⟩ | ⟨h, _⟩
      · rw [hc] at hne; exact h1 hne
      · omega
    · obtain ⟨m, hbuild, _, _⟩ :=
        Build_spec (hord i) (loadOrStore s.cacheMap k).machine (provider.GetKeywords p)
      have hzero : s.rebuilds = 0 := by
        rcases hi.once with ⟨h, _⟩ | ⟨_, hc⟩
        · exact h
        · exact absurd hc hne
      refine ⟨{ cacheMap := Function.update s.cacheMap k
                  (some { machine := m, lastVersion := provider.GetVersion p }),
                rebuilds := s.rebuilds + 1,
                pcs := Function.update s.pcs i .matching },
        by simp only [hne, ne_eq, not_false_eq_true, if_true, hbuild], ?_, ?_, ?_, ?_⟩
      · intro j
        by_cases hj : j = i
        · subst hj; simp [ContextCallerPc.Observes]
        · simpa [Function.update_noteq hj] using hi.obs j
      · refine Or.inr ⟨by simp [hzero], ?_⟩
        simp only [loadOrStore_update, if_true]
      · intro _ _ h0
        simp at h0
      · intro hK0
        exact absurd hK0 hK
  · -- matching
    refine ⟨s.goto i .returned, rfl, hi.context_goto i _ trivial ?_⟩
    intro _ h1 h2 h0
    exact hi.built h1 h2 h0 i (by rw [hpc]; trivial)
  · -- returned
    exact ⟨s, rfl, hi⟩

theorem contextRaceRun_inv {κ σ : Type} [DecidableEq κ]
    (provider : VersionedKeywordProvider σ) {ord : Nat → RangeOrder}
    (hord : ∀ i, (ord i).Valid) (k : κ) (p : σ) {c0 : acCache} :
    ∀ (schedule : List Nat) (s : ContextRaceState κ),
      ContextRaceInv k c0 (provider.GetVersion p) (provider.GetKeywords p) s →
      ∃ s2, contextRaceRun provider ord (.comparable k) p s schedule = some s2 ∧
        ContextRaceInv k c0 (provider.GetVersion p) (provider.GetKeywords p) s2 := by
  intro schedule
  induction schedule with
  | nil => intro s hi; exact ⟨s, rfl, hi⟩
  | cons i rest ih =>
    intro s hi
    obtain ⟨s1, hs1, hi1⟩ := contextCallerStep_inv provider hord k p hi i
    obtain ⟨s2, hs2, hi2⟩ := ih s1 hi1
    exact ⟨s2, by simp only [contextRaceRun, hs1, hs2], hi2⟩

/-- Concurrent callers of the predicate of `acMatcherWithContext` that resolve to one
provider of a comparable type rebuild its automaton at most once, exactly once when its
cache is stale and the snapshot non-empty, and leave the cache alone on an empty
snapshot. -/
theorem acMatcherWithContext_race {κ σ : Type} [DecidableEq κ]
    (provider : VersionedKeywordProvider σ) (ord : Nat → RangeOrder)
    (hord : ∀ i, (ord i).Valid) (k : κ) (p : σ) (cacheMap : κ → Option acCache)
    (schedule : List Nat) :
    ∃ s, contextRaceRun provider ord (.comparable k) p (ContextRaceState.start cacheMap)
        schedule = some s ∧
      s.rebuilds ≤ 1 ∧
      ((loadOrStore cacheMap k).lastVersion ≠ provider.GetVersion p →
        (provider.GetKeywords p).length ≠ 0 →
        (∃ i, s.pcs i = .matching ∨ s.pcs i = .returned) → s.rebuilds = 1) ∧
      (s.rebuilds = 1 → (loadOrStore s.cacheMap k).lastVersion = provider.GetVersion p) ∧
      (s.rebuilds = 0 → loadOrStore s.cacheMap k = loadOrStore cacheMap k) ∧
      ((provider.GetKeywords p).length = 0 →
        s.rebuilds = 0 ∧ loadOrStore s.cacheMap k = loadOrStore cacheMap k) := by
  obtain ⟨s, hs, hi⟩ := contextRaceRun_inv provider hord k p schedule
    (ContextRaceState.start cacheMap) (ContextRaceInv.at_context_start k cacheMap _ _)
  refine ⟨s, hs, ?_, ?_, ?_, ?_, ?_⟩
  · rcases hi.once with ⟨h, _⟩ | ⟨h, _⟩ <;> omega
  · rintro h1 h2 ⟨i, hpc⟩
    rcases hi.once with ⟨h, _⟩ | ⟨h, _⟩
    · exfalso
      apply hi.built h1 h2 h i
      rcases hpc with hpc | hpc <;> rw [hpc] <;> trivial
    · exact h
  · intro h1
    rcases hi.once with ⟨h, _⟩ | ⟨_, h⟩
    · omega
    · exact h
  · intro h0
    rcases hi.once with ⟨_, h⟩ | ⟨h, _⟩
    · exact h
    · omega
  · intro hK
    have h0 := hi.empty hK
    refine ⟨h0, ?_⟩
    rcases hi.once with ⟨_, h⟩ | ⟨h, _⟩
    · exact h
    · omega

/-- C23, as the code has it: callers of an automaton-backed predicate (`acMatcher`,
`dfaMatcher`, or `acMatcherWithContext` resolving to one provider of a comparable type)
that run concurrently, in any interleaving of their steps, while the provider reports one
version and one keyword snapshot, all run to their end and rebuild the automaton at most
once. When the cache is stale for that version and the snapshot is non-empty, the rebuild
has been made exactly once as soon as any caller has reached the match, and the cache
then holds the provider's version. When the snapshot is empty no caller rebuilds and the
cache, with its version, is left as it was; without a rebuild the cache is always as it
was. -/
theorem acMatcher_rebuilds_at_most_once {κ σ : Type} [DecidableEq κ]
    (provider : VersionedKeywordProvider σ) (ord : Nat → RangeOrder)
    (hord : ∀ i, (ord i).Valid) (p : σ) (cache : acCache) (dcache : dfaCache) (k : κ)
    (cacheMap : κ → Option acCache) (schedule : List Nat) :
    (∃ s, raceRun provider ord p (RaceState.start cache) schedule = some s ∧
      s.rebuilds ≤ 1 ∧
      (cache.lastVersion ≠ provider.GetVersion p → (provider.GetKeywords p).length ≠ 0 →
        (∃ i, s.pcs i = .matching ∨ s.pcs i = .returned) → s.rebuilds = 1) ∧
      (s.rebuilds = 1 → s.cache.lastVersion = provider.GetVersion p) ∧
      (s.rebuilds = 0 → s.cache = cache) ∧
      ((provider.GetKeywords p).length = 0 → s.rebuilds = 0 ∧ s.cache = cache)) ∧
    ((dfaRaceRun provider p (DfaRaceState.start dcache) schedule).rebuilds ≤ 1 ∧
      (dcache.stale (provider.GetVersion p) = true → (provider.GetKeywords p).length ≠ 0 →
        (∃ i, (dfaRaceRun provider p (DfaRaceState.start dcache) schedule).pcs i = .matching ∨
          (dfaRaceRun provider p (DfaRaceState.start dcache) schedule).pcs i = .returned) →
        (dfaRaceRun provider p (DfaRaceState.start dcache) schedule).rebuilds = 1) ∧
      ((dfaRaceRun provider p (DfaRaceState.start dcache) schedule).rebuilds = 1 →
        (dfaRaceRun provider p (DfaRaceState.start dcache) schedule).cache.stale
          (provider.GetVersion p) = false) ∧
      ((dfaRaceRun provider p (DfaRaceState.start dcache) schedule).rebuilds = 0 →
        (dfaRaceRun provider p (DfaRaceState.start dcache) schedule).cache = dcache) ∧
      ((provider.GetKeywords p).length = 0 →
        (dfaRaceRun provider p (DfaRaceState.start dcache) schedule).rebuilds = 0 ∧
        (dfaRaceRun provider p (DfaRaceState.start dcache) schedule).cache = dcache)) ∧
    (∃ s, contextRaceRun provider ord (.comparable k) p (ContextRaceState.start cacheMap)
        schedule = some s ∧
      s.rebuilds ≤ 1 ∧
      ((loadOrStore cacheMap k).lastVersion ≠ provider.GetVersion p →
        (provider.GetKeywords p).length ≠ 0 →
        (∃ i, s.pcs i = .matching ∨ s.pcs i = .returned) → s.rebuilds = 1) ∧
      (s.rebuilds = 1 → (loadOrStore s.cacheMap k).lastVersion = provider.GetVersion p) ∧
      (s.rebuilds = 0 → loadOrStore s.cacheMap k = loadOrStore cacheMap k) ∧
      ((provider.GetKeywords p).length = 0 →
        s.rebuilds = 0 ∧ loadOrStore s.cacheMap k = loadOrStore cacheMap k)) :=
  ⟨acMatcher_race provider ord hord p cache schedule,
   dfaMatcher_race provider p dcache schedule,
   acMatcherWithContext_race provider ord hord k p cacheMap schedule⟩

theorem acMatcher_rebuilds_at_most_once_witness :
    (∀ i : Nat, ((fun _ => RangeOrder.insertion) i : RangeOrder).Valid) ∧
      ((raceRun DefaultKeywordManager.methods.toProvider (fun _ => RangeOrder.insertion)
          grownManager (RaceState.start acCache.new) sampleContextSchedule).map
        (fun s => (s.rebuilds, s.pcs 0, s.pcs 1, s.cache.lastVersion)) =
          some (1, .returned, .returned, 2)) ∧
      ((dfaRaceRun DefaultKeywordManager.methods.toProvider grownManager
          (DfaRaceState.start dfaCache.new) sampleContextSchedule).rebuilds = 1 ∧
        (dfaRaceRun DefaultKeywordManager.methods.toProvider grownManager
          (DfaRaceState.start dfaCache.new) sampleContextSchedule).cache.lastVersion = 2) ∧
      ((contextRaceRun DefaultKeywordManager.methods.toProvider (fun _ => RangeOrder.insertion)
          (.comparable (0 : Nat)) grownManager (ContextRaceState.start (fun _ => none))
          sampleContextSchedule).map
        (fun s => (s.rebuilds, s.pcs 0, s.pcs 1, (loadOrStore s.cacheMap 0).lastVersion)) =
          some (1, .returned, .returned, 2)) ∧
      ((∃ s, raceRun DefaultKeywordManager.methods.toProvider (fun _ => RangeOrder.insertion)
          grownManager (RaceState.start acCache.new) sampleContextSchedule = some s ∧
        s.rebuilds ≤ 1 ∧
        (acCache.new.lastVersion ≠ DefaultKeywordManager.methods.toProvider.GetVersion grownManager →
          (DefaultKeywordManager.methods.toProvider.GetKeywords grownManager).length ≠ 0 →
          (∃ i, s.pcs i = .matching ∨ s.pcs i = .returned) → s.rebuilds = 1) ∧
        (s.rebuilds = 1 →
          s.cache.lastVersion = DefaultKeywordManager.methods.toProvider.GetVersion grownManager) ∧
        (s.rebuilds = 0 → s.cache = acCache.new) ∧
        ((DefaultKeywordManager.methods.toProvider.GetKeywords grownManager).length = 0 →
          s.rebuilds = 0 ∧ s.cache = acCache.new))) :=
  ⟨fun _ => RangeOrder.insertion_valid, by decide, by decide, by decide,
   (acMatcher_rebuilds_at_most_once DefaultKeywordManager.methods.toProvider
     (fun _ => RangeOrder.insertion) (fun _ => RangeOrder.insertion_valid) grownManager
     acCache.new dfaCache.new (0 : Nat) (fun _ => none) sampleContextSchedule).1⟩

/-- C23 as stated fails. Two concurrent callers of the predicate that both observe the
transition of the provider to version 2 by `Clear` (cached version `-1`) run to their
return without any rebuild, as the keyword snapshot is empty, and the cached version
stays `-1`: so with `acMatcher`, with `dfaMatcher` and with `acMatcherWithContext`. And a
caller of the predicate of `acMatcherWithContext` whose provider is of a type that cannot
be a map key stops at `LoadOrStore`, before any rebuild, though the provider holds
keywords. -/
theorem acMatcher_no_rebuild_on_empty_snapshot :
    acCache.new.lastVersion ≠ DefaultKeywordManager.methods.toProvider.GetVersion clearedManager ∧
      (raceRun DefaultKeywordManager.methods.toProvider (fun _ => RangeOrder.insertion)
          clearedManager (RaceState.start acCache.new) sampleSchedule).map
        (fun s => (s.rebuilds, s.pcs 0, s.pcs 1, s.cache.lastVersion)) =
          some (0, .returned, .returned, -1) ∧
      ((dfaRaceRun DefaultKeywordManager.methods.toProvider clearedManager
          (DfaRaceState.start dfaCache.new) sampleSchedule).rebuilds,
        (dfaRaceRun DefaultKeywordManager.methods.toProvider clearedManager
          (DfaRaceState.start dfaCache.new) sampleSchedule).pcs 0,
        (dfaRaceRun DefaultKeywordManager.methods.toProvider clearedManager
          (DfaRaceState.start dfaCache.new) sampleSchedule).pcs 1,
        (dfaRaceRun DefaultKeywordManager.methods.toProvider clearedManager
          (DfaRaceState.start dfaCache.new) sampleSchedule).cache.lastVersion) =
          (0, .returned, .returned, -1) ∧
      (contextRaceRun DefaultKeywordManager.methods.toProvider (fun _ => RangeOrder.insertion)
          (.comparable (0 : Nat)) clearedManager (ContextRaceState.start (fun _ => none))
          sampleContextSchedule).map
        (fun s => (s.rebuilds, s.pcs 0, s.pcs 1, (loadOrStore s.cacheMap 0).lastVersion)) =
          some (0, .returned, .returned, -1) ∧
      (contextRaceRun DefaultKeywordManager.methods.toProvider (fun _ => RangeOrder.insertion)
          (ProviderKey.uncomparable : ProviderKey Nat) grownManager
          (ContextRaceState.start (fun _ => none)) sampleContextSchedule).isNone = true :=
  ⟨by decide, by decide, by decide, by decide, by decide⟩

/-! ## The nodes of the automaton and their paths -/

/-- A path from the root ends at the node labelled with the string it spells. -/
theorem Spells.str_eq {h : Heap} {str : Nat → List Rune} (hs : TrieShape h str) {v : Nat}
    {w : List Rune} (hsp : Spells h v w) : v < h.size ∧ str v = w := by
  induction hsp with
  | root => exact ⟨hs.pos, hs.root⟩
  | child _ hc ih =>
    obtain ⟨hu, hus⟩ := ih
    obtain ⟨hv, hvs⟩ := hs.child _ _ _ hu hc
    exact ⟨hv, by rw [hvs, hus]⟩

/-- Every node is reached from the root by the path that spells its label. -/
theorem TrieShape.spells {h : Heap} {str : Nat → List Rune} (hs : TrieShape h str) :
    ∀ (n v : Nat), (str v).length = n → v < h.size → Spells h v (str v) := by
  intro n
  induction n with
  | zero =>
    intro v hlen hv
    have hnil : str v = [] := List.length_eq_zero.mp hlen
    have hv0 : v = 0 := hs.eq_zero_of_str hv hnil
    rw [hnil, hv0]
    exact Spells.root
  | succ n ih =>
    intro v hlen hv
    have hv0 : v ≠ 0 := by
      intro h0
      rw [h0, hs.root] at hlen
      simp at hlen
    obtain ⟨u, c, hu, hc⟩ := hs.parent v hv hv0
    have hvs := (hs.child u c v hu hc).2
    have hul : (str u).length = n := by
      rw [hvs] at hlen
      simpa using hlen
    rw [hvs]
    exact Spells.child (ih u hul hu) hc

/-- The failure pointer of a node with a path, in terms of paths. -/
theorem ACInv.fail_spells {P : List (List Rune)} {str : Nat → List Rune} {h : Heap}
    (ha : ACInv P str h) {v : Nat} {w : List Rune} (hsp : Spells h v w) (hv0 : v ≠ 0) :
    ∃ f wf, (h.cell v).fail = some f ∧ Spells h f wf ∧ wf <:+ w ∧ wf.length < w.length ∧
      (∀ x wx, Spells h x wx → wx <:+ w → wx.length < w.length → wx.length ≤ wf.length) ∧
      (w.length = 1 → f = 0) := by
  obtain ⟨hv, hvs⟩ := hsp.str_eq ha.shape
  obtain ⟨⟨f, hfail, hf, hsuf, hlen, hmax⟩, _⟩ := ha.final v hv hv0
  rw [hvs] at hsuf hlen hmax
  refine ⟨f, str f, hfail, ha.shape.spells _ f rfl hf, hsuf, hlen, ?_, ?_⟩
  · intro x wx hx hxs hxl
    obtain ⟨hxlt, hxstr⟩ := hx.str_eq ha.shape
    rw [← hxstr] at hxs hxl ⊢
    exact hmax x hxlt hxs hxl
  · intro h1
    apply ha.shape.eq_zero_of_str hf
    apply List.length_eq_zero.mp
    omega

/-- C24: after `Build(P)` (which returns for every `P`), the root is not accepting and
for every node of the automaton, reached from the root by the path spelling `w`, the
output flag is true if and only if some non-empty pattern of `P` is a suffix of `w`. -/
theorem Build_output_iff_pattern_suffix (ord : RangeOrder) (hord : ord.Valid)
    (ac0 : ACMachine) (P : List (List Rune)) :
    ∃ ac, ac0.Build ord P = some ac ∧ (ac.heap.cell 0).output = false ∧
      ∀ v w, Spells ac.heap v w →
        ((ac.heap.cell v).output = true ↔ ∃ p ∈ P, p ≠ [] ∧ p <:+ w) := by
  obtain ⟨ac, hbuild, _, str, ha⟩ := Build_spec hord ac0 P
  refine ⟨ac, hbuild, ha.root_out, ?_⟩
  intro v w hsp
  obtain ⟨hv, hvs⟩ := hsp.str_eq ha.shape
  rw [ha.output_iff_patSuffix hv, hvs]
  rfl

theorem Build_output_iff_pattern_suffix_witness :
    RangeOrder.insertion.Valid ∧
      (∃ ac, NewACMachine.Build RangeOrder.insertion patternsUshers = some ac ∧
        (ac.heap.cell 0).output = false ∧
        ∀ v w, Spells ac.heap v w →
          ((ac.heap.cell v).output = true ↔ ∃ p ∈ patternsUshers, p ≠ [] ∧ p <:+ w)) ∧
      (NewACMachine.Build RangeOrder.insertion patternsUshers).bind
        (fun ac => (nodeOf ac.heap 0 (runes "she")).map (fun v => (ac.heap.cell v).output)) =
          some true ∧
      (NewACMachine.Build RangeOrder.insertion patternsUshers).bind
        (fun ac => (nodeOf ac.heap 0 (runes "sh")).map (fun v => (ac.heap.cell v).output)) =
          some false ∧
      (NewACMachine.Build RangeOrder.insertion patternsUshers).bind
        (fun ac => ac.MatchAll (runes "ushers")) = some [3, 5] :=
  ⟨RangeOrder.insertion_valid,
   Build_output_iff_pattern_suffix RangeOrder.insertion RangeOrder.insertion_valid NewACMachine
     patternsUshers,
   by decide, by decide, by decide⟩

/-- C25: after `Build(P)`, the failure pointer of every non-root node `v`, with path `w`,
is the node whose path `wf` is the longest proper suffix of `w` that is a path from the
root; for a node of depth 1 it is the root. -/
theorem Build_fail_longest_proper_suffix (ord : RangeOrder) (hord : ord.Valid)
    (ac0 : ACMachine) (P : List (List Rune)) :
    ∃ ac, ac0.Build ord P = some ac ∧
      ∀ v w, Spells ac.heap v w → v ≠ 0 →
        ∃ f wf, (ac.heap.cell v).fail = some f ∧ Spells ac.heap f wf ∧ wf <:+ w ∧
          wf.length < w.length ∧
          (∀ x wx, Spells ac.heap x wx → wx <:+ w → wx.length < w.length →
            wx.length ≤ wf.length) ∧
          (w.length = 1 → f = 0) := by
  obtain ⟨ac, hbuild, _, str, ha⟩ := Build_spec hord ac0 P
  exact ⟨ac, hbuild, fun v w hsp hv0 => ha.fail_spells hsp hv0⟩

theorem Build_fail_longest_proper_suffix_witness :
    RangeOrder.reversed.Valid ∧
      (∃ ac, NewACMachine.Build RangeOrder.reversed patternsUshers = some ac ∧
        ∀ v w, Spells ac.heap v w → v ≠ 0 →
          ∃ f wf, (ac.heap.cell v).fail = some f ∧ Spells ac.heap f wf ∧ wf <:+ w ∧
            wf.length < w.length ∧
            (∀ x wx, Spells ac.heap x wx → wx <:+ w → wx.length < w.length →
              wx.length ≤ wf.length) ∧
            (w.length = 1 → f = 0)) ∧
      (NewACMachine.Build RangeOrder.reversed patternsUshers).bind
        (fun ac => (nodeOf ac.heap 0 (runes "she")).map (fun v => (ac.heap.cell v).fail)) =
      (NewACMachine.Build RangeOrder.reversed patternsUshers).bind
        (fun ac => (nodeOf ac.heap 0 (runes "he")).map some) ∧
      (NewACMachine.Build RangeOrder.reversed patternsUshers).bind
        (fun ac => (nodeOf ac.heap 0 (runes "s")).map (fun v => (ac.heap.cell v).fail)) =
          some (some 0) :=
  ⟨RangeOrder.reversed_valid,
   Build_fail_longest_proper_suffix RangeOrder.reversed RangeOrder.reversed_valid NewACMachine
     patternsUshers,
   by decide, by decide⟩

/-! ## The two scans -/

/-- A pattern occurs in a text exactly when it ends at some position of it. -/
theorem occurs_iff_ends (P : List (List Rune)) (T : List Rune) :
    Occurs P T ↔ ∃ i, i < T.length ∧ PatSuffix P (T.take (i + 1)) := by
  constructor
  · rintro ⟨p, hp, hne, s, t, hst⟩
    have hplen : 0 < p.length := List.length_pos.mpr hne
    refine ⟨(s ++ p).length - 1, ?_, p, hp, hne, ?_⟩
    · rw [← hst]
      simp only [List.length_append]
      omega
    · have h1 : (s ++ p).length - 1 + 1 = (s ++ p).length := by
        simp only [List.length_append]
        omega
      rw [h1, ← hst, List.take_left]
      exact List.suffix_append s p
  · rintro ⟨i, _, p, hp, hne, hsuf⟩
    exact ⟨p, hp, hne, hsuf.isInfix.trans (List.take_prefix _ _).isInfix⟩

/-- On the automaton of `P`, `Match` and `MatchAll` return, and `Match` is true exactly
when `MatchAll` reports a position. -/
theorem match_iff_matchAll {P : List (List Rune)} {str : Nat → List Rune} {h : Heap}
    (ha : ACInv P str h) (T : List Rune) :
    ∃ b r, matchLoop h 0 T = some b ∧ matchAllLoop h 0 0 T [] = some r ∧
      (b = true ↔ r ≠ []) := by
  obtain ⟨b, hb, hiff⟩ := match_of_inv ha T
  obtain ⟨r, hr, _, hmem⟩ := matchAllLoop_spec ha T [] 0 [] (IsState.at_root ha)
  refine ⟨b, r, hb, by simpa using hr, ?_⟩
  rw [hiff, occurs_iff_ends]
  constructor
  · rintro ⟨i, hi, hps⟩
    have : i ∈ r := (hmem i).mpr ⟨by simp, by simpa using hi, by simpa using hps⟩
    exact List.ne_nil_of_mem this
  · intro hne
    obtain ⟨i, hi⟩ := List.exists_mem_of_ne_nil r hne
    obtain ⟨_, h2, h3⟩ := (hmem i).mp hi
    exact ⟨i, by simpa using h2, by simpa using h3⟩

/-- C27: for every word list `W` and text `T`, `Build(W)` returns and `Match(T)` on the
automaton returns what `matchDFA(buildDFA(W), T)` returns. -/
theorem matchDFA_eq_Match (ord : RangeOrder) (hord : ord.Valid) (ac0 : ACMachine)
    (W : List (List Rune)) (T : List Rune) :
    ∃ ac, ac0.Build ord W = some ac ∧
      ac.Match T = some (matchDFA (some (buildDFA W)) T) := by
  obtain ⟨ac, hbuild, _, str, ha⟩ := Build_spec hord ac0 W
  obtain ⟨b, hb, hiff⟩ := match_of_inv ha T
  refine ⟨ac, hbuild, ?_⟩
  have hd := matchDFA_spec W T
  have hbb : b = matchDFA (some (buildDFA W)) T := by
    cases b <;> cases hm : matchDFA (some (buildDFA W)) T <;> simp_all
  rw [ACMachine.Match, hb, hbb]

theorem matchDFA_eq_Match_witness :
    RangeOrder.insertion.Valid ∧
      (∃ ac, NewACMachine.Build RangeOrder.insertion patternsUshers = some ac ∧
        ac.Match (runes "ushers") =
          some (matchDFA (some (buildDFA patternsUshers)) (runes "ushers"))) ∧
      matchDFA (some (buildDFA patternsUshers)) (runes "ushers") = true ∧
      matchDFA (some (buildDFA patternsUshers)) (runes "usher") = true ∧
      matchDFA (some (buildDFA patternsUshers)) (runes "ush") = false :=
  ⟨RangeOrder.insertion_valid,
   matchDFA_eq_Match RangeOrder.insertion RangeOrder.insertion_valid NewACMachine
     patternsUshers (runes "ushers"),
   by decide, by decide, by decide⟩

/-- C28: for every pattern list `P` and text `T`, after `Build(P)` both `Match(T)` and
`MatchAll(T)` return, and `Match(T)` is true if and only if `MatchAll(T)` is non-empty. -/
theorem Match_iff_MatchAll_nonempty (ord : RangeOrder) (hord : ord.Valid) (ac0 : ACMachine)
    (P : List (List Rune)) (T : List Rune) :
    ∃ ac b r, ac0.Build ord P = some ac ∧ ac.Match T = some b ∧ ac.MatchAll T = some r ∧
      (b = true ↔ r ≠ []) := by
  obtain ⟨ac, hbuild, _, str, ha⟩ := Build_spec hord ac0 P
  obtain ⟨b, r, hb, hr, hiff⟩ := match_iff_matchAll ha T
  exact ⟨ac, b, r, hbuild, hb, hr, hiff⟩

theorem Match_iff_MatchAll_nonempty_witness :
    RangeOrder.insertion.Valid ∧
      (∃ ac b r, NewACMachine.Build RangeOrder.insertion patternsAbBc = some ac ∧
        ac.Match (runes "xabcx") = some b ∧ ac.MatchAll (runes "xabcx") = some r ∧
        (b = true ↔ r ≠ [])) ∧
      (NewACMachine.Build RangeOrder.insertion patternsAbBc).bind
        (fun ac => ac.Match (runes "xabcx")) = some true ∧
      (NewACMachine.Build RangeOrder.insertion patternsAbBc).bind
        (fun ac => ac.MatchAll (runes "xacbx")) = some [] :=
  ⟨RangeOrder.insertion_valid,
   Match_iff_MatchAll_nonempty RangeOrder.insertion RangeOrder.insertion_valid NewACMachine
     patternsAbBc (runes "xabcx"),
   by decide, by decide⟩

/-! ## The failure chains -/

/-- The loop that follows failure pointers from a node until a transition on `c` exists
or the root is reached returns a node. -/
theorem followFail_total {P : List (List Rune)} {str : Nat → List Rune} {h : Heap}
    (ha : ACInv P str h) (c : Rune) : ∀ fuel v, (str v).length < fuel → v < h.size →
      ∃ r, followFail fuel h v c = some r ∧ r < h.size := by
  intro fuel
  induction fuel with
  | zero => intro v hlt; omega
  | succ fuel ih =>
    intro v hfuel hv
    by_cases hcond : v ≠ 0 ∧ h.child v c = none
    · obtain ⟨⟨f, hfail, hf, _, hlen, _⟩, _⟩ := ha.final v hv hcond.1
      obtain ⟨r, hr, hrlt⟩ := ih f (by omega) hf
      exact ⟨r, by simp only [followFail, hcond, hfail, and_self, if_true, ne_eq,
        not_false_eq_true, hr], hrlt⟩
    · exact ⟨v, by simp only [followFail, hcond, if_false], hv⟩

/-- C29: after `Build(P)`, which returns for every `P`, every non-root node has a failure
pointer, to a node of strictly smaller depth; the walks along failure pointers of
`Match` and `MatchAll` from any node return, and `Match` and `MatchAll` return on every
text: no nil pointer is followed and no loop runs on. -/
theorem Build_fail_chains_end (ord : RangeOrder) (hord : ord.Valid) (ac0 : ACMachine)
    (P : List (List Rune)) :
    ∃ ac, ac0.Build ord P = some ac ∧
      (∀ v w, Spells ac.heap v w → v ≠ 0 →
        ∃ f wf, (ac.heap.cell v).fail = some f ∧ Spells ac.heap f wf ∧
          wf.length < w.length) ∧
      (∀ v w c, Spells ac.heap v w →
        (∃ r, followFail ac.heap.size ac.heap v c = some r) ∧
        (∃ b, chainOutput (ac.heap.size + 1) ac.heap v = some b)) ∧
      (∀ T, (∃ b, ac.Match T = some b) ∧ (∃ r, ac.MatchAll T = some r)) := by
  obtain ⟨ac, hbuild, _, str, ha⟩ := Build_spec hord ac0 P
  refine ⟨ac, hbuild, ?_, ?_, ?_⟩
  · intro v w hsp hv0
    obtain ⟨f, wf, hfail, hfs, _, hlen, _⟩ := ha.fail_spells hsp hv0
    exact ⟨f, wf, hfail, hfs, hlen⟩
  · intro v w c hsp
    obtain ⟨hv, _⟩ := hsp.str_eq ha.shape
    obtain ⟨r, hr, _⟩ := followFail_total ha c ac.heap.size v (ha.shape.depth v hv) hv
    obtain ⟨b, hb, _⟩ := chainOutput_spec ha (ac.heap.size + 1) v
      (Nat.lt_succ_of_lt (ha.shape.depth v hv)) hv
    exact ⟨⟨r, hr⟩, ⟨b, hb⟩⟩
  · intro T
    obtain ⟨b, r, hb, hr, _⟩ := match_iff_matchAll ha T
    exact ⟨⟨b, hb⟩, ⟨r, hr⟩⟩

theorem Build_fail_chains_end_witness :
    RangeOrder.reversed.Valid ∧
      (∃ ac, usedMachine.Build RangeOrder.reversed patternsHers = some ac ∧
        (∀ v w, Spells ac.heap v w → v ≠ 0 →
          ∃ f wf, (ac.heap.cell v).fail = some f ∧ Spells ac.heap f wf ∧
            wf.length < w.length) ∧
        (∀ v w c, Spells ac.heap v w →
          (∃ r, followFail ac.heap.size ac.heap v c = some r) ∧
          (∃ b, chainOutput (ac.heap.size + 1) ac.heap v = some b)) ∧
        (∀ T, (∃ b, ac.Match T = some b) ∧ (∃ r, ac.MatchAll T = some r))) ∧
      (usedMachine.Build RangeOrder.reversed patternsHers).bind
        (fun ac => ac.MatchAll (runes "ushers")) = some [3, 5] :=
  ⟨RangeOrder.reversed_valid,
   Build_fail_chains_end RangeOrder.reversed RangeOrder.reversed_valid usedMachine patternsHers,
   by decide⟩

/-! ## The rebuilds of the predicate of `acMatcher` -/

/-- A fresh machine holds the automaton of no pattern. -/
theorem ACInv.of_init : ACInv [] (fun _ => []) Heap.init := by
  refine ⟨⟨rfl, Nat.one_pos, fun _ => List.nodup_nil, ?_, ?_, ?_, fun _ _ => Nat.one_pos⟩,
    ?_, ?_, rfl⟩
  · intro u c v _ hc
    simp [Heap.child, Heap.init, NewACNode] at hc
  · intro v hv hv0
    have : Heap.init.size = 1 := rfl
    omega
  · intro u v hu hv _
    have : Heap.init.size = 1 := rfl
    omega
  · intro p hp
    cases hp
  · intro v hv hv0
    have : Heap.init.size = 1 := rfl
    omega

theorem acCache.built_new : acCache.new.Built := ⟨[], fun _ => [], ACInv.of_init⟩

/-- Without its count of rebuilds the counted predicate is the predicate. -/
theorem acMatcherCounted_erase {σ : Type} (provider : VersionedKeywordProvider σ)
    (ord : RangeOrder) (cache : acCache) (p : σ) (text : List Rune) :
    (provider.acMatcherCounted ord cache p text).map (fun r => (r.1, r.2.1)) =
      provider.acMatcher ord cache p text := by
  unfold VersionedKeywordProvider.acMatcherCounted VersionedKeywordProvider.acMatcher
  by_cases hup : cache.lastVersion = provider.GetVersion p
  · simp only [hup, ne_eq, not_true_eq_false, decide_False, Bool.false_eq_true, if_false]
    cases cache.machine.Match text <;> rfl
  · simp only [hup, ne_eq, not_false_eq_true, decide_True, if_true]
    by_cases hw : (provider.GetKeywords p).length = 0
    · simp only [hw, if_true]; rfl
    · simp only [hw, if_false]
      cases cache.machine.Build ord (provider.GetKeywords p) with
      | none => rfl
      | some m =>
        dsimp only
        cases m.Match text <;> rfl

/-- A call on a cache whose version is the provider's makes no rebuild and leaves the
cache alone. -/
theorem acMatcherCounted_same {σ : Type} (provider : VersionedKeywordProvider σ)
    (ord : RangeOrder) {cache : acCache} (hb : cache.Built) (p : σ)
    (hv : cache.lastVersion = provider.GetVersion p) (text : List Rune) :
    ∃ b, provider.acMatcherCounted ord cache p text = some (cache, b, 0) := by
  obtain ⟨W, str, ha⟩ := hb
  obtain ⟨b, hb, _⟩ := match_of_inv ha text
  exact ⟨b, by simp [VersionedKeywordProvider.acMatcherCounted, hv, ACMachine.Match, hb]⟩

/-- C26: a call of the predicate of `acMatcher` on a cache that holds an automaton
returns; it calls `Build` (once) if and only if the cached version differs from the
provider's version and the keyword snapshot is non-empty; after such a rebuild the
cached version is the provider's, the automaton is the one `Build` makes from the
provider's keywords, and a further call on the same provider state makes no rebuild and
leaves the cache as it is; a call that makes no rebuild, in particular one that sees an
empty snapshot (and then returns `false`), leaves the cache untouched. -/
theorem acMatcher_rebuild_iff_stale {σ : Type} (provider : VersionedKeywordProvider σ)
    (ord : RangeOrder) (hord : ord.Valid) (cache : acCache) (hcache : cache.Built) (p : σ)
    (text : List Rune) :
    ∃ cache2 b n, provider.acMatcherCounted ord cache p text = some (cache2, b, n) ∧
      provider.acMatcher ord cache p text = some (cache2, b) ∧
      (n = 0 ∨ n = 1) ∧
      (n = 1 ↔ cache.lastVersion ≠ provider.GetVersion p ∧ provider.GetKeywords p ≠ []) ∧
      (n = 1 →
        cache2.lastVersion = provider.GetVersion p ∧
        cache.machine.Build ord (provider.GetKeywords p) = some cache2.machine ∧
        (∃ str, ACInv (provider.GetKeywords p) str cache2.machine.heap) ∧
        ∀ ord2 text2, ∃ b2,
          provider.acMatcherCounted ord2 cache2 p text2 = some (cache2, b2, 0)) ∧
      (n = 0 → cache2 = cache) ∧
      (cache.lastVersion ≠ provider.GetVersion p → provider.GetKeywords p = [] →
        cache2 = cache ∧ b = false) := by
  have herase := acMatcherCounted_erase provider ord cache p text
  by_cases hup : cache.lastVersion = provider.GetVersion p
  · obtain ⟨b, hb⟩ := acMatcherCounted_same provider ord hcache p hup text
    rw [hb] at herase
    refine ⟨cache, b, 0, hb, herase.symm, Or.inl rfl, ?_, ?_, fun _ => rfl, ?_⟩
    · constructor
      · intro h; omega
      · intro h; exact absurd hup h.1
    · intro h; omega
    · intro h; exact absurd hup h
  · by_cases hw : (provider.GetKeywords p).length = 0
    · have hrun : provider.acMatcherCounted ord cache p text = some (cache, false, 0) := by
        simp [VersionedKeywordProvider.acMatcherCounted, hup, hw]
      rw [hrun] at herase
      refine ⟨cache, false, 0, hrun, herase.symm, Or.inl rfl, ?_, ?_, fun _ => rfl,
        fun _ _ => ⟨rfl, rfl⟩⟩
      · constructor
        · intro h; omega
        · intro h; exact absurd (by rw [List.length_eq_zero] at hw; exact hw) h.2
      · intro h; omega
    · obtain ⟨m, hbuild, _, str, ha⟩ := Build_spec hord cache.machine (provider.GetKeywords p)
      obtain ⟨b, hb, _⟩ := match_of_inv ha text
      have hrun : provider.acMatcherCounted ord cache p text =
          some (⟨m, provider.GetVersion p⟩, b, 1) := by
        simp [VersionedKeywordProvider.acMatcherCounted, hup, hw, hbuild, ACMachine.Match, hb]
      rw [hrun] at herase
      have hne : provider.GetKeywords p ≠ [] := fun h => hw (by rw [h]; rfl)
      refine ⟨⟨m, provider.GetVersion p⟩, b, 1, hrun, herase.symm, Or.inr rfl, ?_, ?_, ?_, ?_⟩
      · exact ⟨fun _ => ⟨hup, hne⟩, fun _ => rfl⟩
      · intro _
        refine ⟨rfl, hbuild, ⟨str, ha⟩, ?_⟩
        intro ord2 text2
        exact acMatcherCounted_same provider ord2 ⟨_, str, ha⟩ p rfl text2
      · intro h; omega
      · intro _ hnil; exact absurd hnil hne

theorem acMatcher_rebuild_iff_stale_witness :
    RangeOrder.insertion.Valid ∧ acCache.new.Built ∧
      (∃ cache2 b n,
        DefaultKeywordManager.methods.toProvider.acMatcherCounted RangeOrder.insertion
          acCache.new grownManager (runes "xbc") = some (cache2, b, n) ∧
        DefaultKeywordManager.methods.toProvider.acMatcher RangeOrder.insertion acCache.new
          grownManager (runes "xbc") = some (cache2, b) ∧
        (n = 0 ∨ n = 1) ∧
        (n = 1 ↔ acCache.new.lastVersion ≠
            DefaultKeywordManager.methods.toProvider.GetVersion grownManager ∧
          DefaultKeywordManager.methods.toProvider.GetKeywords grownManager ≠ []) ∧
        (n = 1 →
          cache2.lastVersion = DefaultKeywordManager.methods.toProvider.GetVersion grownManager ∧
          acCache.new.machine.Build RangeOrder.insertion
            (DefaultKeywordManager.methods.toProvider.GetKeywords grownManager) =
              some cache2.machine ∧
          (∃ str, ACInv (DefaultKeywordManager.methods.toProvider.GetKeywords grownManager) str
            cache2.machine.heap) ∧
          ∀ ord2 text2, ∃ b2,
            DefaultKeywordManager.methods.toProvider.acMatcherCounted ord2 cache2 grownManager
              text2 = some (cache2, b2, 0)) ∧
        (n = 0 → cache2 = acCache.new) ∧
        (acCache.new.lastVersion ≠
            DefaultKeywordManager.methods.toProvider.GetVersion grownManager →
          DefaultKeywordManager.methods.toProvider.GetKeywords grownManager = [] →
          cache2 = acCache.new ∧ b = false)) ∧
      (DefaultKeywordManager.methods.toProvider.acMatcherCounted RangeOrder.insertion
          acCache.new grownManager (runes "xbc")).map (fun r => (r.2.1, r.2.2, r.1.lastVersion)) =
        some (true, 1, 2) ∧
      (DefaultKeywordManager.methods.toProvider.acMatcherCounted RangeOrder.insertion
          acCache.new clearedManager (runes "xbc")).map
            (fun r => (r.2.1, r.2.2, r.1.lastVersion)) =
        some (false, 0, -1) :=
  ⟨RangeOrder.insertion_valid, acCache.built_new,
   acMatcher_rebuild_iff_stale DefaultKeywordManager.methods.toProvider RangeOrder.insertion
     RangeOrder.insertion_valid acCache.new acCache.built_new grownManager (runes "xbc"),
   by decide, by decide⟩

/-! ## Filtering twice -/

/-- The result of `Filter` is again a text of valid code points. -/
theorem filter_valid (sf : SensitiveFilter) (W : List (List Rune)) (T : List Rune) (r : Rune) :
    ValidText ((sf.Reload (some W)).1.Filter T r) := by
  intro c hc
  simp only [SensitiveFilter.Filter, stringOfRunes, List.mem_map] at hc
  obtain ⟨a, _, hac⟩ := hc
  by_cases ha : validRune a = true
  · rw [if_pos ha] at hac
    rw [← hac]; exact ha
  · rw [if_neg ha] at hac
    rw [← hac]
    decide

theorem sliceOf_getElem? (T : List Rune) (i j n : Nat) (hn : n < j - i) :
    (sliceOf T i j)[n]? = T[i + n]? := by
  simp [sliceOf, List.getElem?_take, hn, List.getElem?_drop]

theorem sliceOf_length (T : List Rune) (i j : Nat) (hj : j ≤ T.length) :
    (sliceOf T i j).length = j - i := by
  simp only [sliceOf, List.length_take, List.length_drop]
  omega

theorem sliceOf_infix (T : List Rune) (i j : Nat) : sliceOf T i j <:+: T :=
  (List.take_prefix _ _).isInfix.trans (List.drop_suffix _ _).isInfix

theorem sliceOf_append (s p t : List Rune) :
    sliceOf (s ++ p ++ t) s.length (s.length + p.length) = p := by
  simp [sliceOf, List.append_assoc]

/-- Two texts that agree on the positions of a span have the same slice there. -/
theorem sliceOf_congr {T F : List Rune} (hlen : F.length = T.length) {i j : Nat}
    (hj : j ≤ T.length) (hsame : ∀ k, i ≤ k → k < j → F[k]? = T[k]?) :
    sliceOf F i j = sliceOf T i j := by
  apply List.ext_getElem?
  intro n
  by_cases hn : n < j - i
  · rw [sliceOf_getElem? F i j n hn, sliceOf_getElem? T i j n hn]
    exact hsame (i + n) (by omega) (by omega)
  · have h1 : (sliceOf F i j).length ≤ n := by
      rw [sliceOf_length F i j (by omega)]; omega
    have h2 : (sliceOf T i j).length ≤ n := by
      rw [sliceOf_length T i j hj]; omega
    rw [List.getElem?_eq_none h1, List.getElem?_eq_none h2]

/-- No word is left in the result of `Filter` when the code point written at the covered
positions is in no word. -/
theorem not_occurs_filter (sf : SensitiveFilter) (W : List (List Rune)) (T : List Rune)
    (r : Rune) (hT : ValidText T)
    (hrW : ∀ w ∈ W, (if validRune r = true then r else 0xFFFD) ∉ w) :
    ¬ Occurs W ((sf.Reload (some W)).1.Filter T r) := by
  have hm := filter_marks sf W T r hT
  rintro ⟨p, hp, hne, s, t, hst⟩
  have hplen : 0 < p.length := List.length_pos.mpr hne
  have hFlen : ((sf.Reload (some W)).1.Filter T r).length = s.length + p.length + t.length := by
    rw [← hst]; simp only [List.length_append]
  have hjT : s.length + p.length ≤ T.length := by rw [← hm.1, hFlen]; omega
  have hslice : sliceOf ((sf.Reload (some W)).1.Filter T r) s.length (s.length + p.length) = p := by
    rw [← hst]; exact sliceOf_append s p t
  -- the positions of the occurrence are not covered
  have hnot : ∀ k, s.length ≤ k → k < s.length + p.length → ¬ Covered W T k := by
    intro k hk1 hk2 hcov
    have hFk := (hm.2 k (by omega)).1 hcov
    have hpk : p[k - s.length]? = some (if validRune r = true then r else 0xFFFD) := by
      have h1 := sliceOf_getElem? ((sf.Reload (some W)).1.Filter T r) s.length
        (s.length + p.length) (k - s.length) (by omega)
      rw [hslice] at h1
      rw [h1, ← hFk]
      congr 1
      omega
    exact hrW p hp (List.mem_iff_getElem?.mpr ⟨_, hpk⟩)
  have hsame : sliceOf ((sf.Reload (some W)).1.Filter T r) s.length (s.length + p.length) =
      sliceOf T s.length (s.length + p.length) :=
    sliceOf_congr hm.1 hjT (fun k hk1 hk2 => (hm.2 k (by omega)).2 (hnot k hk1 hk2))
  apply hnot s.length (Nat.le_refl _) (by omega)
  exact ⟨s.length, s.length + p.length, Nat.le_refl _, by omega, hjT,
    by rw [← hsame, hslice]; exact hp⟩

/-- A text in which no word occurs is left as it is by `Filter`. -/
theorem filter_of_not_occurs (sf : SensitiveFilter) (W : List (List Rune)) (F : List Rune)
    (r : Rune) (hF : ValidText F) (hno : ¬ Occurs W F) :
    (sf.Reload (some W)).1.Filter F r = F := by
  have hm := filter_marks sf W F r hF
  apply List.ext_getElem?
  intro k
  by_cases hk : k < F.length
  · apply (hm.2 k hk).2
    rintro ⟨i, j, hik, hkj, hj, hw⟩
    apply hno
    refine ⟨sliceOf F i j, hw, ?_, sliceOf_infix F i j⟩
    intro hnil
    have := sliceOf_length F i j hj
    rw [hnil] at this
    simp at this
    omega
  · have hlen := hm.1
    rw [List.getElem?_eq_none (by omega), List.getElem?_eq_none (by omega)]

theorem contains_false_iff (sf : SensitiveFilter) (W : List (List Rune)) (T : List Rune) :
    (sf.Reload (some W)).1.Contains T = false ↔ ¬ Occurs W T := by
  obtain ⟨str, ht⟩ := buildTrie_inv W
  rw [SensitiveFilter.Contains, Reload_trie, ← containsLoop_spec ht T]
  simp

/-- C30, as the code has it: for a filter whose trie `Reload` built from the word list `W`,
a text `T` of valid code points and a replacement `r` such that the code point written
for it (`r` itself when it is a valid code point, `U+FFFD` when it is not) occurs in no
word of `W`, `Contains(Filter(T, r))` is false and
`Filter(Filter(T, r), r) = Filter(T, r)`; the text the filter of `AsReplacer(r)` leaves
contains no word either. -/
theorem Filter_leaves_no_word (sf : SensitiveFilter) (W : List (List Rune)) (T : List Rune)
    (r : Rune) (hT : ValidText T)
    (hrW : ∀ w ∈ W, (if validRune r = true then r else 0xFFFD) ∉ w) :
    (sf.Reload (some W)).1.Contains ((sf.Reload (some W)).1.Filter T r) = false ∧
      (sf.Reload (some W)).1.Filter ((sf.Reload (some W)).1.Filter T r) r =
        (sf.Reload (some W)).1.Filter T r ∧
      (sf.Reload (some W)).1.Contains ((sf.Reload (some W)).1.AsReplacer r T) = false := by
  have hno := not_occurs_filter sf W T r hT hrW
  have hc := (contains_false_iff sf W _).mpr hno
  refine ⟨hc, filter_of_not_occurs sf W _ r (filter_valid sf W T r) hno, ?_⟩
  unfold SensitiveFilter.AsReplacer
  by_cases hct : (sf.Reload (some W)).1.Contains T = true
  · rw [if_pos hct]; exact hc
  · rw [if_neg hct]; simpa using hct

theorem Filter_leaves_no_word_witness :
    ValidText (runes "xabcxab") ∧
      (∀ w ∈ sampleWords, (if validRune 42 = true then 42 else 0xFFFD) ∉ w) ∧
      (sampleFilter.Contains (sampleFilter.Filter (runes "xabcxab") 42) = false ∧
        sampleFilter.Filter (sampleFilter.Filter (runes "xabcxab") 42) 42 =
          sampleFilter.Filter (runes "xabcxab") 42 ∧
        sampleFilter.Contains (sampleFilter.AsReplacer 42 (runes "xabcxab")) = false) ∧
      sampleFilter.AsReplacer 42 (runes "xabcxab") = [120, 42, 42, 42, 120, 42, 42] :=
  ⟨by unfold ValidText; decide, by decide,
   Filter_leaves_no_word ⟨Heap.init⟩ sampleWords (runes "xabcxab") 42
     (by unfold ValidText; decide) (by decide),
   by decide⟩

/-- C30 as stated fails for a replacement that is no valid code point: with the words
`a` and `U+FFFD`, the surrogate `0xD800` occurs in no word, yet `Filter` writes `U+FFFD`
over the `a` of the text `xa`, and the result contains the word `U+FFFD`. -/
theorem Filter_surrogate_leaves_word :
    (∀ w ∈ replacementWords, 0xD800 ∉ w) ∧
      (replacementFilter.Filter (runes "xa") 0xD800) = [120, 0xFFFD] ∧
      replacementFilter.Contains (replacementFilter.Filter (runes "xa") 0xD800) = true :=
  ⟨by decide, by decide, by decide⟩

/-! ## The registry beyond twelve matchers -/

/-- A run of `pdqsort_func` that ends without reaching `breakPatterns_func` ends the same
whatever that function does. -/
theorem pdqsortLoop_of_unreached {α : Type}
    (breakPatterns : List α → Nat → Nat → Option (List α)) (less : α → α → Bool) :
    ∀ (fuel : Nat) (data : List α) (a b limit : Nat) (wasBalanced wasPartitioned : Bool)
      (r : List α),
      pdqsortLoop breakPatternsUnreached less fuel data a b limit wasBalanced wasPartitioned =
        some r →
      pdqsortLoop breakPatterns less fuel data a b limit wasBalanced wasPartitioned = some r := by
  intro fuel
  induction fuel with
  | zero => intro data a b limit wb wp r h; simp [pdqsortLoop] at h
  | succ n ih =>
    intro data a b limit wb wp r h
    unfold pdqsortLoop at h ⊢
    by_cases h1 : b - a ≤ 12
    · simpa only [h1, if_true] using h
    · simp only [h1, if_false] at h ⊢
      by_cases h2 : limit = 0
      · simpa only [h2, if_true] using h
      · simp only [h2, if_false] at h ⊢
        cases wb
        · simp [breakPatternsUnreached] at h
        · simp only [Bool.not_true, Bool.false_eq_true, if_false] at h ⊢
          cases hr : pdqsortRound less data a b true wp with
          | sorted d => simpa only [hr] using h
          | equal d mid =>
            simp only [hr] at h ⊢
            exact ih _ _ _ _ _ _ _ h
          | parted d mid ap =>
            simp only [hr] at h ⊢
            by_cases h3 : mid - a < b - mid
            · simp only [h3, if_true] at h ⊢
              cases hl : pdqsortLoop breakPatternsUnreached less n d a mid limit true true with
              | none => simp [hl] at h
              | some d4 =>
                simp only [hl] at h
                simp only [ih _ _ _ _ _ _ _ hl]
                exact ih _ _ _ _ _ _ _ h
            · simp only [h3, if_false] at h ⊢
              cases hl : pdqsortLoop breakPatternsUnreached less n d (mid + 1) b limit true
                true with
              | none => simp [hl] at h
              | some d4 =>
                simp only [hl] at h
                simp only [ih _ _ _ _ _ _ _ hl]
                exact ih _ _ _ _ _ _ _ h

/-- What `sort.Slice` gives on a slice of more than 12 elements when its run does not
reach `breakPatterns_func`. -/
theorem sortSlice_of_unreached {α : Type}
    (breakPatterns : List α → Nat → Nat → Option (List α)) (less : α → α → Bool)
    (l r : List α) (hlen : 12 < l.length)
    (h : pdqsort_func breakPatternsUnreached less l 0 l.length (bitsLen l.length l.length) =
      some r) :
    sortSlice (sortSlicePdq breakPatterns) less l = r := by
  unfold sortSlice
  rw [if_neg (by omega)]
  unfold pdqsort_func at h
  simp only [sortSlicePdq, pdqsort_func, pdqsortLoop_of_unreached breakPatterns less _ _ _ _ _ _ _ _ h,
    Option.getD_some]

/-- The registry after an `On*` call is the old one with the new matcher appended, sorted
by `sort.Slice`. -/
theorem Engine.On_matchers {ε : Type} (big : SliceSorter Nat) (e : Engine ε)
    (matchFunc : Option (Filter ε)) (filters : List (Filter ε)) :
    (e.On big matchFunc filters).1.matchers =
      sortSlice big
        (fun a b => decide
          ((Function.update e.store e.next (newMatcher matchFunc filters) a).priority >
            (Function.update e.store e.next (newMatcher matchFunc filters) b).priority))
        (e.matchers ++ [e.next]) :=
  rfl

/-- C6 fails on the code. Thirteen matchers are registered in turn through `OnMessage`,
the twelfth being given priority 1 by `Priority(1)` and all others priority 0. Before the
thirteenth registration the registry holds the matchers `0, ..., 11` in the order of their
registration. The thirteenth `addMatcher` sorts the slice of thirteen with `sort.Slice`,
which for more than twelve elements partitions around the element in the middle, matcher
`6`, and moves it to the front of the matchers of priority 0: the registry becomes
`11, 6, 2, 3, 4, 5, 0, 7, 8, 9, 10, 1, 12`, so matcher `6` stands before the matchers `0`
to `5` and matcher `1` stands after the matchers `2` to `10`, all of priority 0. The run
never reaches `breakPatterns_func`, so the thirteenth registration ends so whatever that
function does. -/
theorem Engine.addMatcher_unstable_at_thirteen :
    (registerAll (ε := Unit) (sortSlicePdq breakPatternsUnreached) NewEngine
        (thirteenPriorities.take 12)).matchers = [0, 1, 2, 3, 4, 5, 6, 7, 8, 9, 10, 11] ∧
      (registerAll (ε := Unit) (sortSlicePdq breakPatternsUnreached) NewEngine
          (thirteenPriorities.take 12)).matchers.map
        (fun a => ((registerAll (ε := Unit) (sortSlicePdq breakPatternsUnreached) NewEngine
          (thirteenPriorities.take 12)).store a).priority) =
          [0, 0, 0, 0, 0, 0, 0, 0, 0, 0, 0, 1] ∧
      (∀ breakPatterns : List Nat → Nat → Nat → Option (List Nat),
        ((registerAll (ε := Unit) (sortSlicePdq breakPatternsUnreached) NewEngine
          (thirteenPriorities.take 12)).OnMessage (sortSlicePdq breakPatterns) []).1.matchers =
          [11, 6, 2, 3, 4, 5, 0, 7, 8, 9, 10, 1, 12]) ∧
      (registerAll (ε := Unit) (sortSlicePdq breakPatternsUnreached) NewEngine
          thirteenPriorities).matchers = [11, 6, 2, 3, 4, 5, 0, 7, 8, 9, 10, 1, 12] ∧
      (registerAll (ε := Unit) (sortSlicePdq breakPatternsUnreached) NewEngine
          thirteenPriorities).matchers.map
        (fun a => ((registerAll (ε := Unit) (sortSlicePdq breakPatternsUnreached) NewEngine
          thirteenPriorities).store a).priority) =
          [1, 0, 0, 0, 0, 0, 0, 0, 0, 0, 0, 0, 0] ∧
      pdqsort_func breakPatternsUnreached
          (fun a b => decide ((if a = 11 then (1 : Int) else 0) > (if b = 11 then 1 else 0)))
          [0, 1, 2, 3, 4, 5, 6, 7, 8, 9, 10, 11, 12] 0 13 (bitsLen 13 13) =
        some [11, 6, 2, 3, 4, 5, 0, 7, 8, 9, 10, 1, 12] := by
  refine ⟨?_, ?_, ?_, ?_, ?_, ?_⟩
  · decide
  · decide
  · intro breakPatterns
    rw [Engine.OnMessage, Engine.On_matchers]
    refine sortSlice_of_unreached breakPatterns _ _ _ ?_ ?_
    · decide
    · decide
  · decide
  · decide
  · decide

end XBot
